import Mathlib

/-!
# dg: dependence-graph construction and traversals

A shallow embedding of the traversal helpers (`NodesWalk.h`), of the data-flow
driver (`DataFlowAnalysis.h`), of the LLVM dependence-graph builder
(`LLVMDependenceGraph.cpp`), of the use of post-dominators
(`PostDominators.cpp`), of the hooks of the flow-insensitive points-to analysis
(`PointsToFlowInsensitive.h`) and of two functions of the dump tools, followed
by the properties established about them.

Pointers are natural-number identifiers, containers are lists, and a run that
hits a failed `assert` or dereferences a null pointer yields a fault value.
-/

namespace dg

/-! ## Traversals (`src/analysis/NodesWalk.h`) -/

namespace analysis

/-- Width of `unsigned int`, the type of `walk_run_counter`. -/
def UINT_WIDTH : Nat := 32

/-- Pre-increment of the `unsigned int` counter `walk_run_counter`. -/
def nextRunId (walk_run_counter : Nat) : Nat :=
  (walk_run_counter + 1) % 2 ^ UINT_WIDTH

/-- The template parameter `QueueT`: a container of pending elements.  The head
of the list is what `front()` returns and `pop()` removes; `push` decides where
a new element goes. -/
structure QueueT where
  push : List Nat → Nat → List Nat

/-- A first-in first-out adaptor (`std::queue`). -/
def QueueFIFO : QueueT := ⟨fun q x => q ++ [x]⟩

/-- Assignment to the `lastwalkid` field of one node or block. -/
def setWalkId (ids : Nat → Nat) (n v : Nat) : Nat → Nat :=
  fun x => if x = n then v else ids x

/-- A finite graph of dependence nodes: entry `i` of each list holds the targets
of the outgoing control-dependence, respectively data-dependence, edges of
node `i`. -/
structure NodeGraph where
  controlEdges : List (List Nat)
  dataEdges : List (List Nat)

/-- The range `n->control_begin() .. n->control_end()`. -/
def NodeGraph.control (g : NodeGraph) (n : Nat) : List Nat :=
  g.controlEdges.getD n []

/-- The range `n->data_begin() .. n->data_end()`. -/
def NodeGraph.data (g : NodeGraph) (n : Nat) : List Nat :=
  g.dataEdges.getD n []

/-- What a walk has touched: the `lastwalkid` fields, the queue, and the
sequence of nodes `func` was invoked on. -/
structure WalkState where
  lastwalkid : Nat → Nat
  queue : List Nat
  visited : List Nat

namespace NodesWalk

/-- One iteration of the `for` loop of `processEdges` (lines 52-61): the field
is assigned `run_id`, then compared with `run_id`. -/
def processEdge (Q : QueueT) (run_id : Nat) (st : WalkState) (tmp : Nat) : WalkState :=
  let st1 : WalkState := { st with lastwalkid := setWalkId st.lastwalkid tmp run_id }
  if st1.lastwalkid tmp = run_id then
    st1
  else
    { st1 with lastwalkid := setWalkId st1.lastwalkid tmp run_id,
               queue := Q.push st1.queue tmp }

/-- The member `processEdges` (lines 47-63). -/
def processEdges (Q : QueueT) (edges : List Nat) (run_id : Nat) (st : WalkState) : WalkState :=
  edges.foldl (processEdge Q run_id) st

/-- The `while (!queue.empty())` loop of `walk` (lines 29-43); `fuel` bounds the
number of iterations. -/
def walkLoop (Q : QueueT) (g : NodeGraph) (control deps : Bool) (run_id : Nat) :
    Nat → WalkState → Option WalkState
  | 0, st => if st.queue.isEmpty then some st else none
  | fuel + 1, st =>
    match st.queue with
    | [] => some st
    | n :: rest =>
      let st1 : WalkState := { st with queue := rest, visited := st.visited ++ [n] }
      let st2 := if control then processEdges Q (g.control n) run_id st1 else st1
      let st3 := if deps then processEdges Q (g.data n) run_id st2 else st2
      walkLoop Q g control deps run_id fuel st3

/-- The member `walk` (lines 16-44).  Returns the nodes `func` was called on, in
call order. -/
def walk (Q : QueueT) (g : NodeGraph) (entry : Nat) (control deps : Bool)
    (walk_run_counter : Nat) (lastwalkid : Nat → Nat) (fuel : Nat) : Option (List Nat) :=
  let run_id := nextRunId walk_run_counter
  let st : WalkState :=
    { lastwalkid := setWalkId lastwalkid entry run_id, queue := Q.push [] entry, visited := [] }
  (walkLoop Q g control deps run_id fuel st).map (fun s => s.visited)

end NodesWalk

/-- A finite graph of blocks: entry `i` holds `BB->successors()` of block `i`. -/
structure BlockGraph where
  succs : List (List Nat)

/-- The range `BB->successors()`. -/
def BlockGraph.successors (g : BlockGraph) (b : Nat) : List Nat :=
  g.succs.getD b []

/-- Reachability along edges given by `next`. -/
inductive Reachable (next : Nat → List Nat) (entry : Nat) : Nat → Prop
  | refl : Reachable next entry entry
  | step {a b : Nat} : Reachable next entry a → b ∈ next a → Reachable next entry b

namespace BBlockWalk

/-- The `for` loop over the successors of `walk` (lines 96-100). -/
def pushSuccessors (Q : QueueT) (runid : Nat) (lastwalkid : Nat → Nat) :
    List Nat → List Nat → List Nat
  | [], queue => queue
  | S :: rest, queue =>
    if lastwalkid S ≠ runid then pushSuccessors Q runid lastwalkid rest (Q.push queue S)
    else pushSuccessors Q runid lastwalkid rest queue

/-- The `while (!queue.empty())` loop of `walk` (lines 87-101). -/
def walkLoop (Q : QueueT) (g : BlockGraph) (runid : Nat) : Nat → WalkState → Option WalkState
  | 0, st => if st.queue.isEmpty then some st else none
  | fuel + 1, st =>
    match st.queue with
    | [] => some st
    | BB :: rest =>
      let ids := setWalkId st.lastwalkid BB runid
      walkLoop Q g runid fuel
        { lastwalkid := ids,
          queue := pushSuccessors Q runid ids (g.successors BB) rest,
          visited := st.visited ++ [BB] }

/-- The member `walk` (lines 79-102).  Returns the blocks `func` was called on,
in call order. -/
def walk (Q : QueueT) (g : BlockGraph) (entry : Nat) (walk_run_counter : Nat)
    (lastwalkid : Nat → Nat) (fuel : Nat) : Option (List Nat) :=
  let queue := Q.push [] entry
  let runid := nextRunId walk_run_counter
  (walkLoop Q g runid fuel { lastwalkid := lastwalkid, queue := queue, visited := [] }).map
    (fun s => s.visited)

end BBlockWalk

/-! ## Data-flow driver (`src/analysis/DataFlowAnalysis.h`) -/

/-- The counters of `DataFlowStatistics` (and `processedBlocks` of its base).
They are `uint64_t` in the source; a wrap would take `2^64` passes, so they are
kept as unbounded naturals. -/
structure DataFlowStatistics where
  processedBlocks : Nat
  bblocksNum : Nat
  iterationsNum : Nat
deriving DecidableEq, Repr

/-- The comparator `DFSOrderLess::operator()`. -/
def DFSOrderLess (getDFSOrder : Nat → Nat) (a b : Nat) : Bool :=
  decide (getDFSOrder a < getDFSOrder b)

namespace BBlockDataFlowAnalysis

/-- Insertion into `BlocksSetT`, a `std::set` ordered by `DFSOrderLess`: the
elements are kept in increasing order and an element equivalent to one already
present (neither is less than the other) is not inserted. -/
def BlocksSetT.insert (getDFSOrder : Nat → Nat) : List Nat → Nat → List Nat
  | [], BB => [BB]
  | x :: xs, BB =>
    if DFSOrderLess getDFSOrder BB x then BB :: x :: xs
    else if DFSOrderLess getDFSOrder x BB then x :: BlocksSetT.insert getDFSOrder xs BB
    else x :: xs

/-- The record built up by `run`: the analysis state the transfer works on, the
local `changed`, the local `blocks`, the statistics, and a log with one entry
per pass listing each `runOnBlock` call of that pass with its result (newest
pass first; the log is an observation, the program does not read it). -/
structure RunState (σ : Type) where
  state : σ
  changed : Bool
  blocks : List Nat
  statistics : DataFlowStatistics
  log : List (List (Nat × Bool))

/-- The callback `dfs_proc_bb` (lines 117-122) applied to one block; the call is
logged into the pass at the head of the log. -/
def dfs_proc_bb {σ : Type} (getDFSOrder : Nat → Nat) (runOnBlock : Nat → σ → Bool × σ)
    (data : RunState σ) (BB : Nat) : RunState σ :=
  let r := runOnBlock BB data.state
  { data with
    state := r.2,
    changed := data.changed || r.1,
    blocks := BlocksSetT.insert getDFSOrder data.blocks BB,
    log := match data.log with
      | [] => [[(BB, r.1)]]
      | p :: ps => (p ++ [(BB, r.1)]) :: ps }

/-- One iteration of the `for` loop inside the `while` loop (lines 88-89). -/
def passStep {σ : Type} (runOnBlock : Nat → σ → Bool × σ) (rs : RunState σ) (BB : Nat) :
    RunState σ :=
  let r := runOnBlock BB rs.state
  { rs with
    state := r.2,
    changed := rs.changed || r.1,
    statistics := { rs.statistics with processedBlocks := rs.statistics.processedBlocks + 1 },
    log := match rs.log with
      | [] => [[(BB, r.1)]]
      | p :: ps => (p ++ [(BB, r.1)]) :: ps }

/-- The `while (changed)` loop of `run` (lines 84-93); `fuel` bounds the number
of passes. -/
def whileLoop {σ : Type} (runOnBlock : Nat → σ → Bool × σ) : Nat → RunState σ → Option (RunState σ)
  | 0, rs => if rs.changed then none else some rs
  | fuel + 1, rs =>
    if rs.changed then
      let rs1 : RunState σ := { rs with changed := false, log := [] :: rs.log }
      let rs2 := rs.blocks.reverse.foldl (passStep runOnBlock) rs1
      whileLoop runOnBlock fuel
        { rs2 with statistics :=
            { rs2.statistics with iterationsNum := rs2.statistics.iterationsNum + 1 } }
    else some rs

/-- The locals and statistics as `run` has them before the DFS starts
(lines 55-57 and the constructor of `DataFlowStatistics`). -/
def initialData {σ : Type} (s : σ) : RunState σ :=
  { state := s, changed := false, blocks := [],
    statistics := { processedBlocks := 0, bblocksNum := 0, iterationsNum := 0 },
    log := [[]] }

/-- The call `DFS.run(entryBB, dfs_proc_bb, data)` (line 71).  `dfsCalls` is the
sequence of blocks on which `BBlockDFS::run` (declared in `DFS.h`) invokes the
callback, and `getDFSOrder` the order numbers it leaves in the blocks. -/
def runDFS {σ : Type} (getDFSOrder : Nat → Nat) (runOnBlock : Nat → σ → Bool × σ)
    (dfsCalls : List Nat) (s : σ) : RunState σ :=
  dfsCalls.foldl (dfs_proc_bb getDFSOrder runOnBlock) (initialData s)

/-- The member `run` (lines 53-94). -/
def run {σ : Type} (getDFSOrder : Nat → Nat) (runOnBlock : Nat → σ → Bool × σ)
    (dfsCalls : List Nat) (fuel : Nat) (s : σ) : Option (RunState σ) :=
  let d := runDFS getDFSOrder runOnBlock dfsCalls s
  let d1 : RunState σ :=
    { d with statistics :=
        { processedBlocks := d.blocks.length, bblocksNum := d.blocks.length, iterationsNum := 1 } }
  whileLoop runOnBlock fuel d1

/-- A sample transfer on a counter: it reports a change as long as the counter
is positive and decrements it. -/
def countdownTransfer (_BB : Nat) (s : Nat) : Bool × Nat :=
  (decide (0 < s), s - 1)

/-- What holds of the state each time the `while` condition of `run` is
evaluated, in terms of the log. -/
def LoopInv {σ : Type} (dfsCalls : List Nat) (rs : RunState σ) : Prop :=
  ∃ (dfsPass : List (Nat × Bool)) (later : List (List (Nat × Bool)))
    (last : List (Nat × Bool)) (earlier : List (List (Nat × Bool))),
    rs.log.reverse = dfsPass :: later ∧
    rs.log = last :: earlier ∧
    dfsPass.map Prod.fst = dfsCalls ∧
    (∀ p ∈ later, p.map Prod.fst = rs.blocks.reverse) ∧
    rs.statistics.iterationsNum = 1 + later.length ∧
    (∀ p ∈ earlier, ∃ x ∈ p, x.2 = true) ∧
    (rs.changed = true ↔ ∃ x ∈ last, x.2 = true)

end BBlockDataFlowAnalysis

end analysis

/-! ## The LLVM side: values, instructions, functions -/

/-- A handle `llvm::Value *`.  An instruction is identified by its position:
function, basic block, index in the block.  `phonyReturn f b` is the return
instruction that `ReturnInst::Create(ctx, BB)` makes when the builder needs a
key for the unified exit node while it handles block `b` of function `f`. -/
inductive Value
  | function (f : Nat)
  | argument (f i : Nat)
  | instruction (f b i : Nat)
  | phonyReturn (f b : Nat)
  | constant (c : Nat)
deriving DecidableEq, Repr

/-- The instruction kinds the builder tells apart, with the operands it reads.
`br` stands for every terminator other than a return and carries the
successor blocks; `other` is every remaining non-terminator. -/
inductive Instruction
  | alloca
  | store (pointer value : Value)
  | load (pointer : Value)
  | getElementPtr (pointer : Value)
  | call (calledValue : Value) (calledFunction : Option Nat) (args : List Value)
  | ret (value : Option Value)
  | cast (stripped : Value)
  | br (succs : List Nat)
  | other
deriving DecidableEq, Repr

/-- The test `isa<TerminatorInst>`. -/
def Instruction.isTerminator : Instruction → Bool
  | .ret _ => true
  | .br _ => true
  | _ => false

/-- The test `isa<ReturnInst>`. -/
def Instruction.isReturn : Instruction → Bool
  | .ret _ => true
  | _ => false

/-- An `llvm::Function`: its basic blocks (block 0 is the entry block), each a
list of instructions, and its number of formal arguments.  A declaration
without body has no blocks. -/
structure Function where
  blocks : List (List Instruction)
  arg_size : Nat
deriving DecidableEq, Repr

/-- An `llvm::Module`: its functions, addressed by index. -/
structure Module where
  functions : List Function
deriving DecidableEq, Repr

/-- The function behind a function handle. -/
def Module.function (m : Module) (f : Nat) : Function :=
  m.functions.getD f ⟨[], 0⟩

/-- The instruction list of block `b` of function `f`. -/
def Module.block (m : Module) (f b : Nat) : List Instruction :=
  (m.function f).blocks.getD b []

/-- The call `BB->getTerminator()`: the last instruction when it is a
terminator, with its index. -/
def getTerminator (insts : List Instruction) : Option (Nat × Instruction) :=
  match insts.getLast? with
  | some i => if i.isTerminator then some (insts.length - 1, i) else none
  | none => none

/-- The range `succ_begin(BB) .. succ_end(BB)`; it is empty for a block without
terminator. -/
def successors (insts : List Instruction) : List Nat :=
  match getTerminator insts with
  | some (_, .br succs) => succs
  | _ => []

/-- The key of `BB->getTerminator()` as a value handle, if there is one. -/
def terminatorKey (m : Module) (f b : Nat) : Option Value :=
  (getTerminator (m.block f b)).map (fun t => Value.instruction f b t.1)

/-! ## The dependence graph objects -/

/-- How a run of the builder stops short of returning: a failed `assert`
(named after the assertion), a null or past-the-end dereference, or the bound
of the model on loop iterations and nesting. -/
inductive Fault
  | predecessorNodeNotCreated
  | noBasicBlockInPredecessorNode
  | buildSubgraphOnNonCall
  | buildingSubgraphFailed
  | doNotHaveBB
  | replacedParameters
  | passedNoFunc
  | noNodeForSuccessor
  | noNodeForTerminator
  | missingEntryNode
  | missingExitNode
  | missingEntryBB
  | missingExitBB
  | noFirstNodeInBB
  | noLastNodeInBB
  | entryNodeValueNotFunction
  | nullDereference
  | emptyBlockDereference
  | outOfFuel
  | storePointerOperandWithoutNode
  | doNotHaveConstructedBB
  | blocksFromDifferentFunctions
deriving DecidableEq, Repr

/-- Insertion into a `std::set` of pointers. -/
def setInsert (s : List Nat) (x : Nat) : List Nat :=
  if x ∈ s then s else s ++ [x]

/-- Insertion into a `std::map` keyed by value handles: an existing key keeps
its entry. -/
def mapInsert {α : Type} (mp : Value → Option α) (k : Value) (v : α) : Value → Option α :=
  fun x => if x = k then (match mp k with | some old => some old | none => some v) else mp x

/-- Modelled from the spec: the record `LLVMDGParameters` (declared outside the
given sources), a mapping from a value key to a pair of `in` and `out` nodes;
`add` keeps an existing key. -/
abbrev LLVMDGParameters := List (Value × Nat × Nat)

/-- Modelled from the spec: `LLVMDGParameters::add(val, in, out)`. -/
def LLVMDGParameters.add (p : LLVMDGParameters) (val : Value) (i o : Nat) : LLVMDGParameters :=
  if p.any (fun e => decide (e.1 = val)) then p else p ++ [(val, i, o)]

/-- Modelled from the spec: the state of one `LLVMDependenceGraph` object with
the nodes and blocks allocated while it was built (the classes
`LLVMDependenceGraph`, `LLVMNode` and `LLVMBBlock` are declared outside the
given sources).  Nodes and blocks are identifiers, the first `numNodes`
respectively `numBlocks` being in use, and every field of a node or block is a
map from identifiers to field values:

* of `LLVMNode`: `key`, the intra-block successor `nextNode` and predecessor
  `prevNode`, the containing block `basicBlock`, the control-dependence edges in
  both directions, the linked subgraphs, the parameter record, and the
  back-reference `dg` to the owning graph, true when it points to this graph
  and false when it is null;
* of `LLVMBBlock`: `firstNode`, `lastNode`, successor and predecessor blocks,
  call-sites;
* of the graph: the container `nodes` mapping keys to nodes, entry and exit
  node, entry and exit block, formal parameters, reference count. -/
structure LLVMDependenceGraph where
  numNodes : Nat
  key : Nat → Value
  nextNode : Nat → Option Nat
  prevNode : Nat → Option Nat
  basicBlock : Nat → Option Nat
  controlDeps : Nat → List Nat
  revControlDeps : Nat → List Nat
  subgraphs : Nat → List Nat
  parameters : Nat → Option LLVMDGParameters
  dg : Nat → Bool
  numBlocks : Nat
  firstNode : Nat → Option Nat
  lastNode : Nat → Option Nat
  blockSuccessors : Nat → List Nat
  blockPredecessors : Nat → List Nat
  callSites : Nat → List Nat
  nodes : Value → Option Nat
  entryNode : Option Nat
  exitNode : Option Nat
  entryBB : Option Nat
  exitBB : Option Nat
  formalParameters : Option LLVMDGParameters
  refcount : Int

namespace LLVMDependenceGraph

/-- Modelled from the spec: the constructor; a new graph holds one reference. -/
def new : LLVMDependenceGraph :=
  { numNodes := 0,
    key := fun _ => Value.constant 0,
    nextNode := fun _ => none,
    prevNode := fun _ => none,
    basicBlock := fun _ => none,
    controlDeps := fun _ => [],
    revControlDeps := fun _ => [],
    subgraphs := fun _ => [],
    parameters := fun _ => none,
    dg := fun _ => false,
    numBlocks := 0,
    firstNode := fun _ => none,
    lastNode := fun _ => none,
    blockSuccessors := fun _ => [],
    blockPredecessors := fun _ => [],
    callSites := fun _ => [],
    nodes := fun _ => none,
    entryNode := none, exitNode := none, entryBB := none, exitBB := none,
    formalParameters := none, refcount := 1 }

/-- Modelled from the spec: the expression `new LLVMNode(val)`, a node with key
`val` and no links, edges, block, subgraph or owning graph; the new node is
`G.numNodes`. -/
def newNode (G : LLVMDependenceGraph) (val : Value) : LLVMDependenceGraph :=
  { G with
    numNodes := G.numNodes + 1,
    key := Function.update G.key G.numNodes val,
    nextNode := Function.update G.nextNode G.numNodes none,
    prevNode := Function.update G.prevNode G.numNodes none,
    basicBlock := Function.update G.basicBlock G.numNodes none,
    controlDeps := Function.update G.controlDeps G.numNodes [],
    revControlDeps := Function.update G.revControlDeps G.numNodes [],
    subgraphs := Function.update G.subgraphs G.numNodes [],
    parameters := Function.update G.parameters G.numNodes none,
    dg := Function.update G.dg G.numNodes false }

/-- Modelled from the spec: the expression `new LLVMBBlock(first, last)`, a block
with the given first and last node and no edges; the new block is
`G.numBlocks`. -/
def newBlock (G : LLVMDependenceGraph) (first last : Option Nat) : LLVMDependenceGraph :=
  { G with
    numBlocks := G.numBlocks + 1,
    firstNode := Function.update G.firstNode G.numBlocks first,
    lastNode := Function.update G.lastNode G.numBlocks last,
    blockSuccessors := Function.update G.blockSuccessors G.numBlocks [],
    blockPredecessors := Function.update G.blockPredecessors G.numBlocks [],
    callSites := Function.update G.callSites G.numBlocks [] }

/-- Modelled from the spec: `addNode(node)`, "add node by key"; a node that
enters the container gets the graph as its owning graph. -/
def addNode (G : LLVMDependenceGraph) (n : Nat) : LLVMDependenceGraph :=
  { G with
    nodes := mapInsert G.nodes (G.key n) n,
    dg := if G.nodes (G.key n) = none then Function.update G.dg n true else G.dg }

/-- Modelled from the spec: `getNode(val)` and `find(val)`, "lookup by key". -/
def getNode (G : LLVMDependenceGraph) (val : Value) : Option Nat :=
  G.nodes val

/-- Modelled from the spec: `pred->setSuccessor(s)`; it links both directions
and hands the containing block on to `s` (the comment at lines 240-242). -/
def setSuccessor (G : LLVMDependenceGraph) (pred s : Nat) : LLVMDependenceGraph :=
  { G with
    nextNode := Function.update G.nextNode pred (some s),
    prevNode := Function.update G.prevNode s (some pred),
    basicBlock := Function.update G.basicBlock s (G.basicBlock pred) }

/-- Modelled from the spec: `node->setBasicBlock(BB)`. -/
def setBasicBlock (G : LLVMDependenceGraph) (n BB : Nat) : LLVMDependenceGraph :=
  { G with basicBlock := Function.update G.basicBlock n (some BB) }

/-- Modelled from the spec: `a->addControlDependence(b)`; both directions are
maintained. -/
def addControlDependence (G : LLVMDependenceGraph) (a b : Nat) : LLVMDependenceGraph :=
  { G with
    controlDeps := Function.update G.controlDeps a (setInsert (G.controlDeps a) b),
    revControlDeps := Function.update G.revControlDeps b (setInsert (G.revControlDeps b) a) }

/-- Modelled from the spec: `BB->addSuccessor(S)` on blocks; both directions are
maintained. -/
def addSuccessor (G : LLVMDependenceGraph) (BB S : Nat) : LLVMDependenceGraph :=
  { G with
    blockSuccessors := Function.update G.blockSuccessors BB (setInsert (G.blockSuccessors BB) S),
    blockPredecessors :=
      Function.update G.blockPredecessors S (setInsert (G.blockPredecessors S) BB) }

/-- Modelled from the spec: `BB->setLastNode(n)`. -/
def setLastNode (G : LLVMDependenceGraph) (BB n : Nat) : LLVMDependenceGraph :=
  { G with lastNode := Function.update G.lastNode BB (some n) }

/-- Modelled from the spec: `BB->addCallsite(n)`. -/
def addCallsite (G : LLVMDependenceGraph) (BB n : Nat) : LLVMDependenceGraph :=
  { G with callSites := Function.update G.callSites BB (setInsert (G.callSites BB) n) }

end LLVMDependenceGraph

/-- Everything the builder can reach: the graph objects allocated so far (the
first `numGraphs` identifiers are in use) and the map `constructedFunctions`
from function handles to graphs, shared by all graphs. -/
structure World where
  graph : Nat → LLVMDependenceGraph
  numGraphs : Nat
  constructedFunctions : Nat → Option Nat

namespace World

/-- Update of one graph object. -/
def modify (w : World) (g : Nat) (f : LLVMDependenceGraph → LLVMDependenceGraph) : World :=
  { w with graph := fun x => if x = g then f (w.graph x) else w.graph x }

/-- The expression `new LLVMDependenceGraph()`; the new graph is `w.numGraphs`. -/
def newGraph (w : World) : World :=
  { w with graph := fun x => if x = w.numGraphs then LLVMDependenceGraph.new else w.graph x,
           numGraphs := w.numGraphs + 1 }

/-- Modelled from the spec: `subgraph->ref()`, one more reference. -/
def ref (w : World) (g : Nat) : World :=
  w.modify g (fun G => { G with refcount := G.refcount + 1 })

/-- Modelled from the spec: `subgraph->unref(false)`, one reference less and no
deletion. -/
def unref (w : World) (g : Nat) : World :=
  w.modify g (fun G => { G with refcount := G.refcount - 1 })

/-- Modelled from the spec: `node->addSubgraph(sub)` for a node of graph `this`;
"addSubgraph will increase refcount of the graph" (line 176). -/
def addSubgraph (w : World) (this node sub : Nat) : World :=
  (w.modify this (fun G =>
    { G with subgraphs := Function.update G.subgraphs node (setInsert (G.subgraphs node) sub) })).ref
    sub

end World

/-! ## The builder (`src/llvm/LLVMDependenceGraph.cpp`) -/

/-- The result of a builder call that may stop at a fault. -/
abbrev Result (α : Type) := Except Fault α

/-- The function `is_func_defined` (lines 198-212).  `calledFunction` is what
`CInst->getCalledFunction()` returns, null for an indirect call. -/
def is_func_defined (m : Module) (calledFunction : Option Nat) : Result Bool :=
  match calledFunction with
  | none => .error .nullDereference
  | some callFunc => .ok (decide ((m.function callFunc).blocks.length ≠ 0))

/-- The function `createBasicBlock` (lines 181-196); the block it returns is
`G.numBlocks`. -/
def createBasicBlock (G : LLVMDependenceGraph) (firstNode : Nat) (predBB : Option Nat) :
    LLVMDependenceGraph :=
  let nodesBB := G.numBlocks
  let G1 := G.newBlock (some firstNode) none
  match predBB with
  | some p => G1.addSuccessor p nodesBB
  | none => G1

/-- The `for` loops of `addActualParameters` (lines 451-464) and of
`addFormalParameters` (lines 484-495): an `in` and an `out` node per value, both
control dependent on `owner`. -/
def addParameterNodes (owner : Nat) :
    List Value → LLVMDependenceGraph → LLVMDGParameters → LLVMDependenceGraph × LLVMDGParameters
  | [], G, params => (G, params)
  | val :: rest, G, params =>
    let i := G.numNodes
    let G1 := G.newNode val
    let o := G1.numNodes
    let G2 := G1.newNode val
    let G3 := (G2.addControlDependence owner i).addControlDependence owner o
    addParameterNodes owner rest G3 (params.add val i o)

/-- The member `LLVMNode::addActualParameters` (lines 434-465) for a call node
of graph `G`; `arg_size` is the number of formal arguments of the called
function and `args` the argument operands of the call. -/
def addActualParameters (G : LLVMDependenceGraph) (node : Nat) (arg_size : Nat)
    (args : List Value) : Result LLVMDependenceGraph :=
  if arg_size = 0 then .ok G
  else
    match G.parameters node with
    | some _ => .error .replacedParameters
    | none =>
      let r := addParameterNodes node args G []
      .ok { r.1 with parameters := Function.update r.1.parameters node (some r.2) }

/-- The member `addFormalParameters` (lines 467-496). -/
def addFormalParameters (m : Module) (G : LLVMDependenceGraph) : Result LLVMDependenceGraph :=
  match G.entryNode with
  | none => .error .missingEntryNode
  | some entryNode =>
    match G.key entryNode with
    | .function f =>
      if (m.function f).arg_size = 0 then .ok G
      else
        let r := addParameterNodes entryNode
          ((List.range (m.function f).arg_size).map (fun i => Value.argument f i)) G []
        .ok { r.1 with formalParameters := some r.2 }
    | _ => .error .entryNodeValueNotFunction

/-- The lookup in `constructedFunctions` and the construction of a missing
subgraph in `buildSubgraph` (lines 151-169).  `build` stands for the member
`build(llvm::Function *)` invoked on the new subgraph. -/
def getSubgraph (build : World → Nat → Nat → Result (Bool × World)) (w : World)
    (callFunc : Nat) : Result (World × Nat) :=
  match w.constructedFunctions callFunc with
  | some subgraph => .ok (w, subgraph)
  | none =>
    let subgraph := w.numGraphs
    let w1 : World :=
      { w.newGraph with
        constructedFunctions :=
          fun x => if x = callFunc then some subgraph else w.constructedFunctions x }
    match build w1 subgraph callFunc with
    | .error e => .error e
    | .ok (false, _) => .error .buildingSubgraphFailed
    | .ok (true, w2) => .ok (w2.unref subgraph, subgraph)

/-- The member `buildSubgraph` (lines 136-179) called on `node` of graph `this`,
whose key is the instruction `inst`. -/
def buildSubgraph (build : World → Nat → Nat → Result (Bool × World)) (m : Module)
    (w : World) (this node : Nat) (inst : Instruction) : Result World :=
  match inst with
  | .call _ calledFunction args =>
    match calledFunction with
    | none => .error .passedNoFunc
    | some callFunc =>
      match getSubgraph build w callFunc with
      | .error e => .error e
      | .ok (w3, subgraph) =>
        match (w3.graph this).basicBlock node with
        | none => .error .doNotHaveBB
        | some BB =>
          let w4 := w3.modify this (fun G => G.addCallsite BB node)
          let w5 := w4.addSubgraph this node subgraph
          match addActualParameters (w5.graph this) node (m.function callFunc).arg_size args with
          | .error e => .error e
          | .ok G => .ok (w5.modify this (fun _ => G))
  | _ => .error .buildSubgraphOnNonCall

/-- The call-site test of `build(BB, pred)` (lines 249-252 and 273-276). -/
def handleCallSite (build : World → Nat → Nat → Result (Bool × World)) (m : Module)
    (w : World) (this node : Nat) (inst : Instruction) : Result World :=
  match inst with
  | .call _ calledFunction _ =>
    match is_func_defined m calledFunction with
    | .error e => .error e
    | .ok true => buildSubgraph build m w this node inst
    | .ok false => .ok w
  | _ => .ok w

/-- The `for` loop of `build(BB, pred)` over the instructions after the first
(lines 257-277); `idx` is the index of the next instruction and `predNode` the
node made last.  Returns the final value of `node`. -/
def buildInstructions (build : World → Nat → Nat → Result (Bool × World)) (m : Module)
    (this f BB : Nat) : List Instruction → Nat → World → Nat → Result (World × Nat)
  | [], _, w, predNode => .ok (w, predNode)
  | inst :: rest, idx, w, predNode =>
    let node := (w.graph this).numNodes
    let w1 := w.modify this (fun G =>
      (((G.newNode (Value.instruction f BB idx)).addNode node).setSuccessor predNode node))
    match handleCallSite build m w1 this node inst with
    | .error e => .error e
    | .ok w2 => buildInstructions build m this f BB rest (idx + 1) w2 node

/-- The return handling of `build(BB, pred)` (lines 290-319) for the block
`nodesBB` whose last node is `node`.  `ReturnInst::Create` does not return
null, so the early return of lines 297-301 has no counterpart here; LLVM
appends the instruction it makes to the basic block, behind the return, where
the builder does not look again. -/
def addExit (G : LLVMDependenceGraph) (f BB : Nat) (node nodesBB : Nat) :
    Result LLVMDependenceGraph :=
  let G2 :=
    match G.exitNode with
    | some _ => G
    | none =>
      let ext := G.numNodes
      let G1 := (G.newNode (Value.phonyReturn f BB)).addNode ext
      let retBB := G1.numBlocks
      { G1.newBlock (some ext) (some ext) with exitNode := some ext, exitBB := some retBB }
  match G2.exitNode, G2.exitBB with
  | some ext, some exitBB => .ok ((G2.addControlDependence node ext).addSuccessor nodesBB exitBB)
  | _, _ => .error .nullDereference

/-- The lookup of the predecessor block in `build(BB, pred)` (lines 227-234). -/
def findPredBB (m : Module) (G : LLVMDependenceGraph) (f : Nat) (pred : Option Nat) :
    Result (Option Nat) :=
  match pred with
  | none => .ok none
  | some p =>
    match (terminatorKey m f p).bind G.getNode with
    | none => .error .predecessorNodeNotCreated
    | some pn =>
      match G.basicBlock pn with
      | none => .error .noBasicBlockInPredecessorNode
      | some predBB => .ok (some predBB)

/-- The node and the block made for the first instruction in `build(BB, pred)`
(lines 236-247): the node is `G.numNodes`, the block `G.numBlocks`. -/
def startBlock (G : LLVMDependenceGraph) (f BB : Nat) (predBB : Option Nat) :
    LLVMDependenceGraph :=
  let node := G.numNodes
  let nodesBB := G.numBlocks
  let G1 := (G.newNode (Value.instruction f BB 0)).addNode node
  let G2 := (createBasicBlock G1 node predBB).setBasicBlock node nodesBB
  match predBB with
  | none => { G2 with entryBB := some nodesBB }
  | some _ => G2

/-- The end of `build(BB, pred)` (lines 279-328) for the block `nodesBB` with
instructions `insts` whose last node is `node`. -/
def finishBlock (G : LLVMDependenceGraph) (f BB : Nat) (insts : List Instruction)
    (node nodesBB : Nat) : Result (Bool × LLVMDependenceGraph) :=
  match getTerminator insts with
  | none => .ok (false, G)
  | some (_, term) =>
    let G4r : Result LLVMDependenceGraph :=
      if term.isReturn then addExit G f BB node nodesBB else .ok G
    match G4r with
    | .error e => .error e
    | .ok G4 =>
      let G5 := G4.setLastNode nodesBB node
      match G5.firstNode nodesBB, G5.lastNode nodesBB with
      | none, _ => .error .noFirstNodeInBB
      | some _, none => .error .noLastNodeInBB
      | some _, some _ => .ok (true, G5)

/-- The member `build(llvm::BasicBlock *BB, llvm::BasicBlock *pred)` (lines
214-329) of graph `this` for block `BB` of function `f`. -/
def buildBlock (build : World → Nat → Nat → Result (Bool × World)) (m : Module)
    (w : World) (this f BB : Nat) (pred : Option Nat) : Result (Bool × World) :=
  match m.block f BB with
  | [] => .error .emptyBlockDereference
  | first :: rest =>
    match findPredBB m (w.graph this) f pred with
    | .error e => .error e
    | .ok predBB =>
      let node := (w.graph this).numNodes
      let nodesBB := (w.graph this).numBlocks
      let w1 := w.modify this (fun G => startBlock G f BB predBB)
      match handleCallSite build m w1 this node first with
      | .error e => .error e
      | .ok w2 =>
        match buildInstructions build m this f BB rest 1 w2 node with
        | .error e => .error e
        | .ok (w3, last) =>
          match finishBlock (w3.graph this) f BB (first :: rest) last nodesBB with
          | .error e => .error e
          | .ok (r, G) => .ok (r, w3.modify this (fun _ => G))

/-- The body of the `for` loop over the successors `S` of `item->BB` in
`build(func)` (lines 373-415). -/
def processSuccessors (m : Module) (this f BB : Nat) :
    List Nat → List (Nat × Option Nat) → List Nat → LLVMDependenceGraph →
      Result (List (Nat × Option Nat) × List Nat × LLVMDependenceGraph)
  | [], WQ, processedBB, G => .ok (WQ, processedBB, G)
  | S :: rest, WQ, processedBB, G =>
    if S ∈ processedBB then
      match G.getNode (Value.instruction f S 0) with
      | none => .error .noNodeForSuccessor
      | some ni =>
        match (terminatorKey m f BB).bind G.getNode with
        | none => .error .noNodeForTerminator
        | some pi =>
          match G.basicBlock pi with
          | none => .error .doNotHaveBB
          | some ourBB =>
            match G.basicBlock ni with
            | none => .error .doNotHaveBB
            | some succBB =>
              processSuccessors m this f BB rest WQ processedBB (G.addSuccessor ourBB succBB)
    else
      processSuccessors m this f BB rest ((S, some BB) :: WQ) (S :: processedBB) G

/-- The `while (!WQ.empty())` loop of `build(func)` (lines 366-418).  The work
queue is a deque used at its front only: head of the list. -/
def buildLoop (build : World → Nat → Nat → Result (Bool × World)) (m : Module)
    (this f : Nat) : Nat → List (Nat × Option Nat) → List Nat → World → Result World
  | 0, WQ, _, w => if WQ.isEmpty then .ok w else .error .outOfFuel
  | fuel + 1, WQ, processedBB, w =>
    match WQ with
    | [] => .ok w
    | (BB, pred) :: WQ1 =>
      match buildBlock build m w this f BB pred with
      | .error e => .error e
      | .ok (_, w1) =>
        match processSuccessors m this f BB (successors (m.block f BB)) WQ1 processedBB
            (w1.graph this) with
        | .error e => .error e
        | .ok (WQ2, processedBB2, G) =>
          buildLoop build m this f fuel WQ2 processedBB2 (w1.modify this (fun _ => G))

/-- The checks and the last steps of `build(func)` (lines 420-431). -/
def finishFunction (m : Module) (G : LLVMDependenceGraph) (entry : Nat) :
    Result LLVMDependenceGraph :=
  match G.entryNode with
  | none => .error .missingEntryNode
  | some _ =>
    match G.exitNode with
    | none => .error .missingExitNode
    | some _ =>
      match G.entryBB with
      | none => .error .missingEntryBB
      | some entryBB =>
        match G.exitBB with
        | none => .error .missingExitBB
        | some _ =>
          match G.firstNode entryBB with
          | none => .error .nullDereference
          | some firstNode => addFormalParameters m (G.addControlDependence entry firstNode)

/-- The entry node made by `build(func)` (lines 353-356); the node is
`G.numNodes`. -/
def startFunction (G : LLVMDependenceGraph) (f : Nat) : LLVMDependenceGraph :=
  { (G.newNode (Value.function f)).addNode G.numNodes with entryNode := some G.numNodes }

/-- The statement `constructedFunctions.insert(make_pair(func, this))` (line
358): an existing entry stays. -/
def World.insertConstructed (w : World) (f this : Nat) : World :=
  { w with constructedFunctions := fun x =>
      if x = f then
        (match w.constructedFunctions f with
          | some g => some g
          | none => some this)
      else w.constructedFunctions x }

/-- The member `build(llvm::Function *func)` (lines 339-432) of graph `this`.
`build` stands for the same member invoked on subgraphs, `fuel` bounds the
iterations of the work-queue loop. -/
def buildFunction (build : World → Nat → Nat → Result (Bool × World)) (m : Module)
    (fuel : Nat) (w : World) (this f : Nat) : Result (Bool × World) :=
  if (m.function f).blocks.length = 0 then .ok (false, w)
  else
    let entry := (w.graph this).numNodes
    let w2 := (w.modify this (fun G => startFunction G f)).insertConstructed f this
    match buildLoop build m this f fuel [(0, none)] [] w2 with
    | .error e => .error e
    | .ok w3 =>
      match finishFunction m (w3.graph this) entry with
      | .error e => .error e
      | .ok G => .ok (true, w3.modify this (fun _ => G))

/-- The member `build(llvm::Function *)` with its calls on subgraphs resolved:
`fuel` bounds both the nesting of subgraph construction and the iterations of
each work-queue loop. -/
def build (m : Module) : Nat → World → Nat → Nat → Result (Bool × World)
  | 0 => fun _ _ _ => .error .outOfFuel
  | fuel + 1 => buildFunction (build m fuel) m (fuel + 1)

/-- A world holding one new graph object, as after `LLVMDependenceGraph d;`. -/
def World.initial : World :=
  { graph := fun _ => LLVMDependenceGraph.new, numGraphs := 1,
    constructedFunctions := fun _ => none }

/-- The outcome of a builder call without the world: the returned flag or the
fault. -/
def outcome (r : Result (Bool × World)) : Result Bool :=
  match r with
  | .ok (b, _) => .ok b
  | .error e => .error e

/-! ## Sample functions -/

/-- A function with an if-then shape: block 0 branches to blocks 1 and 2, block 2
falls through to block 1, block 1 returns.  Block 0 has no predecessor and every
block ends in a terminator. -/
def ifThenModule : Module :=
  ⟨[⟨[[.br [1, 2]], [.ret none], [.br [1]]], 0⟩]⟩

/-- A function that never returns: block 0 jumps to block 1, which loops on
itself. -/
def loopForeverModule : Module :=
  ⟨[⟨[[.br [1]], [.br [1]]], 0⟩]⟩

/-- A function whose block 1, a successor of the entry block, lacks a
terminator; block 2 returns. -/
def unterminatedModule : Module :=
  ⟨[⟨[[.br [1, 2]], [.other], [.ret none]], 0⟩]⟩

/-- A function `f` (index 0) calling the defined one-argument function `g`
(index 1) once. -/
def callModule : Module :=
  ⟨[⟨[[.alloca, .call (.function 1) (some 1) [.instruction 0 0 0], .ret none]], 0⟩,
    ⟨[[.other, .ret none]], 1⟩]⟩

/-! ## Relations between graph states used in the proofs -/

/-- The graph `G'` is `G` up to its reference count. -/
def SameButRefcount (G G' : LLVMDependenceGraph) : Prop :=
  G' = { G with refcount := G'.refcount }

/-- From `w` to `w'` no graph was deleted and every graph other than `this`
changed at most its reference count. -/
def OthersSame (w w' : World) (this : Nat) : Prop :=
  w.numGraphs ≤ w'.numGraphs ∧
    ∀ g, g < w.numGraphs → g ≠ this → SameButRefcount (w.graph g) (w'.graph g)

/-- The graph `G'` extends `G`: nodes and blocks of `G` keep their key, their
links, their block and their first and last node; edges and map entries are
only added; the exit node, once set, stays. -/
structure Ext (G G' : LLVMDependenceGraph) : Prop where
  numNodes_le : G.numNodes ≤ G'.numNodes
  numBlocks_le : G.numBlocks ≤ G'.numBlocks
  key_eq : ∀ n, n < G.numNodes → G'.key n = G.key n
  nextNode_eq : ∀ n, n < G.numNodes → G'.nextNode n = G.nextNode n
  prevNode_eq : ∀ n, n < G.numNodes → G'.prevNode n = G.prevNode n
  basicBlock_eq : ∀ n, n < G.numNodes → G'.basicBlock n = G.basicBlock n
  controlDeps_sub : ∀ n, n < G.numNodes → ∀ x ∈ G.controlDeps n, x ∈ G'.controlDeps n
  firstNode_eq : ∀ b, b < G.numBlocks → G'.firstNode b = G.firstNode b
  lastNode_eq : ∀ b, b < G.numBlocks → G'.lastNode b = G.lastNode b
  blockSuccessors_sub : ∀ b, b < G.numBlocks →
    ∀ x ∈ G.blockSuccessors b, x ∈ G'.blockSuccessors b
  nodes_mono : ∀ k n, G.nodes k = some n → G'.nodes k = some n
  exitNode_mono : ∀ e, G.exitNode = some e → G'.exitNode = some e

/-- The graph `G'` extends `G` without touching the blocks, the map from keys
to nodes, or the entry and exit fields. -/
structure Frame (G G' : LLVMDependenceGraph) : Prop where
  ext : Ext G G'
  numBlocks_eq : G'.numBlocks = G.numBlocks
  firstNode_eq : G'.firstNode = G.firstNode
  lastNode_eq : G'.lastNode = G.lastNode
  blockSuccessors_eq : G'.blockSuccessors = G.blockSuccessors
  nodes_eq : G'.nodes = G.nodes
  entryNode_eq : G'.entryNode = G.entryNode
  exitNode_eq : G'.exitNode = G.exitNode
  entryBB_eq : G'.entryBB = G.entryBB
  exitBB_eq : G'.exitBB = G.exitBB

/-- What a call of `build(func)` on a graph does to the other graphs. -/
def KeepsOthers (build : World → Nat → Nat → Result (Bool × World)) : Prop :=
  ∀ w this f r w', this < w.numGraphs → build w this f = .ok (r, w') → OthersSame w w' this

/-- The intra-block link between two consecutive nodes: `c` is the successor of
`a` and `a` the predecessor of `c`. -/
def Linked (G : LLVMDependenceGraph) (a c : Nat) : Prop :=
  G.nextNode a = some c ∧ G.prevNode c = some a

/-- The state of the chain that `build(BB, pred)` has made so far for block `BB`
of function `f`, started from graph state `G0`: `ns` lists the nodes of the
instructions handled so far, in order, and `b` is the new block. -/
structure ChainInv (G0 G : LLVMDependenceGraph) (f BB b : Nat) (ns : List Nat) : Prop where
  ne : ns ≠ []
  range : ∀ n ∈ ns, G0.numNodes ≤ n ∧ n < G.numNodes
  keys : ns.map G.key = (List.range ns.length).map (Value.instruction f BB)
  links : ns.Chain' (Linked G)
  first_prev : ∀ n ∈ ns.head?, G.prevNode n = none
  last_next : ∀ n ∈ ns.getLast?, G.nextNode n = none
  bb : ∀ n ∈ ns, G.basicBlock n = some b
  first : G.firstNode b = ns.head?
  block_range : G0.numBlocks ≤ b ∧ b < G.numBlocks
  map_new : ∀ n ∈ ns, G0.nodes (G.key n) = none → G.nodes (G.key n) = some n

/-- Every entry of the map from keys to nodes was there in `G0` or belongs to
one of the nodes `ns`. -/
def MapOld (G0 G : LLVMDependenceGraph) (ns : List Nat) : Prop :=
  ∀ k n, G.nodes k = some n → G0.nodes k = some n ∨ (n ∈ ns ∧ G.key n = k)

/-- The nodes met when following `getSuccessor()` from a node, at most `fuel`
of them. -/
def followSuccessors (G : LLVMDependenceGraph) : Nat → Option Nat → List Nat
  | 0, _ => []
  | _ + 1, none => []
  | fuel + 1, some n => n :: followSuccessors G fuel (G.nextNode n)

/-- The state of the unified exit of function `f` in graph `G`, as it stands
between two calls of `build(BB, pred)`:

* every registered node and every first node of a block is allocated;
* without exit node there is no exit block and no key of a phony return;
* with exit node `e` there is an exit block `eb` below `B` whose first and last
  node are `e`, `e` is registered under the key of a phony return, no other
  node is registered under such a key, and no other block starts with `e`;
* every registered node `n` of a return instruction that ends its block, other
  than `pending`, has a control-dependence edge to the exit node, and its block,
  which is below `B` and has `n` as last node, has the exit block as
  successor. -/
structure ExitInvX (m : Module) (f : Nat) (G : LLVMDependenceGraph) (pending : Option Nat)
    (B : Nat) : Prop where
  nodes_range : ∀ k n, G.nodes k = some n → n < G.numNodes
  first_range : ∀ b, b < G.numBlocks → ∀ n, G.firstNode b = some n → n < G.numNodes
  no_exit : G.exitNode = none →
    G.exitBB = none ∧ ∀ f' b', G.nodes (Value.phonyReturn f' b') = none
  exit : ∀ e, G.exitNode = some e →
    ∃ eb, G.exitBB = some eb ∧ e < G.numNodes ∧ eb < B ∧
      G.firstNode eb = some e ∧ G.lastNode eb = some e ∧
      (∃ f' b', G.key e = Value.phonyReturn f' b' ∧
        G.nodes (Value.phonyReturn f' b') = some e) ∧
      (∀ f' b' n, G.nodes (Value.phonyReturn f' b') = some n → n = e) ∧
      (∀ b, b < G.numBlocks → G.firstNode b = some e → b = eb)
  returns : ∀ BB i v n, getTerminator (m.block f BB) = some (i, Instruction.ret v) →
    G.nodes (Value.instruction f BB i) = some n → pending ≠ some n →
    ∃ e eb blk, G.exitNode = some e ∧ G.exitBB = some eb ∧ e ∈ G.controlDeps n ∧
      G.basicBlock n = some blk ∧ blk < B ∧ G.lastNode blk = some n ∧
      eb ∈ G.blockSuccessors blk

/-- Every instruction of block `BB` of function `f` has a registered node. -/
def Built (m : Module) (f : Nat) (G : LLVMDependenceGraph) (BB : Nat) : Prop :=
  ∀ i, i < (m.block f BB).length → ∃ n, G.nodes (Value.instruction f BB i) = some n

/-- The state of the work queue of `build(func)` each time the `while`
condition is evaluated: the entry block and every block in `processedBB` is
built or queued, and the successors of a built block are in `processedBB`. -/
structure WorkInv (m : Module) (f : Nat) (WQ : List (Nat × Option Nat))
    (processedBB : List Nat) (G : LLVMDependenceGraph) : Prop where
  entry : Built m f G 0 ∨ 0 ∈ WQ.map Prod.fst
  queued : ∀ s ∈ processedBB, Built m f G s ∨ s ∈ WQ.map Prod.fst
  closed : ∀ b, Built m f G b → ∀ s ∈ successors (m.block f b), s ∈ processedBB

/-! ## The module entry point and the operand arrays -/

/-- The member `build(llvm::Module *m, llvm::Function *entry)` (lines 118-134)
of graph `this`.  `getFunction` is `m->getFunction`, the lookup of a function
by name; `VF` is the run of `LLVMValueFlowAnalysis` (ValueFlow.h, outside the
given sources) on the graph.  After `VF.run()` the function ends without a
`return` statement, so on that path no value is handed back: `none`. -/
def buildModule (m : Module) (getFunction : String → Option Nat) (VF : World → Nat → World)
    (fuel : Nat) (w : World) (this : Nat) (entry : Option Nat) : Result (Option Bool × World) :=
  let entry1 : Option Nat :=
    match entry with
    | some e => some e
    | none => getFunction "main"
  match entry1 with
  | none => .ok (some false, w)
  | some e =>
    match build m fuel w this e with
    | .error err => .error err
    | .ok (_, w1) => .ok (none, VF w1 this)

/-- The instruction behind a value handle, as the `dyn_cast`s of `findOperands`
see it: the instruction at the position the handle names, a return without
value for the phony return of the unified exit, nothing for a handle that is
not an instruction. -/
def Module.instructionOf (m : Module) : Value → Option Instruction
  | .instruction f b i => (m.block f b)[i]?
  | .phonyReturn _ _ => some (.ret none)
  | _ => none

/-- The expression `dg->getNode(val)` of `findOperands` evaluated in node
`node`, `dg` being the back-reference of the node to its graph: a null
dereference for a node that belongs to no graph.  `val` is `none` for a null
handle, for which the container holds nothing. -/
def dgGetNode (G : LLVMDependenceGraph) (node : Nat) (val : Option Value) :
    Result (Option Nat) :=
  if G.dg node then .ok (val.bind G.getNode) else .error .nullDereference

/-- The `for` loop over the argument operands in the call branch of
`findOperands` (lines 62-63). -/
def argOperands (G : LLVMDependenceGraph) (node : Nat) : List Value → Result (List (Option Nat))
  | [] => .ok []
  | arg :: rest =>
    match dgGetNode G node (some arg) with
    | .error e => .error e
    | .ok op =>
      match argOperands G node rest with
      | .error e => .error e
      | .ok ops => .ok (op :: ops)

/-- The member `LLVMNode::findOperands` (lines 29-75) of node `node`, whose
fields are held by `G`: the operand array it fills, `none` standing for a null
slot.  When no branch applies the fields `operands` and `operands_num` stay as
the constructor left them: no operands. -/
def findOperands (m : Module) (G : LLVMDependenceGraph) (node : Nat) :
    Result (List (Option Nat)) :=
  let val := G.key node
  match m.instructionOf val with
  | some .alloca =>
    match dgGetNode G node (some val) with
    | .error e => .error e
    | .ok op0 => .ok [op0]
  | some (.store pointer value) =>
    match dgGetNode G node (some pointer) with
    | .error e => .error e
    | .ok op0 =>
      match dgGetNode G node (some value) with
      | .error e => .error e
      | .ok op1 =>
        match op0 with
        | none => .error .storePointerOperandWithoutNode
        | some _ => .ok [op0, op1]
  | some (.load pointer) =>
    match dgGetNode G node (some pointer) with
    | .error e => .error e
    | .ok op0 => .ok [op0]
  | some (.getElementPtr pointer) =>
    match dgGetNode G node (some pointer) with
    | .error e => .error e
    | .ok op0 => .ok [op0]
  | some (.call calledValue _ args) =>
    match dgGetNode G node (some calledValue) with
    | .error e => .error e
    | .ok op0 =>
      match argOperands G node args with
      | .error e => .error e
      | .ok ops => .ok (op0 :: ops)
  | some (.ret value) =>
    match dgGetNode G node value with
    | .error e => .error e
    | .ok op0 => .ok [op0]
  | some (.cast stripped) =>
    match dgGetNode G node (some stripped) with
    | .error e => .error e
    | .ok op0 => .ok [op0]
  | _ => .ok []

/-- A function with one instruction of every kind `findOperands` tells apart:
an alloca, a store of a constant through it, a load, a GEP and a cast of it, a
call of the undefined function 1 with the alloca passed twice, an instruction of
another kind, and a return of the loaded value. -/
def operandsModule : Module :=
  ⟨[⟨[[.alloca,
        .store (.instruction 0 0 0) (.constant 7),
        .load (.instruction 0 0 0),
        .getElementPtr (.instruction 0 0 0),
        .cast (.instruction 0 0 0),
        .call (.function 1) (some 1) [.instruction 0 0 0, .instruction 0 0 0],
        .other,
        .ret (some (.instruction 0 0 2))]], 0⟩,
    ⟨[], 2⟩]⟩

/-- The graph that `build(func)` makes for function 0 of `operandsModule`: node
0 is the entry node, nodes 1 to 8 are the instructions in order, node 9 is the
unified exit. -/
def operandsGraph : LLVMDependenceGraph :=
  match build operandsModule 3 World.initial 0 0 with
  | .ok (_, w) => w.graph 0
  | .error _ => LLVMDependenceGraph.new

/-! ## Post-dominators (`src/llvm/analysis/PostDominators.cpp`) -/

/-- A handle `llvm::BasicBlock *`: the function it belongs to (`getParent()`) and
its index in that function. -/
structure BasicBlock where
  parent : Nat
  index : Nat
deriving DecidableEq, Repr

/-- The class `llvm::PostDominatorTree` as LLVM computes it for one function:
`getNode(B)` is the tree node of a basic block, if it has one; `getIDom` the
immediate dominator of a tree node, if any; `getBlock` the basic block of a tree
node, none for a root that stands for no block. -/
structure PostDominatorTree where
  getNode : BasicBlock → Option Nat
  getIDom : Nat → Option Nat
  getBlock : Nat → Option BasicBlock

/-- Modelled from the spec: a subgraph together with the members of
`LLVMDependenceGraph` and `LLVMBBlock` that `computePostDominators` uses and
that are declared outside the given sources: the container `getBlocks()` from
basic blocks to their `LLVMBBlock`, as the list of its entries in iteration
order; of each block its key, its "immediate post-dominator back-pointer" and
its block-level control dependencies; and the root of the post-dominator tree
of the subgraph.  The CFG successors of a block are `dg.blockSuccessors`. -/
structure LLVMBlockGraph where
  dg : LLVMDependenceGraph
  blocks : List (BasicBlock × Nat)
  blockKey : Nat → Option BasicBlock
  iPostDom : Nat → Option Nat
  blockControlDeps : Nat → List Nat
  postDominatorTreeRoot : Option Nat

namespace LLVMBlockGraph

/-- Modelled from the spec: `BB->setIPostDom(pb)`. -/
def setIPostDom (G : LLVMBlockGraph) (BB pb : Nat) : LLVMBlockGraph :=
  { G with iPostDom := Function.update G.iPostDom BB (some pb) }

/-- Modelled from the spec: the statements `root = new LLVMBBlock();
root->setKey(nullptr); F.second->setPostDominatorTreeRoot(root);` (lines 79-81);
the new block is `G.dg.numBlocks`, it has no nodes, no edges and no immediate
post-dominator. -/
def newRoot (G : LLVMBlockGraph) : LLVMBlockGraph :=
  { G with
    dg := G.dg.newBlock none none,
    blockKey := Function.update G.blockKey G.dg.numBlocks none,
    iPostDom := Function.update G.iPostDom G.dg.numBlocks none,
    blockControlDeps := Function.update G.blockControlDeps G.dg.numBlocks [],
    postDominatorTreeRoot := some G.dg.numBlocks }

/-- Modelled from the spec: `BB->addControlDependence(target)` on blocks. -/
def addControlDependence (G : LLVMBlockGraph) (BB target : Nat) : LLVMBlockGraph :=
  { G with
    blockControlDeps := Function.update G.blockControlDeps BB (setInsert (G.blockControlDeps BB) target) }

end LLVMBlockGraph

/-- The loop over `our_blocks` that sets the immediate post-dominators (lines
52-86).  `our_blocks` is the whole container, `root` and `built` are the local
variables of that name. -/
def setIPostDoms (pdtree : PostDominatorTree) (our_blocks : List (BasicBlock × Nat)) :
    List (BasicBlock × Nat) → LLVMBlockGraph → Option Nat → Bool →
      Result (LLVMBlockGraph × Option Nat × Bool)
  | [], G, root, built => .ok (G, root, built)
  | (B, BB) :: rest, G, root, built =>
    match pdtree.getNode B with
    | none => setIPostDoms pdtree our_blocks rest G root built
    | some N =>
      let idomBB : Option BasicBlock := (pdtree.getIDom N).bind pdtree.getBlock
      match idomBB with
      | some ib =>
        match our_blocks.lookup ib with
        | none => .error .doNotHaveConstructedBB
        | some pb =>
          let G1 := G.setIPostDom BB pb
          match G1.blockKey BB, G1.blockKey pb with
          | some k1, some k2 =>
            if k1.parent = k2.parent then setIPostDoms pdtree our_blocks rest G1 root true
            else .error .blocksFromDifferentFunctions
          | _, _ => .error .nullDereference
      | none =>
        match root with
        | some r => setIPostDoms pdtree our_blocks rest (G.setIPostDom BB r) (some r) true
        | none =>
          let r := G.dg.numBlocks
          setIPostDoms pdtree our_blocks rest (G.newRoot.setIPostDom BB r) (some r) true

/-- The fallback of lines 92-99: every block of the container gets a control
dependence on each of its successors. -/
def addSuccessorControlDeps (G : LLVMBlockGraph) : LLVMBlockGraph :=
  G.blocks.foldl
    (fun G1 it => (G1.dg.blockSuccessors it.2).foldl (fun G2 target => G2.addControlDependence it.2 target) G1)
    G

/-- The body of the loop over the constructed functions (lines 31-108) for the
subgraph `G` of one function with post-dominator tree `pdtree`.  `compute`
stands for `pdfrontiers.compute(root, true)` (PostDominanceFrontiers.h, outside
the given sources): the block-level control dependencies it leaves. -/
def computeFunction (pdtree : PostDominatorTree)
    (compute : LLVMBlockGraph → Nat → Nat → List Nat) (addPostDomFrontiers : Bool)
    (G : LLVMBlockGraph) : Result LLVMBlockGraph :=
  match setIPostDoms pdtree G.blocks G.blocks G none false with
  | .error e => .error e
  | .ok (G1, root, built) =>
    let G2 := if !built && addPostDomFrontiers then addSuccessorControlDeps G1 else G1
    if addPostDomFrontiers then
      match root with
      | some r => .ok { G2 with blockControlDeps := compute G2 r }
      | none => .ok G2
    else .ok G2

/-- The member `computePostDominators` (lines 26-110): the loop over
`getConstructedFunctions()`, given as the list of its entries (function,
subgraph) in iteration order; `pdtree f` is the tree LLVM computes for function
`f`, `graph` maps subgraph identifiers to their state. -/
def computePostDominators (pdtree : Nat → PostDominatorTree)
    (compute : LLVMBlockGraph → Nat → Nat → List Nat) (addPostDomFrontiers : Bool) :
    List (Nat × Nat) → (Nat → LLVMBlockGraph) → Result (Nat → LLVMBlockGraph)
  | [], graph => .ok graph
  | (f, g) :: rest, graph =>
    match computeFunction (pdtree f) compute addPostDomFrontiers (graph g) with
    | .error e => .error e
    | .ok G => computePostDominators pdtree compute addPostDomFrontiers rest (Function.update graph g G)

/-- The state of the loop that sets the immediate post-dominators, started on
`G0`: as long as `root` is null the blocks are those of `G0`; once it is set it
is the one block made since, with null key, registered as the root of the
post-dominator tree.  Keys of the blocks of `G0`, the container and the control
dependencies are as in `G0`. -/
structure RootInv (G0 G : LLVMBlockGraph) (root : Option Nat) : Prop where
  no_root : root = none → G.dg = G0.dg ∧ G.postDominatorTreeRoot = G0.postDominatorTreeRoot
  root_new : ∀ r, root = some r →
    r = G0.dg.numBlocks ∧ G.dg = G0.dg.newBlock none none ∧
      G.postDominatorTreeRoot = some r ∧ G.blockKey r = none
  key_old : ∀ b, b < G0.dg.numBlocks → G.blockKey b = G0.blockKey b
  blocks_eq : G.blocks = G0.blocks
  controlDeps_old : ∀ b, b < G0.dg.numBlocks → G.blockControlDeps b = G0.blockControlDeps b
  controlDeps_sub : ∀ b t, t ∈ G.blockControlDeps b → t ∈ G0.blockControlDeps b

/-- The subgraph of a function with two basic blocks, block 0 jumping to block
1 and block 1 returning: two blocks in the container, keyed by their basic
blocks, no immediate post-dominators and no control dependencies yet. -/
def straightBlocks : LLVMBlockGraph :=
  { dg := ((LLVMDependenceGraph.new.newBlock none none).newBlock none none).addSuccessor 0 1,
    blocks := [(⟨0, 0⟩, 0), (⟨0, 1⟩, 1)],
    blockKey := fun b => if b < 2 then some ⟨0, b⟩ else none,
    iPostDom := fun _ => none,
    blockControlDeps := fun _ => [],
    postDominatorTreeRoot := none }

/-- The post-dominator tree of that function: tree node `i` for block `i`,
block 1 the immediate post-dominator of block 0, and tree node 2, a root
without block, that of block 1. -/
def straightTree : PostDominatorTree :=
  { getNode := fun B => if B.parent = 0 ∧ B.index < 2 then some B.index else none,
    getIDom := fun N => if N = 0 then some 1 else if N = 1 then some 2 else none,
    getBlock := fun N => if N < 2 then some ⟨0, N⟩ else none }

/-- The subgraph of a function that never returns: block 0 jumps to block 1,
which loops on itself. -/
def loopBlocks : LLVMBlockGraph :=
  { dg := (((LLVMDependenceGraph.new.newBlock none none).newBlock none none).addSuccessor 0
      1).addSuccessor 1 1,
    blocks := [(⟨0, 0⟩, 0), (⟨0, 1⟩, 1)],
    blockKey := fun b => if b < 2 then some ⟨0, b⟩ else none,
    iPostDom := fun _ => none,
    blockControlDeps := fun _ => [],
    postDominatorTreeRoot := none }

/-- The post-dominator tree of a function without reachable return: no block
has a tree node. -/
def emptyTree : PostDominatorTree :=
  { getNode := fun _ => none, getIDom := fun _ => none, getBlock := fun _ => none }

/-! ## Relations used for the call sites and the parameters -/

/-- The graph `G` extends `G0` and the nodes of `G0` have the subgraphs, the
parameter record and the control dependencies they had in `G0`; a call-site
that `G0` did not have is a node newer than `G0`; the formal parameters and the
entry node are those of `G0`. -/
structure Kept (G0 G : LLVMDependenceGraph) : Prop where
  numNodes_le : G0.numNodes ≤ G.numNodes
  subgraphs_eq : ∀ n, n < G0.numNodes → G.subgraphs n = G0.subgraphs n
  parameters_eq : ∀ n, n < G0.numNodes → G.parameters n = G0.parameters n
  controlDeps_eq : ∀ n, n < G0.numNodes → G.controlDeps n = G0.controlDeps n
  callSites_old : ∀ b x, x ∈ G.callSites b → x ∈ G0.callSites b ∨ G0.numNodes ≤ x
  formalParameters_eq : G.formalParameters = G0.formalParameters
  entryNode_eq : G.entryNode = G0.entryNode

/-- What the handling of a call site at `node` does to its graph: it changes the
subgraphs, the parameter record and the control dependencies of `node` only,
and adds no call-site other than `node`. -/
structure CallLocal (node : Nat) (G G' : LLVMDependenceGraph) : Prop where
  numNodes_le : G.numNodes ≤ G'.numNodes
  subgraphs_eq : ∀ n, n < G.numNodes → n ≠ node → G'.subgraphs n = G.subgraphs n
  parameters_eq : ∀ n, n < G.numNodes → n ≠ node → G'.parameters n = G.parameters n
  controlDeps_eq : ∀ n, n < G.numNodes → n ≠ node → G'.controlDeps n = G.controlDeps n
  callSites_old : ∀ b x, x ∈ G'.callSites b → x ∈ G.callSites b ∨ x = node
  formalParameters_eq : G'.formalParameters = G.formalParameters
  entryNode_eq : G'.entryNode = G.entryNode

/-- The state of the call sites of function `f` in graph `G` between two steps
of the builder: registered nodes, first nodes of blocks and call-sites are
allocated nodes, and the registered node of a call instruction whose called
function has no basic block has no subgraph, no parameter record and is no
call-site of any block. -/
structure CallSiteInv (m : Module) (f : Nat) (G : LLVMDependenceGraph) : Prop where
  nodes_range : ∀ k n, G.nodes k = some n → n < G.numNodes
  first_range : ∀ b n, G.firstNode b = some n → n < G.numNodes
  callSites_range : ∀ b x, x ∈ G.callSites b → x < G.numNodes
  undefined : ∀ BB i calledValue g args n,
    (m.block f BB)[i]? = some (Instruction.call calledValue (some g) args) →
    (m.function g).blocks.length = 0 →
    G.nodes (Value.instruction f BB i) = some n →
    G.subgraphs n = [] ∧ G.parameters n = none ∧ ∀ b, n ∉ G.callSites b

/-- A function `f` (index 0) that passes the same value for both arguments of
the defined two-argument function `g` (index 1). -/
def sameArgModule : Module :=
  ⟨[⟨[[.alloca, .call (.function 1) (some 1) [.instruction 0 0 0, .instruction 0 0 0],
        .ret none]], 0⟩,
    ⟨[[.ret none]], 2⟩]⟩

/-- A function (index 0) that calls itself. -/
def selfRecursiveModule : Module :=
  ⟨[⟨[[.call (.function 0) (some 0) [], .ret none]], 0⟩]⟩

/-- Two functions calling each other: `f` (index 0) calls `g` (index 1), which
calls `f` and itself. -/
def mutualRecursionModule : Module :=
  ⟨[⟨[[.call (.function 1) (some 1) [], .ret none]], 0⟩,
    ⟨[[.call (.function 0) (some 0) [], .call (.function 1) (some 1) [], .ret none]], 0⟩]⟩

/-- The number of nodes of graph `G` that are linked to subgraph `g`. -/
def LLVMDependenceGraph.linkCount (G : LLVMDependenceGraph) (g : Nat) : Nat :=
  ((List.range G.numNodes).filter (fun n => decide (g ∈ G.subgraphs n))).length

/-- The number of nodes of all graphs that are linked to subgraph `g`. -/
def World.links (w : World) (g : Nat) : Nat :=
  ((List.range w.numGraphs).map (fun h => (w.graph h).linkCount g)).sum

/-! ## Relations used for the subgraph links and the reference counts -/

/-- The references held on graph `g`: its reference count when the graph is
allocated. -/
def World.refs (w : World) (g : Nat) : Int :=
  if g < w.numGraphs then (w.graph g).refcount else 0

/-- The references on graph `g` that are no links of nodes. -/
def World.excess (w : World) (g : Nat) : Int :=
  w.refs g - (w.links g : Int)

/-- The graph `G'` has the reference count of `G` and the links of `G`: the
nodes of `G` keep their subgraphs and the newer nodes have none. -/
structure LinkSame (G G' : LLVMDependenceGraph) : Prop where
  refcount_eq : G'.refcount = G.refcount
  numNodes_le : G.numNodes ≤ G'.numNodes
  subgraphs_eq : ∀ n, n < G.numNodes → G'.subgraphs n = G.subgraphs n
  subgraphs_new : ∀ n, G.numNodes ≤ n → n < G'.numNodes → G'.subgraphs n = []

/-- The entry node of graph `h` has function `x` as key. -/
def World.GraphOf (w : World) (h x : Nat) : Prop :=
  ∃ e, (w.graph h).entryNode = some e ∧ (w.graph h).key e = Value.function x

/-- The registered node of every call instruction of `f` whose directly called
function has a body is linked to exactly one subgraph, the one that
`constructedFunctions` holds for the called function. -/
def LinkInv (m : Module) (cf : Nat → Option Nat) (f : Nat) (G : LLVMDependenceGraph) : Prop :=
  ∀ BB i calledValue g args n,
    (m.block f BB)[i]? = some (Instruction.call calledValue (some g) args) →
    (m.function g).blocks.length ≠ 0 →
    G.nodes (Value.instruction f BB i) = some n →
    ∃ sub, cf g = some sub ∧ G.subgraphs n = [sub]

/-- Graph `h` is the finished subgraph of function `x`: its entry node is keyed
by `x`, `constructedFunctions` maps `x` to it, its call sites are in order and
every block reachable from the entry block is built. -/
structure Finished (m : Module) (w : World) (h x : Nat) : Prop where
  graphOf : w.GraphOf h x
  constructed : w.constructedFunctions x = some h
  links : LinkInv m w.constructedFunctions x (w.graph h)
  calls : CallSiteInv m x (w.graph h)
  built : ∀ BB, analysis.Reachable (fun b => successors (m.block x b)) 0 BB →
    Built m x (w.graph h) BB

/-- Every entry of `constructedFunctions` is an allocated graph. -/
def World.CfRange (w : World) : Prop :=
  ∀ x h, w.constructedFunctions x = some h → h < w.numGraphs

/-- What a stretch of work on graph `this` does to the world around it: the
other graphs change at most their reference count, no reference count gets out
of step with the links, entries of `constructedFunctions` stay, and every new
graph is the finished subgraph of the function it was entered for. -/
structure Grows (m : Module) (w w' : World) (this : Nat) : Prop where
  this_lt : this < w.numGraphs
  others : OthersSame w w' this
  balanced : ∀ g, w'.excess g = w.excess g
  cf_mono : ∀ x h, w.constructedFunctions x = some h → w'.constructedFunctions x = some h
  cf_new : ∀ x h, w.constructedFunctions x = none → w'.constructedFunctions x = some h →
    w.numGraphs ≤ h ∧ h < w'.numGraphs ∧ Finished m w' h x
  new_done : ∀ h, w.numGraphs ≤ h → h < w'.numGraphs → ∃ x, Finished m w' h x

/-- What `build(func)` is taken to do when it is called on a new graph. -/
def BuildSpec (m : Module) (build : World → Nat → Nat → Result (Bool × World)) : Prop :=
  ∀ w this f r w', this < w.numGraphs → w.CfRange → w.graph this = LLVMDependenceGraph.new →
    build w this f = .ok (r, w') →
    OthersSame w w' this ∧ (∀ g, w'.excess g = w.excess g) ∧
    (∀ x h, w.constructedFunctions x = some h → w'.constructedFunctions x = some h) ∧
    (∀ x h, w.constructedFunctions x = none → w'.constructedFunctions x = some h →
      (x = f ∧ h = this) ∨ (w.numGraphs ≤ h ∧ h < w'.numGraphs ∧ Finished m w' h x)) ∧
    (∀ h, w.numGraphs ≤ h → h < w'.numGraphs → ∃ x, Finished m w' h x) ∧
    (r = true → (w.constructedFunctions f = none ∨ w.constructedFunctions f = some this) →
      Finished m w' this f)

/-- The graph `G1` is `G` with one more node, registered under `key` unless the
key was taken, that has no subgraph and no parameter record yet; a block that
starts with the new node may have been added. -/
structure NodeAdded (G G1 : LLVMDependenceGraph) (key : Value) : Prop where
  numNodes_eq : G1.numNodes = G.numNodes + 1
  nodes_eq : G1.nodes = mapInsert G.nodes key G.numNodes
  firstNode_old : ∀ b n, G1.firstNode b = some n → G.firstNode b = some n ∨ n = G.numNodes
  callSites_old : ∀ b x, x ∈ G1.callSites b → x ∈ G.callSites b
  subgraphs_eq : ∀ n, n < G.numNodes → G1.subgraphs n = G.subgraphs n
  parameters_eq : ∀ n, n < G.numNodes → G1.parameters n = G.parameters n
  subgraphs_new : G1.subgraphs G.numNodes = []
  parameters_new : G1.parameters G.numNodes = none
  refcount_eq : G1.refcount = G.refcount

/-- The functions reachable from `f` through direct calls of functions with a
body, the calls taken from blocks reachable from the entry block of their
function. -/
inductive CallReach (m : Module) (f : Nat) : Nat → Prop
  | entry : CallReach m f f
  | call {x g BB i : Nat} {calledValue : Value} {args : List Value} :
    CallReach m f x →
    analysis.Reachable (fun b => successors (m.block x b)) 0 BB →
    (m.block x BB)[i]? = some (Instruction.call calledValue (some g) args) →
    (m.function g).blocks.length ≠ 0 →
    CallReach m f g

/-! ## Bounds used for the termination of the builder -/

/-- Every block named as a successor in function `f`. -/
def Module.allSuccessors (m : Module) (f : Nat) : List Nat :=
  (m.function f).blocks.flatMap successors

/-- A bound on the iterations the work-queue loop of `build(func)` still makes:
the queued items and the successors named in `f` that were never queued. -/
def workMeasure (m : Module) (f : Nat) (WQ : List (Nat × Option Nat)) (processedBB : List Nat) :
    Nat :=
  WQ.length + ((m.allSuccessors f).filter (fun s => decide (s ∉ processedBB))).length

/-- A bound on the iterations of the work-queue loop for every function of the
module. -/
def Module.loopBound (m : Module) : Nat :=
  1 + (m.functions.map (fun F => (F.blocks.flatMap successors).length)).sum

/-- The number of functions of the module that have no subgraph yet. -/
def World.unconstructed (m : Module) (w : World) : Nat :=
  ((List.range m.functions.length).filter (fun f => (w.constructedFunctions f).isNone)).length

/-- Fuel that lets `build(func)` run to its end on every function of the
module. -/
def Module.fuelBound (m : Module) : Nat :=
  m.loopBound + m.functions.length

/-- The calls of `build(func)` on new graphs in a world with fewer than `K`
functions left without subgraph do not run out of fuel. -/
def BuildTerminates (m : Module) (K : Nat) (build : World → Nat → Nat → Result (Bool × World)) :
    Prop :=
  ∀ w this f, this < w.numGraphs → w.CfRange → w.graph this = LLVMDependenceGraph.new →
    w.unconstructed m < K → build w this f ≠ .error .outOfFuel

/-! ## The dumper of the pointer state subgraph (`tools/llvm-pss-dump.cpp`) -/

namespace pssdump

/-- The double-quote character tested by `printName`. -/
def DQUOTE : Char := Char.ofNat 34

/-- The backslash character written by `putchar` in `printName`. -/
def BACKSLASH : Char := Char.ofNat 92

/-- The characters of the literal written by `printf` once a name is cropped: a
blank and three dots. -/
def CROP_MARK : List Char := [' ', '.', '.', '.']

/-- Position from which on `printName` crops a name (line 78). -/
def CROP_AT : Nat := 70

/-- Modelled from the spec: what `printName` reads of a `PSSNode` (declared in
`PSS.h`, outside the given sources): its address, the C string `getName()`
returns (the characters before the terminating NUL) when it is not null, and
the value handle `getUserData` returns when it is not null. -/
structure PSSNodeView where
  address : Nat
  getName : Option (List Char)
  getUserData : Option Value

/-- The function `getInstName` (lines 40-53): the text LLVM streams for the
value, handed in as `print`. -/
def getInstName (print : Value → List Char) (val : Value) : List Char :=
  print val

/-- The call `c_str()` read as a C string: the characters before the first
NUL. -/
def c_str (nm : List Char) : List Char :=
  nm.takeWhile (fun c => c != Char.ofNat 0)

/-- The `for` loop of `printName` (lines 76-87) on the characters still to read,
`i` being the index of the first of them; the result is what is written to the
standard output. -/
def printNameLoop : List Char → Nat → List Char
  | [], _ => []
  | c :: rest, i =>
    if i ≥ CROP_AT then CROP_MARK
    else (if c = DQUOTE then [BACKSLASH] else []) ++ c :: printNameLoop rest (i + 1)

/-- The name `printName` settles on (lines 57-72): the one `getName()` returns,
or, when that is null, the text of the value behind the node; none when both
are null. -/
def nameOf (print : Value → List Char) (node : PSSNodeView) : Option (List Char) :=
  match node.getName with
  | some name => some name
  | none =>
    match node.getUserData with
    | none => none
    | some val => some (c_str (getInstName print val))

/-- The function `printName` (lines 55-88); `formatPointer` is the text `%p`
produces for a node address. -/
def printName (formatPointer : Nat → List Char) (print : Value → List Char)
    (node : PSSNodeView) (dot : Bool) : List Char :=
  match nameOf print node with
  | none =>
    if dot then formatPointer node.address ++ [BACKSLASH, 'n']
    else formatPointer node.address ++ [Char.ofNat 10]
  | some name => printNameLoop name 0

/-- A name of 71 characters: 69 times `a`, a double quote, and `b`. -/
def longName : List Char :=
  List.replicate 69 'a' ++ [DQUOTE, 'b']

/-- A name with every double quote preceded by an inserted backslash and every
other character as it is. -/
def escapeQuotes (s : List Char) : List Char :=
  (s.map (fun c => if c = DQUOTE then [BACKSLASH, c] else [c])).flatten

end pssdump

/-! ## The dumper of the dependence graph (`tools/llvm-dg-dump.cpp`) -/

namespace dgdump

/-- The constant `UNKNOWN_OFFSET`: every bit of a 64-bit offset set. -/
def UNKNOWN_OFFSET : Nat := 2 ^ 64 - 1

/-- Modelled from the spec: what `checkNode` reads of the `LLVMNode` objects and
of the `MemoryObj` objects they point to (the classes are declared outside the
given sources).  Nodes and memory objects are identifiers and every accessor is
a map from identifiers to what it returns; a pointer of a points-to set is a
memory object with an offset. -/
structure LLVMNodes where
  getKey : Nat → Option Value
  getBasicBlock : Nat → Option Nat
  getSuccessor : Nat → Option Nat
  getPredcessor : Nat → Option Nat
  hasUnknownValue : Nat → Bool
  getValues : Nat → List Nat
  getPointsTo : Nat → List (Nat × Nat)
  getMemoryObj : Nat → Option Nat
  objNode : Nat → Nat
  objValues : Nat → List (Nat × List Nat)
  objPointsTo : Nat → List (Nat × List (Nat × Nat))

/-- The test `llvm::isa<llvm::Function>(val)`. -/
def isFunction : Value → Bool
  | .function _ => true
  | _ => false

/-- The test `llvm::isa<llvm::AllocaInst>(val)` in module `m`. -/
def isAlloca (m : Module) (val : Value) : Bool :=
  decide (m.instructionOf val = some Instruction.alloca)

/-- The function `printLLVMVal` (lines 22-38) as the text it streams; `getName`
gives the name of a function and `print` the text LLVM streams for any other
value. -/
def printLLVMVal (getName : Nat → String) (print : Value → String) : Option Value → String
  | none => "(null)"
  | some (.function f) => "ENTRY " ++ getName f
  | some val => print val

/-- The streaming operator for `Offset` (lines 40-46) as the text it streams. -/
def printOffset (off : Nat) : String :=
  if off = UNKNOWN_OFFSET then "UNKNOWN" else toString off

/-- The lines `VAL`, `PTR`, `--MEMVAL` and `--MEMPTR` of `checkNode`
(lines 93-121), written for a node whose value is known. -/
def printKnownValue (getName : Nat → String) (print : Value → String) (N : LLVMNodes)
    (node : Nat) : List String :=
  let pv := printLLVMVal getName print
  let vals := (N.getValues node).flatMap (fun it => ["\\lVAL: [", pv (N.getKey it), "]"])
  let ptsto := (N.getPointsTo node).flatMap (fun it =>
    ["\\lPTR: [", pv (N.getKey (N.objNode it.1)), "] + ", printOffset it.2])
  let mem := match N.getMemoryObj node with
    | none => []
    | some mo =>
      (N.objValues mo).flatMap (fun it => it.2.flatMap (fun it2 =>
        ["\\l--MEMVAL: [", printOffset it.1, "] = ", pv (N.getKey it2)])) ++
      (N.objPointsTo mo).flatMap (fun it => it.2.flatMap (fun it2 =>
        ["\\l--MEMPTR: [", printOffset it.1, "] -> ", pv (N.getKey (N.objNode it2.1)),
          "] + ", printOffset it2.2]))
  vals ++ ptsto ++ mem

/-- The check of the containing block in `checkNode` (lines 58-62). -/
def checkBlock (N : LLVMNodes) (node : Nat) (val : Value) : Bool × List String :=
  if N.getBasicBlock node = none ∧ isFunction val = false then (true, ["\\nERR: no BB"])
  else (false, [])

/-- The checks on the successor in `checkNode` (lines 66-76); `r` holds `err`
and what was streamed so far. -/
def checkSuccessor (N : LLVMNodes) (node : Nat) (r : Bool × List String) : Bool × List String :=
  match N.getSuccessor node with
  | none => r
  | some s =>
    let a : Bool × List String :=
      if N.getPredcessor s ≠ some node then (true, r.2 ++ ["\\nERR: wrong predcessor"])
      else r
    if N.getBasicBlock s ≠ N.getBasicBlock node then
      (true, a.2 ++ ["\\nERR: succ BB mismatch"])
    else a

/-- The checks on the predecessor in `checkNode` (lines 78-88). -/
def checkPredcessor (N : LLVMNodes) (node : Nat) (r : Bool × List String) : Bool × List String :=
  match N.getPredcessor node with
  | none => r
  | some p =>
    let a : Bool × List String :=
      if N.getSuccessor p ≠ some node then (true, r.2 ++ ["\\nERR: wrong successor"])
      else r
    if N.getBasicBlock p ≠ N.getBasicBlock node then
      (true, a.2 ++ ["\\nERR: pred BB mismatch"])
    else a

/-- The last part of `checkNode` (lines 90-129): the values of the node and the
check that an `alloca` has a memory object. -/
def checkValues (m : Module) (getName : Nat → String) (print : Value → String) (N : LLVMNodes)
    (node : Nat) (val : Value) (r : Bool × List String) : Bool × List String :=
  if N.hasUnknownValue node then (r.1, r.2 ++ ["\\lUNKNOWN VALUE"])
  else
    let os := r.2 ++ printKnownValue getName print N node
    match N.getMemoryObj node with
    | some _ => (r.1, os)
    | none =>
      if isAlloca m val then (true, os ++ ["\\nERR: alloca without memObject"])
      else (r.1, os)

/-- The function `checkNode` (lines 48-132): the returned flag and the pieces
streamed to `os`, in order. -/
def checkNode (m : Module) (getName : Nat → String) (print : Value → String) (N : LLVMNodes)
    (node : Nat) : Bool × List String :=
  match N.getKey node with
  | none => (true, ["\\nERR: no value in node"])
  | some val =>
    checkValues m getName print N node val
      (checkPredcessor N node (checkSuccessor N node (checkBlock N node val)))

/-- A chain of two nodes in block 0: an `alloca` with a memory object followed
by a return. -/
def chainNodes : LLVMNodes :=
  { getKey := fun n => some (Value.instruction 0 0 n),
    getBasicBlock := fun _ => some 0,
    getSuccessor := fun n => if n = 0 then some 1 else none,
    getPredcessor := fun n => if n = 1 then some 0 else none,
    hasUnknownValue := fun _ => false,
    getValues := fun _ => [],
    getPointsTo := fun _ => [],
    getMemoryObj := fun n => if n = 0 then some 0 else none,
    objNode := fun _ => 0,
    objValues := fun _ => [],
    objPointsTo := fun _ => [] }

/-- The module whose function 0 is the single block `alloca; ret`. -/
def chainModule : Module :=
  ⟨[⟨[[.alloca, .ret none]], 0⟩]⟩

end dgdump

/-! ## The flow-insensitive points-to analysis (`src/analysis/PointsToFlowInsensitive.h`) -/

namespace analysis

namespace pss

/-- Modelled from the spec: the tag of a `PSSNode` (the enumeration is declared
in `PSS.h`, outside the given sources); `NULL_ADDR` is the tag of the null
pointer. -/
inductive PSSNodeType
  | ALLOC | DYN_ALLOC | LOAD | STORE | GEP | CAST | PHI | CALL | RETURN | FUNCTION
  | CONSTANT | NULL_ADDR | UNKNOWN_MEM | NOOP | MEMCPY
deriving DecidableEq, Repr

/-- Modelled from the spec: the `PSSNode` and `MemoryObject` objects in use
(the classes are declared in `PSS.h` and `Pointer.h`, outside the given
sources).  Nodes and memory objects are identifiers and every field is a map
from identifiers to field values: of a node its tag, its operands, its
points-to set of `(target, offset)` pairs and its per-analysis data slot; of a
memory object the back-reference `node` and the map from offsets to pointer
sets.  The first `numObjects` memory objects are allocated. -/
structure PSSHeap where
  getType : Nat → PSSNodeType
  operands : Nat → List Nat
  pointsTo : Nat → List (Nat × Nat)
  data : Nat → Option Nat
  numObjects : Nat
  objNode : Nat → Nat
  objPointsTo : Nat → List (Nat × List (Nat × Nat))

/-- How a call of `getMemoryObjects` stops short of returning: a failed
`assert`, or an operand index past the end. -/
inductive PSSFault
  | operandOutOfRange
  | constantWithoutSinglePointer
  | notAnAllocationSite
deriving DecidableEq, Repr

/-- Modelled from the spec: the expression `new MemoryObject(n)`, an object with
back-reference `n` and an empty map; the new object is `S.numObjects`. -/
def PSSHeap.newMemoryObject (S : PSSHeap) (n : Nat) : PSSHeap :=
  { S with
    numObjects := S.numObjects + 1,
    objNode := Function.update S.objNode S.numObjects n,
    objPointsTo := Function.update S.objPointsTo S.numObjects [] }

/-- Modelled from the spec: `n->setData<MemoryObject>(mo)`. -/
def PSSHeap.setData (S : PSSHeap) (n mo : Nat) : PSSHeap :=
  { S with data := Function.update S.data n (some mo) }

/-- The tags accepted by the assertion of `getMemoryObjects` (lines 49-50). -/
def isAllocationSite : PSSNodeType → Bool
  | .ALLOC => true
  | .DYN_ALLOC => true
  | .UNKNOWN_MEM => true
  | _ => false

namespace PointsToFlowInsensitive

/-- The node `getMemoryObjects` turns to (lines 42-47): operand 0 of a cast or
GEP, the target of the single pointer of a constant, the node itself
otherwise. -/
def allocationSite (S : PSSHeap) (n : Nat) : Except PSSFault Nat :=
  if S.getType n = .CAST ∨ S.getType n = .GEP then
    match (S.operands n)[0]? with
    | some a => .ok a
    | none => .error .operandOutOfRange
  else if S.getType n = .CONSTANT then
    match S.pointsTo n with
    | [p] => .ok p.1
    | _ => .error .constantWithoutSinglePointer
  else .ok n

/-- The member `getMemoryObjects` (lines 36-60): the heap after the call and the
vector `objects` after the call. -/
def getMemoryObjects (S : PSSHeap) (whereNode n : Nat) (objects : List Nat) :
    Except PSSFault (PSSHeap × List Nat) :=
  let _ := whereNode
  match allocationSite S n with
  | .error e => .error e
  | .ok a =>
    if isAllocationSite (S.getType a) then
      match S.data a with
      | some mo => .ok (S, objects ++ [mo])
      | none => .ok ((S.newMemoryObject a).setData a S.numObjects, objects ++ [S.numObjects])
    else .error .notAnAllocationSite

/-- The nodes `n` the claim lists for an allocation site `a`: `a` itself, a cast
or GEP with operand 0 equal to `a`, a constant whose single pointer targets
`a`. -/
def RefersTo (S : PSSHeap) (n a : Nat) : Prop :=
  n = a ∨
  ((S.getType n = .CAST ∨ S.getType n = .GEP) ∧ (S.operands n)[0]? = some a) ∨
  (S.getType n = .CONSTANT ∧ ∃ off, S.pointsTo n = [(a, off)])

/-- A heap with an allocation (node 0), a cast of it (node 1), a constant
pointing to it (node 2), and no memory object yet. -/
def sampleHeap : PSSHeap :=
  { getType := fun n => if n = 0 then .ALLOC else if n = 1 then .CAST else .CONSTANT,
    operands := fun n => if n = 1 then [0] else [],
    pointsTo := fun n => if n = 2 then [(0, 4)] else [],
    data := fun _ => none,
    numObjects := 0,
    objNode := fun _ => 0,
    objPointsTo := fun _ => [] }

end PointsToFlowInsensitive

namespace PointsToFlowInsensitive

end PointsToFlowInsensitive

end pss

/-! ## The node-level data-flow analysis (`src/analysis/DataFlowAnalysis.h`) -/

namespace DataFlowAnalysis

/-- The `while (n)` loop of `runOnBlock` (lines 143-146) from node pointer `n`
on, with the local `changed` and the analysis state `s` the transfer works on.
`getSuccessor` is the successor link of the nodes and `fuel` bounds the number
of iterations.  The calls of `runOnNode` are logged with their results (the
log is an observation, the program does not read it). -/
def runOnBlockLoop {σ : Type} (getSuccessor : Nat → Option Nat)
    (runOnNode : Nat → σ → Bool × σ) :
    Nat → Option Nat → Bool → σ → List (Nat × Bool) → Option (Bool × σ × List (Nat × Bool))
  | _, none, changed, s, log => some (changed, s, log)
  | 0, some _, _, _, _ => none
  | fuel + 1, some n, changed, s, log =>
    let r := runOnNode n s
    runOnBlockLoop getSuccessor runOnNode fuel (getSuccessor n) (changed || r.1) r.2
      (log ++ [(n, r.1)])

/-- The member `runOnBlock` (lines 138-149): the returned flag, the analysis
state after the call and the log of the `runOnNode` calls. -/
def runOnBlock {σ : Type} (getFirstNode : Nat → Option Nat) (getSuccessor : Nat → Option Nat)
    (runOnNode : Nat → σ → Bool × σ) (fuel : Nat) (B : Nat) (s : σ) :
    Option (Bool × σ × List (Nat × Bool)) :=
  runOnBlockLoop getSuccessor runOnNode fuel (getFirstNode B) false s []

/-- The chain of a block: the nodes met from node pointer `n` on by following
the successor links up to the null link, if that takes at most `k` steps. -/
def chainFrom (getSuccessor : Nat → Option Nat) : Nat → Option Nat → Option (List Nat)
  | _, none => some []
  | 0, some _ => none
  | k + 1, some n => (chainFrom getSuccessor k (getSuccessor n)).map (fun l => n :: l)

/-- Applying `runOnNode` once to each node of a list, in order, each call on the
state left by the one before: the last state and the calls with their
results. -/
def applyInOrder {σ : Type} (runOnNode : Nat → σ → Bool × σ) : List Nat → σ → σ × List (Nat × Bool)
  | [], s => (s, [])
  | n :: ns, s =>
    let r := runOnNode n s
    let t := applyInOrder runOnNode ns r.2
    (t.1, (n, r.1) :: t.2)

end DataFlowAnalysis

namespace BBlockDataFlowAnalysis

end BBlockDataFlowAnalysis

/-! ## Notions used for the block walk -/

/-- A queue discipline: `push` adds the element once and keeps the pending
elements, in whatever order the container arranges them. -/
def QueueT.Keeps (Q : QueueT) : Prop :=
  ∀ (q : List Nat) (x : Nat), (Q.push q x).Perm (x :: q)

/-- A number above the entry block and every block listed as a successor. -/
def BlockGraph.bound (g : BlockGraph) (entry : Nat) : Nat :=
  (entry :: g.succs.flatten).foldr max 0 + 1

namespace BBlockWalk

/-- Number of blocks below `N` that do not carry the id of the run. -/
def unmarked (runid : Nat) (lastwalkid : Nat → Nat) (N : Nat) : Nat :=
  ((List.range N).filter (fun b => decide (lastwalkid b ≠ runid))).length

/-- Number of queue entries whose block carries the id of the run. -/
def markedPending (runid : Nat) (lastwalkid : Nat → Nat) (queue : List Nat) : Nat :=
  (queue.filter (fun b => decide (lastwalkid b = runid))).length

/-- The state after one iteration of the `while` loop of `walk` that dequeues
`BB` and leaves `rest` pending. -/
def afterBlock (Q : QueueT) (g : BlockGraph) (runid : Nat) (st : WalkState) (BB : Nat)
    (rest : List Nat) : WalkState :=
  { lastwalkid := setWalkId st.lastwalkid BB runid,
    queue := pushSuccessors Q runid (setWalkId st.lastwalkid BB runid) (g.successors BB) rest,
    visited := st.visited ++ [BB] }

/-- What holds each time the `while` condition of `walk` is evaluated, when no
block carried the id of the run before the walk: the marked blocks are the
visited ones, visited and pending blocks are reachable from the entry block,
the entry block is visited or pending, and so is every successor of a visited
block. -/
structure WalkInv (g : BlockGraph) (entry runid : Nat) (st : WalkState) : Prop where
  marks : ∀ b, st.lastwalkid b = runid ↔ b ∈ st.visited
  reach : ∀ b, b ∈ st.visited ∨ b ∈ st.queue → Reachable g.successors entry b
  entry_in : entry ∈ st.visited ∨ entry ∈ st.queue
  closed : ∀ a ∈ st.visited, ∀ b ∈ g.successors a, b ∈ st.visited ∨ b ∈ st.queue

end BBlockWalk

end analysis

/-! ## The order in which blocks are built -/

/-- A function shaped like a fork: block 0 branches to blocks 1 and 2, block 1
returns, block 2 falls through to block 3, block 3 returns.  No block has two
predecessors. -/
def forkModule : Module :=
  ⟨[⟨[[.br [1, 2]], [.ret none], [.br [3]], [.ret none]], 0⟩]⟩

/-- The blocks of a graph in the order of their creation, each given by the key
of its first node.  Every call of `build(BB, pred)` creates one block, with the
node of the first instruction of `BB` as first node. -/
def builtBlocks (G : LLVMDependenceGraph) : List Value :=
  (List.range G.numBlocks).filterMap (fun b => (G.firstNode b).map G.key)

/-- The basic blocks of function `f` by distance from the entry block along CFG
edges: the blocks at distance at most `d`, and the blocks at distance exactly
`d`. -/
def cfgLevel (m : Module) (f : Nat) : Nat → List Nat × List Nat
  | 0 => ([0], [0])
  | d + 1 =>
    let prev := cfgLevel m f d
    let next := ((prev.2.map (fun b => successors (m.block f b))).flatten.dedup).filter
      (fun b => decide (b ∉ prev.1))
    (prev.1 ++ next, next)

/-! ## Calls through a pointer -/

/-- A function with one argument, a pointer to a pointer to a function, that
loads the function pointer and calls it: block 0 is `load; call; ret`, and the
call has no statically known called function. -/
def indirectCallModule : Module :=
  ⟨[⟨[[.load (Value.argument 0 0), .call (Value.instruction 0 0 0) none [], .ret none]], 1⟩]⟩

/-- A function with one argument, a pointer to a function, whose first
instruction calls it: block 0 is `call; ret`. -/
def indirectFirstModule : Module :=
  ⟨[⟨[[.call (Value.argument 0 0) none [], .ret none]], 1⟩]⟩

/-! ## Nodes and the graph they belong to -/

/-- What holds of the back-references in the graphs the builder makes: a node
that belongs to the graph is allocated and is the node the container holds
under the key of the node. -/
def LLVMDependenceGraph.Registered (G : LLVMDependenceGraph) : Prop :=
  ∀ n, G.dg n = true → n < G.numNodes ∧ G.nodes (G.key n) = some n

/-- Every graph of the world satisfies `Registered`. -/
def World.AllRegistered (w : World) : Prop :=
  ∀ g, (w.graph g).Registered

/-- Calls of `build(func)` keep `AllRegistered`. -/
def KeepsRegistered (build : World → Nat → Nat → Result (Bool × World)) : Prop :=
  ∀ w this f r w', build w this f = .ok (r, w') → w.AllRegistered → w'.AllRegistered

namespace analysis

/-! ## Properties of the traversals -/

theorem NodesWalk.processEdge_eq (Q : QueueT) (run_id : Nat) (st : WalkState) (tmp : Nat) :
    NodesWalk.processEdge Q run_id st tmp =
      { st with lastwalkid := setWalkId st.lastwalkid tmp run_id } := by
  simp [NodesWalk.processEdge, setWalkId]

theorem NodesWalk.processEdges_queue (Q : QueueT) (run_id : Nat) (edges : List Nat)
    (st : WalkState) :
    (NodesWalk.processEdges Q edges run_id st).queue = st.queue ∧
      (NodesWalk.processEdges Q edges run_id st).visited = st.visited := by
  induction edges generalizing st with
  | nil => simp [NodesWalk.processEdges]
  | cons e es ih =>
    have h := ih (NodesWalk.processEdge Q run_id st e)
    simp only [NodesWalk.processEdges, List.foldl_cons] at h ⊢
    rw [h.1, h.2, NodesWalk.processEdge_eq]
    exact ⟨rfl, rfl⟩

/-- Whatever the graph, the toggles and the marks left by earlier runs, a walk
whose queue starts as `[entry]` calls `func` on the entry node and on nothing
else: `processEdges` never pushes. -/
theorem NodesWalk.walk_visits_entry_only (Q : QueueT) (g : NodeGraph) (entry : Nat)
    (control deps : Bool) (walk_run_counter : Nat) (lastwalkid : Nat → Nat) (fuel : Nat)
    (hQ : Q.push [] entry = [entry]) :
    NodesWalk.walk Q g entry control deps walk_run_counter lastwalkid (fuel + 1) =
      some [entry] := by
  unfold NodesWalk.walk
  simp only [hQ, NodesWalk.walkLoop]
  have h1 := fun st => NodesWalk.processEdges_queue Q (nextRunId walk_run_counter) (g.control entry) st
  have h2 := fun st => NodesWalk.processEdges_queue Q (nextRunId walk_run_counter) (g.data entry) st
  cases fuel with
  | zero =>
    cases control <;> cases deps <;> simp [NodesWalk.walkLoop, h1, h2]
  | succ k =>
    cases control <;> cases deps <;> simp [NodesWalk.walkLoop, h1, h2]

/-- C1, failing input.  On the two-node graph with the single control edge
`0 → 1`, node 1 is reachable from the entry 0, both toggles are on, and the walk
calls `func` on node 0 only. -/
theorem NodesWalk.walk_misses_reachable_node :
    Reachable (NodeGraph.control ⟨[[1], []], [[], []]⟩) 0 1 ∧
    NodesWalk.walk QueueFIFO ⟨[[1], []], [[], []]⟩ 0 true true 0 (fun _ => 0) 10 = some [0] := by
  refine ⟨Reachable.step Reachable.refl (by decide), by decide⟩

/-- C2, failing input.  On the diamond `0 → 1, 0 → 2, 1 → 3, 2 → 3` with a
first-in first-out queue, blocks 1 and 2 are both dequeued before block 3 and
`func` is called on block 3 twice. -/
theorem BBlockWalk.walk_visits_block_twice :
    BBlockWalk.walk QueueFIFO ⟨[[1, 2], [3], [3], []]⟩ 0 0 (fun _ => 0) 10
      = some [0, 1, 2, 3, 3] ∧
    ∀ visited, BBlockWalk.walk QueueFIFO ⟨[[1, 2], [3], [3], []]⟩ 0 0 (fun _ => 0) 10
      = some visited → visited.count 3 = 2 := by
  have h : BBlockWalk.walk QueueFIFO ⟨[[1, 2], [3], [3], []]⟩ 0 0 (fun _ => 0) 10
      = some [0, 1, 2, 3, 3] := by decide
  refine ⟨h, ?_⟩
  intro visited hv
  rw [h] at hv
  cases hv
  decide

namespace BBlockDataFlowAnalysis

/-! ## Properties of the data-flow driver -/

variable {σ : Type}

/-- Effect of the pass loop on a state whose log has an open pass `cur`. -/
theorem foldl_passStep (runOnBlock : Nat → σ → Bool × σ) (L : List Nat) :
    ∀ (rs : RunState σ) (cur : List (Nat × Bool)) (older : List (List (Nat × Bool))),
      rs.log = cur :: older →
      ∃ ents : List (Nat × Bool),
        (L.foldl (passStep runOnBlock) rs).log = (cur ++ ents) :: older ∧
        ents.map Prod.fst = L ∧
        (L.foldl (passStep runOnBlock) rs).changed = (rs.changed || ents.any (fun x => x.2)) ∧
        (L.foldl (passStep runOnBlock) rs).blocks = rs.blocks ∧
        (L.foldl (passStep runOnBlock) rs).statistics.iterationsNum
          = rs.statistics.iterationsNum := by
  induction L with
  | nil =>
    intro rs cur older h
    exact ⟨[], by simp [h]⟩
  | cons b bs ih =>
    intro rs cur older h
    have hlog : (passStep runOnBlock rs b).log
        = (cur ++ [(b, (runOnBlock b rs.state).1)]) :: older := by
      simp [passStep, h]
    obtain ⟨ents, h1, h2, h3, h4, h5⟩ := ih (passStep runOnBlock rs b) _ _ hlog
    refine ⟨(b, (runOnBlock b rs.state).1) :: ents, ?_, ?_, ?_, ?_, ?_⟩
    · simp [List.foldl_cons, h1]
    · simp [h2]
    · simp only [List.foldl_cons, h3]
      simp [passStep, Bool.or_assoc]
    · simp only [List.foldl_cons, h4]; rfl
    · simp only [List.foldl_cons, h5]; rfl

/-- Effect of the initial DFS on a state whose log has an open pass `cur`. -/
theorem foldl_dfs_proc_bb (getDFSOrder : Nat → Nat) (runOnBlock : Nat → σ → Bool × σ)
    (L : List Nat) :
    ∀ (rs : RunState σ) (cur : List (Nat × Bool)) (older : List (List (Nat × Bool))),
      rs.log = cur :: older →
      ∃ ents : List (Nat × Bool),
        (L.foldl (dfs_proc_bb getDFSOrder runOnBlock) rs).log = (cur ++ ents) :: older ∧
        ents.map Prod.fst = L ∧
        (L.foldl (dfs_proc_bb getDFSOrder runOnBlock) rs).changed
          = (rs.changed || ents.any (fun x => x.2)) := by
  induction L with
  | nil =>
    intro rs cur older h
    exact ⟨[], by simp [h]⟩
  | cons b bs ih =>
    intro rs cur older h
    have hlog : (dfs_proc_bb getDFSOrder runOnBlock rs b).log
        = (cur ++ [(b, (runOnBlock b rs.state).1)]) :: older := by
      simp [dfs_proc_bb, h]
    obtain ⟨ents, h1, h2, h3⟩ := ih (dfs_proc_bb getDFSOrder runOnBlock rs b) _ _ hlog
    refine ⟨(b, (runOnBlock b rs.state).1) :: ents, ?_, ?_, ?_⟩
    · simp [List.foldl_cons, h1]
    · simp [h2]
    · simp only [List.foldl_cons, h3]
      simp [dfs_proc_bb, Bool.or_assoc]

theorem whileLoop_inv (runOnBlock : Nat → σ → Bool × σ) (dfsCalls : List Nat) :
    ∀ (fuel : Nat) (rs r : RunState σ), LoopInv dfsCalls rs →
      whileLoop runOnBlock fuel rs = some r →
      LoopInv dfsCalls r ∧ r.changed = false := by
  intro fuel
  induction fuel with
  | zero =>
    intro rs r hinv h
    unfold whileLoop at h
    split at h
    · exact absurd h (by simp)
    · rename_i hc
      cases h
      exact ⟨hinv, by simpa using hc⟩
  | succ k ih =>
    intro rs r hinv h
    unfold whileLoop at h
    split at h
    · rename_i hc
      refine ih _ r ?_ h
      obtain ⟨dfsPass, later, last, earlier, h1, h2, h3, h4, h5, h6, h7⟩ := hinv
      obtain ⟨ents, e1, e2, e3, e4, e5⟩ := foldl_passStep runOnBlock rs.blocks.reverse
        { rs with changed := false, log := [] :: rs.log } [] rs.log rfl
      refine ⟨dfsPass, later ++ [ents], ents, rs.log, ?_, ?_, h3, ?_, ?_, ?_, ?_⟩
      · dsimp only at e1 ⊢
        rw [e1]; simp [h1]
      · dsimp only at e1 ⊢
        rw [e1]; simp
      · intro p hp
        dsimp only at e4 ⊢
        rw [e4]
        rcases List.mem_append.1 hp with hp | hp
        · exact h4 p hp
        · simp at hp; subst hp; exact e2
      · dsimp only at e5 ⊢
        rw [e5, h5]; simp; omega
      · intro p hp
        rw [h2] at hp
        rcases List.mem_cons.1 hp with hp | hp
        · subst hp; exact h7.1 hc
        · exact h6 p hp
      · dsimp only at e3 ⊢
        rw [e3]; simp
    · rename_i hc
      cases h
      exact ⟨hinv, by simpa using hc⟩

variable {σ : Type}

theorem run_inv (getDFSOrder : Nat → Nat) (runOnBlock : Nat → σ → Bool × σ)
    (dfsCalls : List Nat) (fuel : Nat) (s : σ) (r : RunState σ)
    (h : run getDFSOrder runOnBlock dfsCalls fuel s = some r) :
    LoopInv dfsCalls r ∧ r.changed = false := by
  unfold run at h
  refine whileLoop_inv runOnBlock dfsCalls fuel _ r ?_ h
  obtain ⟨ents, e1, e2, e3⟩ := foldl_dfs_proc_bb getDFSOrder runOnBlock dfsCalls
    (initialData s) [] [] rfl
  unfold runDFS
  refine ⟨ents, [], ents, [], ?_, ?_, e2, ?_, ?_, ?_, ?_⟩
  · dsimp only at e1 ⊢
    rw [e1]; simp
  · dsimp only at e1 ⊢
    rw [e1]; simp
  · simp
  · simp
  · simp
  · dsimp only at e3 ⊢
    rw [e3]; simp [initialData]

variable {σ : Type}

/-- A pass never raises the measure, and lowers it when it sets `changed`. -/
theorem foldl_passStep_measure (runOnBlock : Nat → σ → Bool × σ) (μ : σ → Nat)
    (hmono : ∀ b s, μ (runOnBlock b s).2 ≤ μ s)
    (hdec : ∀ b s, (runOnBlock b s).1 = true → μ (runOnBlock b s).2 < μ s) (L : List Nat) :
    ∀ rs : RunState σ,
      μ (L.foldl (passStep runOnBlock) rs).state ≤ μ rs.state ∧
      ((L.foldl (passStep runOnBlock) rs).changed = true → rs.changed = false →
        μ (L.foldl (passStep runOnBlock) rs).state < μ rs.state) ∧
      (L.foldl (passStep runOnBlock) rs).statistics.iterationsNum
        = rs.statistics.iterationsNum := by
  induction L with
  | nil => intro rs; simp
  | cons b bs ih =>
    intro rs
    obtain ⟨i1, i2, i3⟩ := ih (passStep runOnBlock rs b)
    have hs : (passStep runOnBlock rs b).state = (runOnBlock b rs.state).2 := rfl
    have hc : (passStep runOnBlock rs b).changed = (rs.changed || (runOnBlock b rs.state).1) := rfl
    have hi : (passStep runOnBlock rs b).statistics.iterationsNum
        = rs.statistics.iterationsNum := rfl
    simp only [List.foldl_cons]
    refine ⟨?_, ?_, ?_⟩
    · rw [hs] at i1; exact le_trans i1 (hmono b rs.state)
    · intro h1 h2
      rw [hs] at i1 i2
      cases hb : (runOnBlock b rs.state).1 with
      | true => exact lt_of_le_of_lt i1 (hdec b rs.state hb)
      | false =>
        have := i2 h1 (by rw [hc, h2, hb]; rfl)
        exact lt_of_lt_of_le this (hmono b rs.state)
    · rw [i3, hi]

/-- The DFS pass never raises the measure, and lowers it when it sets `changed`. -/
theorem foldl_dfs_measure (getDFSOrder : Nat → Nat) (runOnBlock : Nat → σ → Bool × σ)
    (μ : σ → Nat) (hmono : ∀ b s, μ (runOnBlock b s).2 ≤ μ s)
    (hdec : ∀ b s, (runOnBlock b s).1 = true → μ (runOnBlock b s).2 < μ s) (L : List Nat) :
    ∀ rs : RunState σ,
      μ (L.foldl (dfs_proc_bb getDFSOrder runOnBlock) rs).state ≤ μ rs.state ∧
      ((L.foldl (dfs_proc_bb getDFSOrder runOnBlock) rs).changed = true → rs.changed = false →
        μ (L.foldl (dfs_proc_bb getDFSOrder runOnBlock) rs).state < μ rs.state) := by
  induction L with
  | nil => intro rs; simp
  | cons b bs ih =>
    intro rs
    obtain ⟨i1, i2⟩ := ih (dfs_proc_bb getDFSOrder runOnBlock rs b)
    have hs : (dfs_proc_bb getDFSOrder runOnBlock rs b).state = (runOnBlock b rs.state).2 := rfl
    have hc : (dfs_proc_bb getDFSOrder runOnBlock rs b).changed
        = (rs.changed || (runOnBlock b rs.state).1) := rfl
    simp only [List.foldl_cons]
    refine ⟨?_, ?_⟩
    · rw [hs] at i1; exact le_trans i1 (hmono b rs.state)
    · intro h1 h2
      rw [hs] at i1 i2
      cases hb : (runOnBlock b rs.state).1 with
      | true => exact lt_of_le_of_lt i1 (hdec b rs.state hb)
      | false =>
        have := i2 h1 (by rw [hc, h2, hb]; rfl)
        exact lt_of_lt_of_le this (hmono b rs.state)

theorem whileLoop_terminates (runOnBlock : Nat → σ → Bool × σ) (μ : σ → Nat)
    (hmono : ∀ b s, μ (runOnBlock b s).2 ≤ μ s)
    (hdec : ∀ b s, (runOnBlock b s).1 = true → μ (runOnBlock b s).2 < μ s) :
    ∀ (fuel : Nat) (rs : RunState σ), (rs.changed = true → μ rs.state + 1 ≤ fuel) →
      ∃ r, whileLoop runOnBlock fuel rs = some r ∧
        r.statistics.iterationsNum
          ≤ rs.statistics.iterationsNum + (if rs.changed then μ rs.state + 1 else 0) := by
  intro fuel
  induction fuel with
  | zero =>
    intro rs hf
    cases hc : rs.changed with
    | true => have := hf hc; omega
    | false => exact ⟨rs, by simp [whileLoop, hc], by simp⟩
  | succ k ih =>
    intro rs hf
    cases hc : rs.changed with
    | false => exact ⟨rs, by simp [whileLoop, hc], by simp⟩
    | true =>
      have hk := hf hc
      obtain ⟨m1, m2, m3⟩ := foldl_passStep_measure runOnBlock μ hmono hdec rs.blocks.reverse
        { rs with changed := false, log := [] :: rs.log }
      dsimp only at m1 m2 m3
      have hstep : ∀ rs2 : RunState σ,
          rs2 = rs.blocks.reverse.foldl (passStep runOnBlock)
            { rs with changed := false, log := [] :: rs.log } →
          ∃ r, whileLoop runOnBlock k
              { rs2 with statistics :=
                  { rs2.statistics with iterationsNum := rs2.statistics.iterationsNum + 1 } }
              = some r ∧
            r.statistics.iterationsNum ≤ rs.statistics.iterationsNum + (μ rs.state + 1) := by
        intro rs2 h2
        rw [← h2] at m1 m2 m3
        obtain ⟨r, hr, hle⟩ := ih
          { rs2 with statistics :=
              { rs2.statistics with iterationsNum := rs2.statistics.iterationsNum + 1 } }
          (by
            intro hch
            have := m2 hch rfl
            show μ rs2.state + 1 ≤ k
            omega)
        refine ⟨r, hr, ?_⟩
        have hle2 : r.statistics.iterationsNum
            ≤ (rs2.statistics.iterationsNum + 1) + (if rs2.changed then μ rs2.state + 1 else 0) :=
          hle
        rw [m3] at hle2
        split at hle2
        · rename_i hch
          have := m2 hch rfl
          omega
        · omega
      obtain ⟨r, hr, hle⟩ := hstep _ rfl
      refine ⟨r, ?_, ?_⟩
      · rw [← hr]
        simp only [whileLoop, hc, if_true]
      · simpa using hle

/-- C4.  If a natural-number measure of the analysis state is never raised by
`runOnBlock` and is lowered by every call that returns true, then `run` returns
(fuel equal to the initial measure suffices, whatever finite sequence of blocks
the DFS reaches) and `iterationsNum` is at most the initial measure plus one. -/
theorem run_terminates_on_bounded_measure (getDFSOrder : Nat → Nat)
    (runOnBlock : Nat → σ → Bool × σ) (μ : σ → Nat)
    (hmono : ∀ b s, μ (runOnBlock b s).2 ≤ μ s)
    (hdec : ∀ b s, (runOnBlock b s).1 = true → μ (runOnBlock b s).2 < μ s)
    (dfsCalls : List Nat) (s : σ) (fuel : Nat) (hfuel : μ s ≤ fuel) :
    ∃ r, run getDFSOrder runOnBlock dfsCalls fuel s = some r ∧
      r.statistics.iterationsNum ≤ μ s + 1 := by
  obtain ⟨d1, d2⟩ := foldl_dfs_measure getDFSOrder runOnBlock μ hmono hdec dfsCalls
    (initialData s)
  have d2 := fun h => d2 h rfl
  have hs : (initialData s).state = s := rfl
  rw [hs] at d1 d2
  obtain ⟨r, hr, hle⟩ := whileLoop_terminates runOnBlock μ hmono hdec fuel
    { (runDFS getDFSOrder runOnBlock dfsCalls s) with
      statistics :=
        { processedBlocks := (runDFS getDFSOrder runOnBlock dfsCalls s).blocks.length,
          bblocksNum := (runDFS getDFSOrder runOnBlock dfsCalls s).blocks.length,
          iterationsNum := 1 } }
    (by
      intro hch
      have := d2 hch
      show μ (runDFS getDFSOrder runOnBlock dfsCalls s).state + 1 ≤ fuel
      unfold runDFS
      omega)
  refine ⟨r, hr, ?_⟩
  dsimp only at hle
  split at hle
  · rename_i hch
    have := d2 hch
    unfold runDFS at hle
    omega
  · omega

/-- The statement of `run_terminates_on_bounded_measure` on the countdown
transfer, whose measure is the counter itself. -/
theorem run_terminates_on_bounded_measure_witness :
    (∀ b s : Nat, (countdownTransfer b s).2 ≤ s) ∧
    (∀ b s : Nat, (countdownTransfer b s).1 = true → (countdownTransfer b s).2 < s) ∧
    (2 ≤ 2) ∧
    ∃ r, run (fun b => b) countdownTransfer [0, 1, 2] 2 2 = some r ∧
      r.statistics.iterationsNum ≤ 2 + 1 :=
  ⟨fun b s => by simp [countdownTransfer],
    fun b s h => by simp [countdownTransfer] at h ⊢; omega,
    le_refl 2,
    run_terminates_on_bounded_measure (fun b => b) countdownTransfer (fun s => s)
      (fun b s => by simp [countdownTransfer])
      (fun b s h => by simp [countdownTransfer] at h ⊢; omega) [0, 1, 2] 2 2 (le_refl 2)⟩

end BBlockDataFlowAnalysis
end analysis

/-! ## Frame properties of the builder -/

theorem SameButRefcount.same_refl (G : LLVMDependenceGraph) : SameButRefcount G G := rfl

theorem SameButRefcount.same_trans {G1 G2 G3 : LLVMDependenceGraph}
    (h1 : SameButRefcount G1 G2) (h2 : SameButRefcount G2 G3) : SameButRefcount G1 G3 := by
  unfold SameButRefcount at *
  rw [h2, h1]

theorem SameButRefcount.same_setRefcount (G : LLVMDependenceGraph) (r : Int) :
    SameButRefcount G { G with refcount := r } := rfl

theorem OthersSame.others_refl (w : World) (this : Nat) : OthersSame w w this :=
  ⟨le_refl _, fun _ _ _ => SameButRefcount.same_refl _⟩

theorem OthersSame.others_trans {w1 w2 w3 : World} {this : Nat}
    (h1 : OthersSame w1 w2 this) (h2 : OthersSame w2 w3 this) : OthersSame w1 w3 this :=
  ⟨le_trans h1.1 h2.1, fun g hg hne =>
    (h1.2 g hg hne).same_trans (h2.2 g (lt_of_lt_of_le hg h1.1) hne)⟩

@[simp] theorem World.modify_numGraphs (w : World) (g : Nat)
    (f : LLVMDependenceGraph → LLVMDependenceGraph) : (w.modify g f).numGraphs = w.numGraphs :=
  rfl

@[simp] theorem World.modify_graph_self (w : World) (g : Nat)
    (f : LLVMDependenceGraph → LLVMDependenceGraph) : (w.modify g f).graph g = f (w.graph g) := by
  simp [World.modify]

theorem World.modify_graph_other (w : World) (g g' : Nat)
    (f : LLVMDependenceGraph → LLVMDependenceGraph) (h : g' ≠ g) :
    (w.modify g f).graph g' = w.graph g' := by
  simp [World.modify, h]

@[simp] theorem World.modify_constructedFunctions (w : World) (g : Nat)
    (f : LLVMDependenceGraph → LLVMDependenceGraph) :
    (w.modify g f).constructedFunctions = w.constructedFunctions := rfl

theorem OthersSame.others_modify (w : World) (this : Nat)
    (f : LLVMDependenceGraph → LLVMDependenceGraph) : OthersSame w (w.modify this f) this :=
  ⟨le_refl _, fun g _ hne => by rw [World.modify_graph_other _ _ _ _ hne]; exact rfl⟩

/-- A change of one reference count keeps every graph the same up to its
reference count. -/
theorem World.modify_refcount_same (w : World) (sub : Nat) (d : Int → Int) (g : Nat) :
    SameButRefcount (w.graph g)
      ((w.modify sub (fun G => { G with refcount := d G.refcount })).graph g) := by
  by_cases h : g = sub
  · subst h; simp; exact rfl
  · rw [World.modify_graph_other _ _ _ _ h]; exact rfl

theorem mem_setInsert {s : List Nat} {x y : Nat} : x ∈ setInsert s y ↔ x ∈ s ∨ x = y := by
  unfold setInsert
  by_cases h : y ∈ s
  · rw [if_pos h]
    constructor
    · intro hx; exact Or.inl hx
    · rintro (hx | hx)
      · exact hx
      · rw [hx]; exact h
  · rw [if_neg h]; simp

theorem Ext.ext_refl (G : LLVMDependenceGraph) : Ext G G :=
  ⟨le_refl _, le_refl _, fun _ _ => rfl, fun _ _ => rfl, fun _ _ => rfl, fun _ _ => rfl,
    fun _ _ _ h => h, fun _ _ => rfl, fun _ _ => rfl, fun _ _ _ h => h, fun _ _ h => h,
    fun _ h => h⟩

theorem Ext.ext_trans {G1 G2 G3 : LLVMDependenceGraph} (h1 : Ext G1 G2) (h2 : Ext G2 G3) :
    Ext G1 G3 where
  numNodes_le := le_trans h1.numNodes_le h2.numNodes_le
  numBlocks_le := le_trans h1.numBlocks_le h2.numBlocks_le
  key_eq n hn := by rw [h2.key_eq n (lt_of_lt_of_le hn h1.numNodes_le), h1.key_eq n hn]
  nextNode_eq n hn := by
    rw [h2.nextNode_eq n (lt_of_lt_of_le hn h1.numNodes_le), h1.nextNode_eq n hn]
  prevNode_eq n hn := by
    rw [h2.prevNode_eq n (lt_of_lt_of_le hn h1.numNodes_le), h1.prevNode_eq n hn]
  basicBlock_eq n hn := by
    rw [h2.basicBlock_eq n (lt_of_lt_of_le hn h1.numNodes_le), h1.basicBlock_eq n hn]
  controlDeps_sub n hn x hx :=
    h2.controlDeps_sub n (lt_of_lt_of_le hn h1.numNodes_le) x (h1.controlDeps_sub n hn x hx)
  firstNode_eq b hb := by
    rw [h2.firstNode_eq b (lt_of_lt_of_le hb h1.numBlocks_le), h1.firstNode_eq b hb]
  lastNode_eq b hb := by
    rw [h2.lastNode_eq b (lt_of_lt_of_le hb h1.numBlocks_le), h1.lastNode_eq b hb]
  blockSuccessors_sub b hb x hx :=
    h2.blockSuccessors_sub b (lt_of_lt_of_le hb h1.numBlocks_le) x
      (h1.blockSuccessors_sub b hb x hx)
  nodes_mono k n h := h2.nodes_mono k n (h1.nodes_mono k n h)
  exitNode_mono e h := h2.exitNode_mono e (h1.exitNode_mono e h)

theorem Frame.frame_refl (G : LLVMDependenceGraph) : Frame G G :=
  ⟨Ext.ext_refl G, rfl, rfl, rfl, rfl, rfl, rfl, rfl, rfl, rfl⟩

theorem Frame.frame_trans {G1 G2 G3 : LLVMDependenceGraph} (h1 : Frame G1 G2) (h2 : Frame G2 G3) :
    Frame G1 G3 where
  ext := h1.ext.ext_trans h2.ext
  numBlocks_eq := by rw [h2.numBlocks_eq, h1.numBlocks_eq]
  firstNode_eq := by rw [h2.firstNode_eq, h1.firstNode_eq]
  lastNode_eq := by rw [h2.lastNode_eq, h1.lastNode_eq]
  blockSuccessors_eq := by rw [h2.blockSuccessors_eq, h1.blockSuccessors_eq]
  nodes_eq := by rw [h2.nodes_eq, h1.nodes_eq]
  entryNode_eq := by rw [h2.entryNode_eq, h1.entryNode_eq]
  exitNode_eq := by rw [h2.exitNode_eq, h1.exitNode_eq]
  entryBB_eq := by rw [h2.entryBB_eq, h1.entryBB_eq]
  exitBB_eq := by rw [h2.exitBB_eq, h1.exitBB_eq]

/-- A graph state that differs from `G` only in fields outside the frame and in
more control-dependence edges is framed by `G`. -/
theorem Frame.of_fields {G G' : LLVMDependenceGraph}
    (h1 : G'.numNodes = G.numNodes) (h2 : G'.key = G.key) (h3 : G'.nextNode = G.nextNode)
    (h4 : G'.prevNode = G.prevNode) (h5 : G'.basicBlock = G.basicBlock)
    (h6 : ∀ n, ∀ x ∈ G.controlDeps n, x ∈ G'.controlDeps n)
    (h7 : G'.numBlocks = G.numBlocks) (h8 : G'.firstNode = G.firstNode)
    (h9 : G'.lastNode = G.lastNode) (h10 : G'.blockSuccessors = G.blockSuccessors)
    (h11 : G'.nodes = G.nodes) (h12 : G'.entryNode = G.entryNode)
    (h13 : G'.exitNode = G.exitNode) (h14 : G'.entryBB = G.entryBB)
    (h15 : G'.exitBB = G.exitBB) : Frame G G' where
  ext :=
    { numNodes_le := by rw [h1]
      numBlocks_le := by rw [h7]
      key_eq := fun n _ => by rw [h2]
      nextNode_eq := fun n _ => by rw [h3]
      prevNode_eq := fun n _ => by rw [h4]
      basicBlock_eq := fun n _ => by rw [h5]
      controlDeps_sub := fun n _ => h6 n
      firstNode_eq := fun b _ => by rw [h8]
      lastNode_eq := fun b _ => by rw [h9]
      blockSuccessors_sub := fun b _ x hx => by rw [h10]; exact hx
      nodes_mono := fun k n h => by rw [h11]; exact h
      exitNode_mono := fun e h => by rw [h13]; exact h }
  numBlocks_eq := h7
  firstNode_eq := h8
  lastNode_eq := h9
  blockSuccessors_eq := h10
  nodes_eq := h11
  entryNode_eq := h12
  exitNode_eq := h13
  entryBB_eq := h14
  exitBB_eq := h15

theorem Frame.of_same {G G' : LLVMDependenceGraph} (h : SameButRefcount G G') : Frame G G' := by
  unfold SameButRefcount at h
  rw [h]
  exact Frame.of_fields rfl rfl rfl rfl rfl (fun _ _ hx => hx) rfl rfl rfl rfl rfl rfl rfl rfl rfl

theorem frame_newNode (G : LLVMDependenceGraph) (val : Value) : Frame G (G.newNode val) where
  ext :=
    { numNodes_le := by simp [LLVMDependenceGraph.newNode]
      numBlocks_le := le_refl _
      key_eq := fun n hn => by
        simp [LLVMDependenceGraph.newNode, Function.update_apply, Nat.ne_of_lt hn]
      nextNode_eq := fun n hn => by
        simp [LLVMDependenceGraph.newNode, Function.update_apply, Nat.ne_of_lt hn]
      prevNode_eq := fun n hn => by
        simp [LLVMDependenceGraph.newNode, Function.update_apply, Nat.ne_of_lt hn]
      basicBlock_eq := fun n hn => by
        simp [LLVMDependenceGraph.newNode, Function.update_apply, Nat.ne_of_lt hn]
      controlDeps_sub := fun n hn x hx => by
        simpa [LLVMDependenceGraph.newNode, Function.update_apply, Nat.ne_of_lt hn] using hx
      firstNode_eq := fun _ _ => rfl
      lastNode_eq := fun _ _ => rfl
      blockSuccessors_sub := fun _ _ _ hx => hx
      nodes_mono := fun _ _ h => h
      exitNode_mono := fun _ h => h }
  numBlocks_eq := rfl
  firstNode_eq := rfl
  lastNode_eq := rfl
  blockSuccessors_eq := rfl
  nodes_eq := rfl
  entryNode_eq := rfl
  exitNode_eq := rfl
  entryBB_eq := rfl
  exitBB_eq := rfl

theorem frame_addControlDependence (G : LLVMDependenceGraph) (a b : Nat) :
    Frame G (G.addControlDependence a b) :=
  Frame.of_fields rfl rfl rfl rfl rfl
    (fun n x hx => by
      simp only [LLVMDependenceGraph.addControlDependence, Function.update_apply]
      split
      · rename_i h; subst h; exact mem_setInsert.2 (Or.inl hx)
      · exact hx)
    rfl rfl rfl rfl rfl rfl rfl rfl rfl

theorem frame_addParameterNodes (owner : Nat) (vals : List Value) :
    ∀ (G : LLVMDependenceGraph) (params : LLVMDGParameters),
      Frame G (addParameterNodes owner vals G params).1 := by
  induction vals with
  | nil => intro G params; exact Frame.frame_refl G
  | cons v vs ih =>
    intro G params
    simp only [addParameterNodes]
    refine Frame.frame_trans ?_ (ih _ _)
    exact ((frame_newNode G v).frame_trans (frame_newNode _ v)).frame_trans
      ((frame_addControlDependence _ _ _).frame_trans (frame_addControlDependence _ _ _))

theorem frame_addActualParameters {G G' : LLVMDependenceGraph} {node arg_size : Nat}
    {args : List Value} (h : addActualParameters G node arg_size args = .ok G') :
    Frame G G' := by
  unfold addActualParameters at h
  split at h
  · cases h; exact Frame.frame_refl G
  · split at h
    · cases h
    · cases h
      refine (frame_addParameterNodes node args G []).frame_trans ?_
      exact Frame.of_fields rfl rfl rfl rfl rfl (fun _ _ hx => hx) rfl rfl rfl rfl rfl rfl rfl
        rfl rfl

theorem frame_addFormalParameters {m : Module} {G G' : LLVMDependenceGraph}
    (h : addFormalParameters m G = .ok G') : Frame G G' := by
  unfold addFormalParameters at h
  split at h
  · cases h
  · split at h
    · split at h
      · cases h; exact Frame.frame_refl G
      · cases h
        exact Frame.frame_trans (frame_addParameterNodes _ _ G [])
          (Frame.of_fields rfl rfl rfl rfl rfl (fun _ _ hx => hx) rfl rfl rfl rfl rfl rfl rfl
            rfl rfl)
    · cases h

theorem getSubgraph_same {build : World → Nat → Nat → Result (Bool × World)}
    (hk : KeepsOthers build) {w w3 : World} {callFunc subgraph : Nat}
    (h : getSubgraph build w callFunc = .ok (w3, subgraph)) :
    w.numGraphs ≤ w3.numGraphs ∧
      ∀ g, g < w.numGraphs → SameButRefcount (w.graph g) (w3.graph g) := by
  unfold getSubgraph at h
  split at h
  · cases h
    exact ⟨le_refl _, fun _ _ => SameButRefcount.same_refl _⟩
  · dsimp only at h
    split at h
    · cases h
    · cases h
    · rename_i w2 hb
      cases h
      have ho := hk _ _ _ _ _ (by simp [World.newGraph]) hb
      refine ⟨?_, ?_⟩
      · have := ho.1
        simp [World.newGraph, World.unref] at this ⊢
        omega
      · intro g hg
        have h1 := ho.2 g (by simp [World.newGraph]; omega) (Nat.ne_of_lt hg)
        have h2 : ({ w.newGraph with
            constructedFunctions :=
              fun x => if x = callFunc then some w.numGraphs else w.constructedFunctions x }
            : World).graph g = w.graph g := by
          simp [World.newGraph, Nat.ne_of_lt hg]
        rw [h2] at h1
        exact h1.same_trans (World.modify_refcount_same w2 w.numGraphs (fun r => r - 1) g)

theorem buildSubgraph_frame {build : World → Nat → Nat → Result (Bool × World)}
    (hk : KeepsOthers build) {m : Module} {w w' : World} {this node : Nat} {inst : Instruction}
    (hthis : this < w.numGraphs) (h : buildSubgraph build m w this node inst = .ok w') :
    OthersSame w w' this ∧ Frame (w.graph this) (w'.graph this) := by
  unfold buildSubgraph at h
  split at h
  · split at h
    · cases h
    · split at h
      · cases h
      · rename_i w3 subgraph hsub
        obtain ⟨hn, hs⟩ := getSubgraph_same hk hsub
        split at h
        · cases h
        · rename_i BB hBB
          dsimp only at h
          split at h
          · cases h
          · rename_i G hG
            cases h
            have hF := frame_addActualParameters hG
            constructor
            · refine ⟨by simpa [World.addSubgraph, World.ref] using hn, ?_⟩
              intro g hg hne
              rw [World.modify_graph_other _ _ _ _ hne]
              refine (hs g hg).same_trans ?_
              have := World.modify_refcount_same
                ((w3.modify this (fun G => G.addCallsite BB node)).modify this (fun G =>
                  { G with subgraphs :=
                      Function.update G.subgraphs node (setInsert (G.subgraphs node) subgraph) }))
                subgraph (fun r => r + 1) g
              rw [World.modify_graph_other _ _ _ _ hne, World.modify_graph_other _ _ _ _ hne]
                at this
              exact this
            · rw [World.modify_graph_self]
              refine Frame.frame_trans ?_ hF
              refine (Frame.of_same (hs this hthis)).frame_trans ?_
              have h5 := World.modify_refcount_same
                ((w3.modify this (fun G => G.addCallsite BB node)).modify this (fun G =>
                  { G with subgraphs :=
                      Function.update G.subgraphs node (setInsert (G.subgraphs node) subgraph) }))
                subgraph (fun r => r + 1) this
              refine Frame.frame_trans ?_ (Frame.of_same h5)
              rw [World.modify_graph_self, World.modify_graph_self]
              exact Frame.of_fields rfl rfl rfl rfl rfl (fun _ _ hx => hx) rfl rfl rfl rfl rfl rfl
                rfl rfl rfl
  · cases h

theorem handleCallSite_frame {build : World → Nat → Nat → Result (Bool × World)}
    (hk : KeepsOthers build) {m : Module} {w w' : World} {this node : Nat} {inst : Instruction}
    (hthis : this < w.numGraphs) (h : handleCallSite build m w this node inst = .ok w') :
    OthersSame w w' this ∧ Frame (w.graph this) (w'.graph this) := by
  unfold handleCallSite at h
  split at h
  · split at h
    · cases h
    · exact buildSubgraph_frame hk hthis h
    · cases h; exact ⟨OthersSame.others_refl _ _, Frame.frame_refl _⟩
  · cases h; exact ⟨OthersSame.others_refl _ _, Frame.frame_refl _⟩

theorem mapInsert_mono {α : Type} (mp : Value → Option α) (k : Value) (v : α) (k' : Value)
    (a : α) (h : mp k' = some a) : mapInsert mp k v k' = some a := by
  unfold mapInsert
  by_cases hk : k' = k
  · subst hk; simp [h]
  · simp [hk, h]

theorem mapInsert_eq_some {α : Type} (mp : Value → Option α) (k : Value) (v : α) (k' : Value)
    (a : α) (h : mapInsert mp k v k' = some a) : mp k' = some a ∨ (k' = k ∧ a = v ∧ mp k = none) := by
  unfold mapInsert at h
  by_cases hk : k' = k
  · subst hk
    simp only [if_true] at h
    cases hm : mp k' with
    | some old => rw [hm] at h; exact Or.inl h
    | none => rw [hm] at h; simp at h; exact Or.inr ⟨rfl, h.symm, rfl⟩
  · simp only [hk, if_false] at h; exact Or.inl h

theorem mapInsert_new {α : Type} (mp : Value → Option α) (k : Value) (v : α)
    (h : mp k = none) : mapInsert mp k v k = some v := by
  simp [mapInsert, h]

theorem ext_addNode (G : LLVMDependenceGraph) (n : Nat) : Ext G (G.addNode n) :=
  { (Ext.ext_refl G) with nodes_mono := fun _ _ h => mapInsert_mono _ _ _ _ _ h }

theorem ext_newBlock (G : LLVMDependenceGraph) (a b : Option Nat) : Ext G (G.newBlock a b) :=
  { (Ext.ext_refl G) with
    numBlocks_le := by simp [LLVMDependenceGraph.newBlock]
    firstNode_eq := fun b hb => by
      simp [LLVMDependenceGraph.newBlock, Function.update_apply, Nat.ne_of_lt hb]
    lastNode_eq := fun b hb => by
      simp [LLVMDependenceGraph.newBlock, Function.update_apply, Nat.ne_of_lt hb]
    blockSuccessors_sub := fun b hb x hx => by
      simpa [LLVMDependenceGraph.newBlock, Function.update_apply, Nat.ne_of_lt hb] using hx }

theorem ext_addSuccessor (G : LLVMDependenceGraph) (a b : Nat) : Ext G (G.addSuccessor a b) :=
  { (Ext.ext_refl G) with
    blockSuccessors_sub := fun c _ x hx => by
      simp only [LLVMDependenceGraph.addSuccessor, Function.update_apply]
      split
      · rename_i h; subst h; exact mem_setInsert.2 (Or.inl hx)
      · exact hx }

theorem ext_setBasicBlock {G0 G : LLVMDependenceGraph} (hE : Ext G0 G) (n b : Nat)
    (hn : G0.numNodes ≤ n) : Ext G0 (G.setBasicBlock n b) :=
  { hE with
    basicBlock_eq := fun k hk => by
      simp [LLVMDependenceGraph.setBasicBlock, Function.update_apply,
        Nat.ne_of_lt (lt_of_lt_of_le hk hn), hE.basicBlock_eq k hk] }

theorem ext_setLastNode {G0 G : LLVMDependenceGraph} (hE : Ext G0 G) (b n : Nat)
    (hb : G0.numBlocks ≤ b) : Ext G0 (G.setLastNode b n) :=
  { hE with
    lastNode_eq := fun k hk => by
      simp [LLVMDependenceGraph.setLastNode, Function.update_apply,
        Nat.ne_of_lt (lt_of_lt_of_le hk hb), hE.lastNode_eq k hk] }

theorem ext_setSuccessor {G0 G : LLVMDependenceGraph} (hE : Ext G0 G) (p s : Nat)
    (hp : G0.numNodes ≤ p) (hs : G0.numNodes ≤ s) : Ext G0 (G.setSuccessor p s) :=
  { hE with
    nextNode_eq := fun k hk => by
      simp [LLVMDependenceGraph.setSuccessor, Function.update_apply,
        Nat.ne_of_lt (lt_of_lt_of_le hk hp), hE.nextNode_eq k hk]
    prevNode_eq := fun k hk => by
      simp [LLVMDependenceGraph.setSuccessor, Function.update_apply,
        Nat.ne_of_lt (lt_of_lt_of_le hk hs), hE.prevNode_eq k hk]
    basicBlock_eq := fun k hk => by
      simp [LLVMDependenceGraph.setSuccessor, Function.update_apply,
        Nat.ne_of_lt (lt_of_lt_of_le hk hs), hE.basicBlock_eq k hk] }

/-- Extension by a node for the next instruction, linked behind `predNode`, when
`predNode` is itself newer than the base graph. -/
theorem ext_linkNode {G0 G : LLVMDependenceGraph} (hE : Ext G0 G) (val : Value) (predNode : Nat)
    (hp : G0.numNodes ≤ predNode) :
    Ext G0 (((G.newNode val).addNode G.numNodes).setSuccessor predNode G.numNodes) :=
  ext_setSuccessor ((hE.ext_trans (frame_newNode G val).ext).ext_trans (ext_addNode _ _)) _ _ hp
    hE.numNodes_le

theorem ext_startBlock (G : LLVMDependenceGraph) (f BB : Nat) (predBB : Option Nat) :
    Ext G (startBlock G f BB predBB) := by
  have h1 : Ext G ((G.newNode (Value.instruction f BB 0)).addNode G.numNodes) :=
    (frame_newNode G _).ext.ext_trans (ext_addNode _ _)
  have h2 : Ext G (createBasicBlock ((G.newNode (Value.instruction f BB 0)).addNode G.numNodes)
      G.numNodes predBB) := by
    cases predBB with
    | none => exact h1.ext_trans (ext_newBlock _ _ _)
    | some p => exact (h1.ext_trans (ext_newBlock _ _ _)).ext_trans (ext_addSuccessor _ _ _)
  have h3 := ext_setBasicBlock h2 G.numNodes G.numBlocks (le_refl _)
  cases predBB with
  | none =>
    exact { h3 with }
  | some p => exact h3

theorem buildInstructions_ext {build : World → Nat → Nat → Result (Bool × World)}
    (hk : KeepsOthers build) (m : Module) (this f BB : Nat) (G0 : LLVMDependenceGraph) :
    ∀ (rest : List Instruction) (idx : Nat) (w : World) (predNode : Nat) (w' : World)
      (last : Nat), this < w.numGraphs → Ext G0 (w.graph this) → G0.numNodes ≤ predNode →
      buildInstructions build m this f BB rest idx w predNode = .ok (w', last) →
      OthersSame w w' this ∧ Ext G0 (w'.graph this) ∧ G0.numNodes ≤ last := by
  intro rest
  induction rest with
  | nil =>
    intro idx w predNode w' last _ hE hp h
    simp only [buildInstructions] at h
    cases h
    exact ⟨OthersSame.others_refl _ _, hE, hp⟩
  | cons inst rest ih =>
    intro idx w predNode w' last hthis hE hp h
    simp only [buildInstructions] at h
    split at h
    · cases h
    · rename_i w2 hc
      obtain ⟨ho, hF⟩ := handleCallSite_frame hk (by simpa using hthis) hc
      rw [World.modify_graph_self] at hF
      have hE2 : Ext G0 (w2.graph this) := (ext_linkNode hE (Value.instruction f BB idx) predNode hp).ext_trans hF.ext
      have hthis2 : this < w2.numGraphs := lt_of_lt_of_le (by simpa using hthis) ho.1
      obtain ⟨ho3, hE3, hl⟩ := ih (idx + 1) w2 _ w' last hthis2 hE2
        (le_trans hE.numNodes_le (le_refl _)) h
      exact ⟨((OthersSame.others_modify w this _).others_trans ho).others_trans ho3, hE3, hl⟩

theorem ext_addExit {G G' : LLVMDependenceGraph} {f BB node nodesBB : Nat}
    (h : addExit G f BB node nodesBB = .ok G') : Ext G G' := by
  unfold addExit at h
  cases hx : G.exitNode with
  | some e =>
    rw [hx] at h
    dsimp only at h
    split at h
    · cases h
      exact ((frame_addControlDependence _ _ _).ext).ext_trans (ext_addSuccessor _ _ _)
    · cases h
  | none =>
    rw [hx] at h
    dsimp only at h
    cases h
    have h1 : Ext G (((G.newNode (Value.phonyReturn f BB)).addNode G.numNodes).newBlock
        (some G.numNodes) (some G.numNodes)) :=
      ((frame_newNode G _).ext.ext_trans (ext_addNode _ _)).ext_trans (ext_newBlock _ _ _)
    have h2 : Ext G { ((G.newNode (Value.phonyReturn f BB)).addNode G.numNodes).newBlock
        (some G.numNodes) (some G.numNodes) with
        exitNode := some G.numNodes,
        exitBB := some ((G.newNode (Value.phonyReturn f BB)).addNode G.numNodes).numBlocks } :=
      { h1 with exitNode_mono := fun e he => by rw [hx] at he; cases he }
    exact (h2.ext_trans (frame_addControlDependence _ _ _).ext).ext_trans (ext_addSuccessor _ _ _)

theorem ext_finishBlock {G0 G G' : LLVMDependenceGraph} {f BB node nodesBB : Nat}
    {insts : List Instruction} {r : Bool} (hE : Ext G0 G) (hb : G0.numBlocks ≤ nodesBB)
    (h : finishBlock G f BB insts node nodesBB = .ok (r, G')) : Ext G0 G' := by
  unfold finishBlock at h
  split at h
  · cases h; exact hE
  · dsimp only at h
    split at h
    · cases h
    · rename_i G4 hG4
      have hE4 : Ext G0 G4 := by
        split at hG4
        · exact hE.ext_trans (ext_addExit hG4)
        · cases hG4; exact hE
      split at h
      · cases h
      · cases h
      · cases h
        exact ext_setLastNode hE4 _ _ hb

theorem buildBlock_ext {build : World → Nat → Nat → Result (Bool × World)}
    (hk : KeepsOthers build) {m : Module} {w w' : World} {this f BB : Nat} {pred : Option Nat}
    {r : Bool} (hthis : this < w.numGraphs)
    (h : buildBlock build m w this f BB pred = .ok (r, w')) :
    OthersSame w w' this ∧ Ext (w.graph this) (w'.graph this) := by
  unfold buildBlock at h
  split at h
  · cases h
  · split at h
    · cases h
    · rename_i predBB _
      dsimp only at h
      split at h
      · cases h
      · rename_i w2 hc
        obtain ⟨ho2, hF2⟩ := handleCallSite_frame hk (by simpa using hthis) hc
        rw [World.modify_graph_self] at hF2
        have hE2 : Ext (w.graph this) (w2.graph this) :=
          (ext_startBlock _ f BB predBB).ext_trans hF2.ext
        have hthis2 : this < w2.numGraphs := lt_of_lt_of_le (by simpa using hthis) ho2.1
        split at h
        · cases h
        · rename_i w3 last hi
          obtain ⟨ho3, hE3, _⟩ := buildInstructions_ext hk m this f BB (w.graph this) _ _ _ _ _ _
            hthis2 hE2 (le_refl _) hi
          split at h
          · cases h
          · rename_i r' G hfin
            cases h
            refine ⟨(((OthersSame.others_modify w this _).others_trans ho2).others_trans ho3).others_trans
              (OthersSame.others_modify w3 this _), ?_⟩
            rw [World.modify_graph_self]
            exact ext_finishBlock hE3 (le_refl _) hfin

theorem processSuccessors_ext (m : Module) (this f BB : Nat) :
    ∀ (succs : List Nat) (WQ : List (Nat × Option Nat)) (processedBB : List Nat)
      (G : LLVMDependenceGraph) (WQ' : List (Nat × Option Nat)) (processedBB' : List Nat)
      (G' : LLVMDependenceGraph),
      processSuccessors m this f BB succs WQ processedBB G = .ok (WQ', processedBB', G') →
      Ext G G' := by
  intro succs
  induction succs with
  | nil =>
    intro WQ processedBB G WQ' processedBB' G' h
    simp only [processSuccessors] at h
    cases h
    exact Ext.ext_refl G
  | cons S rest ih =>
    intro WQ processedBB G WQ' processedBB' G' h
    simp only [processSuccessors] at h
    split at h
    · split at h
      · cases h
      · split at h
        · cases h
        · split at h
          · cases h
          · split at h
            · cases h
            · exact (ext_addSuccessor _ _ _).ext_trans (ih _ _ _ _ _ _ h)
    · exact ih _ _ _ _ _ _ h

theorem buildLoop_ext {build : World → Nat → Nat → Result (Bool × World)}
    (hk : KeepsOthers build) (m : Module) (this f : Nat) :
    ∀ (fuel : Nat) (WQ : List (Nat × Option Nat)) (processedBB : List Nat) (w w' : World),
      this < w.numGraphs → buildLoop build m this f fuel WQ processedBB w = .ok w' →
      OthersSame w w' this ∧ Ext (w.graph this) (w'.graph this) := by
  intro fuel
  induction fuel with
  | zero =>
    intro WQ processedBB w w' _ h
    simp only [buildLoop] at h
    split at h
    · cases h; exact ⟨OthersSame.others_refl _ _, Ext.ext_refl _⟩
    · cases h
  | succ k ih =>
    intro WQ processedBB w w' hthis h
    simp only [buildLoop] at h
    split at h
    · cases h; exact ⟨OthersSame.others_refl _ _, Ext.ext_refl _⟩
    · split at h
      · cases h
      · rename_i r w1 hb
        obtain ⟨ho1, hE1⟩ := buildBlock_ext hk hthis hb
        split at h
        · cases h
        · rename_i WQ2 processedBB2 G hp
          have hE2 := processSuccessors_ext m this f _ _ _ _ _ _ _ _ hp
          obtain ⟨ho3, hE3⟩ := ih _ _ _ w' (by simpa using lt_of_lt_of_le hthis ho1.1) h
          rw [World.modify_graph_self] at hE3
          exact ⟨(ho1.others_trans (OthersSame.others_modify w1 this _)).others_trans ho3, (hE1.ext_trans hE2).ext_trans hE3⟩

theorem frame_finishFunction {m : Module} {G G' : LLVMDependenceGraph} {entry : Nat}
    (h : finishFunction m G entry = .ok G') : Frame G G' := by
  unfold finishFunction at h
  split at h
  · cases h
  · split at h
    · cases h
    · split at h
      · cases h
      · split at h
        · cases h
        · split at h
          · cases h
          · exact (frame_addControlDependence _ _ _).frame_trans (frame_addFormalParameters h)

theorem buildFunction_others {build : World → Nat → Nat → Result (Bool × World)}
    (hk : KeepsOthers build) (m : Module) (fuel : Nat) : KeepsOthers (buildFunction build m fuel) := by
  intro w this f r w' hthis h
  unfold buildFunction at h
  split at h
  · cases h; exact OthersSame.others_refl _ _
  · dsimp only at h
    split at h
    · cases h
    · rename_i w3 hl
      split at h
      · cases h
      · cases h
        obtain ⟨ho, _⟩ := buildLoop_ext hk m this f fuel _ _ _ w3
          (show this < ((w.modify this (fun G => startFunction G f)).insertConstructed f
            this).numGraphs from hthis) hl
        refine OthersSame.others_trans ?_ (ho.others_trans (OthersSame.others_modify w3 this _))
        exact OthersSame.others_modify w this (fun G => startFunction G f)

theorem build_keepsOthers (m : Module) : ∀ fuel : Nat, KeepsOthers (build m fuel) := by
  intro fuel
  induction fuel with
  | zero => intro w this f r w' _ h; cases h
  | succ k ih => exact buildFunction_others ih m (k + 1)

/-! ## Properties of the builder -/

/-- C6, failing input.  In `ifThenModule` the entry block has no predecessor and
block 1 is reachable from it, yet no run of `build(func)` gets to the end: with
the work queue used as a stack, block 2 is built while block 1 is still queued,
the lookup of block 1's first node fails, and `build(BB, pred)` is never called
for block 1. -/
theorem build_never_completes_on_ifThen (fuel : Nat) :
    analysis.Reachable (fun b => successors (ifThenModule.block 0 b)) 0 1 ∧
    ∀ r, outcome (build ifThenModule fuel World.initial 0 0) ≠ .ok r := by
  refine ⟨analysis.Reachable.step analysis.Reachable.refl (by decide), ?_⟩
  intro r
  match fuel with
  | 0 => intro h; cases h
  | 1 => intro h; cases h
  | 2 => intro h; cases h
  | k + 3 => intro h; cases h

/-- C7, failing input.  `ifThenModule` has a well-formed CFG with the edge from
block 2 to block 1; `build(func)` stops at the failed assertion `ni != end()`:
no node exists yet for the first instruction of block 1 when the branch for an
already seen successor looks it up. -/
theorem build_fails_lookup_on_ifThen (fuel : Nat) :
    1 ∈ successors (ifThenModule.block 0 2) ∧
    build ifThenModule (fuel + 3) World.initial 0 0 = .error .noNodeForSuccessor :=
  ⟨by decide, rfl⟩

/-- C9, failing input.  `loopForeverModule` has two basic blocks and no return;
`build(func)` stops at the failed assertion "Missing exit node". -/
theorem build_fails_without_return (fuel : Nat) :
    build loopForeverModule (fuel + 3) World.initial 0 0 = .error .missingExitNode :=
  rfl

/-- C10, failing input.  In `unterminatedModule` block 1 is reachable from the
entry block and has no terminator, and `build(func)` returns true. -/
theorem build_ignores_unterminated_block (fuel : Nat) :
    analysis.Reachable (fun b => successors (unterminatedModule.block 0 b)) 0 1 ∧
    getTerminator (unterminatedModule.block 0 1) = none ∧
    outcome (build unterminatedModule (fuel + 4) World.initial 0 0) = .ok true :=
  ⟨analysis.Reachable.step analysis.Reachable.refl (by decide), by decide, rfl⟩

/-! ## The chain of nodes of one block -/

theorem ChainInv.key_of_mem {G0 G : LLVMDependenceGraph} {f BB b : Nat} {ns : List Nat}
    (h : ChainInv G0 G f BB b ns) {n : Nat} (hn : n ∈ ns) :
    ∃ j, j < ns.length ∧ G.key n = Value.instruction f BB j := by
  have : G.key n ∈ ns.map G.key := List.mem_map_of_mem _ hn
  rw [h.keys] at this
  obtain ⟨j, hj, hk⟩ := List.mem_map.1 this
  exact ⟨j, List.mem_range.1 hj, hk.symm⟩

theorem ChainInv.numNodes_le {G0 G : LLVMDependenceGraph} {f BB b : Nat} {ns : List Nat}
    (h : ChainInv G0 G f BB b ns) : G0.numNodes ≤ G.numNodes := by
  cases ns with
  | nil => exact absurd rfl h.ne
  | cons n rest =>
    have := h.range n (List.mem_cons_self _ _)
    omega

/-- The chain facts survive every extension of the graph. -/
theorem ChainInv.of_ext {G0 G G' : LLVMDependenceGraph} {f BB b : Nat} {ns : List Nat}
    (h : ChainInv G0 G f BB b ns) (hE : Ext G G') : ChainInv G0 G' f BB b ns where
  ne := h.ne
  range n hn := ⟨(h.range n hn).1, lt_of_lt_of_le (h.range n hn).2 hE.numNodes_le⟩
  keys := by
    rw [← h.keys]
    exact List.map_congr_left (fun n hn => hE.key_eq n (h.range n hn).2)
  links := by
    refine (List.Chain'.iff_mem.1 h.links).imp ?_
    rintro a c ⟨ha, hc, h1, h2⟩
    exact ⟨by rw [hE.nextNode_eq a (h.range a ha).2]; exact h1,
      by rw [hE.prevNode_eq c (h.range c hc).2]; exact h2⟩
  first_prev n hn := by
    have hm : n ∈ ns := List.mem_of_mem_head? hn
    rw [hE.prevNode_eq n (h.range n hm).2]; exact h.first_prev n hn
  last_next n hn := by
    have hm : n ∈ ns := List.mem_of_mem_getLast? hn
    rw [hE.nextNode_eq n (h.range n hm).2]; exact h.last_next n hn
  bb n hn := by rw [hE.basicBlock_eq n (h.range n hn).2]; exact h.bb n hn
  first := by rw [hE.firstNode_eq b h.block_range.2]; exact h.first
  block_range := ⟨h.block_range.1, lt_of_lt_of_le h.block_range.2 hE.numBlocks_le⟩
  map_new n hn h0 := by
    rw [hE.key_eq n (h.range n hn).2] at h0 ⊢
    exact hE.nodes_mono _ _ (h.map_new n hn h0)

theorem MapOld.mapOld_of_frame {G0 G G' : LLVMDependenceGraph} {f BB b : Nat} {ns : List Nat}
    (hc : ChainInv G0 G f BB b ns) (h : MapOld G0 G ns) (hF : Frame G G') : MapOld G0 G' ns := by
  intro k n hk
  rw [hF.nodes_eq] at hk
  rcases h k n hk with h1 | ⟨h1, h2⟩
  · exact Or.inl h1
  · exact Or.inr ⟨h1, by rw [hF.ext.key_eq n (hc.range n h1).2]; exact h2⟩

/-- The chain after the node of the next instruction has been made, registered
and linked behind the last node (lines 260-270). -/
theorem ChainInv.link {G0 G : LLVMDependenceGraph} {f BB b : Nat} {ns : List Nat}
    (h : ChainInv G0 G f BB b ns) (hm : MapOld G0 G ns) {predNode : Nat}
    (hlast : ns.getLast? = some predNode) :
    ChainInv G0
        (((G.newNode (Value.instruction f BB ns.length)).addNode G.numNodes).setSuccessor
          predNode G.numNodes) f BB b (ns ++ [G.numNodes]) ∧
      MapOld G0
        (((G.newNode (Value.instruction f BB ns.length)).addNode G.numNodes).setSuccessor
          predNode G.numNodes) (ns ++ [G.numNodes]) := by
  have hpm : predNode ∈ ns := List.mem_of_mem_getLast? hlast
  have hp : predNode < G.numNodes := (h.range _ hpm).2
  have hne : ∀ n ∈ ns, n ≠ G.numNodes := fun n hn => Nat.ne_of_lt (h.range n hn).2
  have hkey : ∀ n, n ≠ G.numNodes →
      (((G.newNode (Value.instruction f BB ns.length)).addNode G.numNodes).setSuccessor
          predNode G.numNodes).key n = G.key n := by
    intro n hn
    simp [LLVMDependenceGraph.setSuccessor, LLVMDependenceGraph.addNode,
      LLVMDependenceGraph.newNode, Function.update_apply, hn]
  have hkeyNew : (((G.newNode (Value.instruction f BB ns.length)).addNode
      G.numNodes).setSuccessor predNode G.numNodes).key G.numNodes
        = Value.instruction f BB ns.length := by
    simp [LLVMDependenceGraph.setSuccessor, LLVMDependenceGraph.addNode,
      LLVMDependenceGraph.newNode]
  have hnodes : (((G.newNode (Value.instruction f BB ns.length)).addNode
      G.numNodes).setSuccessor predNode G.numNodes).nodes
        = mapInsert G.nodes (Value.instruction f BB ns.length) G.numNodes := by
    simp [LLVMDependenceGraph.setSuccessor, LLVMDependenceGraph.addNode,
      LLVMDependenceGraph.newNode]
  have hfreshKey : ∀ old, G.nodes (Value.instruction f BB ns.length) = some old →
      G0.nodes (Value.instruction f BB ns.length) = some old := by
    intro old ho
    rcases hm _ _ ho with h1 | ⟨h1, h2⟩
    · exact h1
    · obtain ⟨j, hj, hk⟩ := h.key_of_mem h1
      rw [h2] at hk
      injection hk with _ _ hk
      omega
  constructor
  · refine
      { ne := by simp
        range := ?_
        keys := ?_
        links := ?_
        first_prev := ?_
        last_next := ?_
        bb := ?_
        first := ?_
        block_range := h.block_range
        map_new := ?_ }
    · intro n hn
      rcases List.mem_append.1 hn with hn | hn
      · have := h.range n hn
        exact ⟨this.1, by
          simp [LLVMDependenceGraph.setSuccessor, LLVMDependenceGraph.addNode,
            LLVMDependenceGraph.newNode]; omega⟩
      · simp at hn
        subst hn
        exact ⟨h.numNodes_le, by
          simp [LLVMDependenceGraph.setSuccessor, LLVMDependenceGraph.addNode,
            LLVMDependenceGraph.newNode]⟩
    · rw [List.map_append, List.length_append, List.length_singleton, List.range_succ,
        List.map_append, ← h.keys]
      congr 1
      · exact List.map_congr_left (fun n hn => hkey n (hne n hn))
      · simp only [List.map_cons, List.map_nil]
        rw [hkeyNew]
    · rw [List.chain'_append]
      refine ⟨?_, List.chain'_singleton _, ?_⟩
      · refine (List.Chain'.iff_mem.1 h.links).imp ?_
        rintro a c ⟨ha, hc, h1, h2⟩
        have hap : a ≠ predNode := by
          intro hap
          rw [hap, h.last_next predNode (by simp [hlast])] at h1
          cases h1
        constructor
        · simp [LLVMDependenceGraph.setSuccessor, LLVMDependenceGraph.addNode,
            LLVMDependenceGraph.newNode, Function.update_apply, hap, hne a ha, h1]
        · simp [LLVMDependenceGraph.setSuccessor, LLVMDependenceGraph.addNode,
            LLVMDependenceGraph.newNode, Function.update_apply, hne c hc, h2]
      · intro x hx y hy
        rw [hlast] at hx
        simp at hx hy
        subst hx hy
        constructor
        · simp [LLVMDependenceGraph.setSuccessor, LLVMDependenceGraph.addNode,
            LLVMDependenceGraph.newNode]
        · simp [LLVMDependenceGraph.setSuccessor, LLVMDependenceGraph.addNode,
            LLVMDependenceGraph.newNode]
    · intro n hn
      rw [List.head?_append_of_ne_nil _ h.ne] at hn
      have hmem : n ∈ ns := List.mem_of_mem_head? hn
      simp [LLVMDependenceGraph.setSuccessor, LLVMDependenceGraph.addNode,
        LLVMDependenceGraph.newNode, Function.update_apply, hne n hmem, h.first_prev n hn]
    · intro n hn
      rw [List.getLast?_concat] at hn
      simp at hn
      subst hn
      simp [LLVMDependenceGraph.setSuccessor, LLVMDependenceGraph.addNode,
        LLVMDependenceGraph.newNode, Function.update_apply, Nat.ne_of_gt hp]
    · intro n hn
      rcases List.mem_append.1 hn with hn | hn
      · simp [LLVMDependenceGraph.setSuccessor, LLVMDependenceGraph.addNode,
          LLVMDependenceGraph.newNode, Function.update_apply, hne n hn, h.bb n hn]
      · simp at hn
        subst hn
        simp [LLVMDependenceGraph.setSuccessor, LLVMDependenceGraph.addNode,
          LLVMDependenceGraph.newNode, Function.update_apply, Nat.ne_of_lt hp, h.bb _ hpm]
    · rw [List.head?_append_of_ne_nil _ h.ne]
      exact h.first
    · intro n hn h0
      rw [hnodes]
      rcases List.mem_append.1 hn with hn | hn
      · rw [hkey n (hne n hn)] at h0 ⊢
        exact mapInsert_mono _ _ _ _ _ (h.map_new n hn h0)
      · simp at hn
        subst hn
        rw [hkeyNew] at h0 ⊢
        cases ho : G.nodes (Value.instruction f BB ns.length) with
        | none => exact mapInsert_new _ _ _ ho
        | some old => rw [hfreshKey old ho] at h0; cases h0
  · intro k n hk
    rw [hnodes] at hk
    rcases mapInsert_eq_some _ _ _ _ _ hk with h1 | ⟨h1, h2, _⟩
    · rcases hm k n h1 with h3 | ⟨h3, h4⟩
      · exact Or.inl h3
      · exact Or.inr ⟨List.mem_append.2 (Or.inl h3), by rw [hkey n (hne n h3)]; exact h4⟩
    · subst h1 h2
      exact Or.inr ⟨by simp, hkeyNew⟩

/-- The chain right after the first node and the block have been made (lines
236-247). -/
theorem ChainInv.start (G : LLVMDependenceGraph) (f BB : Nat) (predBB : Option Nat) :
    ChainInv G (startBlock G f BB predBB) f BB G.numBlocks [G.numNodes] ∧
      MapOld G (startBlock G f BB predBB) [G.numNodes] := by
  cases predBB with
  | none =>
    constructor
    · exact
        { ne := by simp
          range := by
            intro n hn
            simp at hn
            subst hn
            simp [startBlock, createBasicBlock, LLVMDependenceGraph.newNode,
              LLVMDependenceGraph.addNode, LLVMDependenceGraph.newBlock,
              LLVMDependenceGraph.setBasicBlock]
          keys := by
            simp [startBlock, createBasicBlock, LLVMDependenceGraph.newNode,
              LLVMDependenceGraph.addNode, LLVMDependenceGraph.newBlock,
              LLVMDependenceGraph.setBasicBlock, List.range_succ]
          links := List.chain'_singleton _
          first_prev := by
            intro n hn
            simp at hn
            subst hn
            simp [startBlock, createBasicBlock, LLVMDependenceGraph.newNode,
              LLVMDependenceGraph.addNode, LLVMDependenceGraph.newBlock,
              LLVMDependenceGraph.setBasicBlock]
          last_next := by
            intro n hn
            simp at hn
            subst hn
            simp [startBlock, createBasicBlock, LLVMDependenceGraph.newNode,
              LLVMDependenceGraph.addNode, LLVMDependenceGraph.newBlock,
              LLVMDependenceGraph.setBasicBlock]
          bb := by
            intro n hn
            simp at hn
            subst hn
            simp [startBlock, createBasicBlock, LLVMDependenceGraph.newNode,
              LLVMDependenceGraph.addNode, LLVMDependenceGraph.newBlock,
              LLVMDependenceGraph.setBasicBlock]
          first := by
            simp [startBlock, createBasicBlock, LLVMDependenceGraph.newNode,
              LLVMDependenceGraph.addNode, LLVMDependenceGraph.newBlock,
              LLVMDependenceGraph.setBasicBlock]
          block_range := by
            simp [startBlock, createBasicBlock, LLVMDependenceGraph.newNode,
              LLVMDependenceGraph.addNode, LLVMDependenceGraph.newBlock,
              LLVMDependenceGraph.setBasicBlock]
          map_new := by
            intro n hn h0
            simp at hn
            subst hn
            simp only [startBlock, createBasicBlock, LLVMDependenceGraph.newNode,
              LLVMDependenceGraph.addNode, LLVMDependenceGraph.newBlock,
              LLVMDependenceGraph.setBasicBlock, Function.update_same] at h0 ⊢
            exact mapInsert_new _ _ _ h0 }
    · intro k n hk
      simp only [startBlock, createBasicBlock, LLVMDependenceGraph.newNode,
        LLVMDependenceGraph.addNode, LLVMDependenceGraph.newBlock,
        LLVMDependenceGraph.setBasicBlock, Function.update_same] at hk
      rcases mapInsert_eq_some _ _ _ _ _ hk with h1 | ⟨h1, h2, _⟩
      · exact Or.inl h1
      · subst h1 h2
        exact Or.inr ⟨by simp, by
          simp [startBlock, createBasicBlock, LLVMDependenceGraph.newNode,
            LLVMDependenceGraph.addNode, LLVMDependenceGraph.newBlock,
            LLVMDependenceGraph.setBasicBlock]⟩
  | some p =>
    constructor
    · exact
        { ne := by simp
          range := by
            intro n hn
            simp at hn
            subst hn
            simp [startBlock, createBasicBlock, LLVMDependenceGraph.newNode,
              LLVMDependenceGraph.addNode, LLVMDependenceGraph.newBlock,
              LLVMDependenceGraph.setBasicBlock, LLVMDependenceGraph.addSuccessor]
          keys := by
            simp [startBlock, createBasicBlock, LLVMDependenceGraph.newNode,
              LLVMDependenceGraph.addNode, LLVMDependenceGraph.newBlock,
              LLVMDependenceGraph.setBasicBlock, LLVMDependenceGraph.addSuccessor,
              List.range_succ]
          links := List.chain'_singleton _
          first_prev := by
            intro n hn
            simp at hn
            subst hn
            simp [startBlock, createBasicBlock, LLVMDependenceGraph.newNode,
              LLVMDependenceGraph.addNode, LLVMDependenceGraph.newBlock,
              LLVMDependenceGraph.setBasicBlock, LLVMDependenceGraph.addSuccessor]
          last_next := by
            intro n hn
            simp at hn
            subst hn
            simp [startBlock, createBasicBlock, LLVMDependenceGraph.newNode,
              LLVMDependenceGraph.addNode, LLVMDependenceGraph.newBlock,
              LLVMDependenceGraph.setBasicBlock, LLVMDependenceGraph.addSuccessor]
          bb := by
            intro n hn
            simp at hn
            subst hn
            simp [startBlock, createBasicBlock, LLVMDependenceGraph.newNode,
              LLVMDependenceGraph.addNode, LLVMDependenceGraph.newBlock,
              LLVMDependenceGraph.setBasicBlock, LLVMDependenceGraph.addSuccessor]
          first := by
            simp [startBlock, createBasicBlock, LLVMDependenceGraph.newNode,
              LLVMDependenceGraph.addNode, LLVMDependenceGraph.newBlock,
              LLVMDependenceGraph.setBasicBlock, LLVMDependenceGraph.addSuccessor]
          block_range := by
            simp [startBlock, createBasicBlock, LLVMDependenceGraph.newNode,
              LLVMDependenceGraph.addNode, LLVMDependenceGraph.newBlock,
              LLVMDependenceGraph.setBasicBlock, LLVMDependenceGraph.addSuccessor]
          map_new := by
            intro n hn h0
            simp at hn
            subst hn
            simp only [startBlock, createBasicBlock, LLVMDependenceGraph.newNode,
              LLVMDependenceGraph.addNode, LLVMDependenceGraph.newBlock,
              LLVMDependenceGraph.setBasicBlock, LLVMDependenceGraph.addSuccessor,
              Function.update_same] at h0 ⊢
            exact mapInsert_new _ _ _ h0 }
    · intro k n hk
      simp only [startBlock, createBasicBlock, LLVMDependenceGraph.newNode,
        LLVMDependenceGraph.addNode, LLVMDependenceGraph.newBlock,
        LLVMDependenceGraph.setBasicBlock, LLVMDependenceGraph.addSuccessor,
        Function.update_same] at hk
      rcases mapInsert_eq_some _ _ _ _ _ hk with h1 | ⟨h1, h2, _⟩
      · exact Or.inl h1
      · subst h1 h2
        exact Or.inr ⟨by simp, by
          simp [startBlock, createBasicBlock, LLVMDependenceGraph.newNode,
            LLVMDependenceGraph.addNode, LLVMDependenceGraph.newBlock,
            LLVMDependenceGraph.setBasicBlock, LLVMDependenceGraph.addSuccessor]⟩

theorem buildInstructions_chain {build : World → Nat → Nat → Result (Bool × World)}
    (hk : KeepsOthers build) (m : Module) (this f BB b : Nat) (G0 : LLVMDependenceGraph) :
    ∀ (rest : List Instruction) (idx : Nat) (w : World) (predNode : Nat) (w' : World)
      (last : Nat) (ns : List Nat), this < w.numGraphs →
      ChainInv G0 (w.graph this) f BB b ns → MapOld G0 (w.graph this) ns →
      ns.getLast? = some predNode → idx = ns.length →
      (w.graph this).exitNode = G0.exitNode ∧ (w.graph this).exitBB = G0.exitBB ∧
        (w.graph this).numBlocks = G0.numBlocks + 1 →
      buildInstructions build m this f BB rest idx w predNode = .ok (w', last) →
      ∃ ns', ChainInv G0 (w'.graph this) f BB b ns' ∧ MapOld G0 (w'.graph this) ns' ∧
        ns'.getLast? = some last ∧ ns'.length = ns.length + rest.length ∧
        (w'.graph this).exitNode = G0.exitNode ∧ (w'.graph this).exitBB = G0.exitBB ∧
        (w'.graph this).numBlocks = G0.numBlocks + 1 := by
  intro rest
  induction rest with
  | nil =>
    intro idx w predNode w' last ns _ hc hm hl _ hx h
    simp only [buildInstructions] at h
    cases h
    exact ⟨ns, hc, hm, hl, by simp, hx⟩
  | cons inst rest ih =>
    intro idx w predNode w' last ns hthis hc hm hl hidx hx h
    simp only [buildInstructions] at h
    split at h
    · cases h
    · rename_i w2 hcs
      obtain ⟨ho, hF⟩ := handleCallSite_frame hk (by simpa using hthis) hcs
      rw [World.modify_graph_self] at hF
      subst hidx
      obtain ⟨hc1, hm1⟩ := hc.link hm hl
      have hc2 := hc1.of_ext hF.ext
      have hm2 := MapOld.mapOld_of_frame hc1 hm1 hF
      have hthis2 : this < w2.numGraphs := lt_of_lt_of_le (by simpa using hthis) ho.1
      obtain ⟨ns', r1, r2, r3, r4, r5⟩ := ih (ns.length + 1) w2 _ w' last
        (ns ++ [(w.graph this).numNodes]) hthis2 hc2 hm2 (List.getLast?_concat _) (by simp)
        ⟨by rw [hF.exitNode_eq]; exact hx.1, by rw [hF.exitBB_eq]; exact hx.2.1,
          by rw [hF.numBlocks_eq]; exact hx.2.2⟩ h
      refine ⟨ns', r1, r2, r3, ?_, r5⟩
      rw [r4]
      simp
      omega

/-- Following the successor links from the head of a linked list of nodes whose
last node has no successor enumerates the list. -/
theorem followSuccessors_chain (G : LLVMDependenceGraph) :
    ∀ (ns : List Nat) (fuel : Nat), ns.Chain' (Linked G) →
      (∀ n ∈ ns.getLast?, G.nextNode n = none) → ns.length < fuel →
      followSuccessors G fuel ns.head? = ns := by
  intro ns
  induction ns with
  | nil =>
    intro fuel _ _ hf
    cases fuel with
    | zero => simp at hf
    | succ k => rfl
  | cons a rest ih =>
    intro fuel hch hl hf
    cases fuel with
    | zero => simp at hf
    | succ k =>
      simp only [List.head?_cons, followSuccessors]
      congr 1
      cases rest with
      | nil =>
        rw [hl a (by simp)]
        cases k with
        | zero => rfl
        | succ k' => rfl
      | cons c rest' =>
        have hac := (List.chain'_cons.1 hch).1
        rw [hac.1]
        have := ih k (List.chain'_cons.1 hch).2
          (fun n hn => hl n (by simpa [List.getLast?_cons_cons] using hn))
          (by simp at hf ⊢; omega)
        simpa using this

/-- What `build(BB, pred)` leaves behind when it does not stop at a fault: the
chain of the nodes of the whole block. -/
theorem buildBlock_chain {build : World → Nat → Nat → Result (Bool × World)}
    (hk : KeepsOthers build) {m : Module} {w w' : World} {this f BB : Nat} {pred : Option Nat}
    {r : Bool} (hthis : this < w.numGraphs)
    (h : buildBlock build m w this f BB pred = .ok (r, w')) :
    ∃ (ns : List Nat) (w3 : World) (last : Nat),
      ChainInv (w.graph this) (w3.graph this) f BB (w.graph this).numBlocks ns ∧
      MapOld (w.graph this) (w3.graph this) ns ∧
      ns.getLast? = some last ∧ ns.length = (m.block f BB).length ∧
      (w3.graph this).exitNode = (w.graph this).exitNode ∧
      (w3.graph this).exitBB = (w.graph this).exitBB ∧
      (w3.graph this).numBlocks = (w.graph this).numBlocks + 1 ∧
      Ext (w.graph this) (w3.graph this) ∧
      (∃ G, finishBlock (w3.graph this) f BB (m.block f BB) last (w.graph this).numBlocks
          = .ok (r, G) ∧ w'.graph this = G) := by
  unfold buildBlock at h
  split at h
  · cases h
  · rename_i first rest hblock
    split at h
    · cases h
    · rename_i predBB _
      dsimp only at h
      split at h
      · cases h
      · rename_i w2 hc
        obtain ⟨ho2, hF2⟩ := handleCallSite_frame hk (by simpa using hthis) hc
        rw [World.modify_graph_self] at hF2
        obtain ⟨hc1, hm1⟩ := ChainInv.start (w.graph this) f BB predBB
        have hc2 := hc1.of_ext hF2.ext
        have hm2 := MapOld.mapOld_of_frame hc1 hm1 hF2
        have hE2 : Ext (w.graph this) (w2.graph this) :=
          (ext_startBlock _ f BB predBB).ext_trans hF2.ext
        have hthis2 : this < w2.numGraphs := lt_of_lt_of_le (by simpa using hthis) ho2.1
        have hx1 : (startBlock (w.graph this) f BB predBB).exitNode = (w.graph this).exitNode ∧
            (startBlock (w.graph this) f BB predBB).exitBB = (w.graph this).exitBB ∧
            (startBlock (w.graph this) f BB predBB).numBlocks = (w.graph this).numBlocks + 1 := by
          cases predBB <;> exact ⟨rfl, rfl, rfl⟩
        split at h
        · cases h
        · rename_i w3 last hi
          obtain ⟨ns, r1, r2, r3, r4, r5, r6, r7⟩ := buildInstructions_chain hk m this f BB _
            (w.graph this) rest 1 w2 _ w3 last [(w.graph this).numNodes] hthis2 hc2 hm2 rfl rfl
            ⟨by rw [hF2.exitNode_eq]; exact hx1.1, by rw [hF2.exitBB_eq]; exact hx1.2.1,
              by rw [hF2.numBlocks_eq]; exact hx1.2.2⟩ hi
          obtain ⟨_, hE3, _⟩ := buildInstructions_ext hk m this f BB (w.graph this) _ _ _ _ _ _
            hthis2 hE2 (le_refl _) hi
          split at h
          · cases h
          · rename_i r' G hfin
            cases h
            refine ⟨ns, w3, last, r1, r2, r3, ?_, r5, r6, r7, hE3, G, ?_, by simp⟩
            · rw [r4, hblock]; simp; omega
            · rw [hblock]; exact hfin

theorem ChainInv.setLastNode {G0 G : LLVMDependenceGraph} {f BB b : Nat} {ns : List Nat}
    (h : ChainInv G0 G f BB b ns) (b' n : Nat) : ChainInv G0 (G.setLastNode b' n) f BB b ns :=
  ⟨h.ne, h.range, h.keys, h.links, h.first_prev, h.last_next, h.bb, h.first, h.block_range,
    h.map_new⟩

theorem finishBlock_chain {G0 G G' : LLVMDependenceGraph} {f BB b last : Nat}
    {ns : List Nat} {insts : List Instruction} {r : Bool} (hc : ChainInv G0 G f BB b ns)
    (h : finishBlock G f BB insts last b = .ok (r, G')) :
    ChainInv G0 G' f BB b ns ∧
      (r = true → G'.lastNode b = some last ∧ ∃ i t, getTerminator insts = some (i, t)) := by
  unfold finishBlock at h
  split at h
  · cases h
    exact ⟨hc, fun hr => by cases hr⟩
  · rename_i i term hterm
    dsimp only at h
    split at h
    · cases h
    · rename_i G4 hG4
      have hc4 : ChainInv G0 G4 f BB b ns := by
        split at hG4
        · exact hc.of_ext (ext_addExit hG4)
        · cases hG4; exact hc
      split at h
      · cases h
      · cases h
      · cases h
        refine ⟨hc4.setLastNode _ _, fun _ => ⟨?_, i, term, hterm⟩⟩
        simp [LLVMDependenceGraph.setLastNode]

theorem chain'_getElem? {α : Type} {R : α → α → Prop} :
    ∀ {l : List α}, l.Chain' R → ∀ (i : Nat) (a c : α), l[i]? = some a → l[i + 1]? = some c →
      R a c := by
  intro l
  induction l with
  | nil => intro _ i a c h; simp at h
  | cons x rest ih =>
    intro hch i a c ha hc
    cases rest with
    | nil => simp at hc
    | cons y rest' =>
      cases i with
      | zero =>
        simp at ha hc
        subst ha hc
        exact (List.chain'_cons.1 hch).1
      | succ k =>
        exact ih (List.chain'_cons.1 hch).2 k a c (by simpa using ha) (by simpa using hc)

theorem ChainInv.key_at {G0 G : LLVMDependenceGraph} {f BB b : Nat} {ns : List Nat}
    (h : ChainInv G0 G f BB b ns) {i n : Nat} (hi : ns[i]? = some n) :
    G.key n = Value.instruction f BB i := by
  have h1 : (ns.map G.key)[i]? = some (G.key n) := by simp [hi]
  rw [h.keys] at h1
  have hlt : i < ns.length := by
    rcases Nat.lt_or_ge i ns.length with hlt | hge
    · exact hlt
    · rw [List.getElem?_eq_none hge] at hi; cases hi
  simp [List.getElem?_range hlt] at h1
  exact h1.symm

/-- C5.  Let `build(BB, pred)`, run on graph `this`, return true.  Then there
are nodes `ns`, one per instruction of the block and in the order of the
instructions, the `i`-th with the key of the `i`-th instruction, such that: the
map of the graph holds a node for the key of every instruction (a map holds at
most one per key), and it is the `i`-th node of `ns` when the key had no node
before the call; the new block has the first of them as first node and the
last as last node, and the block ends in a terminator; each node's successor is
the next node and each node's predecessor the one before; the first node has no
predecessor and the last no successor; and following successors from the
block's first node enumerates exactly `ns`. -/
theorem buildBlock_chains_instructions (m : Module) (fuel : Nat) (w w' : World)
    (this f BB : Nat) (pred : Option Nat) (hthis : this < w.numGraphs)
    (h : buildBlock (build m fuel) m w this f BB pred = .ok (true, w')) :
    ∃ ns : List Nat,
      ns.length = (m.block f BB).length ∧ 1 ≤ ns.length ∧
      (∀ i n, ns[i]? = some n →
        (w'.graph this).key n = Value.instruction f BB i ∧
        (∃ n', (w'.graph this).getNode (Value.instruction f BB i) = some n') ∧
        ((w.graph this).getNode (Value.instruction f BB i) = none →
          (w'.graph this).getNode (Value.instruction f BB i) = some n)) ∧
      (w'.graph this).firstNode (w.graph this).numBlocks = ns.head? ∧
      (w'.graph this).lastNode (w.graph this).numBlocks = ns.getLast? ∧
      (∃ t, getTerminator (m.block f BB) = some (ns.length - 1, t)) ∧
      (∀ i n n', ns[i]? = some n → ns[i + 1]? = some n' →
        (w'.graph this).nextNode n = some n' ∧ (w'.graph this).prevNode n' = some n) ∧
      (∀ n ∈ ns.head?, (w'.graph this).prevNode n = none) ∧
      (∀ n ∈ ns.getLast?, (w'.graph this).nextNode n = none) ∧
      followSuccessors (w'.graph this) (ns.length + 1)
        ((w'.graph this).firstNode (w.graph this).numBlocks) = ns := by
  obtain ⟨ns, w3, last, hc, _, hl, hlen, _, _, _, _, G, hfin, hG⟩ :=
    buildBlock_chain (build_keepsOthers m fuel) hthis h
  obtain ⟨_, hE⟩ := buildBlock_ext (build_keepsOthers m fuel) hthis h
  obtain ⟨hc', hr⟩ := finishBlock_chain hc hfin
  obtain ⟨hlastNode, i, t, hterm⟩ := hr rfl
  rw [hG] at hE ⊢
  have hpos : 1 ≤ ns.length := by
    cases ns with
    | nil => exact absurd rfl hc.ne
    | cons a rest => simp
  refine ⟨ns, hlen, hpos, ?_, hc'.first, by rw [hlastNode, hl], ?_, ?_, hc'.first_prev,
    hc'.last_next, ?_⟩
  · intro i n hi
    have hk := hc'.key_at hi
    have hmem : n ∈ ns := List.getElem?_mem hi
    have hnew : (w.graph this).getNode (Value.instruction f BB i) = none →
        G.getNode (Value.instruction f BB i) = some n := by
      intro h0
      have := hc'.map_new n hmem (by rw [hk]; exact h0)
      rw [hk] at this
      exact this
    refine ⟨hk, ?_, hnew⟩
    cases h0 : (w.graph this).getNode (Value.instruction f BB i) with
    | none => exact ⟨n, hnew h0⟩
    | some n0 => exact ⟨n0, hE.nodes_mono _ _ h0⟩
  · refine ⟨t, ?_⟩
    rw [hterm, hlen]
    unfold getTerminator at hterm
    split at hterm
    · split at hterm
      · cases hterm; rfl
      · cases hterm
    · cases hterm
  · intro i n n' hi hi'
    exact chain'_getElem? hc'.links i n n' hi hi'
  · rw [hc'.first]
    exact followSuccessors_chain G ns _ hc'.links hc'.last_next (by omega)

/-- The statement of `buildBlock_chains_instructions` on the entry block of
function 0 of `callModule`: an alloca, a call of a defined function, a return. -/
theorem buildBlock_chains_instructions_witness :
    ∃ w', buildBlock (build callModule 5) callModule World.initial 0 0 0 none = .ok (true, w') ∧
      0 < World.initial.numGraphs ∧
      ∃ ns : List Nat,
        ns.length = (callModule.block 0 0).length ∧ 1 ≤ ns.length ∧
        (∀ i n, ns[i]? = some n →
          (w'.graph 0).key n = Value.instruction 0 0 i ∧
          (∃ n', (w'.graph 0).getNode (Value.instruction 0 0 i) = some n') ∧
          ((World.initial.graph 0).getNode (Value.instruction 0 0 i) = none →
            (w'.graph 0).getNode (Value.instruction 0 0 i) = some n)) ∧
        (w'.graph 0).firstNode (World.initial.graph 0).numBlocks = ns.head? ∧
        (w'.graph 0).lastNode (World.initial.graph 0).numBlocks = ns.getLast? ∧
        (∃ t, getTerminator (callModule.block 0 0) = some (ns.length - 1, t)) ∧
        (∀ i n n', ns[i]? = some n → ns[i + 1]? = some n' →
          (w'.graph 0).nextNode n = some n' ∧ (w'.graph 0).prevNode n' = some n) ∧
        (∀ n ∈ ns.head?, (w'.graph 0).prevNode n = none) ∧
        (∀ n ∈ ns.getLast?, (w'.graph 0).nextNode n = none) ∧
        followSuccessors (w'.graph 0) (ns.length + 1)
          ((w'.graph 0).firstNode (World.initial.graph 0).numBlocks) = ns :=
  ⟨_, rfl, by decide,
    buildBlock_chains_instructions callModule 5 World.initial _ 0 0 0 none (by decide) rfl⟩

/-! ## The unified exit -/

theorem getTerminator_index {insts : List Instruction} {i : Nat} {t : Instruction}
    (h : getTerminator insts = some (i, t)) : i = insts.length - 1 := by
  unfold getTerminator at h
  split at h
  · split at h
    · cases h; rfl
    · cases h
  · cases h

theorem ChainInv.key_inj {G0 G : LLVMDependenceGraph} {f BB b : Nat} {ns : List Nat}
    (h : ChainInv G0 G f BB b ns) {n n' : Nat} (hn : n ∈ ns) (hn' : n' ∈ ns)
    (hk : G.key n = G.key n') : n = n' := by
  have hnd : (ns.map G.key).Nodup := by
    rw [h.keys]
    refine List.Nodup.map ?_ (List.nodup_range _)
    intro a c hac
    injection hac
  exact List.inj_on_of_nodup_map hnd hn hn' hk

theorem ChainInv.key_last {G0 G : LLVMDependenceGraph} {f BB b last : Nat} {ns : List Nat}
    (h : ChainInv G0 G f BB b ns) (hl : ns.getLast? = some last) :
    G.key last = Value.instruction f BB (ns.length - 1) := by
  rw [List.getLast?_eq_getElem?] at hl
  exact h.key_at hl

theorem ExitInvX.mono_bound {m : Module} {f : Nat} {G : LLVMDependenceGraph} {p : Option Nat}
    {B B' : Nat} (h : ExitInvX m f G p B) (hB : B ≤ B') : ExitInvX m f G p B' where
  nodes_range := h.nodes_range
  first_range := h.first_range
  no_exit := h.no_exit
  exit e he := by
    obtain ⟨eb, h1, h2, h3, h4⟩ := h.exit e he
    exact ⟨eb, h1, h2, lt_of_lt_of_le h3 hB, h4⟩
  returns BB i v n ht hn hp := by
    obtain ⟨e, eb, blk, h1, h2, h3, h4, h5, h6⟩ := h.returns BB i v n ht hn hp
    exact ⟨e, eb, blk, h1, h2, h3, h4, lt_of_lt_of_le h5 hB, h6⟩

/-- The exit state after the nodes of a block have been chained and before the
block's terminator is looked at: only the last node of the chain is pending. -/
theorem exitInvX_of_chain {m : Module} {f BB b last : Nat} {G0 G : LLVMDependenceGraph}
    {ns : List Nat} (hI : ExitInvX m f G0 none G0.numBlocks) (hE : Ext G0 G)
    (hc : ChainInv G0 G f BB b ns) (hm : MapOld G0 G ns)
    (hx : G.exitNode = G0.exitNode ∧ G.exitBB = G0.exitBB ∧ G.numBlocks = G0.numBlocks + 1)
    (hl : ns.getLast? = some last) (hlen : ns.length = (m.block f BB).length) :
    ExitInvX m f G (some last) G0.numBlocks ∧
      (∀ BB' i v, getTerminator (m.block f BB') = some (i, Instruction.ret v) →
        G.nodes (Value.instruction f BB' i) = some last → BB' = BB) := by
  have hbeq : b = G0.numBlocks := by
    have := hc.block_range
    omega
  have hlastmem : last ∈ ns := List.mem_of_mem_getLast? hl
  constructor
  · refine
      { nodes_range := ?_
        first_range := ?_
        no_exit := ?_
        exit := ?_
        returns := ?_ }
    · intro k n hk
      rcases hm k n hk with h1 | ⟨h1, _⟩
      · exact lt_of_lt_of_le (hI.nodes_range k n h1) hE.numNodes_le
      · exact (hc.range n h1).2
    · intro b' hb' n hn
      by_cases hold : b' < G0.numBlocks
      · rw [hE.firstNode_eq b' hold] at hn
        exact lt_of_lt_of_le (hI.first_range b' hold n hn) hE.numNodes_le
      · have hb'eq : b' = b := by omega
        subst hb'eq
        rw [hc.first] at hn
        exact (hc.range n (List.mem_of_mem_head? hn)).2
    · intro hnone
      rw [hx.1] at hnone
      obtain ⟨h1, h2⟩ := hI.no_exit hnone
      refine ⟨by rw [hx.2.1]; exact h1, ?_⟩
      intro f' b'
      cases hk : G.nodes (Value.phonyReturn f' b') with
      | none => rfl
      | some n =>
        rcases hm _ _ hk with h3 | ⟨h3, h4⟩
        · rw [h2 f' b'] at h3; cases h3
        · obtain ⟨j, _, hj⟩ := hc.key_of_mem h3
          rw [h4] at hj
          cases hj
    · intro e he
      rw [hx.1] at he
      obtain ⟨eb, h1, h2, h3, h4, h5, ⟨f', b', h6, h7⟩, h8, h9⟩ := hI.exit e he
      refine ⟨eb, by rw [hx.2.1]; exact h1, lt_of_lt_of_le h2 hE.numNodes_le, h3,
        by rw [hE.firstNode_eq eb h3]; exact h4, by rw [hE.lastNode_eq eb h3]; exact h5,
        ⟨f', b', by rw [hE.key_eq e h2]; exact h6, hE.nodes_mono _ _ h7⟩, ?_, ?_⟩
      · intro f'' b'' n hn
        rcases hm _ _ hn with h10 | ⟨h10, h11⟩
        · exact h8 f'' b'' n h10
        · obtain ⟨j, _, hj⟩ := hc.key_of_mem h10
          rw [h11] at hj
          cases hj
      · intro b' hb' hf
        by_cases hold : b' < G0.numBlocks
        · rw [hE.firstNode_eq b' hold] at hf
          exact h9 b' hold hf
        · have hb'eq : b' = b := by omega
          subst hb'eq
          rw [hc.first] at hf
          have := (hc.range e (List.mem_of_mem_head? hf)).1
          omega
    · intro BB' i v n ht hn hp
      rcases hm _ _ hn with h1 | ⟨h1, h2⟩
      · obtain ⟨e, eb, blk, r1, r2, r3, r4, r5, r6, r7⟩ := hI.returns BB' i v n ht h1 (by simp)
        have hnlt := hI.nodes_range _ _ h1
        exact ⟨e, eb, blk, by rw [hx.1]; exact r1, by rw [hx.2.1]; exact r2,
          hE.controlDeps_sub n hnlt e r3, by rw [hE.basicBlock_eq n hnlt]; exact r4, r5,
          by rw [hE.lastNode_eq blk r5]; exact r6, hE.blockSuccessors_sub blk r5 eb r7⟩
      · exfalso
        obtain ⟨j, hj, hkj⟩ := hc.key_of_mem h1
        rw [h2] at hkj
        injection hkj with _ hBB hij
        subst hBB
        have hi := getTerminator_index ht
        have hkl := hc.key_last hl
        have : n = last := by
          refine hc.key_inj h1 hlastmem ?_
          rw [h2, hkl, hlen, hi]
        exact hp (by rw [this])
  · intro BB' i v _ hn
    rcases hm _ _ hn with h1 | ⟨h1, h2⟩
    · have := hI.nodes_range _ _ h1
      have := (hc.range last hlastmem).1
      omega
    · obtain ⟨j, _, hkj⟩ := hc.key_of_mem h1
      rw [h2] at hkj
      injection hkj with _ hBB _

theorem ExitInvX.resolve {m : Module} {f last B : Nat} {G : LLVMDependenceGraph}
    (h : ExitInvX m f G (some last) B) (hB : B ≤ G.numBlocks)
    (hlast : ∀ BB i v, getTerminator (m.block f BB) = some (i, Instruction.ret v) →
      G.nodes (Value.instruction f BB i) = some last →
      ∃ e eb blk, G.exitNode = some e ∧ G.exitBB = some eb ∧ e ∈ G.controlDeps last ∧
        G.basicBlock last = some blk ∧ blk < G.numBlocks ∧ G.lastNode blk = some last ∧
        eb ∈ G.blockSuccessors blk) :
    ExitInvX m f G none G.numBlocks where
  nodes_range := h.nodes_range
  first_range := h.first_range
  no_exit := h.no_exit
  exit := (h.mono_bound hB).exit
  returns BB i v n ht hn _ := by
    by_cases hnl : n = last
    · subst hnl
      exact hlast BB i v ht hn
    · exact (h.mono_bound hB).returns BB i v n ht hn (by simpa using fun h => hnl h.symm)

/-- The exit state survives a step that only sets the last node of blocks from
`B` on and adds control-dependence edges and block successors. -/
theorem ExitInvX.tail {m : Module} {f B : Nat} {p : Option Nat} {G G' : LLVMDependenceGraph}
    (h : ExitInvX m f G p B) (h1 : G'.numNodes = G.numNodes) (h2 : G'.numBlocks = G.numBlocks)
    (h3 : G'.nodes = G.nodes) (h4 : G'.key = G.key) (h5 : G'.basicBlock = G.basicBlock)
    (h6 : G'.firstNode = G.firstNode) (h7 : G'.exitNode = G.exitNode)
    (h8 : G'.exitBB = G.exitBB) (h9 : ∀ blk, blk < B → G'.lastNode blk = G.lastNode blk)
    (h10 : ∀ n, ∀ x ∈ G.controlDeps n, x ∈ G'.controlDeps n)
    (h11 : ∀ b, ∀ x ∈ G.blockSuccessors b, x ∈ G'.blockSuccessors b) :
    ExitInvX m f G' p B where
  nodes_range k n hk := by rw [h1]; rw [h3] at hk; exact h.nodes_range k n hk
  first_range b hb n hn := by
    rw [h1]; rw [h2] at hb; rw [h6] at hn; exact h.first_range b hb n hn
  no_exit hn := by
    rw [h7] at hn
    rw [h8, h3]
    exact h.no_exit hn
  exit e he := by
    rw [h7] at he
    obtain ⟨eb, r1, r2, r3, r4, r5, r6, r7, r8⟩ := h.exit e he
    refine ⟨eb, by rw [h8]; exact r1, by rw [h1]; exact r2, r3, by rw [h6]; exact r4,
      by rw [h9 eb r3]; exact r5, by rw [h4, h3]; exact r6, by rw [h3]; exact r7, ?_⟩
    rw [h2, h6]
    exact r8
  returns BB i v n ht hn hp := by
    rw [h3] at hn
    obtain ⟨e, eb, blk, r1, r2, r3, r4, r5, r6, r7⟩ := h.returns BB i v n ht hn hp
    exact ⟨e, eb, blk, by rw [h7]; exact r1, by rw [h8]; exact r2, h10 n e r3,
      by rw [h5]; exact r4, r5, by rw [h9 blk r5]; exact r6, h11 blk eb r7⟩

theorem addExit_cases {G G4 : LLVMDependenceGraph} {f BB node nodesBB : Nat}
    (h : addExit G f BB node nodesBB = .ok G4) :
    (∃ e eb, G.exitNode = some e ∧ G.exitBB = some eb ∧
        G4 = (G.addControlDependence node e).addSuccessor nodesBB eb) ∨
      (G.exitNode = none ∧
        G4 = (({ ((G.newNode (Value.phonyReturn f BB)).addNode G.numNodes).newBlock
              (some G.numNodes) (some G.numNodes) with
              exitNode := some G.numNodes,
              exitBB := some G.numBlocks } : LLVMDependenceGraph).addControlDependence node
            G.numNodes).addSuccessor nodesBB G.numBlocks) := by
  unfold addExit at h
  cases hx : G.exitNode with
  | some e =>
    rw [hx] at h
    dsimp only at h
    split at h
    · rename_i e' eb he heb
      cases h
      rw [hx] at he
      cases he
      exact Or.inl ⟨e, eb, rfl, heb, rfl⟩
    · cases h
  | none =>
    rw [hx] at h
    dsimp only at h
    cases h
    exact Or.inr ⟨rfl, rfl⟩

/-- The exit state after the end of `build(BB, pred)` (lines 279-328). -/
theorem exitInv_finishBlock {m : Module} {f BB B last : Nat} {G0 G G' : LLVMDependenceGraph}
    {ns : List Nat} {r : Bool} (hX : ExitInvX m f G (some last) B)
    (hc : ChainInv G0 G f BB B ns) (hnb : G.numBlocks = B + 1)
    (hl : ns.getLast? = some last)
    (hBB : ∀ BB' i v, getTerminator (m.block f BB') = some (i, Instruction.ret v) →
      G.nodes (Value.instruction f BB' i) = some last → BB' = BB)
    (h : finishBlock G f BB (m.block f BB) last B = .ok (r, G')) :
    ExitInvX m f G' none G'.numBlocks := by
  have hlastmem : last ∈ ns := List.mem_of_mem_getLast? hl
  have hlastlt : last < G.numNodes := (hc.range last hlastmem).2
  have hbbl : G.basicBlock last = some B := hc.bb last hlastmem
  unfold finishBlock at h
  split at h
  · rename_i hterm
    cases h
    refine hX.resolve (by omega) ?_
    intro BB' i v ht hn
    have := hBB BB' i v ht hn
    subst this
    rw [hterm] at ht
    cases ht
  · rename_i i term hterm
    dsimp only at h
    split at h
    · cases h
    · rename_i G4 hG4
      have hfin : G' = G4.setLastNode B last := by
        split at h
        · cases h
        · cases h
        · cases h; rfl
      subst hfin
      by_cases hret : term.isReturn = true
      · rw [if_pos hret] at hG4
        rcases addExit_cases hG4 with ⟨e, eb, he, heb, hG4eq⟩ | ⟨hnone, hG4eq⟩
        · subst hG4eq
          have hT : ExitInvX m f
              (((G.addControlDependence last e).addSuccessor B eb).setLastNode B last)
              (some last) B := by
            refine hX.tail rfl rfl rfl rfl rfl rfl rfl rfl ?_ ?_ ?_
            · intro blk hblk
              simp [LLVMDependenceGraph.setLastNode, LLVMDependenceGraph.addSuccessor,
                LLVMDependenceGraph.addControlDependence, Function.update_apply,
                Nat.ne_of_lt hblk]
            · intro n x hx
              simp only [LLVMDependenceGraph.setLastNode, LLVMDependenceGraph.addSuccessor,
                LLVMDependenceGraph.addControlDependence, Function.update_apply]
              split
              · rename_i hn; subst hn; exact mem_setInsert.2 (Or.inl hx)
              · exact hx
            · intro b x hx
              simp only [LLVMDependenceGraph.setLastNode, LLVMDependenceGraph.addSuccessor,
                LLVMDependenceGraph.addControlDependence, Function.update_apply]
              split
              · rename_i hb; subst hb; exact mem_setInsert.2 (Or.inl hx)
              · exact hx
          refine hT.resolve (by
            simp [LLVMDependenceGraph.setLastNode, LLVMDependenceGraph.addSuccessor,
              LLVMDependenceGraph.addControlDependence, hnb]) ?_
          intro BB' i' v' _ _
          refine ⟨e, eb, B, he, heb, ?_, hbbl, ?_, ?_, ?_⟩
          · simp [LLVMDependenceGraph.setLastNode, LLVMDependenceGraph.addSuccessor,
              LLVMDependenceGraph.addControlDependence, mem_setInsert]
          · simp [LLVMDependenceGraph.setLastNode, LLVMDependenceGraph.addSuccessor,
              LLVMDependenceGraph.addControlDependence, hnb]
          · simp [LLVMDependenceGraph.setLastNode, LLVMDependenceGraph.addSuccessor,
              LLVMDependenceGraph.addControlDependence]
          · simp [LLVMDependenceGraph.setLastNode, LLVMDependenceGraph.addSuccessor,
              LLVMDependenceGraph.addControlDependence, mem_setInsert]
        · subst hG4eq
          have hno := hX.no_exit hnone
          refine
            { nodes_range := ?_
              first_range := ?_
              no_exit := ?_
              exit := ?_
              returns := ?_ }
          · intro k n hk
            simp only [LLVMDependenceGraph.setLastNode, LLVMDependenceGraph.addSuccessor,
              LLVMDependenceGraph.addControlDependence, LLVMDependenceGraph.newBlock,
              LLVMDependenceGraph.addNode, LLVMDependenceGraph.newNode] at hk ⊢
            rcases mapInsert_eq_some _ _ _ _ _ hk with h1 | ⟨_, h1, _⟩
            · have := hX.nodes_range k n h1
              omega
            · omega
          · intro b' hb' n hn
            simp only [LLVMDependenceGraph.setLastNode, LLVMDependenceGraph.addSuccessor,
              LLVMDependenceGraph.addControlDependence, LLVMDependenceGraph.newBlock,
              LLVMDependenceGraph.addNode, LLVMDependenceGraph.newNode,
              Function.update_apply] at hb' hn ⊢
            split at hn
            · cases hn; omega
            · have := hX.first_range b' (by omega) n hn
              omega
          · intro hcontra
            simp [LLVMDependenceGraph.setLastNode, LLVMDependenceGraph.addSuccessor,
              LLVMDependenceGraph.addControlDependence, LLVMDependenceGraph.newBlock,
              LLVMDependenceGraph.addNode, LLVMDependenceGraph.newNode] at hcontra
          · intro e he
            simp only [LLVMDependenceGraph.setLastNode, LLVMDependenceGraph.addSuccessor,
              LLVMDependenceGraph.addControlDependence, LLVMDependenceGraph.newBlock,
              LLVMDependenceGraph.addNode, LLVMDependenceGraph.newNode] at he
            cases he
            refine ⟨G.numBlocks, rfl, ?_, ?_, ?_, ?_, ⟨f, BB, ?_, ?_⟩, ?_, ?_⟩
            · simp [LLVMDependenceGraph.setLastNode, LLVMDependenceGraph.addSuccessor,
                LLVMDependenceGraph.addControlDependence, LLVMDependenceGraph.newBlock,
                LLVMDependenceGraph.addNode, LLVMDependenceGraph.newNode]
            · simp [LLVMDependenceGraph.setLastNode, LLVMDependenceGraph.addSuccessor,
                LLVMDependenceGraph.addControlDependence, LLVMDependenceGraph.newBlock,
                LLVMDependenceGraph.addNode, LLVMDependenceGraph.newNode]
            · simp [LLVMDependenceGraph.setLastNode, LLVMDependenceGraph.addSuccessor,
                LLVMDependenceGraph.addControlDependence, LLVMDependenceGraph.newBlock,
                LLVMDependenceGraph.addNode, LLVMDependenceGraph.newNode]
            · simp [LLVMDependenceGraph.setLastNode, LLVMDependenceGraph.addSuccessor,
                LLVMDependenceGraph.addControlDependence, LLVMDependenceGraph.newBlock,
                LLVMDependenceGraph.addNode, LLVMDependenceGraph.newNode,
                Function.update_apply, hnb]
            · simp [LLVMDependenceGraph.setLastNode, LLVMDependenceGraph.addSuccessor,
                LLVMDependenceGraph.addControlDependence, LLVMDependenceGraph.newBlock,
                LLVMDependenceGraph.addNode, LLVMDependenceGraph.newNode]
            · simp only [LLVMDependenceGraph.setLastNode, LLVMDependenceGraph.addSuccessor,
                LLVMDependenceGraph.addControlDependence, LLVMDependenceGraph.newBlock,
                LLVMDependenceGraph.addNode, LLVMDependenceGraph.newNode,
                Function.update_same]
              exact mapInsert_new _ _ _ (hno.2 f BB)
            · intro f' b' n hn
              simp only [LLVMDependenceGraph.setLastNode, LLVMDependenceGraph.addSuccessor,
                LLVMDependenceGraph.addControlDependence, LLVMDependenceGraph.newBlock,
                LLVMDependenceGraph.addNode, LLVMDependenceGraph.newNode] at hn
              rcases mapInsert_eq_some _ _ _ _ _ hn with h1 | ⟨_, h1, _⟩
              · rw [hno.2 f' b'] at h1; cases h1
              · exact h1
            · intro b' hb' hf
              simp only [LLVMDependenceGraph.setLastNode, LLVMDependenceGraph.addSuccessor,
                LLVMDependenceGraph.addControlDependence, LLVMDependenceGraph.newBlock,
                LLVMDependenceGraph.addNode, LLVMDependenceGraph.newNode,
                Function.update_apply] at hb' hf
              split at hf
              · assumption
              · have := hX.first_range b' (by omega) _ hf
                omega
          · intro BB' i' v' n ht hn _
            simp only [LLVMDependenceGraph.setLastNode, LLVMDependenceGraph.addSuccessor,
              LLVMDependenceGraph.addControlDependence, LLVMDependenceGraph.newBlock,
              LLVMDependenceGraph.addNode, LLVMDependenceGraph.newNode,
              Function.update_same] at hn
            have hn' : G.nodes (Value.instruction f BB' i') = some n := by
              rcases mapInsert_eq_some _ _ _ _ _ hn with h1 | ⟨h1, _, _⟩
              · exact h1
              · cases h1
            by_cases hnl : n = last
            · subst hnl
              refine ⟨G.numNodes, G.numBlocks, B, rfl, rfl, ?_, ?_, ?_, ?_, ?_⟩
              · simp [LLVMDependenceGraph.setLastNode, LLVMDependenceGraph.addSuccessor,
                  LLVMDependenceGraph.addControlDependence, LLVMDependenceGraph.newBlock,
                  LLVMDependenceGraph.addNode, LLVMDependenceGraph.newNode, mem_setInsert]
              · simp [LLVMDependenceGraph.setLastNode, LLVMDependenceGraph.addSuccessor,
                  LLVMDependenceGraph.addControlDependence, LLVMDependenceGraph.newBlock,
                  LLVMDependenceGraph.addNode, LLVMDependenceGraph.newNode,
                  Function.update_apply, Nat.ne_of_lt hlastlt, hbbl]
              · simp [LLVMDependenceGraph.setLastNode, LLVMDependenceGraph.addSuccessor,
                  LLVMDependenceGraph.addControlDependence, LLVMDependenceGraph.newBlock,
                  LLVMDependenceGraph.addNode, LLVMDependenceGraph.newNode, hnb]
                omega
              · simp [LLVMDependenceGraph.setLastNode, LLVMDependenceGraph.addSuccessor,
                  LLVMDependenceGraph.addControlDependence, LLVMDependenceGraph.newBlock,
                  LLVMDependenceGraph.addNode, LLVMDependenceGraph.newNode]
              · simp [LLVMDependenceGraph.setLastNode, LLVMDependenceGraph.addSuccessor,
                  LLVMDependenceGraph.addControlDependence, LLVMDependenceGraph.newBlock,
                  LLVMDependenceGraph.addNode, LLVMDependenceGraph.newNode, mem_setInsert]
            · obtain ⟨e, _, _, he, _⟩ := hX.returns BB' i' v' n ht hn'
                (by simpa using fun h => hnl h.symm)
              rw [hnone] at he
              cases he
      · rw [if_neg hret] at hG4
        cases hG4
        have hT : ExitInvX m f (G.setLastNode B last) (some last) B := by
          refine hX.tail rfl rfl rfl rfl rfl rfl rfl rfl ?_ (fun _ _ hx => hx)
            (fun _ _ hx => hx)
          intro blk hblk
          simp [LLVMDependenceGraph.setLastNode, Function.update_apply, Nat.ne_of_lt hblk]
        refine hT.resolve (by simp [LLVMDependenceGraph.setLastNode, hnb]) ?_
        intro BB' i' v' ht hn
        have := hBB BB' i' v' ht hn
        subst this
        rw [hterm] at ht
        cases ht
        exact absurd rfl hret

theorem exitInv_buildBlock {build : World → Nat → Nat → Result (Bool × World)}
    (hk : KeepsOthers build) {m : Module} {w w' : World} {this f BB : Nat} {pred : Option Nat}
    {r : Bool} (hthis : this < w.numGraphs)
    (hI : ExitInvX m f (w.graph this) none (w.graph this).numBlocks)
    (h : buildBlock build m w this f BB pred = .ok (r, w')) :
    ExitInvX m f (w'.graph this) none (w'.graph this).numBlocks := by
  obtain ⟨ns, w3, last, hc, hm, hl, hlen, hx1, hx2, hx3, hE, G, hfin, hG⟩ :=
    buildBlock_chain hk hthis h
  obtain ⟨hX, hBB⟩ := exitInvX_of_chain hI hE hc hm ⟨hx1, hx2, hx3⟩ hl hlen
  rw [hG]
  exact exitInv_finishBlock hX hc hx3 hl hBB hfin

theorem ExitInvX.exit_of_frame {m : Module} {f : Nat} {G G' : LLVMDependenceGraph}
    (h : ExitInvX m f G none G.numBlocks) (hF : Frame G G') :
    ExitInvX m f G' none G'.numBlocks where
  nodes_range k n hk := by
    rw [hF.nodes_eq] at hk
    exact lt_of_lt_of_le (h.nodes_range k n hk) hF.ext.numNodes_le
  first_range b hb n hn := by
    rw [hF.numBlocks_eq] at hb
    rw [hF.firstNode_eq] at hn
    exact lt_of_lt_of_le (h.first_range b hb n hn) hF.ext.numNodes_le
  no_exit hn := by
    rw [hF.exitNode_eq] at hn
    rw [hF.exitBB_eq, hF.nodes_eq]
    exact h.no_exit hn
  exit e he := by
    rw [hF.exitNode_eq] at he
    obtain ⟨eb, r1, r2, r3, r4, r5, ⟨f', b', r6, r7⟩, r8, r9⟩ := h.exit e he
    refine ⟨eb, by rw [hF.exitBB_eq]; exact r1, lt_of_lt_of_le r2 hF.ext.numNodes_le,
      by rw [hF.numBlocks_eq]; exact r3, by rw [hF.firstNode_eq]; exact r4,
      by rw [hF.lastNode_eq]; exact r5,
      ⟨f', b', by rw [hF.ext.key_eq e r2]; exact r6, by rw [hF.nodes_eq]; exact r7⟩, ?_, ?_⟩
    · rw [hF.nodes_eq]; exact r8
    · rw [hF.numBlocks_eq, hF.firstNode_eq]; exact r9
  returns BB i v n ht hn hp := by
    rw [hF.nodes_eq] at hn
    obtain ⟨e, eb, blk, r1, r2, r3, r4, r5, r6, r7⟩ := h.returns BB i v n ht hn hp
    have hnlt := h.nodes_range _ _ hn
    exact ⟨e, eb, blk, by rw [hF.exitNode_eq]; exact r1, by rw [hF.exitBB_eq]; exact r2,
      hF.ext.controlDeps_sub n hnlt e r3, by rw [hF.ext.basicBlock_eq n hnlt]; exact r4,
      by rw [hF.numBlocks_eq]; exact r5, by rw [hF.lastNode_eq]; exact r6,
      by rw [hF.blockSuccessors_eq]; exact r7⟩

theorem exitInv_processSuccessors (m : Module) (this f BB : Nat) :
    ∀ (succs : List Nat) (WQ : List (Nat × Option Nat)) (processedBB : List Nat)
      (G : LLVMDependenceGraph) (WQ' : List (Nat × Option Nat)) (processedBB' : List Nat)
      (G' : LLVMDependenceGraph),
      processSuccessors m this f BB succs WQ processedBB G = .ok (WQ', processedBB', G') →
      ExitInvX m f G none G.numBlocks →
      ExitInvX m f G' none G'.numBlocks ∧ G'.nodes = G.nodes := by
  intro succs
  induction succs with
  | nil =>
    intro WQ processedBB G WQ' processedBB' G' h hI
    simp only [processSuccessors] at h
    cases h
    exact ⟨hI, rfl⟩
  | cons S rest ih =>
    intro WQ processedBB G WQ' processedBB' G' h hI
    simp only [processSuccessors] at h
    split at h
    · split at h
      · cases h
      · split at h
        · cases h
        · split at h
          · cases h
          · split at h
            · cases h
            · have hI2 : ∀ a c, ExitInvX m f (G.addSuccessor a c) none
                  (G.addSuccessor a c).numBlocks := by
                intro a c
                refine hI.tail rfl rfl rfl rfl rfl rfl rfl rfl (fun _ _ => rfl)
                  (fun _ _ hx => hx) ?_
                intro b x hx
                simp only [LLVMDependenceGraph.addSuccessor, Function.update_apply]
                split
                · rename_i hb; subst hb; exact mem_setInsert.2 (Or.inl hx)
                · exact hx
              obtain ⟨r1, r2⟩ := ih _ _ _ _ _ _ h (hI2 _ _)
              exact ⟨r1, by rw [r2]; rfl⟩
    · exact ih _ _ _ _ _ _ h hI

theorem exitInv_startFunction (m : Module) (f : Nat) :
    ExitInvX m f (startFunction LLVMDependenceGraph.new f) none
      (startFunction LLVMDependenceGraph.new f).numBlocks where
  nodes_range k n hk := by
    simp only [startFunction, LLVMDependenceGraph.addNode, LLVMDependenceGraph.newNode,
      LLVMDependenceGraph.new] at hk ⊢
    rcases mapInsert_eq_some _ _ _ _ _ hk with h1 | ⟨_, h1, _⟩
    · cases h1
    · omega
  first_range b hb := by
    simp [startFunction, LLVMDependenceGraph.addNode, LLVMDependenceGraph.newNode,
      LLVMDependenceGraph.new] at hb
  no_exit _ := by
    refine ⟨rfl, ?_⟩
    intro f' b'
    simp [startFunction, LLVMDependenceGraph.addNode, LLVMDependenceGraph.newNode,
      LLVMDependenceGraph.new, mapInsert]
  exit e he := by
    simp [startFunction, LLVMDependenceGraph.addNode, LLVMDependenceGraph.newNode,
      LLVMDependenceGraph.new] at he
  returns BB i v n _ hn _ := by
    simp [startFunction, LLVMDependenceGraph.addNode, LLVMDependenceGraph.newNode,
      LLVMDependenceGraph.new, mapInsert] at hn

theorem exitInv_buildLoop {build : World → Nat → Nat → Result (Bool × World)}
    (hk : KeepsOthers build) (m : Module) (this f : Nat) :
    ∀ (fuel : Nat) (WQ : List (Nat × Option Nat)) (processedBB : List Nat) (w w' : World),
      this < w.numGraphs → ExitInvX m f (w.graph this) none (w.graph this).numBlocks →
      buildLoop build m this f fuel WQ processedBB w = .ok w' →
      ExitInvX m f (w'.graph this) none (w'.graph this).numBlocks := by
  intro fuel
  induction fuel with
  | zero =>
    intro WQ processedBB w w' _ hI h
    simp only [buildLoop] at h
    split at h
    · cases h; exact hI
    · cases h
  | succ k ih =>
    intro WQ processedBB w w' hthis hI h
    simp only [buildLoop] at h
    split at h
    · cases h; exact hI
    · split at h
      · cases h
      · rename_i r w1 hb
        have hI1 := exitInv_buildBlock hk hthis hI hb
        obtain ⟨ho1, _⟩ := buildBlock_ext hk hthis hb
        split at h
        · cases h
        · rename_i WQ2 processedBB2 G hp
          obtain ⟨hI2, _⟩ := exitInv_processSuccessors m this f _ _ _ _ _ _ _ _ hp hI1
          refine ih _ _ _ w' (by simpa using lt_of_lt_of_le hthis ho1.1) ?_ h
          rw [World.modify_graph_self]
          exact hI2

/-! ## Every reachable block gets built -/

theorem Built.built_mono {m : Module} {f BB : Nat} {G G' : LLVMDependenceGraph}
    (h : Built m f G BB) (hn : ∀ k n, G.nodes k = some n → G'.nodes k = some n) :
    Built m f G' BB := by
  intro i hi
  obtain ⟨n, hn'⟩ := h i hi
  exact ⟨n, hn _ _ hn'⟩

theorem finishBlock_nodes {G G' : LLVMDependenceGraph} {f BB node nodesBB : Nat}
    {insts : List Instruction} {r : Bool}
    (h : finishBlock G f BB insts node nodesBB = .ok (r, G')) :
    ∀ k n, G'.nodes k = some n → G.nodes k = some n ∨ ∃ f' b', k = Value.phonyReturn f' b' := by
  intro k n hk
  unfold finishBlock at h
  split at h
  · cases h; exact Or.inl hk
  · dsimp only at h
    split at h
    · cases h
    · rename_i G4 hG4
      have hfin : G'.nodes = G4.nodes := by
        split at h
        · cases h
        · cases h
        · cases h; rfl
      rw [hfin] at hk
      split at hG4
      · rcases addExit_cases hG4 with ⟨e, eb, _, _, hG4eq⟩ | ⟨_, hG4eq⟩
        · subst hG4eq
          exact Or.inl hk
        · subst hG4eq
          simp only [LLVMDependenceGraph.addSuccessor, LLVMDependenceGraph.addControlDependence,
            LLVMDependenceGraph.newBlock, LLVMDependenceGraph.addNode,
            LLVMDependenceGraph.newNode, Function.update_same] at hk
          rcases mapInsert_eq_some _ _ _ _ _ hk with h1 | ⟨h1, _, _⟩
          · exact Or.inl h1
          · exact Or.inr ⟨f, BB, h1⟩
      · cases hG4
        exact Or.inl hk

theorem buildBlock_built {build : World → Nat → Nat → Result (Bool × World)}
    (hk : KeepsOthers build) {m : Module} {w w' : World} {this f BB : Nat} {pred : Option Nat}
    {r : Bool} (hthis : this < w.numGraphs)
    (h : buildBlock build m w this f BB pred = .ok (r, w')) :
    Built m f (w'.graph this) BB ∧
      ∀ b, b ≠ BB → Built m f (w'.graph this) b → Built m f (w.graph this) b := by
  obtain ⟨ns, w3, last, hc, hm, hl, hlen, _, _, _, _, G, hfin, hG⟩ :=
    buildBlock_chain hk hthis h
  obtain ⟨_, hE⟩ := buildBlock_ext hk hthis h
  obtain ⟨hc', _⟩ := finishBlock_chain hc hfin
  rw [hG] at hE ⊢
  constructor
  · intro i hi
    cases h0 : (w.graph this).nodes (Value.instruction f BB i) with
    | some n0 => exact ⟨n0, hE.nodes_mono _ _ h0⟩
    | none =>
      have hlt : i < ns.length := by rw [hlen]; exact hi
      have hget : ns[i]? = some ns[i] := List.getElem?_eq_getElem hlt
      have hkey := hc'.key_at hget
      have := hc'.map_new ns[i] (List.getElem?_mem hget) (by rw [hkey]; exact h0)
      rw [hkey] at this
      exact ⟨_, this⟩
  · intro b hb hB i hi
    obtain ⟨n, hn⟩ := hB i hi
    rcases finishBlock_nodes hfin _ _ hn with h1 | ⟨f', b', h1⟩
    · rcases hm _ _ h1 with h2 | ⟨h2, h3⟩
      · exact ⟨n, h2⟩
      · exfalso
        obtain ⟨j, _, hj⟩ := hc.key_of_mem h2
        rw [h3] at hj
        injection hj with _ hbb _
        exact hb hbb
    · cases h1

theorem processSuccessors_work (m : Module) (this f BB : Nat) :
    ∀ (succs : List Nat) (WQ : List (Nat × Option Nat)) (processedBB : List Nat)
      (G : LLVMDependenceGraph) (WQ' : List (Nat × Option Nat)) (processedBB' : List Nat)
      (G' : LLVMDependenceGraph),
      processSuccessors m this f BB succs WQ processedBB G = .ok (WQ', processedBB', G') →
      (∀ x ∈ WQ, x ∈ WQ') ∧ (∀ s ∈ processedBB, s ∈ processedBB') ∧
        (∀ s ∈ succs, s ∈ processedBB') ∧
        (∀ s ∈ processedBB', s ∈ processedBB ∨ s ∈ WQ'.map Prod.fst) := by
  intro succs
  induction succs with
  | nil =>
    intro WQ processedBB G WQ' processedBB' G' h
    simp only [processSuccessors] at h
    cases h
    exact ⟨fun _ h => h, fun _ h => h, fun _ h => absurd h (List.not_mem_nil _),
      fun _ h => Or.inl h⟩
  | cons S rest ih =>
    intro WQ processedBB G WQ' processedBB' G' h
    simp only [processSuccessors] at h
    split at h
    · rename_i hS
      split at h
      · cases h
      · split at h
        · cases h
        · split at h
          · cases h
          · split at h
            · cases h
            · obtain ⟨r1, r2, r3, r4⟩ := ih _ _ _ _ _ _ h
              refine ⟨r1, r2, ?_, r4⟩
              intro s hs
              rcases List.mem_cons.1 hs with hs | hs
              · subst hs; exact r2 _ hS
              · exact r3 s hs
    · obtain ⟨r1, r2, r3, r4⟩ := ih _ _ _ _ _ _ h
      refine ⟨fun x hx => r1 x (List.mem_cons_of_mem _ hx),
        fun s hs => r2 s (List.mem_cons_of_mem _ hs), ?_, ?_⟩
      · intro s hs
        rcases List.mem_cons.1 hs with hs | hs
        · subst hs; exact r2 _ (List.mem_cons_self _ _)
        · exact r3 s hs
      · intro s hs
        rcases r4 s hs with h1 | h1
        · rcases List.mem_cons.1 h1 with h2 | h2
          · subst h2
            exact Or.inr (List.mem_map.2 ⟨(s, some BB), r1 _ (List.mem_cons_self _ _), rfl⟩)
          · exact Or.inl h2
        · exact Or.inr h1

theorem buildLoop_work {build : World → Nat → Nat → Result (Bool × World)}
    (hk : KeepsOthers build) (m : Module) (this f : Nat) :
    ∀ (fuel : Nat) (WQ : List (Nat × Option Nat)) (processedBB : List Nat) (w w' : World),
      this < w.numGraphs → WorkInv m f WQ processedBB (w.graph this) →
      buildLoop build m this f fuel WQ processedBB w = .ok w' →
      ∃ processedBB', WorkInv m f [] processedBB' (w'.graph this) := by
  intro fuel
  induction fuel with
  | zero =>
    intro WQ processedBB w w' _ hW h
    simp only [buildLoop] at h
    split at h
    · rename_i he
      cases h
      have : WQ = [] := by simpa using he
      subst this
      exact ⟨processedBB, hW⟩
    · cases h
  | succ k ih =>
    intro WQ processedBB w w' hthis hW h
    simp only [buildLoop] at h
    split at h
    · cases h; exact ⟨processedBB, hW⟩
    · rename_i BB pred WQ1
      split at h
      · cases h
      · rename_i r w1 hb
        obtain ⟨hB1, hB2⟩ := buildBlock_built hk hthis hb
        obtain ⟨ho1, hE1⟩ := buildBlock_ext hk hthis hb
        split at h
        · cases h
        · rename_i WQ2 processedBB2 G hp
          obtain ⟨p1, p2, p3, p4⟩ := processSuccessors_work m this f _ _ _ _ _ _ _ _ hp
          have hnodes : G.nodes = (w1.graph this).nodes := by
            have hI : ∀ (succs : List Nat) (WQ : List (Nat × Option Nat)) (P : List Nat)
                (G1 : LLVMDependenceGraph) (WQ' : List (Nat × Option Nat)) (P' : List Nat)
                (G2 : LLVMDependenceGraph),
                processSuccessors m this f BB succs WQ P G1 = .ok (WQ', P', G2) →
                G2.nodes = G1.nodes := by
              intro succs
              induction succs with
              | nil =>
                intro WQ P G1 WQ' P' G2 h
                simp only [processSuccessors] at h
                cases h; rfl
              | cons S rest ih2 =>
                intro WQ P G1 WQ' P' G2 h
                simp only [processSuccessors] at h
                split at h
                · split at h
                  · cases h
                  · split at h
                    · cases h
                    · split at h
                      · cases h
                      · split at h
                        · cases h
                        · rw [ih2 _ _ _ _ _ _ h]; rfl
                · exact ih2 _ _ _ _ _ _ h
            exact hI _ _ _ _ _ _ _ hp
          have hmono : ∀ b, Built m f (w.graph this) b → Built m f G b := by
            intro b hb'
            refine hb'.built_mono ?_
            intro k n hkn
            rw [hnodes]
            exact hE1.nodes_mono k n hkn
          have hBB : Built m f G BB := by
            intro i hi
            rw [hnodes]
            exact hB1 i hi
          refine ih WQ2 processedBB2 (w1.modify this (fun _ => G)) w'
            (by simpa using lt_of_lt_of_le hthis ho1.1) ?_ h
          rw [World.modify_graph_self]
          refine
            { entry := ?_
              queued := ?_
              closed := ?_ }
          · rcases hW.entry with h0 | h0
            · exact Or.inl (hmono 0 h0)
            · simp only [List.map_cons, List.mem_cons] at h0
              rcases h0 with h0 | h0
              · rw [h0]; exact Or.inl hBB
              · obtain ⟨x, hx, hx0⟩ := List.mem_map.1 h0
                exact Or.inr (List.mem_map.2 ⟨x, p1 x hx, hx0⟩)
          · intro s hs
            rcases p4 s hs with h1 | h1
            · rcases hW.queued s h1 with h2 | h2
              · exact Or.inl (hmono s h2)
              · simp only [List.map_cons, List.mem_cons] at h2
                rcases h2 with h2 | h2
                · rw [h2]; exact Or.inl hBB
                · obtain ⟨x, hx, hxs⟩ := List.mem_map.1 h2
                  exact Or.inr (List.mem_map.2 ⟨x, p1 x hx, hxs⟩)
            · exact Or.inr h1
          · intro b hb' s hs
            by_cases hbb : b = BB
            · subst hbb
              exact p3 s hs
            · have hold : Built m f (w.graph this) b := by
                refine hB2 b hbb ?_
                intro i hi
                obtain ⟨n, hn⟩ := hb' i hi
                rw [hnodes] at hn
                exact ⟨n, hn⟩
              exact p2 s (hW.closed b hold s hs)

theorem WorkInv.reachable_built {m : Module} {f : Nat} {processedBB : List Nat}
    {G : LLVMDependenceGraph} (h : WorkInv m f [] processedBB G) {BB : Nat}
    (hr : analysis.Reachable (fun b => successors (m.block f b)) 0 BB) : Built m f G BB := by
  induction hr with
  | refl =>
    rcases h.entry with h0 | h0
    · exact h0
    · simp at h0
  | step _ hs ih =>
    rcases h.queued _ (h.closed _ ih _ hs) with h1 | h1
    · exact h1
    · simp at h1

theorem finishFunction_exit {m : Module} {G G' : LLVMDependenceGraph} {entry : Nat}
    (h : finishFunction m G entry = .ok G') : ∃ e, G.exitNode = some e := by
  unfold finishFunction at h
  split at h
  · cases h
  · split at h
    · cases h
    · rename_i e he
      exact ⟨e, he⟩

theorem workInv_startFunction (m : Module) (f : Nat) :
    WorkInv m f [(0, none)] [] (startFunction LLVMDependenceGraph.new f) where
  entry := Or.inr (by simp)
  queued s hs := absurd hs (List.not_mem_nil _)
  closed b hb s hs := by
    exfalso
    cases hblock : m.block f b with
    | nil =>
      rw [hblock] at hs
      simp [successors, getTerminator] at hs
    | cons i rest =>
      obtain ⟨n, hn⟩ := hb 0 (by rw [hblock]; simp)
      simp [startFunction, LLVMDependenceGraph.addNode, LLVMDependenceGraph.newNode,
        LLVMDependenceGraph.new, mapInsert] at hn

/-- C8.  Let `build(func)`, run on a new graph, return true.  Then the graph has
an exit node `e` and an exit block `eb` whose first and last node are both `e`;
`e` is registered under the key of a phony return and is the only node
registered under such a key, and `eb` is the only block starting with `e`; the
node of every return instruction that ends a block reachable from the entry
block exists, and every registered node of a return instruction ending its block
has a control-dependence edge to `e`, while its block, of which it is the last
node, has `eb` among its successors. -/
theorem build_unifies_exit (m : Module) (fuel : Nat) (w w' : World) (this f : Nat)
    (hthis : this < w.numGraphs) (hnew : w.graph this = LLVMDependenceGraph.new)
    (h : build m fuel w this f = .ok (true, w')) :
    ∃ e eb,
      (w'.graph this).exitNode = some e ∧ (w'.graph this).exitBB = some eb ∧
      (w'.graph this).firstNode eb = some e ∧ (w'.graph this).lastNode eb = some e ∧
      (∃ f' b', (w'.graph this).key e = Value.phonyReturn f' b' ∧
        (w'.graph this).getNode (Value.phonyReturn f' b') = some e) ∧
      (∀ f' b' n, (w'.graph this).getNode (Value.phonyReturn f' b') = some n → n = e) ∧
      (∀ b, b < (w'.graph this).numBlocks → (w'.graph this).firstNode b = some e → b = eb) ∧
      (∀ BB i v, analysis.Reachable (fun b => successors (m.block f b)) 0 BB →
        getTerminator (m.block f BB) = some (i, Instruction.ret v) →
        ∃ n, (w'.graph this).getNode (Value.instruction f BB i) = some n) ∧
      (∀ BB i v n, getTerminator (m.block f BB) = some (i, Instruction.ret v) →
        (w'.graph this).getNode (Value.instruction f BB i) = some n →
        e ∈ (w'.graph this).controlDeps n ∧
        ∃ blk, (w'.graph this).basicBlock n = some blk ∧
          (w'.graph this).lastNode blk = some n ∧
          eb ∈ (w'.graph this).blockSuccessors blk) := by
  cases fuel with
  | zero => cases h
  | succ k =>
    have hk := build_keepsOthers m k
    simp only [build] at h
    unfold buildFunction at h
    split at h
    · cases h
    · dsimp only at h
      split at h
      · cases h
      · rename_i w3 hl
        split at h
        · cases h
        · rename_i G hfin
          cases h
          have hg2 : ((w.modify this (fun G => startFunction G f)).insertConstructed f
              this).graph this = startFunction LLVMDependenceGraph.new f := by
            show (w.modify this (fun G => startFunction G f)).graph this = _
            rw [World.modify_graph_self, hnew]
          have hthis2 : this < ((w.modify this (fun G => startFunction G f)).insertConstructed
              f this).numGraphs := hthis
          have hI3 := exitInv_buildLoop hk m this f (k + 1) _ _ _ w3 hthis2
            (by rw [hg2]; exact exitInv_startFunction m f) hl
          obtain ⟨P, hW3⟩ := buildLoop_work hk m this f (k + 1) _ _ _ w3 hthis2
            (by rw [hg2]; exact workInv_startFunction m f) hl
          have hF := frame_finishFunction hfin
          have hI := hI3.exit_of_frame hF
          obtain ⟨e, he⟩ := finishFunction_exit hfin
          rw [World.modify_graph_self]
          have he' : G.exitNode = some e := by rw [hF.exitNode_eq]; exact he
          obtain ⟨eb, r1, _, _, r4, r5, r6, r7, r8⟩ := hI.exit e he'
          refine ⟨e, eb, he', r1, r4, r5, r6, r7, r8, ?_, ?_⟩
          · intro BB i v hr ht
            have hB := hW3.reachable_built hr
            have hi := getTerminator_index ht
            have hne : (m.block f BB) ≠ [] := by
              intro hnil
              rw [hnil] at ht
              simp [getTerminator] at ht
            have hlen : 0 < (m.block f BB).length := List.length_pos.2 hne
            obtain ⟨n, hn⟩ := hB i (by omega)
            exact ⟨n, by
              show G.nodes _ = some n
              rw [hF.nodes_eq]; exact hn⟩
          · intro BB i v n ht hn
            obtain ⟨e2, eb2, blk, s1, s2, s3, s4, _, s6, s7⟩ := hI.returns BB i v n ht hn
              (by simp)
            rw [he'] at s1
            rw [r1] at s2
            cases s1
            cases s2
            exact ⟨s3, blk, s4, s6, s7⟩

/-- The statement of `build_unifies_exit` on function 0 of `callModule`. -/
theorem build_unifies_exit_witness :
    ∃ w', build callModule 5 World.initial 0 0 = .ok (true, w') ∧
      0 < World.initial.numGraphs ∧ World.initial.graph 0 = LLVMDependenceGraph.new ∧
      ∃ e eb,
        (w'.graph 0).exitNode = some e ∧ (w'.graph 0).exitBB = some eb ∧
        (w'.graph 0).firstNode eb = some e ∧ (w'.graph 0).lastNode eb = some e ∧
        (∃ f' b', (w'.graph 0).key e = Value.phonyReturn f' b' ∧
          (w'.graph 0).getNode (Value.phonyReturn f' b') = some e) ∧
        (∀ f' b' n, (w'.graph 0).getNode (Value.phonyReturn f' b') = some n → n = e) ∧
        (∀ b, b < (w'.graph 0).numBlocks → (w'.graph 0).firstNode b = some e → b = eb) ∧
        (∀ BB i v, analysis.Reachable (fun b => successors (callModule.block 0 b)) 0 BB →
          getTerminator (callModule.block 0 BB) = some (i, Instruction.ret v) →
          ∃ n, (w'.graph 0).getNode (Value.instruction 0 BB i) = some n) ∧
        (∀ BB i v n, getTerminator (callModule.block 0 BB) = some (i, Instruction.ret v) →
          (w'.graph 0).getNode (Value.instruction 0 BB i) = some n →
          e ∈ (w'.graph 0).controlDeps n ∧
          ∃ blk, (w'.graph 0).basicBlock n = some blk ∧
            (w'.graph 0).lastNode blk = some n ∧
            eb ∈ (w'.graph 0).blockSuccessors blk) :=
  ⟨_, rfl, by decide, rfl,
    build_unifies_exit callModule 5 World.initial _ 0 0 (by decide) rfl rfl⟩

/-- C11.  When no entry function is given and the module has no function named
"main", `build(module, entry)` returns false and the world it leaves is the one
it found: no node, no block, no entry of `constructedFunctions` is made. -/
theorem buildModule_without_entry (m : Module) (getFunction : String → Option Nat)
    (VF : World → Nat → World) (fuel : Nat) (w : World) (this : Nat)
    (hmain : getFunction "main" = none) :
    buildModule m getFunction VF fuel w this none = .ok (some false, w) := by
  simp [buildModule, hmain]

/-- The statement of `buildModule_without_entry` on `callModule` with an empty
symbol table. -/
theorem buildModule_without_entry_witness :
    (fun _ => none : String → Option Nat) "main" = none ∧
    buildModule callModule (fun _ => none) (fun w _ => w) 5 World.initial 0 none =
      .ok (some false, World.initial) :=
  ⟨rfl, buildModule_without_entry callModule (fun _ => none) (fun w _ => w) 5 World.initial 0 rfl⟩

/-! ## Properties of `computePostDominators` -/

theorem RootInv.setIPostDom {G0 G : LLVMBlockGraph} {root : Option Nat} (h : RootInv G0 G root)
    (BB pb : Nat) : RootInv G0 (G.setIPostDom BB pb) root :=
  ⟨h.no_root, h.root_new, h.key_old, h.blocks_eq, h.controlDeps_old, h.controlDeps_sub⟩

theorem RootInv.newRoot {G0 G : LLVMBlockGraph} (h : RootInv G0 G none) :
    RootInv G0 G.newRoot (some G.dg.numBlocks) where
  no_root hr := by cases hr
  root_new r hr := by
    cases hr
    obtain ⟨h1, _⟩ := h.no_root rfl
    simp [LLVMBlockGraph.newRoot, h1]
  key_old b hb := by
    obtain ⟨h1, _⟩ := h.no_root rfl
    have : b ≠ G.dg.numBlocks := by rw [h1]; exact Nat.ne_of_lt hb
    simp [LLVMBlockGraph.newRoot, Function.update_apply, this, h.key_old b hb]
  blocks_eq := h.blocks_eq
  controlDeps_old b hb := by
    obtain ⟨h1, _⟩ := h.no_root rfl
    have : b ≠ G.dg.numBlocks := by rw [h1]; exact Nat.ne_of_lt hb
    simp [LLVMBlockGraph.newRoot, Function.update_apply, this, h.controlDeps_old b hb]
  controlDeps_sub b t ht := by
    simp only [LLVMBlockGraph.newRoot, Function.update_apply] at ht
    split at ht
    · cases ht
    · exact h.controlDeps_sub b t ht

theorem RootInv.root_refl (G : LLVMBlockGraph) : RootInv G G none :=
  ⟨fun _ => ⟨rfl, rfl⟩, fun _ h => (by cases h), fun _ _ => rfl, rfl, fun _ _ => rfl,
    fun _ _ h => h⟩

theorem lookup_mem {α β : Type} [DecidableEq α] {l : List (α × β)} {a : α} {b : β}
    (h : l.lookup a = some b) : (a, b) ∈ l := by
  induction l with
  | nil => simp at h
  | cons x xs ih =>
    obtain ⟨k, v⟩ := x
    by_cases hk : a = k
    · subst hk
      simp [List.lookup] at h
      subst h
      exact List.mem_cons_self _ _
    · have hk' : (a == k) = false := by simpa using hk
      simp only [List.lookup, hk'] at h
      exact List.mem_cons_of_mem _ (ih h)

/-- What the loop over `our_blocks` leaves, for the part `L` of the container
still to be visited. -/
theorem setIPostDoms_spec (pdtree : PostDominatorTree) (ob : List (BasicBlock × Nat))
    (G0 : LLVMBlockGraph) (hob : ∀ x ∈ ob, x.2 < G0.dg.numBlocks) :
    ∀ (L : List (BasicBlock × Nat)) (G : LLVMBlockGraph) (root : Option Nat) (built : Bool)
      (G' : LLVMBlockGraph) (root' : Option Nat) (built' : Bool),
      (∀ x ∈ L, x.2 < G0.dg.numBlocks) → (L.map Prod.snd).Nodup → RootInv G0 G root →
      setIPostDoms pdtree ob L G root built = .ok (G', root', built') →
      RootInv G0 G' root' ∧ (∀ r, root = some r → root' = some r) ∧
      built' = (built || L.any (fun x => (pdtree.getNode x.1).isSome)) ∧
      (∀ b, b < G0.dg.numBlocks → b ∉ L.map Prod.snd → G'.iPostDom b = G.iPostDom b) ∧
      (∀ B BB, (B, BB) ∈ L → pdtree.getNode B = none → G'.iPostDom BB = G.iPostDom BB) ∧
      (∀ B BB N ib, (B, BB) ∈ L → pdtree.getNode B = some N →
        (pdtree.getIDom N).bind pdtree.getBlock = some ib →
        ∃ pb k1 k2, ob.lookup ib = some pb ∧ G'.iPostDom BB = some pb ∧
          G'.blockKey BB = some k1 ∧ G'.blockKey pb = some k2 ∧ k1.parent = k2.parent) ∧
      (∀ B BB N, (B, BB) ∈ L → pdtree.getNode B = some N →
        (pdtree.getIDom N).bind pdtree.getBlock = none →
        ∃ r, root' = some r ∧ G'.iPostDom BB = some r) := by
  intro L
  induction L with
  | nil =>
    intro G root built G' root' built' _ _ hI h
    simp only [setIPostDoms] at h
    cases h
    refine ⟨hI, fun _ h => h, by simp, fun _ _ _ => rfl, ?_, ?_, ?_⟩
    · intro B BB hm; cases hm
    · intro B BB N ib hm; cases hm
    · intro B BB N hm; cases hm
  | cons x rest ih =>
    intro G root built G' root' built' hL hnd hI h
    obtain ⟨B0, BB0⟩ := x
    have hL' : ∀ x ∈ rest, x.2 < G0.dg.numBlocks := fun x hx => hL x (List.mem_cons_of_mem _ hx)
    have hBB0 : BB0 < G0.dg.numBlocks := hL (B0, BB0) (List.mem_cons_self _ _)
    simp only [List.map_cons, List.nodup_cons] at hnd
    obtain ⟨hnot, hnd'⟩ := hnd
    -- the common conclusion, given what the first entry did
    have key : ∀ (G1 : LLVMBlockGraph) (root1 : Option Nat) (built1 : Bool),
        RootInv G0 G1 root1 → (∀ r, root = some r → root1 = some r) →
        built1 = (built || (pdtree.getNode B0).isSome) →
        (∀ b, b < G0.dg.numBlocks → b ≠ BB0 → G1.iPostDom b = G.iPostDom b) →
        (pdtree.getNode B0 = none → G1.iPostDom BB0 = G.iPostDom BB0) →
        (∀ N ib, pdtree.getNode B0 = some N →
          (pdtree.getIDom N).bind pdtree.getBlock = some ib →
          ∃ pb k1 k2, ob.lookup ib = some pb ∧ G1.iPostDom BB0 = some pb ∧
            G1.blockKey BB0 = some k1 ∧ G1.blockKey pb = some k2 ∧ k1.parent = k2.parent) →
        (∀ N, pdtree.getNode B0 = some N → (pdtree.getIDom N).bind pdtree.getBlock = none →
          ∃ r, root1 = some r ∧ G1.iPostDom BB0 = some r) →
        setIPostDoms pdtree ob rest G1 root1 built1 = .ok (G', root', built') →
        RootInv G0 G' root' ∧ (∀ r, root = some r → root' = some r) ∧
        built' = (built || (((B0, BB0) :: rest).any (fun x => (pdtree.getNode x.1).isSome))) ∧
        (∀ b, b < G0.dg.numBlocks → b ∉ ((B0, BB0) :: rest).map Prod.snd →
          G'.iPostDom b = G.iPostDom b) ∧
        (∀ B BB, (B, BB) ∈ (B0, BB0) :: rest → pdtree.getNode B = none →
          G'.iPostDom BB = G.iPostDom BB) ∧
        (∀ B BB N ib, (B, BB) ∈ (B0, BB0) :: rest → pdtree.getNode B = some N →
          (pdtree.getIDom N).bind pdtree.getBlock = some ib →
          ∃ pb k1 k2, ob.lookup ib = some pb ∧ G'.iPostDom BB = some pb ∧
            G'.blockKey BB = some k1 ∧ G'.blockKey pb = some k2 ∧ k1.parent = k2.parent) ∧
        (∀ B BB N, (B, BB) ∈ (B0, BB0) :: rest → pdtree.getNode B = some N →
          (pdtree.getIDom N).bind pdtree.getBlock = none →
          ∃ r, root' = some r ∧ G'.iPostDom BB = some r) := by
      intro G1 root1 built1 hI1 hr1 hb1 hfr h0 h1 h2 hrec
      obtain ⟨i1, i2, i3, i4, i5, i6, i7⟩ := ih G1 root1 built1 G' root' built' hL' hnd' hI1 hrec
      have hkeep : G'.iPostDom BB0 = G1.iPostDom BB0 := i4 BB0 hBB0 hnot
      have hkeys : ∀ b, b < G0.dg.numBlocks → G'.blockKey b = G1.blockKey b := by
        intro b hb
        rw [i1.key_old b hb, hI1.key_old b hb]
      refine ⟨i1, fun r hr => i2 r (hr1 r hr), ?_, ?_, ?_, ?_, ?_⟩
      · rw [i3, hb1]; simp [Bool.or_assoc]
      · intro b hb hnb
        simp only [List.map_cons, List.mem_cons, not_or] at hnb
        rw [i4 b hb hnb.2, hfr b hb hnb.1]
      · intro B BB hm hn
        rcases List.mem_cons.1 hm with hm1 | hm1
        · cases hm1
          rw [hkeep, h0 hn]
        · have hne : BB ≠ BB0 := by
            intro hbb
            exact hnot (List.mem_map.2 ⟨(B, BB), hm1, hbb⟩)
          rw [i5 B BB hm1 hn, hfr BB (hL' _ hm1) hne]
      · intro B BB N ib hm hn hi
        rcases List.mem_cons.1 hm with hm | hm
        · cases hm
          obtain ⟨pb, k1, k2, e1, e2, e3, e4, e5⟩ := h1 N ib hn hi
          have hpb : pb < G0.dg.numBlocks := hob _ (lookup_mem e1)
          exact ⟨pb, k1, k2, e1, by rw [hkeep, e2], by rw [hkeys _ hBB0, e3],
            by rw [hkeys _ hpb, e4], e5⟩
        · exact i6 B BB N ib hm hn hi
      · intro B BB N hm hn hi
        rcases List.mem_cons.1 hm with hm | hm
        · cases hm
          obtain ⟨r, e1, e2⟩ := h2 N hn hi
          exact ⟨r, i2 r e1, by rw [hkeep, e2]⟩
        · exact i7 B BB N hm hn hi
    have hupd : ∀ (Gx : LLVMBlockGraph) (v : Nat) (b : Nat), b ≠ BB0 →
        (Gx.setIPostDom BB0 v).iPostDom b = Gx.iPostDom b := by
      intro Gx v b hb
      simp [LLVMBlockGraph.setIPostDom, Function.update_apply, hb]
    have hset : ∀ (Gx : LLVMBlockGraph) (v : Nat),
        (Gx.setIPostDom BB0 v).iPostDom BB0 = some v := by
      intro Gx v
      simp [LLVMBlockGraph.setIPostDom]
    simp only [setIPostDoms] at h
    cases hN : pdtree.getNode B0 with
    | none =>
      rw [hN] at h
      dsimp only at h
      refine key G root built hI (fun _ h => h) (by simp [hN]) (fun _ _ _ => rfl)
        (fun _ => rfl) ?_ ?_ h
      · intro N ib hn; rw [hN] at hn; cases hn
      · intro N hn; rw [hN] at hn; cases hn
    | some N =>
      rw [hN] at h
      dsimp only at h
      cases hi : (pdtree.getIDom N).bind pdtree.getBlock with
      | some ib =>
        rw [hi] at h
        dsimp only at h
        cases hl : ob.lookup ib with
        | none => rw [hl] at h; cases h
        | some pb =>
          rw [hl] at h
          dsimp only at h
          split at h
          · rename_i k1 k2 hk1 hk2
            split at h
            · rename_i hpar
              refine key _ root true (hI.setIPostDom BB0 pb) (fun _ h => h) (by simp [hN])
                (fun b _ hb => hupd G pb b hb) (fun hn => by rw [hN] at hn; cases hn) ?_ ?_ h
              · intro N' ib' hn hi'
                rw [hN] at hn; cases hn
                rw [hi] at hi'; cases hi'
                exact ⟨pb, k1, k2, hl, hset G pb, hk1, hk2, hpar⟩
              · intro N' hn hi'
                rw [hN] at hn; cases hn
                rw [hi] at hi'; cases hi'
            · cases h
          · cases h
      | none =>
        rw [hi] at h
        dsimp only at h
        cases root with
        | some r =>
          dsimp only at h
          refine key _ (some r) true (hI.setIPostDom BB0 r)
            (fun r' h' => h') (by simp [hN])
            (fun b _ hb => hupd G r b hb) (fun hn => by rw [hN] at hn; cases hn) ?_ ?_ h
          · intro N' ib' hn hi'
            rw [hN] at hn; cases hn
            rw [hi] at hi'; cases hi'
          · intro N' _ _
            exact ⟨r, rfl, hset G r⟩
        | none =>
          dsimp only at h
          have hdg := (hI.no_root rfl).1
          refine key _ (some G.dg.numBlocks) true (hI.newRoot.setIPostDom BB0 _)
            (fun r' h' => by cases h') (by simp [hN])
            ?_ (fun hn => by rw [hN] at hn; cases hn) ?_ ?_ h
          · intro b hb hne
            rw [hupd _ _ b hne]
            have : b ≠ G.dg.numBlocks := by rw [hdg]; exact Nat.ne_of_lt hb
            simp [LLVMBlockGraph.newRoot, Function.update_apply, this]
          · intro N' ib' hn hi'
            rw [hN] at hn; cases hn
            rw [hi] at hi'; cases hi'
          · intro N' _ _
            exact ⟨_, rfl, hset _ _⟩

theorem setIPostDoms_none (pdtree : PostDominatorTree) (ob : List (BasicBlock × Nat)) :
    ∀ (L : List (BasicBlock × Nat)) (G : LLVMBlockGraph) (root : Option Nat) (built : Bool),
      (∀ x ∈ L, pdtree.getNode x.1 = none) →
      setIPostDoms pdtree ob L G root built = .ok (G, root, built) := by
  intro L
  induction L with
  | nil => intro G root built _; rfl
  | cons x rest ih =>
    intro G root built hL
    obtain ⟨B, BB⟩ := x
    have h0 : pdtree.getNode B = none := hL (B, BB) (List.mem_cons_self _ _)
    simp only [setIPostDoms, h0]
    exact ih G root built (fun x hx => hL x (List.mem_cons_of_mem _ hx))

/-- The inner loop of the fallback: block `BB` gets the targets `succs`, the
rest stays. -/
theorem foldl_addControlDependence (BB : Nat) :
    ∀ (succs : List Nat) (G : LLVMBlockGraph),
      let G' := succs.foldl (fun G2 target => G2.addControlDependence BB target) G
      G'.dg = G.dg ∧ G'.blocks = G.blocks ∧ G'.blockKey = G.blockKey ∧
        G'.iPostDom = G.iPostDom ∧ G'.postDominatorTreeRoot = G.postDominatorTreeRoot ∧
        (∀ b, b ≠ BB → G'.blockControlDeps b = G.blockControlDeps b) ∧
        (∀ t, t ∈ G'.blockControlDeps BB ↔ t ∈ G.blockControlDeps BB ∨ t ∈ succs) := by
  intro succs
  induction succs with
  | nil => intro G; simp
  | cons s rest ih =>
    intro G
    simp only [List.foldl_cons]
    obtain ⟨h1, h2, h3, h4, h5, h6, h7⟩ := ih (G.addControlDependence BB s)
    refine ⟨h1, h2, h3, h4, h5, ?_, ?_⟩
    · intro b hb
      rw [h6 b hb]
      simp [LLVMBlockGraph.addControlDependence, Function.update_apply, hb]
    · intro t
      rw [h7 t]
      simp only [LLVMBlockGraph.addControlDependence, Function.update_same, mem_setInsert,
        List.mem_cons]
      tauto

/-- The fallback: every block of the container gets its successors as control
dependencies, and nothing else changes. -/
theorem addSuccessorControlDeps_spec (G : LLVMBlockGraph) :
    (addSuccessorControlDeps G).dg = G.dg ∧ (addSuccessorControlDeps G).blocks = G.blocks ∧
      (addSuccessorControlDeps G).blockKey = G.blockKey ∧
      (addSuccessorControlDeps G).iPostDom = G.iPostDom ∧
      (addSuccessorControlDeps G).postDominatorTreeRoot = G.postDominatorTreeRoot ∧
      (∀ b, b ∉ G.blocks.map Prod.snd →
        (addSuccessorControlDeps G).blockControlDeps b = G.blockControlDeps b) ∧
      (∀ b, b ∈ G.blocks.map Prod.snd → ∀ t,
        t ∈ (addSuccessorControlDeps G).blockControlDeps b ↔
          t ∈ G.blockControlDeps b ∨ t ∈ G.dg.blockSuccessors b) := by
  have hgen : ∀ (L : List (BasicBlock × Nat)) (G1 : LLVMBlockGraph),
      let G' := L.foldl (fun G1 it => (G1.dg.blockSuccessors it.2).foldl
        (fun G2 target => G2.addControlDependence it.2 target) G1) G1
      G'.dg = G1.dg ∧ G'.blocks = G1.blocks ∧ G'.blockKey = G1.blockKey ∧
        G'.iPostDom = G1.iPostDom ∧ G'.postDominatorTreeRoot = G1.postDominatorTreeRoot ∧
        (∀ b, b ∉ L.map Prod.snd → G'.blockControlDeps b = G1.blockControlDeps b) ∧
        (∀ b, b ∈ L.map Prod.snd → ∀ t,
          t ∈ G'.blockControlDeps b ↔ t ∈ G1.blockControlDeps b ∨ t ∈ G1.dg.blockSuccessors b) := by
    intro L
    induction L with
    | nil => intro G1; simp
    | cons x rest ih =>
      intro G1
      simp only [List.foldl_cons]
      obtain ⟨a1, a2, a3, a4, a5, a6, a7⟩ :=
        foldl_addControlDependence x.2 (G1.dg.blockSuccessors x.2) G1
      obtain ⟨h1, h2, h3, h4, h5, h6, h7⟩ := ih
        ((G1.dg.blockSuccessors x.2).foldl (fun G2 target => G2.addControlDependence x.2 target) G1)
      refine ⟨h1.trans a1, h2.trans a2, h3.trans a3, h4.trans a4, h5.trans a5, ?_, ?_⟩
      · intro b hb
        simp only [List.map_cons, List.mem_cons, not_or] at hb
        rw [h6 b hb.2, a6 b hb.1]
      · intro b hb t
        by_cases hbx : b = x.2
        · subst hbx
          by_cases hr : x.2 ∈ rest.map Prod.snd
          · rw [h7 _ hr t, a7 t, a1]
            tauto
          · rw [h6 _ hr, a7 t]
        · simp only [List.map_cons, List.mem_cons] at hb
          rcases hb with hb | hb
          · exact absurd hb hbx
          · rw [h7 b hb t, a6 b hbx, a1]
  exact hgen G.blocks G

/-- Without a tree node for any block the body of the loop over the functions
does nothing but the fallback. -/
theorem computeFunction_no_tree (pdtree : PostDominatorTree)
    (compute : LLVMBlockGraph → Nat → Nat → List Nat) (addPostDomFrontiers : Bool)
    (G : LLVMBlockGraph) (hno : ∀ x ∈ G.blocks, pdtree.getNode x.1 = none) :
    computeFunction pdtree compute addPostDomFrontiers G =
      .ok (if addPostDomFrontiers then addSuccessorControlDeps G else G) := by
  unfold computeFunction
  rw [setIPostDoms_none pdtree G.blocks G.blocks G none false hno]
  cases addPostDomFrontiers <;> simp

/-- The loop over the constructed functions runs the body once on the subgraph
of each entry when no two entries share a subgraph, and leaves the other
subgraphs alone. -/
theorem computePostDominators_graph (pdtree : Nat → PostDominatorTree)
    (compute : LLVMBlockGraph → Nat → Nat → List Nat) (addPostDomFrontiers : Bool) :
    ∀ (constructed : List (Nat × Nat)) (graph graph' : Nat → LLVMBlockGraph),
      (constructed.map Prod.snd).Nodup →
      computePostDominators pdtree compute addPostDomFrontiers constructed graph = .ok graph' →
      (∀ f g, (f, g) ∈ constructed →
        computeFunction (pdtree f) compute addPostDomFrontiers (graph g) = .ok (graph' g)) ∧
      (∀ g, g ∉ constructed.map Prod.snd → graph' g = graph g) := by
  intro constructed
  induction constructed with
  | nil =>
    intro graph graph' _ h
    simp only [computePostDominators] at h
    cases h
    exact ⟨fun f g hm => (by cases hm), fun _ _ => rfl⟩
  | cons x rest ih =>
    intro graph graph' hnd h
    obtain ⟨f0, g0⟩ := x
    simp only [List.map_cons, List.nodup_cons] at hnd
    simp only [computePostDominators] at h
    split at h
    · cases h
    · rename_i G hG
      obtain ⟨h1, h2⟩ := ih _ graph' hnd.2 h
      constructor
      · intro f g hm
        rcases List.mem_cons.1 hm with hm1 | hm1
        · have hf : f = f0 := congrArg Prod.fst hm1
          have hg : g = g0 := congrArg Prod.snd hm1
          rw [hf, hg, hG, h2 g0 hnd.1]
          simp
        · have hne : g ≠ g0 := by
            intro hgg
            exact hnd.1 (List.mem_map.2 ⟨(f, g), hm1, hgg⟩)
          have := h1 f g hm1
          rw [Function.update_noteq hne] at this
          exact this
      · intro g hg
        simp only [List.map_cons, List.mem_cons, not_or] at hg
        rw [h2 g hg.2, Function.update_noteq hg.1]

/-- The stages of the loop body after the immediate post-dominators are set
change the block-level control dependencies only. -/
theorem computeFunction_fields {pdtree : PostDominatorTree}
    {compute : LLVMBlockGraph → Nat → Nat → List Nat} {addPostDomFrontiers : Bool}
    {G G' : LLVMBlockGraph} (h : computeFunction pdtree compute addPostDomFrontiers G = .ok G') :
    ∃ G1 root built, setIPostDoms pdtree G.blocks G.blocks G none false = .ok (G1, root, built) ∧
      G'.dg = G1.dg ∧ G'.blocks = G1.blocks ∧ G'.blockKey = G1.blockKey ∧
      G'.iPostDom = G1.iPostDom ∧ G'.postDominatorTreeRoot = G1.postDominatorTreeRoot ∧
      (addPostDomFrontiers = false → G'.blockControlDeps = G1.blockControlDeps) ∧
      (built = true → G'.blockControlDeps = G1.blockControlDeps ∨
        ∃ r, root = some r ∧ G'.blockControlDeps = compute G1 r) := by
  unfold computeFunction at h
  split at h
  · cases h
  · rename_i G1 root built hl
    refine ⟨G1, root, built, hl, ?_⟩
    obtain ⟨a1, a2, a3, a4, a5, _, _⟩ := addSuccessorControlDeps_spec G1
    cases addPostDomFrontiers with
    | false =>
      simp at h
      cases h
      exact ⟨rfl, rfl, rfl, rfl, rfl, fun _ => rfl, fun _ => Or.inl rfl⟩
    | true =>
      cases built with
      | false =>
        simp at h
        split at h
        · cases h
          exact ⟨a1, a2, a3, a4, a5, fun hf => (by cases hf), fun hf => (by cases hf)⟩
        · cases h
          exact ⟨a1, a2, a3, a4, a5, fun hf => (by cases hf), fun hf => (by cases hf)⟩
      | true =>
        simp at h
        split at h
        · rename_i r
          cases h
          exact ⟨rfl, rfl, rfl, rfl, rfl, fun hf => (by cases hf), fun _ => Or.inr ⟨r, rfl, rfl⟩⟩
        · cases h
          exact ⟨rfl, rfl, rfl, rfl, rfl, fun hf => (by cases hf), fun _ => Or.inl rfl⟩

/-- C18.  Let `computePostDominators` run to its end on constructed functions
with a subgraph each, the blocks of each container being distinct blocks of the
subgraph.  Then for every constructed function and every block `BB` of its
container, keyed by `B`: if `B` has a tree node whose immediate dominator has a
basic block, the immediate post-dominator of `BB` is the block the container
holds for that basic block, and both keys have the same parent function; if `B`
has a tree node without such a basic block, the immediate post-dominator of `BB`
is the root of the post-dominator tree of the subgraph, a block with null key
made by this run; if `B` has no tree node, the immediate post-dominator of `BB`
is what it was.  Either no block was made for the subgraph and its root is what
it was, or one block was made, the root, with null key. -/
theorem computePostDominators_sets_iPostDom (pdtree : Nat → PostDominatorTree)
    (compute : LLVMBlockGraph → Nat → Nat → List Nat) (addPostDomFrontiers : Bool)
    (constructed : List (Nat × Nat)) (graph graph' : Nat → LLVMBlockGraph)
    (hgraphs : (constructed.map Prod.snd).Nodup)
    (hblocks : ∀ f g, (f, g) ∈ constructed →
      ((graph g).blocks.map Prod.snd).Nodup ∧
        ∀ x ∈ (graph g).blocks, x.2 < (graph g).dg.numBlocks)
    (h : computePostDominators pdtree compute addPostDomFrontiers constructed graph =
      .ok graph') :
    ∀ f g, (f, g) ∈ constructed →
      (∀ B BB, (B, BB) ∈ (graph g).blocks →
        (∀ N ib, (pdtree f).getNode B = some N →
          ((pdtree f).getIDom N).bind (pdtree f).getBlock = some ib →
          ∃ pb k1 k2, (graph g).blocks.lookup ib = some pb ∧
            (graph' g).iPostDom BB = some pb ∧ (graph' g).blockKey BB = some k1 ∧
            (graph' g).blockKey pb = some k2 ∧ k1.parent = k2.parent) ∧
        (∀ N, (pdtree f).getNode B = some N →
          ((pdtree f).getIDom N).bind (pdtree f).getBlock = none →
          ∃ r, (graph' g).postDominatorTreeRoot = some r ∧ (graph' g).iPostDom BB = some r ∧
            (graph' g).blockKey r = none ∧ r = (graph g).dg.numBlocks) ∧
        ((pdtree f).getNode B = none → (graph' g).iPostDom BB = (graph g).iPostDom BB)) ∧
      (((graph' g).dg = (graph g).dg ∧
          (graph' g).postDominatorTreeRoot = (graph g).postDominatorTreeRoot) ∨
        ((graph' g).dg = (graph g).dg.newBlock none none ∧
          (graph' g).postDominatorTreeRoot = some (graph g).dg.numBlocks ∧
          (graph' g).blockKey (graph g).dg.numBlocks = none)) := by
  intro f g hm
  obtain ⟨hrun, _⟩ := computePostDominators_graph pdtree compute addPostDomFrontiers constructed
    graph graph' hgraphs h
  obtain ⟨G1, root, built, hl, e1, _, e3, e4, e5, _, _⟩ := computeFunction_fields (hrun f g hm)
  obtain ⟨hnd, hval⟩ := hblocks f g hm
  obtain ⟨i1, _, _, _, i5, i6, i7⟩ := setIPostDoms_spec (pdtree f) (graph g).blocks (graph g) hval
    (graph g).blocks (graph g) none false G1 root built hval hnd (RootInv.root_refl _) hl
  rw [e1, e3, e4, e5]
  constructor
  · intro B BB hB
    refine ⟨fun N ib hN hi => i6 B BB N ib hB hN hi, ?_, fun hN => i5 B BB hB hN⟩
    intro N hN hi
    obtain ⟨r, hr, hp⟩ := i7 B BB N hB hN hi
    obtain ⟨r1, _, r3, r4⟩ := i1.root_new r hr
    exact ⟨r, r3, hp, r4, r1⟩
  · cases hr : root with
    | none => exact Or.inl (i1.no_root hr)
    | some r =>
      obtain ⟨r1, r2, r3, r4⟩ := i1.root_new r hr
      subst r1
      exact Or.inr ⟨r2, r3, r4⟩

/-- The statement of `computePostDominators_sets_iPostDom` on `straightBlocks`
with `straightTree`: block 0 gets block 1, block 1 gets the new root, block
2. -/
theorem computePostDominators_sets_iPostDom_witness :
    ∃ graph', computePostDominators (fun _ => straightTree) (fun G _ => G.blockControlDeps)
        true [(0, 0)] (fun _ => straightBlocks) = .ok graph' ∧
      (∃ pb k1 k2, straightBlocks.blocks.lookup ⟨0, 1⟩ = some pb ∧
        (graph' 0).iPostDom 0 = some pb ∧ (graph' 0).blockKey 0 = some k1 ∧
        (graph' 0).blockKey pb = some k2 ∧ k1.parent = k2.parent) ∧
      (∃ r, (graph' 0).postDominatorTreeRoot = some r ∧ (graph' 0).iPostDom 1 = some r ∧
        (graph' 0).blockKey r = none ∧ r = straightBlocks.dg.numBlocks) := by
  refine ⟨_, rfl, ?_⟩
  have H := computePostDominators_sets_iPostDom (fun _ => straightTree)
    (fun G _ => G.blockControlDeps) true [(0, 0)] (fun _ => straightBlocks) _ (by decide)
    (by
      intro f g _
      show (straightBlocks.blocks.map Prod.snd).Nodup ∧
        ∀ x ∈ straightBlocks.blocks, x.2 < straightBlocks.dg.numBlocks
      decide)
    rfl 0 0 (List.mem_cons_self _ _)
  exact ⟨(H.1 ⟨0, 0⟩ 0 (by decide)).1 0 ⟨0, 1⟩ rfl rfl,
    (H.1 ⟨0, 1⟩ 1 (by decide)).2.1 1 rfl rfl⟩

/-- C19.  Let `computePostDominators` run to its end on constructed functions
with a subgraph each, the blocks of each container being distinct blocks of the
subgraph.  With `addPostDomFrontiers` set: when no block of a function has a tree
node, every block of the container has afterwards the control dependencies it
had and its CFG successors, no others, and the blocks outside the container are
untouched; when some block has a tree node, the control dependencies are those
of the state `G1` the loop over the blocks leaves, which are the ones from
before the run, or what `pdfrontiers.compute` makes of `G1` when the loop made a
root.  With
`addPostDomFrontiers` unset no block gains a control dependence. -/
theorem computePostDominators_fallback_edges (pdtree : Nat → PostDominatorTree)
    (compute : LLVMBlockGraph → Nat → Nat → List Nat) (addPostDomFrontiers : Bool)
    (constructed : List (Nat × Nat)) (graph graph' : Nat → LLVMBlockGraph)
    (hgraphs : (constructed.map Prod.snd).Nodup)
    (hblocks : ∀ f g, (f, g) ∈ constructed →
      ((graph g).blocks.map Prod.snd).Nodup ∧
        ∀ x ∈ (graph g).blocks, x.2 < (graph g).dg.numBlocks)
    (h : computePostDominators pdtree compute addPostDomFrontiers constructed graph =
      .ok graph') :
    ∀ f g, (f, g) ∈ constructed →
      (addPostDomFrontiers = true → (∀ x ∈ (graph g).blocks, (pdtree f).getNode x.1 = none) →
        (∀ b, b ∈ (graph g).blocks.map Prod.snd → ∀ t,
          t ∈ (graph' g).blockControlDeps b ↔
            t ∈ (graph g).blockControlDeps b ∨ t ∈ (graph g).dg.blockSuccessors b) ∧
        (∀ b, b ∉ (graph g).blocks.map Prod.snd →
          (graph' g).blockControlDeps b = (graph g).blockControlDeps b)) ∧
      (addPostDomFrontiers = true → (∃ x ∈ (graph g).blocks, (pdtree f).getNode x.1 ≠ none) →
        ∃ G1 root, setIPostDoms (pdtree f) (graph g).blocks (graph g).blocks (graph g) none false =
            .ok (G1, root, true) ∧
          (∀ b, b < (graph g).dg.numBlocks →
            G1.blockControlDeps b = (graph g).blockControlDeps b) ∧
          (∀ b t, t ∈ G1.blockControlDeps b → t ∈ (graph g).blockControlDeps b) ∧
          ((graph' g).blockControlDeps = G1.blockControlDeps ∨
            ∃ r, root = some r ∧ (graph' g).blockControlDeps = compute G1 r)) ∧
      (addPostDomFrontiers = false → ∀ b,
        (∀ t, t ∈ (graph' g).blockControlDeps b → t ∈ (graph g).blockControlDeps b) ∧
        (b < (graph g).dg.numBlocks →
          (graph' g).blockControlDeps b = (graph g).blockControlDeps b)) := by
  intro f g hm
  obtain ⟨hrun, _⟩ := computePostDominators_graph pdtree compute addPostDomFrontiers constructed
    graph graph' hgraphs h
  have hg := hrun f g hm
  obtain ⟨hnd, hval⟩ := hblocks f g hm
  refine ⟨?_, ?_, ?_⟩
  · intro hflag hno
    rw [computeFunction_no_tree (pdtree f) compute addPostDomFrontiers (graph g) hno, hflag] at hg
    simp only [if_true] at hg
    injection hg with hg
    rw [← hg]
    obtain ⟨_, _, _, _, _, a6, a7⟩ := addSuccessorControlDeps_spec (graph g)
    exact ⟨a7, a6⟩
  · intro hflag hsome
    obtain ⟨G1, root, built, hl, _, _, _, _, _, _, e7⟩ := computeFunction_fields hg
    obtain ⟨i1, _, i3, _, _, _, _⟩ := setIPostDoms_spec (pdtree f) (graph g).blocks (graph g) hval
      (graph g).blocks (graph g) none false G1 root built hval hnd (RootInv.root_refl _) hl
    have hb : built = true := by
      rw [i3]
      obtain ⟨x, hx, hxn⟩ := hsome
      simp only [Bool.false_or, List.any_eq_true]
      refine ⟨x, hx, ?_⟩
      cases hN : (pdtree f).getNode x.1 with
      | none => exact absurd hN hxn
      | some N => rfl
    subst hb
    exact ⟨G1, root, hl, i1.controlDeps_old, i1.controlDeps_sub, e7 rfl⟩
  · intro hflag b
    obtain ⟨G1, root, built, hl, _, _, _, _, _, e6, _⟩ := computeFunction_fields hg
    obtain ⟨i1, _⟩ := setIPostDoms_spec (pdtree f) (graph g).blocks (graph g) hval
      (graph g).blocks (graph g) none false G1 root built hval hnd (RootInv.root_refl _) hl
    rw [e6 hflag]
    exact ⟨i1.controlDeps_sub b, i1.controlDeps_old b⟩

/-- The statement of `computePostDominators_fallback_edges` on `loopBlocks`, no
block of which has a tree node, where block 0 comes to depend on block 1 and
block 1 on itself, and on `straightBlocks`, whose blocks have tree nodes, with
and without frontiers. -/
theorem computePostDominators_fallback_edges_witness :
    (∃ graph', computePostDominators (fun _ => emptyTree) (fun G _ => G.blockControlDeps)
        true [(0, 0)] (fun _ => loopBlocks) = .ok graph' ∧
      (∀ t, t ∈ (graph' 0).blockControlDeps 0 ↔
        t ∈ loopBlocks.blockControlDeps 0 ∨ t ∈ loopBlocks.dg.blockSuccessors 0) ∧
      (∀ t, t ∈ (graph' 0).blockControlDeps 1 ↔
        t ∈ loopBlocks.blockControlDeps 1 ∨ t ∈ loopBlocks.dg.blockSuccessors 1) ∧
      (graph' 0).blockControlDeps 2 = loopBlocks.blockControlDeps 2) ∧
    (∃ graph', computePostDominators (fun _ => straightTree) (fun G _ => G.blockControlDeps)
        true [(0, 0)] (fun _ => straightBlocks) = .ok graph' ∧
      ∃ G1 root, setIPostDoms straightTree straightBlocks.blocks straightBlocks.blocks
          straightBlocks none false = .ok (G1, root, true) ∧
        (∀ b, b < straightBlocks.dg.numBlocks →
          G1.blockControlDeps b = straightBlocks.blockControlDeps b) ∧
        (∀ b t, t ∈ G1.blockControlDeps b → t ∈ straightBlocks.blockControlDeps b) ∧
        ((graph' 0).blockControlDeps = G1.blockControlDeps ∨
          ∃ r, root = some r ∧ (graph' 0).blockControlDeps = G1.blockControlDeps)) ∧
    (∃ graph', computePostDominators (fun _ => straightTree) (fun G _ => G.blockControlDeps)
        false [(0, 0)] (fun _ => straightBlocks) = .ok graph' ∧
      ∀ b, (∀ t, t ∈ (graph' 0).blockControlDeps b → t ∈ straightBlocks.blockControlDeps b) ∧
        (b < straightBlocks.dg.numBlocks →
          (graph' 0).blockControlDeps b = straightBlocks.blockControlDeps b)) := by
  have hl : ∀ f g : Nat, (f, g) ∈ [((0 : Nat), (0 : Nat))] →
      (((fun _ => loopBlocks) g : LLVMBlockGraph).blocks.map Prod.snd).Nodup ∧
        ∀ x ∈ ((fun _ => loopBlocks) g : LLVMBlockGraph).blocks,
          x.2 < ((fun _ => loopBlocks) g : LLVMBlockGraph).dg.numBlocks := by
    intro f g _
    show (loopBlocks.blocks.map Prod.snd).Nodup ∧
      ∀ x ∈ loopBlocks.blocks, x.2 < loopBlocks.dg.numBlocks
    decide
  have hs : ∀ f g : Nat, (f, g) ∈ [((0 : Nat), (0 : Nat))] →
      (((fun _ => straightBlocks) g : LLVMBlockGraph).blocks.map Prod.snd).Nodup ∧
        ∀ x ∈ ((fun _ => straightBlocks) g : LLVMBlockGraph).blocks,
          x.2 < ((fun _ => straightBlocks) g : LLVMBlockGraph).dg.numBlocks := by
    intro f g _
    show (straightBlocks.blocks.map Prod.snd).Nodup ∧
      ∀ x ∈ straightBlocks.blocks, x.2 < straightBlocks.dg.numBlocks
    decide
  refine ⟨⟨_, rfl, ?_⟩, ⟨_, rfl, ?_⟩, ⟨_, rfl, ?_⟩⟩
  · have H := (computePostDominators_fallback_edges (fun _ => emptyTree)
      (fun G _ => G.blockControlDeps) true [(0, 0)] (fun _ => loopBlocks) _ (by decide) hl
      rfl 0 0 (List.mem_cons_self _ _)).1 rfl (fun _ _ => rfl)
    exact ⟨H.1 0 (by decide), H.1 1 (by decide), H.2 2 (by decide)⟩
  · exact (computePostDominators_fallback_edges (fun _ => straightTree)
      (fun G _ => G.blockControlDeps) true [(0, 0)] (fun _ => straightBlocks) _ (by decide) hs
      rfl 0 0 (List.mem_cons_self _ _)).2.1 rfl
      ⟨(⟨0, 0⟩, 0), List.mem_cons_self _ _, by decide⟩
  · exact (computePostDominators_fallback_edges (fun _ => straightTree)
      (fun G _ => G.blockControlDeps) false [(0, 0)] (fun _ => straightBlocks) _ (by decide) hs
      rfl 0 0 (List.mem_cons_self _ _)).2.2 rfl

/-- C20, counterexample.  On `loopBlocks`, the subgraph of a function that never
returns and none of whose blocks has a tree node, `computePostDominators` with
frontiers enabled adds the fallback edges and makes no root block: the subgraph
has as many blocks as before and its post-dominator-tree root is still null. -/
theorem computePostDominators_makes_no_root_on_loop :
    (∀ x ∈ loopBlocks.blocks, emptyTree.getNode x.1 = none) ∧
    ∃ graph', computePostDominators (fun _ => emptyTree) (fun G _ => G.blockControlDeps)
        true [(0, 0)] (fun _ => loopBlocks) = .ok graph' ∧
      (graph' 0).blockControlDeps 0 = [1] ∧ (graph' 0).blockControlDeps 1 = [1] ∧
      (graph' 0).dg.numBlocks = loopBlocks.dg.numBlocks ∧
      (graph' 0).postDominatorTreeRoot = none :=
  ⟨fun _ _ => rfl, _, rfl, rfl, rfl, rfl, rfl⟩

/-- C20, amended.  Let `computePostDominators` with frontiers enabled run to its
end on constructed functions with a subgraph each.  For a function none of whose
blocks has a tree node, every block of the container has afterwards each of its
CFG successors as control dependence, and no root block is made: the blocks of
the subgraph, their immediate post-dominators and the post-dominator-tree root
of the subgraph are what they were. -/
theorem computePostDominators_no_tree (pdtree : Nat → PostDominatorTree)
    (compute : LLVMBlockGraph → Nat → Nat → List Nat)
    (constructed : List (Nat × Nat)) (graph graph' : Nat → LLVMBlockGraph)
    (hgraphs : (constructed.map Prod.snd).Nodup)
    (h : computePostDominators pdtree compute true constructed graph = .ok graph') :
    ∀ f g, (f, g) ∈ constructed → (∀ x ∈ (graph g).blocks, (pdtree f).getNode x.1 = none) →
      (∀ B BB, (B, BB) ∈ (graph g).blocks → ∀ t, t ∈ (graph g).dg.blockSuccessors BB →
        t ∈ (graph' g).blockControlDeps BB) ∧
      (graph' g).dg = (graph g).dg ∧
      (graph' g).postDominatorTreeRoot = (graph g).postDominatorTreeRoot ∧
      (graph' g).iPostDom = (graph g).iPostDom ∧
      (graph' g).blocks = (graph g).blocks := by
  intro f g hm hno
  obtain ⟨hrun, _⟩ := computePostDominators_graph pdtree compute true constructed
    graph graph' hgraphs h
  have hg := hrun f g hm
  rw [computeFunction_no_tree (pdtree f) compute true (graph g) hno] at hg
  simp only [if_true] at hg
  injection hg with hg
  rw [← hg]
  obtain ⟨a1, a2, _, a4, a5, _, a7⟩ := addSuccessorControlDeps_spec (graph g)
  refine ⟨?_, a1, a5, a4, a2⟩
  intro B BB hB t ht
  exact (a7 BB (List.mem_map.2 ⟨(B, BB), hB, rfl⟩) t).2 (Or.inr ht)

/-- The statement of `computePostDominators_no_tree` on `loopBlocks`. -/
theorem computePostDominators_no_tree_witness :
    ∃ graph', computePostDominators (fun _ => emptyTree) (fun G _ => G.blockControlDeps)
        true [(0, 0)] (fun _ => loopBlocks) = .ok graph' ∧
      (∀ B BB, (B, BB) ∈ loopBlocks.blocks → ∀ t, t ∈ loopBlocks.dg.blockSuccessors BB →
        t ∈ (graph' 0).blockControlDeps BB) ∧
      (graph' 0).dg = loopBlocks.dg ∧
      (graph' 0).postDominatorTreeRoot = loopBlocks.postDominatorTreeRoot ∧
      (graph' 0).iPostDom = loopBlocks.iPostDom ∧
      (graph' 0).blocks = loopBlocks.blocks :=
  ⟨_, rfl, computePostDominators_no_tree (fun _ => emptyTree) (fun G _ => G.blockControlDeps)
    [(0, 0)] (fun _ => loopBlocks) _ (by decide) rfl 0 0 (List.mem_cons_self _ _)
    (fun _ _ => rfl)⟩

/-! ## Call sites: what the builder leaves alone -/

theorem Kept.kept_refl (G : LLVMDependenceGraph) : Kept G G :=
  ⟨le_refl _, fun _ _ => rfl, fun _ _ => rfl, fun _ _ => rfl, fun _ _ h => Or.inl h, rfl, rfl⟩

/-- A step that leaves the nodes of the base graph alone keeps `Kept`. -/
theorem Kept.of_agree {G0 G G' : LLVMDependenceGraph} (h : Kept G0 G)
    (hn : G.numNodes ≤ G'.numNodes)
    (hs : ∀ n, n < G0.numNodes → G'.subgraphs n = G.subgraphs n)
    (hp : ∀ n, n < G0.numNodes → G'.parameters n = G.parameters n)
    (hc : ∀ n, n < G0.numNodes → G'.controlDeps n = G.controlDeps n)
    (hcs : ∀ b x, x ∈ G'.callSites b → x ∈ G.callSites b ∨ G0.numNodes ≤ x)
    (hf : G'.formalParameters = G.formalParameters) (he : G'.entryNode = G.entryNode) :
    Kept G0 G' where
  numNodes_le := le_trans h.numNodes_le hn
  subgraphs_eq n hlt := by rw [hs n hlt, h.subgraphs_eq n hlt]
  parameters_eq n hlt := by rw [hp n hlt, h.parameters_eq n hlt]
  controlDeps_eq n hlt := by rw [hc n hlt, h.controlDeps_eq n hlt]
  callSites_old b x hx := by
    rcases hcs b x hx with h1 | h1
    · exact h.callSites_old b x h1
    · exact Or.inr h1
  formalParameters_eq := by rw [hf, h.formalParameters_eq]
  entryNode_eq := by rw [he, h.entryNode_eq]

theorem Kept.kept_trans {G0 G1 G2 : LLVMDependenceGraph} (h1 : Kept G0 G1) (h2 : Kept G1 G2) :
    Kept G0 G2 :=
  h1.of_agree h2.numNodes_le
    (fun n hn => h2.subgraphs_eq n (lt_of_lt_of_le hn h1.numNodes_le))
    (fun n hn => h2.parameters_eq n (lt_of_lt_of_le hn h1.numNodes_le))
    (fun n hn => h2.controlDeps_eq n (lt_of_lt_of_le hn h1.numNodes_le))
    (fun b x hx => by
      rcases h2.callSites_old b x hx with h | h
      · exact Or.inl h
      · exact Or.inr (le_trans h1.numNodes_le h))
    h2.formalParameters_eq h2.entryNode_eq

theorem Kept.local {G0 G G' : LLVMDependenceGraph} {node : Nat} (h : Kept G0 G)
    (hl : CallLocal node G G') (hnode : G0.numNodes ≤ node) : Kept G0 G' :=
  h.of_agree hl.numNodes_le
    (fun n hn => hl.subgraphs_eq n (lt_of_lt_of_le hn h.numNodes_le) (by omega))
    (fun n hn => hl.parameters_eq n (lt_of_lt_of_le hn h.numNodes_le) (by omega))
    (fun n hn => hl.controlDeps_eq n (lt_of_lt_of_le hn h.numNodes_le) (by omega))
    (fun b x hx => by
      rcases hl.callSites_old b x hx with h1 | h1
      · exact Or.inl h1
      · exact Or.inr (by omega))
    hl.formalParameters_eq hl.entryNode_eq

theorem CallLocal.local_refl (node : Nat) (G : LLVMDependenceGraph) : CallLocal node G G :=
  ⟨le_refl _, fun _ _ _ => rfl, fun _ _ _ => rfl, fun _ _ _ => rfl, fun _ _ h => Or.inl h, rfl,
    rfl⟩

theorem CallLocal.local_trans {node : Nat} {G1 G2 G3 : LLVMDependenceGraph}
    (h1 : CallLocal node G1 G2) (h2 : CallLocal node G2 G3) : CallLocal node G1 G3 where
  numNodes_le := le_trans h1.numNodes_le h2.numNodes_le
  subgraphs_eq n hn hne := by
    rw [h2.subgraphs_eq n (lt_of_lt_of_le hn h1.numNodes_le) hne, h1.subgraphs_eq n hn hne]
  parameters_eq n hn hne := by
    rw [h2.parameters_eq n (lt_of_lt_of_le hn h1.numNodes_le) hne, h1.parameters_eq n hn hne]
  controlDeps_eq n hn hne := by
    rw [h2.controlDeps_eq n (lt_of_lt_of_le hn h1.numNodes_le) hne, h1.controlDeps_eq n hn hne]
  callSites_old b x hx := by
    rcases h2.callSites_old b x hx with h | h
    · exact h1.callSites_old b x h
    · exact Or.inr h
  formalParameters_eq := by rw [h2.formalParameters_eq, h1.formalParameters_eq]
  entryNode_eq := by rw [h2.entryNode_eq, h1.entryNode_eq]

theorem CallLocal.local_of_same {node : Nat} {G G' : LLVMDependenceGraph} (h : SameButRefcount G G') :
    CallLocal node G G' := by
  unfold SameButRefcount at h
  rw [h]
  exact ⟨le_refl _, fun _ _ _ => rfl, fun _ _ _ => rfl, fun _ _ _ => rfl, fun _ _ h => Or.inl h,
    rfl, rfl⟩

theorem callLocal_newNode (node : Nat) (G : LLVMDependenceGraph) (val : Value) :
    CallLocal node G (G.newNode val) where
  numNodes_le := by simp [LLVMDependenceGraph.newNode]
  subgraphs_eq n hn _ := by
    simp [LLVMDependenceGraph.newNode, Function.update_apply, Nat.ne_of_lt hn]
  parameters_eq n hn _ := by
    simp [LLVMDependenceGraph.newNode, Function.update_apply, Nat.ne_of_lt hn]
  controlDeps_eq n hn _ := by
    simp [LLVMDependenceGraph.newNode, Function.update_apply, Nat.ne_of_lt hn]
  callSites_old _ _ h := Or.inl h
  formalParameters_eq := rfl
  entryNode_eq := rfl

theorem callLocal_addControlDependence (node : Nat) (G : LLVMDependenceGraph) (b : Nat) :
    CallLocal node G (G.addControlDependence node b) where
  numNodes_le := le_refl _
  subgraphs_eq _ _ _ := rfl
  parameters_eq _ _ _ := rfl
  controlDeps_eq n _ hne := by
    simp [LLVMDependenceGraph.addControlDependence, Function.update_apply, hne]
  callSites_old _ _ h := Or.inl h
  formalParameters_eq := rfl
  entryNode_eq := rfl

theorem callLocal_addParameterNodes (owner : Nat) (vals : List Value) :
    ∀ (G : LLVMDependenceGraph) (params : LLVMDGParameters),
      CallLocal owner G (addParameterNodes owner vals G params).1 := by
  induction vals with
  | nil => intro G params; exact CallLocal.local_refl _ G
  | cons v vs ih =>
    intro G params
    simp only [addParameterNodes]
    refine CallLocal.local_trans ?_ (ih _ _)
    exact ((callLocal_newNode owner G v).local_trans (callLocal_newNode owner _ v)).local_trans
      ((callLocal_addControlDependence owner _ _).local_trans
        (callLocal_addControlDependence owner _ _))

theorem callLocal_addActualParameters {G G' : LLVMDependenceGraph} {node arg_size : Nat}
    {args : List Value} (h : addActualParameters G node arg_size args = .ok G') :
    CallLocal node G G' := by
  unfold addActualParameters at h
  split at h
  · cases h; exact CallLocal.local_refl _ G
  · split at h
    · cases h
    · cases h
      refine (callLocal_addParameterNodes node args G []).local_trans ?_
      exact
        { numNodes_le := le_refl _
          subgraphs_eq := fun _ _ _ => rfl
          parameters_eq := fun n _ hne => by simp [Function.update_apply, hne]
          controlDeps_eq := fun _ _ _ => rfl
          callSites_old := fun _ _ h => Or.inl h
          formalParameters_eq := rfl
          entryNode_eq := rfl }

theorem buildSubgraph_local {build : World → Nat → Nat → Result (Bool × World)}
    (hk : KeepsOthers build) {m : Module} {w w' : World} {this node : Nat} {inst : Instruction}
    (hthis : this < w.numGraphs) (h : buildSubgraph build m w this node inst = .ok w') :
    CallLocal node (w.graph this) (w'.graph this) := by
  unfold buildSubgraph at h
  split at h
  · split at h
    · cases h
    · split at h
      · cases h
      · rename_i w3 subgraph hsub
        obtain ⟨hn, hs⟩ := getSubgraph_same hk hsub
        split at h
        · cases h
        · rename_i BB hBB
          dsimp only at h
          split at h
          · cases h
          · rename_i G hG
            cases h
            rw [World.modify_graph_self]
            refine CallLocal.local_trans ?_ (callLocal_addActualParameters hG)
            refine (CallLocal.local_of_same (hs this hthis)).local_trans ?_
            have h5 := World.modify_refcount_same
              ((w3.modify this (fun G => G.addCallsite BB node)).modify this (fun G =>
                { G with subgraphs :=
                    Function.update G.subgraphs node (setInsert (G.subgraphs node) subgraph) }))
              subgraph (fun r => r + 1) this
            refine CallLocal.local_trans ?_ (CallLocal.local_of_same h5)
            rw [World.modify_graph_self, World.modify_graph_self]
            exact
              { numNodes_le := le_refl _
                subgraphs_eq := fun n _ hne => by
                  simp [LLVMDependenceGraph.addCallsite, Function.update_apply, hne]
                parameters_eq := fun _ _ _ => rfl
                controlDeps_eq := fun _ _ _ => rfl
                callSites_old := fun b x hx => by
                  simp only [LLVMDependenceGraph.addCallsite, Function.update_apply] at hx
                  split at hx
                  · rename_i hb
                    subst hb
                    rcases mem_setInsert.1 hx with h1 | h1
                    · exact Or.inl h1
                    · exact Or.inr h1
                  · exact Or.inl hx
                formalParameters_eq := rfl
                entryNode_eq := rfl }
  · cases h

theorem handleCallSite_local {build : World → Nat → Nat → Result (Bool × World)}
    (hk : KeepsOthers build) {m : Module} {w w' : World} {this node : Nat} {inst : Instruction}
    (hthis : this < w.numGraphs) (h : handleCallSite build m w this node inst = .ok w') :
    CallLocal node (w.graph this) (w'.graph this) := by
  unfold handleCallSite at h
  split at h
  · split at h
    · cases h
    · exact buildSubgraph_local hk hthis h
    · cases h; exact CallLocal.local_refl _ _
  · cases h; exact CallLocal.local_refl _ _

theorem handleCallSite_undefined (build : World → Nat → Nat → Result (Bool × World))
    (m : Module) (w : World) (this node : Nat) (calledValue : Value) (g : Nat)
    (args : List Value) (hg : (m.function g).blocks.length = 0) :
    handleCallSite build m w this node (Instruction.call calledValue (some g) args) = .ok w := by
  simp [handleCallSite, is_func_defined, hg]

/-- A step that adds nodes, blocks and registrations of keys that are no
instructions of `f`, and touches no call data of the older nodes, keeps the
state of the call sites. -/
theorem CallSiteInv.transfer {m : Module} {f : Nat} {G G' : LLVMDependenceGraph}
    (h : CallSiteInv m f G) (hn : G.numNodes ≤ G'.numNodes)
    (hnodes : ∀ k n, G'.nodes k = some n →
      G.nodes k = some n ∨ (n < G'.numNodes ∧ ∀ BB i, k ≠ Value.instruction f BB i))
    (hfirst : ∀ b n, G'.firstNode b = some n → G.firstNode b = some n ∨ n < G'.numNodes)
    (hcs : ∀ b x, x ∈ G'.callSites b → x ∈ G.callSites b)
    (hs : ∀ n, n < G.numNodes → G'.subgraphs n = G.subgraphs n)
    (hp : ∀ n, n < G.numNodes → G'.parameters n = G.parameters n) : CallSiteInv m f G' where
  nodes_range k n hk := by
    rcases hnodes k n hk with h1 | ⟨h1, _⟩
    · exact lt_of_lt_of_le (h.nodes_range k n h1) hn
    · exact h1
  first_range b n hb := by
    rcases hfirst b n hb with h1 | h1
    · exact lt_of_lt_of_le (h.first_range b n h1) hn
    · exact h1
  callSites_range b x hx := lt_of_lt_of_le (h.callSites_range b x (hcs b x hx)) hn
  undefined BB i cv g args n hi hg hk := by
    rcases hnodes _ n hk with h1 | ⟨_, h1⟩
    · obtain ⟨u1, u2, u3⟩ := h.undefined BB i cv g args n hi hg h1
      have hlt := h.nodes_range _ n h1
      exact ⟨by rw [hs n hlt, u1], by rw [hp n hlt, u2], fun b hb => u3 b (hcs b n hb)⟩
    · exact absurd rfl (h1 BB i)

/-- The state of the call sites after a node was made for the instruction at
position `idx` of block `BB` and its call site was handled. -/
theorem CallSiteInv.call_step {build : World → Nat → Nat → Result (Bool × World)}
    (hk : KeepsOthers build) {m : Module} {f BB idx this : Nat} {inst : Instruction}
    {G : LLVMDependenceGraph} {w1 w2 : World} (h : CallSiteInv m f G)
    (hthis : this < w1.numGraphs)
    (hinst : (m.block f BB)[idx]? = some inst)
    (hn : (w1.graph this).numNodes = G.numNodes + 1)
    (hnodes : (w1.graph this).nodes = mapInsert G.nodes (Value.instruction f BB idx) G.numNodes)
    (hfirst : ∀ b n, (w1.graph this).firstNode b = some n →
      G.firstNode b = some n ∨ n = G.numNodes)
    (hcs : ∀ b x, x ∈ (w1.graph this).callSites b → x ∈ G.callSites b)
    (hs : ∀ n, n < G.numNodes → (w1.graph this).subgraphs n = G.subgraphs n)
    (hp : ∀ n, n < G.numNodes → (w1.graph this).parameters n = G.parameters n)
    (hs0 : (w1.graph this).subgraphs G.numNodes = [])
    (hp0 : (w1.graph this).parameters G.numNodes = none)
    (hc : handleCallSite build m w1 this G.numNodes inst = .ok w2) :
    CallSiteInv m f (w2.graph this) := by
  obtain ⟨_, hF⟩ := handleCallSite_frame hk hthis hc
  have hL := handleCallSite_local hk hthis hc
  have hle : G.numNodes < (w2.graph this).numNodes := by
    have := hL.numNodes_le
    omega
  refine
    { nodes_range := ?_
      first_range := ?_
      callSites_range := ?_
      undefined := ?_ }
  · intro k n hkn
    rw [hF.nodes_eq, hnodes] at hkn
    rcases mapInsert_eq_some _ _ _ _ _ hkn with h1 | ⟨_, h1, _⟩
    · exact lt_trans (h.nodes_range k n h1) hle
    · rw [h1]; exact hle
  · intro b n hb
    rw [hF.firstNode_eq] at hb
    rcases hfirst b n hb with h1 | h1
    · exact lt_trans (h.first_range b n h1) hle
    · rw [h1]; exact hle
  · intro b x hx
    rcases hL.callSites_old b x hx with h1 | h1
    · exact lt_trans (h.callSites_range b x (hcs b x h1)) hle
    · rw [h1]; exact hle
  · intro BB' i cv g args n hi hg hkn
    rw [hF.nodes_eq, hnodes] at hkn
    rcases mapInsert_eq_some _ _ _ _ _ hkn with h1 | ⟨h1, h2, _⟩
    · obtain ⟨u1, u2, u3⟩ := h.undefined BB' i cv g args n hi hg h1
      have hlt := h.nodes_range _ n h1
      have hlt1 : n < (w1.graph this).numNodes := by omega
      have hne : n ≠ G.numNodes := Nat.ne_of_lt hlt
      refine ⟨by rw [hL.subgraphs_eq n hlt1 hne, hs n hlt, u1],
        by rw [hL.parameters_eq n hlt1 hne, hp n hlt, u2], ?_⟩
      intro b hb
      rcases hL.callSites_old b n hb with h3 | h3
      · exact u3 b (hcs b n h3)
      · exact hne h3
    · injection h1 with _ hbb hii
      subst hbb
      subst hii
      rw [hinst] at hi
      cases hi
      rw [handleCallSite_undefined build m w1 this G.numNodes cv g args hg] at hc
      cases hc
      subst h2
      refine ⟨hs0, hp0, ?_⟩
      intro b hb
      exact absurd (h.callSites_range b _ (hcs b _ hb)) (lt_irrefl _)

theorem buildInstructions_kept {build : World → Nat → Nat → Result (Bool × World)}
    (hk : KeepsOthers build) (m : Module) (this f BB : Nat) (G0 : LLVMDependenceGraph) :
    ∀ (rest : List Instruction) (idx : Nat) (w : World) (predNode : Nat) (w' : World)
      (last : Nat), this < w.numGraphs → Kept G0 (w.graph this) →
      CallSiteInv m f (w.graph this) → (∀ j, rest[j]? = (m.block f BB)[idx + j]?) →
      buildInstructions build m this f BB rest idx w predNode = .ok (w', last) →
      Kept G0 (w'.graph this) ∧ CallSiteInv m f (w'.graph this) := by
  intro rest
  induction rest with
  | nil =>
    intro idx w predNode w' last _ hK hI _ h
    simp only [buildInstructions] at h
    cases h
    exact ⟨hK, hI⟩
  | cons inst rest ih =>
    intro idx w predNode w' last hthis hK hI hrest h
    simp only [buildInstructions] at h
    split at h
    · cases h
    · rename_i w2 hc
      have hthis1 : this < (w.modify this (fun G =>
          (((G.newNode (Value.instruction f BB idx)).addNode (w.graph this).numNodes).setSuccessor
            predNode (w.graph this).numNodes))).numGraphs := hthis
      obtain ⟨ho, _⟩ := handleCallSite_frame hk hthis1 hc
      have hL := handleCallSite_local hk hthis1 hc
      have hthis2 : this < w2.numGraphs := lt_of_lt_of_le hthis1 ho.1
      have hinst : (m.block f BB)[idx]? = some inst := by
        have := hrest 0
        simpa using this.symm
      have hI2 : CallSiteInv m f (w2.graph this) := by
        refine hI.call_step hk hthis1 hinst ?_ ?_ ?_ ?_ ?_ ?_ ?_ ?_ hc
        · rw [World.modify_graph_self]; rfl
        · rw [World.modify_graph_self]
          simp [LLVMDependenceGraph.setSuccessor, LLVMDependenceGraph.addNode,
            LLVMDependenceGraph.newNode]
        · intro b n hb
          rw [World.modify_graph_self] at hb
          exact Or.inl hb
        · intro b x hx
          rw [World.modify_graph_self] at hx
          exact hx
        · intro n hn
          rw [World.modify_graph_self]
          simp [LLVMDependenceGraph.setSuccessor, LLVMDependenceGraph.addNode,
            LLVMDependenceGraph.newNode, Function.update_apply, Nat.ne_of_lt hn]
        · intro n hn
          rw [World.modify_graph_self]
          simp [LLVMDependenceGraph.setSuccessor, LLVMDependenceGraph.addNode,
            LLVMDependenceGraph.newNode, Function.update_apply, Nat.ne_of_lt hn]
        · rw [World.modify_graph_self]
          simp [LLVMDependenceGraph.setSuccessor, LLVMDependenceGraph.addNode,
            LLVMDependenceGraph.newNode]
        · rw [World.modify_graph_self]
          simp [LLVMDependenceGraph.setSuccessor, LLVMDependenceGraph.addNode,
            LLVMDependenceGraph.newNode]
      have hK1 : Kept G0 ((w.modify this (fun G =>
          (((G.newNode (Value.instruction f BB idx)).addNode (w.graph this).numNodes).setSuccessor
            predNode (w.graph this).numNodes))).graph this) := by
        rw [World.modify_graph_self]
        have hlt : ∀ n, n < G0.numNodes → n ≠ (w.graph this).numNodes := fun n hn =>
          Nat.ne_of_lt (lt_of_lt_of_le hn hK.numNodes_le)
        refine hK.of_agree (by simp [LLVMDependenceGraph.setSuccessor,
          LLVMDependenceGraph.addNode, LLVMDependenceGraph.newNode]) ?_ ?_ ?_
          (fun b x hx => Or.inl hx) rfl rfl
        · intro n hn
          simp [LLVMDependenceGraph.setSuccessor, LLVMDependenceGraph.addNode,
            LLVMDependenceGraph.newNode, Function.update_apply, hlt n hn]
        · intro n hn
          simp [LLVMDependenceGraph.setSuccessor, LLVMDependenceGraph.addNode,
            LLVMDependenceGraph.newNode, Function.update_apply, hlt n hn]
        · intro n hn
          simp [LLVMDependenceGraph.setSuccessor, LLVMDependenceGraph.addNode,
            LLVMDependenceGraph.newNode, Function.update_apply, hlt n hn]
      have hK2 : Kept G0 (w2.graph this) := hK1.local hL hK.numNodes_le
      refine ih (idx + 1) w2 _ w' last hthis2 hK2 hI2 ?_ h
      intro j
      have := hrest (j + 1)
      rw [List.getElem?_cons_succ] at this
      rw [this]
      congr 1
      omega

/-- What the end of `build(BB, pred)` changes: it may add the exit node and the
exit block, registered under the key of a phony return, and a control
dependence of `node`. -/
theorem finishBlock_fields {G G' : LLVMDependenceGraph} {f BB node nodesBB : Nat}
    {insts : List Instruction} {r : Bool}
    (h : finishBlock G f BB insts node nodesBB = .ok (r, G')) :
    G.numNodes ≤ G'.numNodes ∧
      (∀ n, n < G.numNodes → G'.subgraphs n = G.subgraphs n) ∧
      (∀ n, n < G.numNodes → G'.parameters n = G.parameters n) ∧
      (∀ n, n < G.numNodes → n ≠ node → G'.controlDeps n = G.controlDeps n) ∧
      (∀ b x, x ∈ G'.callSites b → x ∈ G.callSites b) ∧
      G'.formalParameters = G.formalParameters ∧ G'.entryNode = G.entryNode ∧
      (∀ k n, G'.nodes k = some n →
        G.nodes k = some n ∨ (n < G'.numNodes ∧ ∃ f' b', k = Value.phonyReturn f' b')) ∧
      (∀ b n, G'.firstNode b = some n → G.firstNode b = some n ∨ n < G'.numNodes) := by
  unfold finishBlock at h
  split at h
  · cases h
    exact ⟨le_refl _, fun _ _ => rfl, fun _ _ => rfl, fun _ _ _ => rfl, fun _ _ hx => hx, rfl,
      rfl, fun _ _ hk => Or.inl hk, fun _ _ hb => Or.inl hb⟩
  · dsimp only at h
    split at h
    · cases h
    · rename_i G4 hG4
      have hfin : G' = G4.setLastNode nodesBB node := by
        split at h
        · cases h
        · cases h
        · cases h; rfl
      subst hfin
      split at hG4
      · rcases addExit_cases hG4 with ⟨e, eb, _, _, hG4eq⟩ | ⟨_, hG4eq⟩
        · subst hG4eq
          refine ⟨le_refl _, fun _ _ => rfl, fun _ _ => rfl, ?_, fun _ _ hx => hx, rfl, rfl,
            fun _ _ hk => Or.inl hk, fun _ _ hb => Or.inl hb⟩
          intro n _ hne
          simp [LLVMDependenceGraph.setLastNode, LLVMDependenceGraph.addSuccessor,
            LLVMDependenceGraph.addControlDependence, Function.update_apply, hne]
        · subst hG4eq
          refine ⟨?_, ?_, ?_, ?_, ?_, rfl, rfl, ?_, ?_⟩
          · simp [LLVMDependenceGraph.setLastNode, LLVMDependenceGraph.addSuccessor,
              LLVMDependenceGraph.addControlDependence, LLVMDependenceGraph.newBlock,
              LLVMDependenceGraph.addNode, LLVMDependenceGraph.newNode]
          · intro n hn
            simp [LLVMDependenceGraph.setLastNode, LLVMDependenceGraph.addSuccessor,
              LLVMDependenceGraph.addControlDependence, LLVMDependenceGraph.newBlock,
              LLVMDependenceGraph.addNode, LLVMDependenceGraph.newNode, Function.update_apply,
              Nat.ne_of_lt hn]
          · intro n hn
            simp [LLVMDependenceGraph.setLastNode, LLVMDependenceGraph.addSuccessor,
              LLVMDependenceGraph.addControlDependence, LLVMDependenceGraph.newBlock,
              LLVMDependenceGraph.addNode, LLVMDependenceGraph.newNode, Function.update_apply,
              Nat.ne_of_lt hn]
          · intro n hn hne
            simp [LLVMDependenceGraph.setLastNode, LLVMDependenceGraph.addSuccessor,
              LLVMDependenceGraph.addControlDependence, LLVMDependenceGraph.newBlock,
              LLVMDependenceGraph.addNode, LLVMDependenceGraph.newNode, Function.update_apply,
              Nat.ne_of_lt hn, hne]
          · intro b x hx
            simp only [LLVMDependenceGraph.setLastNode, LLVMDependenceGraph.addSuccessor,
              LLVMDependenceGraph.addControlDependence, LLVMDependenceGraph.newBlock,
              LLVMDependenceGraph.addNode, LLVMDependenceGraph.newNode,
              Function.update_apply] at hx
            split at hx
            · cases hx
            · exact hx
          · intro k n hk
            simp only [LLVMDependenceGraph.setLastNode, LLVMDependenceGraph.addSuccessor,
              LLVMDependenceGraph.addControlDependence, LLVMDependenceGraph.newBlock,
              LLVMDependenceGraph.addNode, LLVMDependenceGraph.newNode,
              Function.update_same] at hk
            rcases mapInsert_eq_some _ _ _ _ _ hk with h1 | ⟨h1, h2, _⟩
            · exact Or.inl h1
            · refine Or.inr ⟨?_, f, BB, h1⟩
              rw [h2]
              simp [LLVMDependenceGraph.setLastNode, LLVMDependenceGraph.addSuccessor,
                LLVMDependenceGraph.addControlDependence, LLVMDependenceGraph.newBlock,
                LLVMDependenceGraph.addNode, LLVMDependenceGraph.newNode]
          · intro b n hb
            simp only [LLVMDependenceGraph.setLastNode, LLVMDependenceGraph.addSuccessor,
              LLVMDependenceGraph.addControlDependence, LLVMDependenceGraph.newBlock,
              LLVMDependenceGraph.addNode, LLVMDependenceGraph.newNode,
              Function.update_apply] at hb
            split at hb
            · cases hb
              right
              simp [LLVMDependenceGraph.setLastNode, LLVMDependenceGraph.addSuccessor,
                LLVMDependenceGraph.addControlDependence, LLVMDependenceGraph.newBlock,
                LLVMDependenceGraph.addNode, LLVMDependenceGraph.newNode]
            · exact Or.inl hb
      · cases hG4
        exact ⟨le_refl _, fun _ _ => rfl, fun _ _ => rfl, fun _ _ _ => rfl, fun _ _ hx => hx,
          rfl, rfl, fun _ _ hk => Or.inl hk, fun _ _ hb => Or.inl hb⟩

theorem buildBlock_kept {build : World → Nat → Nat → Result (Bool × World)}
    (hk : KeepsOthers build) {m : Module} {w w' : World} {this f BB : Nat} {pred : Option Nat}
    {r : Bool} (hthis : this < w.numGraphs) (hI : CallSiteInv m f (w.graph this))
    (h : buildBlock build m w this f BB pred = .ok (r, w')) :
    Kept (w.graph this) (w'.graph this) ∧ CallSiteInv m f (w'.graph this) := by
  unfold buildBlock at h
  split at h
  · cases h
  · rename_i first rest hblock
    split at h
    · cases h
    · rename_i predBB _
      dsimp only at h
      split at h
      · cases h
      · rename_i w2 hc
        have hthis1 : this < (w.modify this (fun G => startBlock G f BB predBB)).numGraphs :=
          hthis
        obtain ⟨ho2, hF2⟩ := handleCallSite_frame hk hthis1 hc
        have hL2 := handleCallSite_local hk hthis1 hc
        rw [World.modify_graph_self] at hF2 hL2
        have hE2 : Ext (w.graph this) (w2.graph this) :=
          (ext_startBlock _ f BB predBB).ext_trans hF2.ext
        have hthis2 : this < w2.numGraphs := lt_of_lt_of_le hthis1 ho2.1
        have hfirst0 : (m.block f BB)[0]? = some first := by rw [hblock]; simp
        have hK1 : Kept (w.graph this) (startBlock (w.graph this) f BB predBB) := by
          have hlt : ∀ n, n < (w.graph this).numNodes → n ≠ (w.graph this).numNodes :=
            fun n hn => Nat.ne_of_lt hn
          refine (Kept.kept_refl _).of_agree ?_ ?_ ?_ ?_ ?_ ?_ ?_
          · cases predBB <;>
              simp [startBlock, createBasicBlock, LLVMDependenceGraph.setBasicBlock,
                LLVMDependenceGraph.addSuccessor, LLVMDependenceGraph.newBlock,
                LLVMDependenceGraph.addNode, LLVMDependenceGraph.newNode]
          · intro n hn
            cases predBB <;>
              simp [startBlock, createBasicBlock, LLVMDependenceGraph.setBasicBlock,
                LLVMDependenceGraph.addSuccessor, LLVMDependenceGraph.newBlock,
                LLVMDependenceGraph.addNode, LLVMDependenceGraph.newNode,
                Function.update_apply, hlt n hn]
          · intro n hn
            cases predBB <;>
              simp [startBlock, createBasicBlock, LLVMDependenceGraph.setBasicBlock,
                LLVMDependenceGraph.addSuccessor, LLVMDependenceGraph.newBlock,
                LLVMDependenceGraph.addNode, LLVMDependenceGraph.newNode,
                Function.update_apply, hlt n hn]
          · intro n hn
            cases predBB <;>
              simp [startBlock, createBasicBlock, LLVMDependenceGraph.setBasicBlock,
                LLVMDependenceGraph.addSuccessor, LLVMDependenceGraph.newBlock,
                LLVMDependenceGraph.addNode, LLVMDependenceGraph.newNode,
                Function.update_apply, hlt n hn]
          · intro b x hx
            left
            cases predBB <;>
              · simp only [startBlock, createBasicBlock, LLVMDependenceGraph.setBasicBlock,
                  LLVMDependenceGraph.addSuccessor, LLVMDependenceGraph.newBlock,
                  LLVMDependenceGraph.addNode, LLVMDependenceGraph.newNode,
                  Function.update_apply] at hx
                split at hx
                · cases hx
                · exact hx
          · cases predBB <;> rfl
          · cases predBB <;> rfl
        have hK2 : Kept (w.graph this) (w2.graph this) := hK1.local hL2 (le_refl _)
        have hI2 : CallSiteInv m f (w2.graph this) := by
          refine hI.call_step hk hthis1 hfirst0 ?_ ?_ ?_ ?_ ?_ ?_ ?_ ?_ hc
          · rw [World.modify_graph_self]
            cases predBB <;> rfl
          · rw [World.modify_graph_self]
            cases predBB <;>
              simp [startBlock, createBasicBlock, LLVMDependenceGraph.setBasicBlock,
                LLVMDependenceGraph.addSuccessor, LLVMDependenceGraph.newBlock,
                LLVMDependenceGraph.addNode, LLVMDependenceGraph.newNode]
          · intro b n hb
            rw [World.modify_graph_self] at hb
            cases predBB <;>
              · simp only [startBlock, createBasicBlock, LLVMDependenceGraph.setBasicBlock,
                  LLVMDependenceGraph.addSuccessor, LLVMDependenceGraph.newBlock,
                  LLVMDependenceGraph.addNode, LLVMDependenceGraph.newNode,
                  Function.update_apply] at hb
                split at hb
                · cases hb; exact Or.inr rfl
                · exact Or.inl hb
          · intro b x hx
            rw [World.modify_graph_self] at hx
            cases predBB <;>
              · simp only [startBlock, createBasicBlock, LLVMDependenceGraph.setBasicBlock,
                  LLVMDependenceGraph.addSuccessor, LLVMDependenceGraph.newBlock,
                  LLVMDependenceGraph.addNode, LLVMDependenceGraph.newNode,
                  Function.update_apply] at hx
                split at hx
                · cases hx
                · exact hx
          · intro n hn
            rw [World.modify_graph_self]
            exact hK1.subgraphs_eq n hn
          · intro n hn
            rw [World.modify_graph_self]
            exact hK1.parameters_eq n hn
          · rw [World.modify_graph_self]
            cases predBB <;>
              simp [startBlock, createBasicBlock, LLVMDependenceGraph.setBasicBlock,
                LLVMDependenceGraph.addSuccessor, LLVMDependenceGraph.newBlock,
                LLVMDependenceGraph.addNode, LLVMDependenceGraph.newNode]
          · rw [World.modify_graph_self]
            cases predBB <;>
              simp [startBlock, createBasicBlock, LLVMDependenceGraph.setBasicBlock,
                LLVMDependenceGraph.addSuccessor, LLVMDependenceGraph.newBlock,
                LLVMDependenceGraph.addNode, LLVMDependenceGraph.newNode]
        split at h
        · cases h
        · rename_i w3 last hi
          obtain ⟨_, hE3, hlast⟩ := buildInstructions_ext hk m this f BB (w.graph this) _ _ _ _ _
            _ hthis2 hE2 (le_refl _) hi
          obtain ⟨hK3, hI3⟩ := buildInstructions_kept hk m this f BB (w.graph this) _ _ _ _ _ _
            hthis2 hK2 hI2 (by
              intro j
              rw [hblock, Nat.add_comm, List.getElem?_cons_succ]) hi
          split at h
          · cases h
          · rename_i r' G hfin
            cases h
            rw [World.modify_graph_self]
            obtain ⟨f1, f2, f3, f4, f5, f6, f9, f7, f8⟩ := finishBlock_fields hfin
            constructor
            · refine hK3.of_agree f1
                (fun n hn => f2 n (lt_of_lt_of_le hn hK3.numNodes_le))
                (fun n hn => f3 n (lt_of_lt_of_le hn hK3.numNodes_le))
                (fun n hn => f4 n (lt_of_lt_of_le hn hK3.numNodes_le) (by omega))
                (fun b x hx => Or.inl (f5 b x hx)) f6 f9
            · refine hI3.transfer f1 ?_ f8 f5 f2 f3
              intro k n hkn
              rcases f7 k n hkn with h1 | ⟨h1, f', b', h2⟩
              · exact Or.inl h1
              · refine Or.inr ⟨h1, ?_⟩
                intro BB' i hki
                rw [h2] at hki
                cases hki

theorem processSuccessors_fields (m : Module) (this f BB : Nat) :
    ∀ (succs : List Nat) (WQ : List (Nat × Option Nat)) (processedBB : List Nat)
      (G : LLVMDependenceGraph) (WQ' : List (Nat × Option Nat)) (processedBB' : List Nat)
      (G' : LLVMDependenceGraph),
      processSuccessors m this f BB succs WQ processedBB G = .ok (WQ', processedBB', G') →
      G'.numNodes = G.numNodes ∧ G'.subgraphs = G.subgraphs ∧ G'.parameters = G.parameters ∧
        G'.controlDeps = G.controlDeps ∧ G'.callSites = G.callSites ∧
        G'.formalParameters = G.formalParameters ∧ G'.nodes = G.nodes ∧
        G'.firstNode = G.firstNode ∧ G'.entryNode = G.entryNode ∧ G'.key = G.key ∧
        G'.refcount = G.refcount := by
  intro succs
  induction succs with
  | nil =>
    intro WQ processedBB G WQ' processedBB' G' h
    simp only [processSuccessors] at h
    cases h
    exact ⟨rfl, rfl, rfl, rfl, rfl, rfl, rfl, rfl, rfl, rfl, rfl⟩
  | cons S rest ih =>
    intro WQ processedBB G WQ' processedBB' G' h
    simp only [processSuccessors] at h
    split at h
    · split at h
      · cases h
      · split at h
        · cases h
        · split at h
          · cases h
          · split at h
            · cases h
            · have q := ih _ _ (G.addSuccessor _ _) _ _ _ h
              exact q
    · exact ih _ _ _ _ _ _ h

theorem buildLoop_kept {build : World → Nat → Nat → Result (Bool × World)}
    (hk : KeepsOthers build) (m : Module) (this f : Nat) :
    ∀ (fuel : Nat) (WQ : List (Nat × Option Nat)) (processedBB : List Nat) (w w' : World),
      this < w.numGraphs → CallSiteInv m f (w.graph this) →
      buildLoop build m this f fuel WQ processedBB w = .ok w' →
      Kept (w.graph this) (w'.graph this) ∧ CallSiteInv m f (w'.graph this) := by
  intro fuel
  induction fuel with
  | zero =>
    intro WQ processedBB w w' _ hI h
    simp only [buildLoop] at h
    split at h
    · cases h; exact ⟨Kept.kept_refl _, hI⟩
    · cases h
  | succ k ih =>
    intro WQ processedBB w w' hthis hI h
    simp only [buildLoop] at h
    split at h
    · cases h; exact ⟨Kept.kept_refl _, hI⟩
    · split at h
      · cases h
      · rename_i r w1 hb
        obtain ⟨hK1, hI1⟩ := buildBlock_kept hk hthis hI hb
        obtain ⟨ho1, _⟩ := buildBlock_ext hk hthis hb
        split at h
        · cases h
        · rename_i WQ2 processedBB2 G hp
          obtain ⟨p1, p2, p3, p4, p5, p6, p7, p8, p9, _, _⟩ :=
            processSuccessors_fields m this f _ _ _ _ _ _ _ _ hp
          have hKG : Kept (w.graph this) G :=
            hK1.of_agree (le_of_eq p1.symm) (fun _ _ => by rw [p2]) (fun _ _ => by rw [p3])
              (fun _ _ => by rw [p4]) (fun b x hx => Or.inl (by rw [p5] at hx; exact hx)) p6 p9
          have hIG : CallSiteInv m f G :=
            hI1.transfer (le_of_eq p1.symm) (fun k n hkn => Or.inl (by rw [p7] at hkn; exact hkn))
              (fun b n hb => Or.inl (by rw [p8] at hb; exact hb))
              (fun b x hx => by rw [p5] at hx; exact hx) (fun _ _ => by rw [p2])
              (fun _ _ => by rw [p3])
          obtain ⟨hK3, hI3⟩ := ih _ _ (w1.modify this (fun _ => G)) w'
            (by simpa using lt_of_lt_of_le hthis ho1.1)
            (by rw [World.modify_graph_self]; exact hIG) h
          rw [World.modify_graph_self] at hK3
          exact ⟨hKG.kept_trans hK3, hI3⟩

/-! ## Formal parameters -/

theorem callSiteInv_startFunction (m : Module) (f : Nat) :
    CallSiteInv m f (startFunction LLVMDependenceGraph.new f) where
  nodes_range k n hk := by
    simp only [startFunction, LLVMDependenceGraph.addNode, LLVMDependenceGraph.newNode,
      LLVMDependenceGraph.new, Function.update_same] at hk ⊢
    rcases mapInsert_eq_some _ _ _ _ _ hk with h1 | ⟨_, h1, _⟩
    · cases h1
    · omega
  first_range b n hb := by
    simp [startFunction, LLVMDependenceGraph.addNode, LLVMDependenceGraph.newNode,
      LLVMDependenceGraph.new] at hb
  callSites_range b x hx := by
    simp [startFunction, LLVMDependenceGraph.addNode, LLVMDependenceGraph.newNode,
      LLVMDependenceGraph.new] at hx
  undefined BB i cv g args n _ _ hk := by
    simp [startFunction, LLVMDependenceGraph.addNode, LLVMDependenceGraph.newNode,
      LLVMDependenceGraph.new, mapInsert] at hk

theorem addParameterNodes_call_fields (owner : Nat) (vals : List Value) :
    ∀ (G : LLVMDependenceGraph) (params : LLVMDGParameters),
      (∀ n, n < G.numNodes → (addParameterNodes owner vals G params).1.subgraphs n =
        G.subgraphs n) ∧
      (∀ n, n < G.numNodes → (addParameterNodes owner vals G params).1.parameters n =
        G.parameters n) ∧
      (addParameterNodes owner vals G params).1.callSites = G.callSites ∧
      (addParameterNodes owner vals G params).1.refcount = G.refcount := by
  induction vals with
  | nil => intro G params; exact ⟨fun _ _ => rfl, fun _ _ => rfl, rfl, rfl⟩
  | cons v vs ih =>
    intro G params
    simp only [addParameterNodes]
    obtain ⟨i1, i2, i3, i4⟩ := ih
      ((((G.newNode v).newNode v).addControlDependence owner G.numNodes).addControlDependence
        owner (G.newNode v).numNodes) (params.add v G.numNodes (G.newNode v).numNodes)
    have hlt : ∀ n, n < G.numNodes → n < ((((G.newNode v).newNode v).addControlDependence owner
        G.numNodes).addControlDependence owner (G.newNode v).numNodes).numNodes := by
      intro n hn
      show n < G.numNodes + 1 + 1
      omega
    refine ⟨?_, ?_, ?_, ?_⟩
    · intro n hn
      rw [i1 n (hlt n hn)]
      simp [LLVMDependenceGraph.addControlDependence, LLVMDependenceGraph.newNode,
        Function.update_apply, Nat.ne_of_lt hn, Nat.ne_of_lt (Nat.lt_succ_of_lt hn)]
    · intro n hn
      rw [i2 n (hlt n hn)]
      simp [LLVMDependenceGraph.addControlDependence, LLVMDependenceGraph.newNode,
        Function.update_apply, Nat.ne_of_lt hn, Nat.ne_of_lt (Nat.lt_succ_of_lt hn)]
    · rw [i3]; rfl
    · rw [i4]; rfl

/-- The last steps of `build(func)` leave the subgraphs, the parameter records
and the call-sites alone. -/
theorem finishFunction_call_fields {m : Module} {G G' : LLVMDependenceGraph} {entry : Nat}
    (h : finishFunction m G entry = .ok G') :
    (∀ n, n < G.numNodes → G'.subgraphs n = G.subgraphs n) ∧
      (∀ n, n < G.numNodes → G'.parameters n = G.parameters n) ∧
      G'.callSites = G.callSites ∧ G'.refcount = G.refcount := by
  unfold finishFunction at h
  split at h
  · cases h
  · split at h
    · cases h
    · split at h
      · cases h
      · split at h
        · cases h
        · split at h
          · cases h
          · rename_i first _
            unfold addFormalParameters at h
            split at h
            · cases h
            · split at h
              · split at h
                · cases h
                  exact ⟨fun _ _ => rfl, fun _ _ => rfl, rfl, rfl⟩
                · cases h
                  obtain ⟨a1, a2, a3, a4⟩ := addParameterNodes_call_fields _
                    ((List.range (m.function _).arg_size).map (fun i => Value.argument _ i))
                    (G.addControlDependence entry first) []
                  exact ⟨a1, a2, a3, a4⟩
              · cases h

/-- C12.  A call instruction whose directly called function `g` has no basic
block is handled without failure and without any change: `build(func)` on `g`
returns false and changes nothing, and the call-site test leaves the world as
it is.  When `build(func)`, run on a new graph, returns true, every such call
instruction in a block reachable from the entry block has a registered node,
and the registered node of every such call instruction has no subgraph, no
actual-parameter record and is no call-site of any block. -/
theorem build_skips_undefined_callee (m : Module) (fuel : Nat) (w w' : World) (this f : Nat)
    (hthis : this < w.numGraphs) (hnew : w.graph this = LLVMDependenceGraph.new)
    (h : build m fuel w this f = .ok (true, w')) :
    (∀ g, (m.function g).blocks.length = 0 →
      (∀ k w0 this0, build m (k + 1) w0 this0 g = .ok (false, w0)) ∧
      (∀ (build0 : World → Nat → Nat → Result (Bool × World)) w0 this0 node calledValue args,
        handleCallSite build0 m w0 this0 node (Instruction.call calledValue (some g) args) =
          .ok w0)) ∧
    (∀ BB i calledValue g args,
      analysis.Reachable (fun b => successors (m.block f b)) 0 BB →
      (m.block f BB)[i]? = some (Instruction.call calledValue (some g) args) →
      (m.function g).blocks.length = 0 →
      ∃ n, (w'.graph this).getNode (Value.instruction f BB i) = some n) ∧
    (∀ BB i calledValue g args n,
      (m.block f BB)[i]? = some (Instruction.call calledValue (some g) args) →
      (m.function g).blocks.length = 0 →
      (w'.graph this).getNode (Value.instruction f BB i) = some n →
      (w'.graph this).subgraphs n = [] ∧ (w'.graph this).parameters n = none ∧
        ∀ b, n ∉ (w'.graph this).callSites b) := by
  refine ⟨?_, ?_⟩
  · intro g hg
    refine ⟨?_, ?_⟩
    · intro k w0 this0
      simp [build, buildFunction, hg]
    · intro build0 w0 this0 node calledValue args
      exact handleCallSite_undefined build0 m w0 this0 node calledValue g args hg
  cases fuel with
  | zero => cases h
  | succ k =>
    have hk := build_keepsOthers m k
    simp only [build] at h
    unfold buildFunction at h
    split at h
    · cases h
    · dsimp only at h
      split at h
      · cases h
      · rename_i w3 hl
        split at h
        · cases h
        · rename_i G hfin
          cases h
          have hg2 : ((w.modify this (fun G => startFunction G f)).insertConstructed f
              this).graph this = startFunction LLVMDependenceGraph.new f := by
            show (w.modify this (fun G => startFunction G f)).graph this = _
            rw [World.modify_graph_self, hnew]
          have hthis2 : this < ((w.modify this (fun G => startFunction G f)).insertConstructed
              f this).numGraphs := hthis
          obtain ⟨_, hI⟩ := buildLoop_kept hk m this f (k + 1) _ _ _ w3 hthis2
            (by rw [hg2]; exact callSiteInv_startFunction m f) hl
          obtain ⟨P, hW3⟩ := buildLoop_work hk m this f (k + 1) _ _ _ w3 hthis2
            (by rw [hg2]; exact workInv_startFunction m f) hl
          have hF := frame_finishFunction hfin
          obtain ⟨c1, c2, c3, _⟩ := finishFunction_call_fields hfin
          rw [World.modify_graph_self]
          constructor
          · intro BB i cv g args hr hi _
            have hB := hW3.reachable_built hr
            have hlt : i < (m.block f BB).length := by
              by_contra hge
              rw [List.getElem?_eq_none (by omega)] at hi
              cases hi
            obtain ⟨n, hn⟩ := hB i hlt
            exact ⟨n, by
              show G.nodes _ = some n
              rw [hF.nodes_eq]; exact hn⟩
          · intro BB i cv g args n hi hg hn
            have hn3 : (w3.graph this).nodes (Value.instruction f BB i) = some n := by
              rw [← hF.nodes_eq]; exact hn
            obtain ⟨u1, u2, u3⟩ := hI.undefined BB i cv g args n hi hg hn3
            have hlt := hI.nodes_range _ n hn3
            refine ⟨by rw [c1 n hlt, u1], by rw [c2 n hlt, u2], ?_⟩
            intro b hb
            rw [c3] at hb
            exact u3 b hb

/-- The statement of `build_skips_undefined_callee` on function 0 of
`operandsModule`, whose instruction 5 calls function 1, a function without
basic block. -/
theorem build_skips_undefined_callee_witness :
    ∃ w', build operandsModule 3 World.initial 0 0 = .ok (true, w') ∧
      0 < World.initial.numGraphs ∧ World.initial.graph 0 = LLVMDependenceGraph.new ∧
      (operandsModule.function 1).blocks.length = 0 ∧
      build operandsModule 3 World.initial 0 1 = .ok (false, World.initial) ∧
      (∃ n, (w'.graph 0).getNode (Value.instruction 0 0 5) = some n) ∧
      (∀ n, (w'.graph 0).getNode (Value.instruction 0 0 5) = some n →
        (w'.graph 0).subgraphs n = [] ∧ (w'.graph 0).parameters n = none ∧
          ∀ b, n ∉ (w'.graph 0).callSites b) := by
  refine ⟨_, rfl, by decide, rfl, rfl, ?_⟩
  have H := build_skips_undefined_callee operandsModule 3 World.initial _ 0 0 (by decide) rfl rfl
  exact ⟨(H.1 1 rfl).1 2 World.initial 0,
    H.2.1 0 5 _ 1 _ analysis.Reachable.refl rfl rfl,
    fun n hn => H.2.2 0 5 _ 1 _ n rfl rfl hn⟩

/-- C16, failing input.  In `sameArgModule` the call passes the same value for
both arguments of `g`.  The call node (node 2 of graph 0) is linked to the
subgraph of `g` (graph 1), whose formal-parameter record has two pairs; the
actual-parameter record of the call node has one pair, while the call node has
four control dependencies: the `in` and `out` node made for the second argument
are in no record. -/
theorem build_drops_repeated_actual_parameter :
    ∃ w', build sameArgModule 5 World.initial 0 0 = .ok (true, w') ∧
      (w'.graph 0).getNode (Value.instruction 0 0 1) = some 2 ∧
      (w'.graph 0).subgraphs 2 = [1] ∧
      (w'.graph 1).formalParameters.map List.length = some 2 ∧
      ((w'.graph 0).parameters 2).map List.length = some 1 ∧
      (w'.graph 0).parameters 2 = some [(Value.instruction 0 0 0, 3, 4)] ∧
      (w'.graph 0).controlDeps 2 = [3, 4, 5, 6] :=
  ⟨_, rfl, rfl, rfl, rfl, rfl, rfl, rfl⟩

/-- C13, counterexample.  In `selfRecursiveModule` the entry function calls
itself: after the build its graph (graph 0) is the subgraph of the one call node
(node 1), one node is linked to it, and its reference count is 2. -/
theorem build_entry_refcount_on_self_recursion :
    ∃ w', build selfRecursiveModule 5 World.initial 0 0 = .ok (true, w') ∧
      (w'.graph 0).getNode (Value.instruction 0 0 0) = some 1 ∧
      (w'.graph 0).subgraphs 1 = [0] ∧
      w'.links 0 = 1 ∧ (w'.graph 0).refcount = 2 :=
  ⟨_, rfl, rfl, rfl, rfl, rfl⟩

/-! ## Counting links -/

theorem filter_length_congr (p q : Nat → Bool) :
    ∀ n : Nat, (∀ i, i < n → p i = q i) →
      ((List.range n).filter p).length = ((List.range n).filter q).length := by
  intro n
  induction n with
  | zero => intro _; rfl
  | succ k ih =>
    intro h
    rw [List.range_succ, List.filter_append, List.filter_append, List.length_append,
      List.length_append, ih (fun i hi => h i (Nat.lt_succ_of_lt hi))]
    simp [List.filter, h k (Nat.lt_succ_self k)]

theorem filter_length_flip (p q : Nat → Bool) (a : Nat) :
    ∀ n : Nat, a < n → (∀ i, i < n → i ≠ a → p i = q i) → p a = false → q a = true →
      ((List.range n).filter q).length = ((List.range n).filter p).length + 1 := by
  intro n
  induction n with
  | zero => intro h; omega
  | succ k ih =>
    intro ha h hp hq
    rw [List.range_succ, List.filter_append, List.filter_append, List.length_append,
      List.length_append]
    by_cases hak : a = k
    · subst hak
      rw [filter_length_congr q p a (fun i hi => (h i (Nat.lt_succ_of_lt hi)
        (Nat.ne_of_lt hi)).symm)]
      simp [List.filter, hp, hq]
    · have hlt : a < k := by omega
      rw [ih hlt (fun i hi hne => h i (Nat.lt_succ_of_lt hi) hne) hp hq]
      have := h k (Nat.lt_succ_self k) (fun hka => hak hka.symm)
      simp [List.filter, this]
      omega

theorem filter_length_false (p : Nat → Bool) (a : Nat) :
    ∀ n : Nat, a ≤ n → (∀ i, a ≤ i → i < n → p i = false) →
      ((List.range n).filter p).length = ((List.range a).filter p).length := by
  intro n
  induction n with
  | zero =>
    intro ha _
    have : a = 0 := by omega
    subst this
    rfl
  | succ k ih =>
    intro ha h
    by_cases hak : a = k + 1
    · subst hak; rfl
    · have hle : a ≤ k := by omega
      rw [List.range_succ, List.filter_append, List.length_append,
        ih hle (fun i h1 h2 => h i h1 (Nat.lt_succ_of_lt h2))]
      simp [List.filter, h k hle (Nat.lt_succ_self k)]

theorem LinkSame.link_refl (G : LLVMDependenceGraph) : LinkSame G G :=
  ⟨rfl, le_refl _, fun _ _ => rfl, fun n h1 h2 => absurd h2 (by omega)⟩

theorem LinkSame.link_trans {G1 G2 G3 : LLVMDependenceGraph} (h1 : LinkSame G1 G2)
    (h2 : LinkSame G2 G3) : LinkSame G1 G3 where
  refcount_eq := by rw [h2.refcount_eq, h1.refcount_eq]
  numNodes_le := le_trans h1.numNodes_le h2.numNodes_le
  subgraphs_eq n hn := by
    rw [h2.subgraphs_eq n (lt_of_lt_of_le hn h1.numNodes_le), h1.subgraphs_eq n hn]
  subgraphs_new n hn hlt := by
    by_cases h : n < G2.numNodes
    · rw [h2.subgraphs_eq n h, h1.subgraphs_new n hn h]
    · exact h2.subgraphs_new n (by omega) hlt

theorem LinkSame.linkCount_eq {G G' : LLVMDependenceGraph} (h : LinkSame G G') (g : Nat) :
    G'.linkCount g = G.linkCount g := by
  unfold LLVMDependenceGraph.linkCount
  rw [filter_length_false _ G.numNodes G'.numNodes h.numNodes_le
    (fun i h1 h2 => by simp [h.subgraphs_new i h1 h2])]
  exact filter_length_congr _ _ _ (fun i hi => by rw [h.subgraphs_eq i hi])

theorem sum_map_range_congr (a b : Nat → Nat) :
    ∀ n : Nat, (∀ i, i < n → a i = b i) →
      ((List.range n).map a).sum = ((List.range n).map b).sum := by
  intro n
  induction n with
  | zero => intro _; rfl
  | succ k ih =>
    intro h
    rw [List.range_succ, List.map_append, List.map_append, List.sum_append, List.sum_append,
      ih (fun i hi => h i (Nat.lt_succ_of_lt hi))]
    simp [h k (Nat.lt_succ_self k)]

theorem sum_map_range_update (a b : Nat → Nat) (g : Nat) :
    ∀ n : Nat, g < n → (∀ i, i < n → i ≠ g → a i = b i) →
      ((List.range n).map b).sum + a g = ((List.range n).map a).sum + b g := by
  intro n
  induction n with
  | zero => intro h; omega
  | succ k ih =>
    intro hg h
    rw [List.range_succ, List.map_append, List.map_append, List.sum_append, List.sum_append]
    by_cases hgk : g = k
    · subst hgk
      rw [sum_map_range_congr b a g (fun i hi => (h i (Nat.lt_succ_of_lt hi)
        (Nat.ne_of_lt hi)).symm)]
      simp
      omega
    · have := ih (by omega) (fun i hi hne => h i (Nat.lt_succ_of_lt hi) hne)
      have hk := h k (Nat.lt_succ_self k) (fun hkg => hgk hkg.symm)
      simp [hk]
      omega

theorem World.links_modify (w : World) (g : Nat) (F : LLVMDependenceGraph → LLVMDependenceGraph)
    (x : Nat) (hg : g < w.numGraphs) :
    (w.modify g F).links x + (w.graph g).linkCount x =
      w.links x + (F (w.graph g)).linkCount x := by
  unfold World.links
  have := sum_map_range_update (fun h => (w.graph h).linkCount x)
    (fun h => ((w.modify g F).graph h).linkCount x) g w.numGraphs hg
    (fun i _ hne => by
      show (w.graph i).linkCount x = ((w.modify g F).graph i).linkCount x
      rw [World.modify_graph_other _ _ _ _ hne])
  simp only [World.modify_graph_self] at this
  exact this

theorem World.links_modify_same (w : World) (g : Nat)
    (F : LLVMDependenceGraph → LLVMDependenceGraph) (x : Nat)
    (h : (F (w.graph g)).linkCount x = (w.graph g).linkCount x) :
    (w.modify g F).links x = w.links x := by
  unfold World.links
  refine sum_map_range_congr _ _ _ ?_
  intro i _
  by_cases hi : i = g
  · subst hi
    rw [World.modify_graph_self]
    exact h
  · rw [World.modify_graph_other _ _ _ _ hi]

theorem World.refs_modify_same (w : World) (g : Nat)
    (F : LLVMDependenceGraph → LLVMDependenceGraph) (x : Nat)
    (h : (F (w.graph g)).refcount = (w.graph g).refcount) :
    (w.modify g F).refs x = w.refs x := by
  unfold World.refs
  by_cases hx : x = g
  · subst hx
    rw [World.modify_graph_self, h]
    rfl
  · rw [World.modify_graph_other _ _ _ _ hx]
    rfl

/-- A change of graph `this` that keeps its links and its reference count keeps
every excess. -/
theorem World.excess_modify (w : World) (this : Nat)
    (F : LLVMDependenceGraph → LLVMDependenceGraph)
    (h : LinkSame (w.graph this) (F (w.graph this))) (g : Nat) :
    (w.modify this F).excess g = w.excess g := by
  unfold World.excess
  rw [World.links_modify_same w this F g (h.linkCount_eq g),
    World.refs_modify_same w this F g h.refcount_eq]

theorem World.refs_setRefcount (w : World) (sub : Nat) (d : Int) (x : Nat)
    (hsub : sub < w.numGraphs) :
    (w.modify sub (fun G => { G with refcount := G.refcount + d })).refs x =
      w.refs x + (if x = sub then d else 0) := by
  unfold World.refs
  by_cases hx : x = sub
  · subst hx
    rw [World.modify_graph_self]
    simp [hsub]
  · rw [World.modify_graph_other _ _ _ _ hx]
    simp [hx]

theorem World.links_setRefcount (w : World) (sub : Nat) (d : Int → Int) (x : Nat) :
    (w.modify sub (fun G => { G with refcount := d G.refcount })).links x = w.links x :=
  World.links_modify_same w sub _ x rfl

theorem World.excess_ref (w : World) (sub x : Nat) (hsub : sub < w.numGraphs) :
    (w.ref sub).excess x = w.excess x + (if x = sub then 1 else 0) := by
  unfold World.excess World.ref
  rw [World.links_setRefcount w sub (fun r => r + 1) x, World.refs_setRefcount w sub 1 x hsub]
  omega

theorem World.excess_unref (w : World) (sub x : Nat) (hsub : sub < w.numGraphs) :
    (w.unref sub).excess x = w.excess x - (if x = sub then 1 else 0) := by
  unfold World.excess World.unref
  have h1 : (w.modify sub (fun G => { G with refcount := G.refcount - 1 })) =
      (w.modify sub (fun G => { G with refcount := G.refcount + (-1) })) := rfl
  rw [World.links_setRefcount w sub (fun r => r - 1) x, h1,
    World.refs_setRefcount w sub (-1) x hsub]
  split <;> omega

theorem linkCount_new (g : Nat) : LLVMDependenceGraph.new.linkCount g = 0 := rfl

theorem World.excess_newGraph (w : World) (x : Nat) :
    w.newGraph.excess x = w.excess x + (if x = w.numGraphs then 1 else 0) := by
  unfold World.excess
  have hl : w.newGraph.links x = w.links x := by
    unfold World.links
    show ((List.range (w.numGraphs + 1)).map _).sum = _
    rw [List.range_succ, List.map_append, List.sum_append]
    have h1 : (w.newGraph.graph w.numGraphs).linkCount x = 0 := by
      simp [World.newGraph, linkCount_new]
    simp only [List.map_cons, List.map_nil, List.sum_cons, List.sum_nil, h1, Nat.add_zero]
    refine sum_map_range_congr _ _ _ ?_
    intro i hi
    simp [World.newGraph, Nat.ne_of_lt hi]
  have hr : w.newGraph.refs x = w.refs x + (if x = w.numGraphs then 1 else 0) := by
    unfold World.refs
    by_cases hx : x = w.numGraphs
    · subst hx
      simp [World.newGraph, LLVMDependenceGraph.new]
    · by_cases hlt : x < w.numGraphs
      · have : x < w.numGraphs + 1 := by omega
        simp [World.newGraph, hx, hlt, this]
      · have : ¬ x < w.numGraphs + 1 := by omega
        simp [World.newGraph, hx, hlt, this]
  rw [hl, hr]
  omega

/-- A new link of `node` to `sub`, with the reference it stands for, keeps every
excess. -/
theorem World.excess_addSubgraph (w : World) (this node sub : Nat) (hthis : this < w.numGraphs)
    (hsub : sub < w.numGraphs) (hnode : node < (w.graph this).numNodes)
    (hnew : sub ∉ (w.graph this).subgraphs node) (x : Nat) :
    (w.addSubgraph this node sub).excess x = w.excess x := by
  unfold World.addSubgraph
  rw [World.excess_ref _ sub x (by simpa using hsub)]
  unfold World.excess
  have hr : (w.modify this (fun G =>
      { G with
        subgraphs := Function.update G.subgraphs node (setInsert (G.subgraphs node) sub) })).refs
      x = w.refs x :=
    World.refs_modify_same w this _ x rfl
  have hl := World.links_modify w this (fun G =>
      { G with
        subgraphs := Function.update G.subgraphs node (setInsert (G.subgraphs node) sub) })
      x hthis
  have hc : ({ (w.graph this) with
        subgraphs := Function.update (w.graph this).subgraphs node
          (setInsert ((w.graph this).subgraphs node) sub) } : LLVMDependenceGraph).linkCount x =
      (w.graph this).linkCount x + (if x = sub then 1 else 0) := by
    unfold LLVMDependenceGraph.linkCount
    by_cases hx : x = sub
    · subst hx
      simp only [if_true]
      refine filter_length_flip _ _ node _ hnode ?_ (by simpa using hnew)
        (by simp [mem_setInsert])
      intro i _ hne
      simp [Function.update_apply, hne]
    · simp only [hx, if_false, Nat.add_zero]
      refine filter_length_congr _ _ _ ?_
      intro i _
      by_cases hi : i = node
      · subst hi
        simp [mem_setInsert, hx]
      · simp [Function.update_apply, hi]
  dsimp only at hl
  rw [hc] at hl
  rw [hr]
  have hl' : ((w.modify this (fun G =>
      { G with
        subgraphs := Function.update G.subgraphs node (setInsert (G.subgraphs node) sub) })).links
      x : Int) = (w.links x : Int) + (if x = sub then 1 else 0) := by
    split at hl <;> split <;> omega
  rw [hl']
  omega

/-! ## The world around a graph under construction -/

theorem nodeAdded_linkNode (G : LLVMDependenceGraph) (val : Value) (predNode : Nat) :
    NodeAdded G (((G.newNode val).addNode G.numNodes).setSuccessor predNode G.numNodes) val where
  numNodes_eq := rfl
  nodes_eq := by
    simp [LLVMDependenceGraph.setSuccessor, LLVMDependenceGraph.addNode,
      LLVMDependenceGraph.newNode]
  firstNode_old _ _ hb := Or.inl hb
  callSites_old _ _ hx := hx
  subgraphs_eq n hn := by
    simp [LLVMDependenceGraph.setSuccessor, LLVMDependenceGraph.addNode,
      LLVMDependenceGraph.newNode, Function.update_apply, Nat.ne_of_lt hn]
  parameters_eq n hn := by
    simp [LLVMDependenceGraph.setSuccessor, LLVMDependenceGraph.addNode,
      LLVMDependenceGraph.newNode, Function.update_apply, Nat.ne_of_lt hn]
  subgraphs_new := by
    simp [LLVMDependenceGraph.setSuccessor, LLVMDependenceGraph.addNode,
      LLVMDependenceGraph.newNode]
  parameters_new := by
    simp [LLVMDependenceGraph.setSuccessor, LLVMDependenceGraph.addNode,
      LLVMDependenceGraph.newNode]
  refcount_eq := rfl

theorem nodeAdded_startBlock (G : LLVMDependenceGraph) (f BB : Nat) (predBB : Option Nat) :
    NodeAdded G (startBlock G f BB predBB) (Value.instruction f BB 0) where
  numNodes_eq := by cases predBB <;> rfl
  nodes_eq := by
    cases predBB <;>
      simp [startBlock, createBasicBlock, LLVMDependenceGraph.setBasicBlock,
        LLVMDependenceGraph.addSuccessor, LLVMDependenceGraph.newBlock,
        LLVMDependenceGraph.addNode, LLVMDependenceGraph.newNode]
  firstNode_old b n hb := by
    cases predBB <;>
      · simp only [startBlock, createBasicBlock, LLVMDependenceGraph.setBasicBlock,
          LLVMDependenceGraph.addSuccessor, LLVMDependenceGraph.newBlock,
          LLVMDependenceGraph.addNode, LLVMDependenceGraph.newNode,
          Function.update_apply] at hb
        split at hb
        · cases hb; exact Or.inr rfl
        · exact Or.inl hb
  callSites_old b x hx := by
    cases predBB <;>
      · simp only [startBlock, createBasicBlock, LLVMDependenceGraph.setBasicBlock,
          LLVMDependenceGraph.addSuccessor, LLVMDependenceGraph.newBlock,
          LLVMDependenceGraph.addNode, LLVMDependenceGraph.newNode,
          Function.update_apply] at hx
        split at hx
        · cases hx
        · exact hx
  subgraphs_eq n hn := by
    cases predBB <;>
      simp [startBlock, createBasicBlock, LLVMDependenceGraph.setBasicBlock,
        LLVMDependenceGraph.addSuccessor, LLVMDependenceGraph.newBlock,
        LLVMDependenceGraph.addNode, LLVMDependenceGraph.newNode, Function.update_apply,
        Nat.ne_of_lt hn]
  parameters_eq n hn := by
    cases predBB <;>
      simp [startBlock, createBasicBlock, LLVMDependenceGraph.setBasicBlock,
        LLVMDependenceGraph.addSuccessor, LLVMDependenceGraph.newBlock,
        LLVMDependenceGraph.addNode, LLVMDependenceGraph.newNode, Function.update_apply,
        Nat.ne_of_lt hn]
  subgraphs_new := by
    cases predBB <;>
      simp [startBlock, createBasicBlock, LLVMDependenceGraph.setBasicBlock,
        LLVMDependenceGraph.addSuccessor, LLVMDependenceGraph.newBlock,
        LLVMDependenceGraph.addNode, LLVMDependenceGraph.newNode]
  parameters_new := by
    cases predBB <;>
      simp [startBlock, createBasicBlock, LLVMDependenceGraph.setBasicBlock,
        LLVMDependenceGraph.addSuccessor, LLVMDependenceGraph.newBlock,
        LLVMDependenceGraph.addNode, LLVMDependenceGraph.newNode]
  refcount_eq := by cases predBB <;> rfl

theorem NodeAdded.linkSame {G G1 : LLVMDependenceGraph} {key : Value} (h : NodeAdded G G1 key) :
    LinkSame G G1 where
  refcount_eq := h.refcount_eq
  numNodes_le := by rw [h.numNodes_eq]; omega
  subgraphs_eq := h.subgraphs_eq
  subgraphs_new n h1 h2 := by
    have : n = G.numNodes := by rw [h.numNodes_eq] at h2; omega
    rw [this]
    exact h.subgraphs_new

theorem LinkInv.mono_cf {m : Module} {cf cf' : Nat → Option Nat} {f : Nat}
    {G : LLVMDependenceGraph} (h : LinkInv m cf f G)
    (hcf : ∀ x s, cf x = some s → cf' x = some s) : LinkInv m cf' f G := by
  intro BB i cv g args n hi hg hn
  obtain ⟨sub, h1, h2⟩ := h BB i cv g args n hi hg hn
  exact ⟨sub, hcf g sub h1, h2⟩

theorem Finished.finished_of_same {m : Module} {w w' : World} {h x : Nat}
    (hF : Finished m w h x) (hs : SameButRefcount (w.graph h) (w'.graph h))
    (hcf : ∀ x s, w.constructedFunctions x = some s → w'.constructedFunctions x = some s) :
    Finished m w' h x := by
  unfold SameButRefcount at hs
  obtain ⟨⟨e, he1, he2⟩, h2, h3, h4, h5⟩ := hF
  refine ⟨⟨e, ?_, ?_⟩, hcf x h h2, ?_, ?_, ?_⟩
  · rw [hs]; exact he1
  · rw [hs]; exact he2
  · rw [hs]; exact h3.mono_cf hcf
  · rw [hs]
    exact ⟨h4.nodes_range, h4.first_range, h4.callSites_range, h4.undefined⟩
  · rw [hs]; exact h5

theorem Grows.grows_refl (m : Module) (w : World) (this : Nat) (hthis : this < w.numGraphs) :
    Grows m w w this where
  this_lt := hthis
  others := OthersSame.others_refl w this
  balanced _ := rfl
  cf_mono _ _ h := h
  cf_new x h h1 h2 := by rw [h1] at h2; cases h2
  new_done h h1 h2 := absurd h2 (by omega)

theorem Grows.grows_trans {m : Module} {w1 w2 w3 : World} {this : Nat}
    (h1 : Grows m w1 w2 this) (h2 : Grows m w2 w3 this) : Grows m w1 w3 this where
  this_lt := h1.this_lt
  others := h1.others.others_trans h2.others
  balanced g := by rw [h2.balanced g, h1.balanced g]
  cf_mono x h hx := h2.cf_mono x h (h1.cf_mono x h hx)
  cf_new x h hx hx3 := by
    cases hx2 : w2.constructedFunctions x with
    | none =>
      obtain ⟨a, b, c⟩ := h2.cf_new x h hx2 hx3
      exact ⟨le_trans h1.others.1 a, b, c⟩
    | some h' =>
      have := h2.cf_mono x h' hx2
      rw [this] at hx3
      injection hx3 with hh
      subst hh
      obtain ⟨a, b, c⟩ := h1.cf_new x h' hx hx2
      refine ⟨a, lt_of_lt_of_le b h2.others.1, ?_⟩
      exact c.finished_of_same (h2.others.2 h' b (by have := h1.this_lt; omega)) h2.cf_mono
  new_done h ha hb := by
    by_cases hlt : h < w2.numGraphs
    · obtain ⟨x, hx⟩ := h1.new_done h ha hlt
      exact ⟨x, hx.finished_of_same (h2.others.2 h hlt (by have := h1.this_lt; omega))
        h2.cf_mono⟩
    · exact h2.new_done h (by omega) hb

theorem Grows.cfRange {m : Module} {w w' : World} {this : Nat} (h : Grows m w w' this)
    (hcf : w.CfRange) : w'.CfRange := by
  intro x s hx
  cases hx0 : w.constructedFunctions x with
  | none => exact (h.cf_new x s hx0 hx).2.1
  | some s0 =>
    have := h.cf_mono x s0 hx0
    rw [this] at hx
    injection hx with hh
    subst hh
    exact lt_of_lt_of_le (hcf x s0 hx0) h.others.1

/-- A change of graph `this` alone that keeps its links and its reference
count. -/
theorem Grows.grows_modify (m : Module) (w : World) (this : Nat)
    (F : LLVMDependenceGraph → LLVMDependenceGraph) (hthis : this < w.numGraphs)
    (h : LinkSame (w.graph this) (F (w.graph this))) : Grows m w (w.modify this F) this where
  this_lt := hthis
  others := OthersSame.others_modify w this F
  balanced g := World.excess_modify w this F h g
  cf_mono _ _ hx := hx
  cf_new x s h1 h2 := by
    rw [World.modify_constructedFunctions, h1] at h2
    cases h2
  new_done s h1 h2 := absurd h2 (by simp; omega)

theorem Finished.finished_unref {m : Module} {w : World} {h x : Nat} (hF : Finished m w h x)
    (sub : Nat) : Finished m (w.unref sub) h x :=
  hF.finished_of_same (World.modify_refcount_same w sub (fun r => r - 1) h) (fun _ _ hx => hx)

theorem getSubgraph_grows {build : World → Nat → Nat → Result (Bool × World)} {m : Module}
    (hk : KeepsOthers build) (hB : BuildSpec m build) {w w3 : World} {this callFunc sub : Nat}
    (hthis : this < w.numGraphs) (hcf : w.CfRange)
    (h : getSubgraph build w callFunc = .ok (w3, sub)) :
    Grows m w w3 this ∧ w3.constructedFunctions callFunc = some sub ∧ sub < w3.numGraphs := by
  have hsame := getSubgraph_same hk h
  unfold getSubgraph at h
  split at h
  · rename_i s hs
    cases h
    exact ⟨Grows.grows_refl m w this hthis, hs, hcf _ _ hs⟩
  · rename_i hnone
    dsimp only at h
    split at h
    · cases h
    · cases h
    · rename_i w2 hb
      cases h
      have hlt1 : w.numGraphs < ({ w.newGraph with
          constructedFunctions :=
            fun x => if x = callFunc then some w.numGraphs else w.constructedFunctions x }
          : World).numGraphs := by
        show w.numGraphs < w.numGraphs + 1
        omega
      have hcf1 : ({ w.newGraph with
          constructedFunctions :=
            fun x => if x = callFunc then some w.numGraphs else w.constructedFunctions x }
          : World).CfRange := by
        intro x s hx
        show s < w.numGraphs + 1
        simp only at hx
        split at hx
        · cases hx; omega
        · have := hcf x s hx; omega
      obtain ⟨b1, b2, b3, b4, b5, b6⟩ := hB _ _ _ _ _ hlt1 hcf1 (by simp [World.newGraph]) hb
      have hfin : Finished m w2 w.numGraphs callFunc := b6 rfl (Or.inr (by simp))
      have hn2 : w.numGraphs + 1 ≤ w2.numGraphs := b1.1
      refine ⟨?_, ?_, ?_⟩
      · refine
          { this_lt := hthis
            others := ⟨hsame.1, fun g hg _ => hsame.2 g hg⟩
            balanced := ?_
            cf_mono := ?_
            cf_new := ?_
            new_done := ?_ }
        · intro g
          rw [World.excess_unref w2 w.numGraphs g (by omega), b2 g]
          have := World.excess_newGraph w g
          have e1 : World.excess ({ w.newGraph with
              constructedFunctions :=
                fun x => if x = callFunc then some w.numGraphs else w.constructedFunctions x }
              : World) g = w.newGraph.excess g := rfl
          rw [e1, this]
          omega
        · intro x s hx
          show w2.constructedFunctions x = some s
          refine b3 x s ?_
          have hxc : x ≠ callFunc := by
            intro hxc
            rw [hxc, hnone] at hx
            cases hx
          simp [hxc, hx]
        · intro x s hx hx3
          have hx3' : w2.constructedFunctions x = some s := hx3
          by_cases hxc : x = callFunc
          · subst hxc
            have := b3 x w.numGraphs (by simp)
            rw [this] at hx3'
            injection hx3' with hh
            subst hh
            exact ⟨le_refl _, by show w.numGraphs < w2.numGraphs; omega,
              hfin.finished_unref _⟩
          · have hx1 : ({ w.newGraph with
                constructedFunctions :=
                  fun y => if y = callFunc then some w.numGraphs else w.constructedFunctions y }
                : World).constructedFunctions x = none := by
              simp [hxc, hx]
            rcases b4 x s hx1 hx3' with ⟨hxf, _⟩ | ⟨c1, c2, c3⟩
            · exact absurd hxf hxc
            · have c1' : w.numGraphs + 1 ≤ s := c1
              exact ⟨by omega, c2, c3.finished_unref _⟩
        · intro s hs1 hs2
          have hs2' : s < w2.numGraphs := hs2
          by_cases hs : s = w.numGraphs
          · subst hs
            exact ⟨callFunc, hfin.finished_unref _⟩
          · obtain ⟨x, hx⟩ := b5 s (by show w.numGraphs + 1 ≤ s; omega) hs2'
            exact ⟨x, hx.finished_unref _⟩
      · show w2.constructedFunctions callFunc = some w.numGraphs
        exact b3 _ _ (by simp)
      · show w.numGraphs < w2.numGraphs
        omega

theorem LinkSame.link_of_fields {G G' : LLVMDependenceGraph} (h1 : G'.refcount = G.refcount)
    (h2 : G'.numNodes = G.numNodes) (h3 : G'.subgraphs = G.subgraphs) : LinkSame G G' :=
  ⟨h1, le_of_eq h2.symm, fun _ _ => by rw [h3], fun n ha hb => absurd hb (by omega)⟩

theorem linkSame_newNode (G : LLVMDependenceGraph) (val : Value) : LinkSame G (G.newNode val) where
  refcount_eq := rfl
  numNodes_le := by simp [LLVMDependenceGraph.newNode]
  subgraphs_eq n hn := by
    simp [LLVMDependenceGraph.newNode, Function.update_apply, Nat.ne_of_lt hn]
  subgraphs_new n h1 h2 := by
    have : n = G.numNodes := by
      simp only [LLVMDependenceGraph.newNode] at h2
      omega
    subst this
    simp [LLVMDependenceGraph.newNode]

theorem linkSame_addParameterNodes (owner : Nat) (vals : List Value) :
    ∀ (G : LLVMDependenceGraph) (params : LLVMDGParameters),
      LinkSame G (addParameterNodes owner vals G params).1 := by
  induction vals with
  | nil => intro G params; exact LinkSame.link_refl G
  | cons v vs ih =>
    intro G params
    simp only [addParameterNodes]
    refine LinkSame.link_trans ?_ (ih _ _)
    exact ((linkSame_newNode G v).link_trans (linkSame_newNode _ v)).link_trans
      (LinkSame.link_of_fields rfl rfl rfl)

theorem linkSame_addActualParameters {G G' : LLVMDependenceGraph} {node arg_size : Nat}
    {args : List Value} (h : addActualParameters G node arg_size args = .ok G') :
    LinkSame G G' := by
  unfold addActualParameters at h
  split at h
  · cases h; exact LinkSame.link_refl G
  · split at h
    · cases h
    · cases h
      exact (linkSame_addParameterNodes node args G []).link_trans
        (LinkSame.link_of_fields rfl rfl rfl)

theorem World.addSubgraph_graph_this (w : World) (this node sub : Nat) :
    ((w.addSubgraph this node sub).graph this).subgraphs node =
        setInsert ((w.graph this).subgraphs node) sub ∧
      ((w.addSubgraph this node sub).graph this).numNodes = (w.graph this).numNodes := by
  unfold World.addSubgraph World.ref
  by_cases h : this = sub
  · subst h
    simp
  · rw [World.modify_graph_other _ _ _ _ h]
    simp

/-- A new link from `node` of graph `this` to `sub`. -/
theorem Grows.grows_addSubgraph (m : Module) (w : World) (this node sub : Nat)
    (hthis : this < w.numGraphs) (hsub : sub < w.numGraphs)
    (hnode : node < (w.graph this).numNodes) (hnew : sub ∉ (w.graph this).subgraphs node) :
    Grows m w (w.addSubgraph this node sub) this where
  this_lt := hthis
  others := by
    refine ⟨le_refl _, ?_⟩
    intro g _ hne
    unfold World.addSubgraph World.ref
    have := World.modify_refcount_same
      (w.modify this (fun G =>
        { G with
          subgraphs := Function.update G.subgraphs node (setInsert (G.subgraphs node) sub) }))
      sub (fun r => r + 1) g
    rw [World.modify_graph_other _ _ _ _ hne] at this
    exact this
  balanced g := World.excess_addSubgraph w this node sub hthis hsub hnode hnew g
  cf_mono _ _ hx := hx
  cf_new x s h1 h2 := by
    have : (w.addSubgraph this node sub).constructedFunctions = w.constructedFunctions := rfl
    rw [this, h1] at h2
    cases h2
  new_done s h1 h2 := by
    have : (w.addSubgraph this node sub).numGraphs = w.numGraphs := rfl
    rw [this] at h2
    omega

theorem buildSubgraph_grows {build : World → Nat → Nat → Result (Bool × World)} {m : Module}
    (hk : KeepsOthers build) (hB : BuildSpec m build) {w w' : World} {this node : Nat}
    {inst : Instruction} (hthis : this < w.numGraphs) (hcf : w.CfRange)
    (hnode : node < (w.graph this).numNodes) (hs0 : (w.graph this).subgraphs node = [])
    (h : buildSubgraph build m w this node inst = .ok w') :
    Grows m w w' this ∧
      ∀ calledValue g args, inst = Instruction.call calledValue (some g) args →
        ∃ sub, w'.constructedFunctions g = some sub ∧ (w'.graph this).subgraphs node = [sub] := by
  unfold buildSubgraph at h
  split at h
  · rename_i cv calledFunction args
    split at h
    · cases h
    · rename_i callFunc
      split at h
      · cases h
      · rename_i w3 subgraph hsub
        obtain ⟨hn, hs⟩ := getSubgraph_same hk hsub
        obtain ⟨hG3, hcf3, hsub3⟩ := getSubgraph_grows hk hB hthis hcf hsub
        have hsame := hs this hthis
        unfold SameButRefcount at hsame
        have hnum3 : (w3.graph this).numNodes = (w.graph this).numNodes := by rw [hsame]
        have hsub0 : (w3.graph this).subgraphs node = [] := by rw [hsame]; exact hs0
        have hthis3 : this < w3.numGraphs := lt_of_lt_of_le hthis hn
        split at h
        · cases h
        · rename_i BB hBB
          dsimp only at h
          split at h
          · cases h
          · rename_i G hG
            cases h
            have hG4 : Grows m w3 (w3.modify this (fun G => G.addCallsite BB node)) this :=
              Grows.grows_modify m w3 this _ hthis3 (LinkSame.link_of_fields rfl rfl rfl)
            have hg4 : ((w3.modify this (fun G => G.addCallsite BB node)).graph this) =
                (w3.graph this).addCallsite BB node := World.modify_graph_self _ _ _
            have hG5 := Grows.grows_addSubgraph m
              (w3.modify this (fun G => G.addCallsite BB node)) this node subgraph
              (by simpa using hthis3) (by simpa using hsub3)
              (by rw [hg4]; show node < (w3.graph this).numNodes; rw [hnum3]; exact hnode)
              (by
                rw [hg4]
                show subgraph ∉ (w3.graph this).subgraphs node
                rw [hsub0]
                simp)
            obtain ⟨a1, a2⟩ := World.addSubgraph_graph_this
              (w3.modify this (fun G => G.addCallsite BB node)) this node subgraph
            rw [hg4] at a1 a2
            have a1' : (((w3.modify this (fun G => G.addCallsite BB node)).addSubgraph this node
                subgraph).graph this).subgraphs node = [subgraph] := by
              rw [a1]
              show setInsert ((w3.graph this).subgraphs node) subgraph = [subgraph]
              rw [hsub0]
              rfl
            have hL := linkSame_addActualParameters hG
            have hG6 := Grows.grows_modify m
              ((w3.modify this (fun G => G.addCallsite BB node)).addSubgraph this node subgraph)
              this (fun _ => G) (by simpa [World.addSubgraph, World.ref] using hthis3) hL
            refine ⟨(hG3.grows_trans hG4).grows_trans (hG5.grows_trans hG6), ?_⟩
            intro cv' g args' hinst
            injection hinst with _ hg _
            injection hg with hg
            subst hg
            refine ⟨subgraph, hcf3, ?_⟩
            rw [World.modify_graph_self, hL.subgraphs_eq node (by
              rw [a2]
              show node < (w3.graph this).numNodes
              rw [hnum3]
              exact hnode)]
            exact a1'
  · cases h

theorem handleCallSite_grows {build : World → Nat → Nat → Result (Bool × World)} {m : Module}
    (hk : KeepsOthers build) (hB : BuildSpec m build) {w w' : World} {this node : Nat}
    {inst : Instruction} (hthis : this < w.numGraphs) (hcf : w.CfRange)
    (hnode : node < (w.graph this).numNodes) (hs0 : (w.graph this).subgraphs node = [])
    (h : handleCallSite build m w this node inst = .ok w') :
    Grows m w w' this ∧
      ∀ calledValue g args, inst = Instruction.call calledValue (some g) args →
        (m.function g).blocks.length ≠ 0 →
        ∃ sub, w'.constructedFunctions g = some sub ∧ (w'.graph this).subgraphs node = [sub] := by
  unfold handleCallSite at h
  split at h
  · rename_i cv calledFunction args
    split at h
    · cases h
    · obtain ⟨h1, h2⟩ := buildSubgraph_grows hk hB hthis hcf hnode hs0 h
      exact ⟨h1, fun cv' g args' hi _ => h2 cv' g args' hi⟩
    · rename_i hdef
      cases h
      refine ⟨Grows.grows_refl m w this hthis, ?_⟩
      intro cv' g args' hinst hg
      exfalso
      injection hinst with _ hcf' _
      subst hcf'
      simp [is_func_defined, hg] at hdef
  · rename_i hne
    cases h
    refine ⟨Grows.grows_refl m w this hthis, ?_⟩
    intro cv' g args' hinst _
    exact absurd hinst (hne cv' (some g) args')

/-- The links of the call sites after a node was made for the instruction at
position `idx` of block `BB` and its call site was handled. -/
theorem LinkInv.link_step {build : World → Nat → Nat → Result (Bool × World)} {m : Module}
    (hk : KeepsOthers build) (hB : BuildSpec m build) {f BB idx this : Nat}
    {inst : Instruction} {G : LLVMDependenceGraph} {w1 w2 : World}
    (hc : handleCallSite build m w1 this G.numNodes inst = .ok w2)
    (hinst : (m.block f BB)[idx]? = some inst)
    (hthis : this < w1.numGraphs) (hcf : w1.CfRange)
    (na : NodeAdded G (w1.graph this) (Value.instruction f BB idx))
    (hI : CallSiteInv m f G) (hL : LinkInv m w1.constructedFunctions f G) :
    Grows m w1 w2 this ∧ LinkInv m w2.constructedFunctions f (w2.graph this) := by
  obtain ⟨hG, hdef⟩ := handleCallSite_grows hk hB hthis hcf
    (by rw [na.numNodes_eq]; omega) na.subgraphs_new hc
  obtain ⟨_, hF⟩ := handleCallSite_frame hk hthis hc
  have hloc := handleCallSite_local hk hthis hc
  refine ⟨hG, ?_⟩
  intro BB' i cv g args n hi hg hn
  rw [hF.nodes_eq, na.nodes_eq] at hn
  rcases mapInsert_eq_some _ _ _ _ _ hn with h1 | ⟨h1, h2, _⟩
  · obtain ⟨sub, c1, c2⟩ := hL BB' i cv g args n hi hg h1
    have hlt := hI.nodes_range _ n h1
    refine ⟨sub, hG.cf_mono _ _ c1, ?_⟩
    rw [hloc.subgraphs_eq n (by rw [na.numNodes_eq]; omega) (Nat.ne_of_lt hlt),
      na.subgraphs_eq n hlt, c2]
  · injection h1 with _ hbb hii
    subst hbb
    subst hii
    rw [hinst] at hi
    injection hi with hi
    subst h2
    exact hdef cv g args hi hg

theorem buildInstructions_grows {build : World → Nat → Nat → Result (Bool × World)}
    {m : Module} (hk : KeepsOthers build) (hB : BuildSpec m build) (this f BB : Nat) :
    ∀ (rest : List Instruction) (idx : Nat) (w : World) (predNode : Nat) (w' : World)
      (last : Nat), this < w.numGraphs → w.CfRange → CallSiteInv m f (w.graph this) →
      LinkInv m w.constructedFunctions f (w.graph this) →
      (∀ j, rest[j]? = (m.block f BB)[idx + j]?) →
      buildInstructions build m this f BB rest idx w predNode = .ok (w', last) →
      Grows m w w' this ∧ LinkInv m w'.constructedFunctions f (w'.graph this) := by
  intro rest
  induction rest with
  | nil =>
    intro idx w predNode w' last hthis _ _ hL _ h
    simp only [buildInstructions] at h
    cases h
    exact ⟨Grows.grows_refl m w this hthis, hL⟩
  | cons inst rest ih =>
    intro idx w predNode w' last hthis hcf hI hL hrest h
    simp only [buildInstructions] at h
    split at h
    · cases h
    · rename_i w2 hc
      have na := nodeAdded_linkNode (w.graph this) (Value.instruction f BB idx) predNode
      have hg1 : (w.modify this (fun G =>
          (((G.newNode (Value.instruction f BB idx)).addNode (w.graph this).numNodes).setSuccessor
            predNode (w.graph this).numNodes))).graph this =
          (((w.graph this).newNode (Value.instruction f BB idx)).addNode
            (w.graph this).numNodes).setSuccessor predNode (w.graph this).numNodes :=
        World.modify_graph_self _ _ _
      have hthis1 : this < (w.modify this (fun G =>
          (((G.newNode (Value.instruction f BB idx)).addNode (w.graph this).numNodes).setSuccessor
            predNode (w.graph this).numNodes))).numGraphs := hthis
      have hG1 := Grows.grows_modify m w this (fun G =>
          (((G.newNode (Value.instruction f BB idx)).addNode (w.graph this).numNodes).setSuccessor
            predNode (w.graph this).numNodes)) hthis na.linkSame
      have hinst : (m.block f BB)[idx]? = some inst := by
        have := hrest 0
        simpa using this.symm
      rw [← hg1] at na
      obtain ⟨hG2, hL2⟩ := LinkInv.link_step hk hB hc hinst hthis1 hcf na hI hL
      have hI2 : CallSiteInv m f (w2.graph this) :=
        hI.call_step hk hthis1 hinst na.numNodes_eq na.nodes_eq na.firstNode_old
          na.callSites_old na.subgraphs_eq na.parameters_eq na.subgraphs_new na.parameters_new hc
      have hG12 := hG1.grows_trans hG2
      obtain ⟨hG3, hL3⟩ := ih (idx + 1) w2 _ w' last
        (lt_of_lt_of_le hthis hG12.others.1) (hG12.cfRange hcf) hI2 hL2
        (by
          intro j
          have := hrest (j + 1)
          rw [List.getElem?_cons_succ] at this
          rw [this]
          congr 1
          omega) h
      exact ⟨hG12.grows_trans hG3, hL3⟩

theorem linkSame_finishBlock {G G' : LLVMDependenceGraph} {f BB node nodesBB : Nat}
    {insts : List Instruction} {r : Bool}
    (h : finishBlock G f BB insts node nodesBB = .ok (r, G')) : LinkSame G G' := by
  unfold finishBlock at h
  split at h
  · cases h; exact LinkSame.link_refl G
  · dsimp only at h
    split at h
    · cases h
    · rename_i G4 hG4
      have hfin : G' = G4.setLastNode nodesBB node := by
        split at h
        · cases h
        · cases h
        · cases h; rfl
      subst hfin
      split at hG4
      · rcases addExit_cases hG4 with ⟨e, eb, _, _, hG4eq⟩ | ⟨_, hG4eq⟩
        · subst hG4eq
          exact LinkSame.link_of_fields rfl rfl rfl
        · subst hG4eq
          exact (linkSame_newNode G (Value.phonyReturn f BB)).link_trans
            (LinkSame.link_of_fields rfl rfl rfl)
      · cases hG4
        exact LinkSame.link_of_fields rfl rfl rfl

/-- A step that registers no instruction of `f` and keeps the subgraphs of the
registered nodes keeps the links of the call sites. -/
theorem LinkInv.link_transfer {m : Module} {cf : Nat → Option Nat} {f : Nat}
    {G G' : LLVMDependenceGraph} (h : LinkInv m cf f G) (hI : CallSiteInv m f G)
    (hnodes : ∀ k n, G'.nodes k = some n →
      G.nodes k = some n ∨ ∃ f' b', k = Value.phonyReturn f' b')
    (hs : ∀ n, n < G.numNodes → G'.subgraphs n = G.subgraphs n) : LinkInv m cf f G' := by
  intro BB i cv g args n hi hg hn
  rcases hnodes _ n hn with h1 | ⟨f', b', h1⟩
  · obtain ⟨sub, c1, c2⟩ := h BB i cv g args n hi hg h1
    exact ⟨sub, c1, by rw [hs n (hI.nodes_range _ n h1), c2]⟩
  · cases h1

theorem buildBlock_grows {build : World → Nat → Nat → Result (Bool × World)} {m : Module}
    (hk : KeepsOthers build) (hB : BuildSpec m build) {w w' : World} {this f BB : Nat}
    {pred : Option Nat} {r : Bool} (hthis : this < w.numGraphs) (hcf : w.CfRange)
    (hI : CallSiteInv m f (w.graph this))
    (hL : LinkInv m w.constructedFunctions f (w.graph this))
    (h : buildBlock build m w this f BB pred = .ok (r, w')) :
    Grows m w w' this ∧ LinkInv m w'.constructedFunctions f (w'.graph this) := by
  unfold buildBlock at h
  split at h
  · cases h
  · rename_i first rest hblock
    split at h
    · cases h
    · rename_i predBB _
      dsimp only at h
      split at h
      · cases h
      · rename_i w2 hc
        have na := nodeAdded_startBlock (w.graph this) f BB predBB
        have hg1 : (w.modify this (fun G => startBlock G f BB predBB)).graph this =
            startBlock (w.graph this) f BB predBB := World.modify_graph_self _ _ _
        have hthis1 : this < (w.modify this (fun G => startBlock G f BB predBB)).numGraphs :=
          hthis
        have hG1 := Grows.grows_modify m w this (fun G => startBlock G f BB predBB) hthis
          na.linkSame
        have hfirst0 : (m.block f BB)[0]? = some first := by rw [hblock]; simp
        rw [← hg1] at na
        obtain ⟨hG2, hL2⟩ := LinkInv.link_step hk hB hc hfirst0 hthis1 hcf na hI hL
        have hI2 : CallSiteInv m f (w2.graph this) :=
          hI.call_step hk hthis1 hfirst0 na.numNodes_eq na.nodes_eq na.firstNode_old
            na.callSites_old na.subgraphs_eq na.parameters_eq na.subgraphs_new na.parameters_new
            hc
        have hG12 := hG1.grows_trans hG2
        have hthis2 : this < w2.numGraphs := lt_of_lt_of_le hthis hG12.others.1
        split at h
        · cases h
        · rename_i w3 last hi
          have hrest : ∀ j, rest[j]? = (m.block f BB)[1 + j]? := by
            intro j
            rw [hblock, Nat.add_comm, List.getElem?_cons_succ]
          obtain ⟨hG3, hL3⟩ := buildInstructions_grows hk hB this f BB _ _ _ _ _ _ hthis2
            (hG12.cfRange hcf) hI2 hL2 hrest hi
          obtain ⟨_, hI3⟩ := buildInstructions_kept hk m this f BB (w2.graph this) _ _ _ _ _ _
            hthis2 (Kept.kept_refl _) hI2 hrest hi
          have hG13 := hG12.grows_trans hG3
          split at h
          · cases h
          · rename_i r' G hfin
            cases h
            have hG4 := Grows.grows_modify m w3 this (fun _ => G)
              (lt_of_lt_of_le hthis hG13.others.1) (linkSame_finishBlock hfin)
            refine ⟨hG13.grows_trans hG4, ?_⟩
            rw [World.modify_graph_self]
            obtain ⟨_, f2, _, _, _, _, _, f7, _⟩ := finishBlock_fields hfin
            refine hL3.link_transfer hI3 ?_ f2
            intro k n hkn
            rcases f7 k n hkn with h1 | ⟨_, h2⟩
            · exact Or.inl h1
            · exact Or.inr h2

theorem buildLoop_grows {build : World → Nat → Nat → Result (Bool × World)} {m : Module}
    (hk : KeepsOthers build) (hB : BuildSpec m build) (this f : Nat) :
    ∀ (fuel : Nat) (WQ : List (Nat × Option Nat)) (processedBB : List Nat) (w w' : World),
      this < w.numGraphs → w.CfRange → CallSiteInv m f (w.graph this) →
      LinkInv m w.constructedFunctions f (w.graph this) →
      buildLoop build m this f fuel WQ processedBB w = .ok w' →
      Grows m w w' this ∧ LinkInv m w'.constructedFunctions f (w'.graph this) := by
  intro fuel
  induction fuel with
  | zero =>
    intro WQ processedBB w w' hthis _ _ hL h
    simp only [buildLoop] at h
    split at h
    · cases h; exact ⟨Grows.grows_refl m w this hthis, hL⟩
    · cases h
  | succ k ih =>
    intro WQ processedBB w w' hthis hcf hI hL h
    simp only [buildLoop] at h
    split at h
    · cases h; exact ⟨Grows.grows_refl m w this hthis, hL⟩
    · split at h
      · cases h
      · rename_i r w1 hb
        obtain ⟨hG1, hL1⟩ := buildBlock_grows hk hB hthis hcf hI hL hb
        obtain ⟨_, hI1⟩ := buildBlock_kept hk hthis hI hb
        have hthis1 : this < w1.numGraphs := lt_of_lt_of_le hthis hG1.others.1
        split at h
        · cases h
        · rename_i WQ2 processedBB2 G hp
          obtain ⟨p1, p2, p3, _, p5, _, p7, p8, _, _, p11⟩ :=
            processSuccessors_fields m this f _ _ _ _ _ _ _ _ hp
          have hG2 := Grows.grows_modify m w1 this (fun _ => G) hthis1
            (LinkSame.link_of_fields p11 p1 p2)
          have hIG : CallSiteInv m f G :=
            hI1.transfer (le_of_eq p1.symm) (fun k n hkn => Or.inl (by rw [p7] at hkn; exact hkn))
              (fun b n hb => Or.inl (by rw [p8] at hb; exact hb))
              (fun b x hx => by rw [p5] at hx; exact hx) (fun _ _ => by rw [p2])
              (fun _ _ => by rw [p3])
          have hLG : LinkInv m w1.constructedFunctions f G :=
            hL1.link_transfer hI1 (fun k n hkn => Or.inl (by rw [p7] at hkn; exact hkn))
              (fun _ _ => by rw [p2])
          have hG12 := hG1.grows_trans hG2
          obtain ⟨hG3, hL3⟩ := ih _ _ (w1.modify this (fun _ => G)) w'
            (by simpa using hthis1) (hG12.cfRange hcf)
            (by rw [World.modify_graph_self]; exact hIG)
            (by rw [World.modify_graph_self]; exact hLG) h
          exact ⟨hG12.grows_trans hG3, hL3⟩

theorem linkSame_startFunction (G : LLVMDependenceGraph) (f : Nat) :
    LinkSame G (startFunction G f) :=
  (linkSame_newNode G (Value.function f)).link_trans (LinkSame.link_of_fields rfl rfl rfl)

theorem linkSame_finishFunction {m : Module} {G G' : LLVMDependenceGraph} {entry : Nat}
    (h : finishFunction m G entry = .ok G') : LinkSame G G' := by
  unfold finishFunction at h
  split at h
  · cases h
  · split at h
    · cases h
    · split at h
      · cases h
      · split at h
        · cases h
        · split at h
          · cases h
          · rename_i first _
            unfold addFormalParameters at h
            split at h
            · cases h
            · split at h
              · split at h
                · cases h
                  exact LinkSame.link_of_fields rfl rfl rfl
                · cases h
                  refine (LinkSame.link_of_fields rfl rfl rfl :
                    LinkSame G (G.addControlDependence entry first)).link_trans ?_
                  exact (linkSame_addParameterNodes _ _ _ []).link_trans
                    (LinkSame.link_of_fields rfl rfl rfl)
              · cases h

theorem linkInv_startFunction (m : Module) (cf : Nat → Option Nat) (f : Nat) :
    LinkInv m cf f (startFunction LLVMDependenceGraph.new f) := by
  intro BB i cv g args n _ _ hn
  simp [startFunction, LLVMDependenceGraph.addNode, LLVMDependenceGraph.newNode,
    LLVMDependenceGraph.new, mapInsert] at hn

theorem Finished.finished_modify_other {m : Module} {w : World} {h x this : Nat}
    (hF : Finished m w h x) (hne : h ≠ this) (F : LLVMDependenceGraph → LLVMDependenceGraph) :
    Finished m (w.modify this F) h x :=
  hF.finished_of_same (by rw [World.modify_graph_other _ _ _ _ hne]; exact rfl)
    (fun _ _ hx => hx)

/-- `build(func)` does what is taken for granted of its calls on subgraphs, if
these calls do. -/
theorem buildFunction_spec {build : World → Nat → Nat → Result (Bool × World)} {m : Module}
    (hk : KeepsOthers build) (hB : BuildSpec m build) (fuel : Nat) :
    BuildSpec m (buildFunction build m fuel) := by
  intro w this f r w' hthis hcf hnew h
  have hothers := buildFunction_others hk m fuel w this f r w' hthis h
  unfold buildFunction at h
  split at h
  · cases h
    refine ⟨hothers, fun _ => rfl, fun _ _ hx => hx, ?_, ?_, ?_⟩
    · intro x s h1 h2
      rw [h1] at h2
      cases h2
    · intro s h1 h2
      omega
    · intro hr
      cases hr
  · dsimp only at h
    split at h
    · cases h
    · rename_i w3 hl
      split at h
      · cases h
      · rename_i G hfin
        cases h
        have hg2 : ((w.modify this (fun G => startFunction G f)).insertConstructed f
            this).graph this = startFunction LLVMDependenceGraph.new f := by
          show (w.modify this (fun G => startFunction G f)).graph this = _
          rw [World.modify_graph_self, hnew]
        have hthis2 : this < ((w.modify this (fun G => startFunction G f)).insertConstructed
            f this).numGraphs := hthis
        have hcf2 : ((w.modify this (fun G => startFunction G f)).insertConstructed f
            this).CfRange := by
          intro x s hx
          show s < w.numGraphs
          simp only [World.insertConstructed] at hx
          split at hx
          · rename_i hxf
            split at hx
            · rename_i g hg
              cases hx
              exact hcf f _ hg
            · cases hx
              exact hthis
          · exact hcf x s hx
        have hcfold : ∀ x s, w.constructedFunctions x = some s →
            ((w.modify this (fun G => startFunction G f)).insertConstructed f
              this).constructedFunctions x = some s := by
          intro x s hx
          simp only [World.insertConstructed]
          split
          · rename_i hxf
            subst hxf
            show (match w.constructedFunctions x with
              | some g => some g
              | none => some this) = some s
            rw [hx]
          · exact hx
        have hI2 : CallSiteInv m f (((w.modify this (fun G => startFunction G f)).insertConstructed
            f this).graph this) := by
          rw [hg2]; exact callSiteInv_startFunction m f
        obtain ⟨hG3, hL3⟩ := buildLoop_grows hk hB this f fuel _ _ _ w3 hthis2 hcf2 hI2
          (by rw [hg2]; exact linkInv_startFunction m _ f) hl
        obtain ⟨hK3, hI3⟩ := buildLoop_kept hk m this f fuel _ _ _ w3 hthis2 hI2 hl
        obtain ⟨_, hE3⟩ := buildLoop_ext hk m this f fuel _ _ _ w3 hthis2 hl
        obtain ⟨P, hW3⟩ := buildLoop_work hk m this f fuel _ _ _ w3 hthis2
          (by rw [hg2]; exact workInv_startFunction m f) hl
        rw [hg2] at hK3 hE3
        have hthis3 : this < w3.numGraphs := lt_of_lt_of_le hthis2 hG3.others.1
        have hF := frame_finishFunction hfin
        obtain ⟨c1, c2, c3, _⟩ := finishFunction_call_fields hfin
        have hfinished : ∀ s x, s ≠ this → Finished m w3 s x →
            Finished m (w3.modify this (fun _ => G)) s x :=
          fun s x hne hF' => hF'.finished_modify_other hne _
        refine ⟨hothers, ?_, ?_, ?_, ?_, ?_⟩
        · intro g
          rw [World.excess_modify w3 this (fun _ => G) (linkSame_finishFunction hfin) g,
            hG3.balanced g]
          have e1 : World.excess ((w.modify this (fun G => startFunction G f)).insertConstructed
              f this) g = (w.modify this (fun G => startFunction G f)).excess g := rfl
          rw [e1, World.excess_modify w this _ (linkSame_startFunction _ f) g]
        · intro x s hx
          exact hG3.cf_mono x s (hcfold x s hx)
        · intro x s hx hx'
          have hx3 : w3.constructedFunctions x = some s := hx'
          by_cases hxf : x = f
          · subst hxf
            left
            have h2 : ((w.modify this (fun G => startFunction G x)).insertConstructed x
                this).constructedFunctions x = some this := by
              simp only [World.insertConstructed, if_true]
              show (match w.constructedFunctions x with
                | some g => some g
                | none => some this) = some this
              rw [hx]
            have := hG3.cf_mono x this h2
            rw [this] at hx3
            injection hx3 with hh
            exact ⟨rfl, hh.symm⟩
          · right
            have h2 : ((w.modify this (fun G => startFunction G f)).insertConstructed f
                this).constructedFunctions x = none := by
              simp only [World.insertConstructed, hxf, if_false]
              exact hx
            obtain ⟨a, b, c⟩ := hG3.cf_new x s h2 hx3
            have a' : w.numGraphs ≤ s := a
            exact ⟨a', b, hfinished s x (by omega) c⟩
        · intro s h1 h2
          obtain ⟨x, hx⟩ := hG3.new_done s h1 h2
          exact ⟨x, hfinished s x (by omega) hx⟩
        · intro _ hor
          have hcfthis : w3.constructedFunctions f = some this := by
            refine hG3.cf_mono f this ?_
            simp only [World.insertConstructed, if_true]
            show (match w.constructedFunctions f with
              | some g => some g
              | none => some this) = some this
            rcases hor with h0 | h0 <;> rw [h0]
          have hpos : 0 < (startFunction LLVMDependenceGraph.new f).numNodes := by
            simp [startFunction, LLVMDependenceGraph.addNode, LLVMDependenceGraph.newNode,
              LLVMDependenceGraph.new]
          refine
            { graphOf := ?_
              constructed := hcfthis
              links := ?_
              calls := ?_
              built := ?_ }
          · refine ⟨0, ?_, ?_⟩
            · rw [World.modify_graph_self, hF.entryNode_eq, hK3.entryNode_eq]; rfl
            · rw [World.modify_graph_self,
                hF.ext.key_eq 0 (lt_of_lt_of_le hpos hE3.numNodes_le), hE3.key_eq 0 hpos]
              simp [startFunction, LLVMDependenceGraph.addNode, LLVMDependenceGraph.newNode,
                LLVMDependenceGraph.new]
          · rw [World.modify_graph_self]
            exact hL3.link_transfer hI3 (fun k n hkn => Or.inl (by rw [hF.nodes_eq] at hkn; exact hkn))
              c1
          · rw [World.modify_graph_self]
            exact hI3.transfer hF.ext.numNodes_le
              (fun k n hkn => Or.inl (by rw [hF.nodes_eq] at hkn; exact hkn))
              (fun b n hb => Or.inl (by rw [hF.firstNode_eq] at hb; exact hb))
              (fun b x hx => by rw [c3] at hx; exact hx) c1 c2
          · intro BB hr
            rw [World.modify_graph_self]
            exact (hW3.reachable_built hr).built_mono
              (fun k n hkn => by rw [hF.nodes_eq]; exact hkn)

/-- `build(func)`, with whatever fuel, does what is taken for granted of it. -/
theorem build_spec (m : Module) : ∀ fuel : Nat, BuildSpec m (build m fuel) := by
  intro fuel
  induction fuel with
  | zero => intro w this f r w' _ _ _ h; cases h
  | succ k ih => exact buildFunction_spec (build_keepsOthers m k) ih (k + 1)

/-! ## The graphs of a module -/

theorem excess_initial (g : Nat) : World.initial.excess g = if g = 0 then 1 else 0 := by
  unfold World.excess World.refs World.links
  by_cases hg : g = 0
  · subst hg
    rfl
  · have : ¬ g < World.initial.numGraphs := by
      show ¬ g < 1
      omega
    rw [if_neg this, if_neg hg]
    rfl

/-- The world after a module build: every entry of `constructedFunctions` is the
finished subgraph of its function, every graph is one, and the reference counts
exceed the links by the one reference on the graph the build started on. -/
theorem build_world {m : Module} {fuel f : Nat} {w' : World}
    (h : build m fuel World.initial 0 f = .ok (true, w')) :
    0 < w'.numGraphs ∧
      (∀ x s, w'.constructedFunctions x = some s → s < w'.numGraphs ∧ Finished m w' s x) ∧
      (∀ s, s < w'.numGraphs → ∃ x, Finished m w' s x) ∧
      (∀ g, w'.excess g = if g = 0 then 1 else 0) := by
  have hcf0 : World.initial.CfRange := by
    intro x s hx
    cases hx
  obtain ⟨b1, b2, _, b4, b5, b6⟩ := build_spec m fuel World.initial 0 f true w' (by decide) hcf0
    rfl h
  have h0 : Finished m w' 0 f := b6 rfl (Or.inl rfl)
  have hn : 1 ≤ w'.numGraphs := b1.1
  refine ⟨hn, ?_, ?_, ?_⟩
  · intro x s hx
    rcases b4 x s rfl hx with ⟨hxf, hs⟩ | ⟨_, c2, c3⟩
    · subst hxf
      subst hs
      exact ⟨by omega, h0⟩
    · exact ⟨c2, c3⟩
  · intro s hs
    by_cases hs0 : s = 0
    · subst hs0
      exact ⟨f, h0⟩
    · exact b5 s (by show 1 ≤ s; omega) hs
  · intro g
    rw [b2 g, excess_initial]

/-- C13, amended.  Let the build of a module from entry function `f`, started
on a new graph (graph 0), return true.  Then every graph is the subgraph that
`constructedFunctions` holds for the function of its entry node; the registered
node of every call instruction whose directly called function has a body is
linked to exactly one subgraph, an allocated graph, the one of the called
function; the reference count of every graph other than graph 0 is the number of
nodes linked to it, and the reference count of graph 0 is one more than the
number of nodes linked to it. -/
theorem build_links_and_refcounts (m : Module) (fuel f : Nat) (w' : World)
    (h : build m fuel World.initial 0 f = .ok (true, w')) :
    (∀ s, s < w'.numGraphs → ∃ x, w'.constructedFunctions x = some s ∧ w'.GraphOf s x) ∧
    (∀ x s, w'.constructedFunctions x = some s →
      ∀ BB i calledValue g args n,
        (m.block x BB)[i]? = some (Instruction.call calledValue (some g) args) →
        (m.function g).blocks.length ≠ 0 →
        (w'.graph s).getNode (Value.instruction x BB i) = some n →
        ∃ sub, w'.constructedFunctions g = some sub ∧ sub < w'.numGraphs ∧
          w'.GraphOf sub g ∧ (w'.graph s).subgraphs n = [sub]) ∧
    (∀ g, 0 < g → g < w'.numGraphs → (w'.graph g).refcount = (w'.links g : Int)) ∧
    (w'.graph 0).refcount = (w'.links 0 : Int) + 1 := by
  obtain ⟨hlt0, h1, h2, h3⟩ := build_world h
  refine ⟨?_, ?_, ?_, ?_⟩
  · intro s hs
    obtain ⟨x, hx⟩ := h2 s hs
    exact ⟨x, hx.constructed, hx.graphOf⟩
  · intro x s hx BB i cv g args n hi hg hn
    obtain ⟨sub, c1, c2⟩ := (h1 x s hx).2.links BB i cv g args n hi hg hn
    exact ⟨sub, c1, (h1 g sub c1).1, (h1 g sub c1).2.graphOf, c2⟩
  · intro g hg hlt
    have := h3 g
    unfold World.excess World.refs at this
    rw [if_pos hlt, if_neg (by omega)] at this
    omega
  · have := h3 0
    unfold World.excess World.refs at this
    rw [if_pos hlt0, if_pos rfl] at this
    omega

/-- The statement of `build_links_and_refcounts` on `callModule`, where `f`
calls `g` once: the call node is linked to the graph of `g`, graph 1, whose
reference count is 1. -/
theorem build_links_and_refcounts_witness :
    ∃ w', build callModule 5 World.initial 0 0 = .ok (true, w') ∧
      (∃ sub, w'.constructedFunctions 1 = some sub ∧ sub < w'.numGraphs ∧ w'.GraphOf sub 1 ∧
        (w'.graph 0).subgraphs 2 = [sub]) ∧
      (w'.graph 1).refcount = (w'.links 1 : Int) ∧ w'.links 1 = 1 ∧
      (w'.graph 0).refcount = (w'.links 0 : Int) + 1 := by
  refine ⟨_, rfl, ?_⟩
  have H := build_links_and_refcounts callModule 5 0 _ rfl
  exact ⟨H.2.1 0 0 rfl 0 1 _ 1 _ 2 rfl (by decide) rfl, H.2.2.1 1 (by decide) (by decide), rfl,
    H.2.2.2⟩

/-! ## Termination of the builder -/

theorem function_lt_of_blocks {m : Module} {g : Nat} (h : (m.function g).blocks.length ≠ 0) :
    g < m.functions.length := by
  by_contra hge
  apply h
  unfold Module.function
  rw [List.getD_eq_default _ _ (by omega)]
  rfl

theorem allSuccessors_le_loopBound (m : Module) (f : Nat) :
    (m.allSuccessors f).length + 1 ≤ m.loopBound := by
  unfold Module.loopBound Module.allSuccessors
  by_cases hf : f < m.functions.length
  · have hmem : ((m.function f).blocks.flatMap successors).length ∈
        m.functions.map (fun F => (F.blocks.flatMap successors).length) := by
      refine List.mem_map.2 ⟨m.function f, ?_, rfl⟩
      unfold Module.function
      rw [List.getD_eq_getElem _ _ hf]
      exact List.getElem_mem _
    have := List.single_le_sum (fun _ _ => Nat.zero_le _) _ hmem
    omega
  · have : (m.function f).blocks = [] := by
      unfold Module.function
      rw [List.getD_eq_default _ _ (by omega)]
    rw [this]
    simp

theorem filter_length_mono (p q : Nat → Bool) (l : List Nat)
    (h : ∀ i, i ∈ l → p i = true → q i = true) : (l.filter p).length ≤ (l.filter q).length := by
  induction l with
  | nil => simp
  | cons a t ih =>
    have iht := ih (fun i hi => h i (List.mem_cons_of_mem _ hi))
    have ha := h a (List.mem_cons_self _ _)
    simp only [List.filter_cons]
    cases hp : p a with
    | false =>
      cases hq : q a with
      | false => simpa using iht
      | true => simp; omega
    | true =>
      rw [ha hp]
      simpa using iht

theorem unconstructed_mono {m : Module} {w w' : World}
    (h : ∀ x s, w.constructedFunctions x = some s → w'.constructedFunctions x = some s) :
    w'.unconstructed m ≤ w.unconstructed m := by
  unfold World.unconstructed
  refine filter_length_mono _ _ _ ?_
  intro i _ hi
  cases hc : w.constructedFunctions i with
  | none => rfl
  | some s => rw [h i s hc] at hi; cases hi

theorem unconstructed_le (m : Module) (w : World) : w.unconstructed m ≤ m.functions.length := by
  unfold World.unconstructed
  have := List.length_filter_le (fun f => (w.constructedFunctions f).isNone)
    (List.range m.functions.length)
  simpa using this

theorem unconstructed_insert (m : Module) (w w1 : World) {g s : Nat}
    (hg : g < m.functions.length) (hnone : w.constructedFunctions g = none)
    (h1 : w1.constructedFunctions =
      fun x => if x = g then some s else w.constructedFunctions x) :
    w1.unconstructed m + 1 = w.unconstructed m := by
  unfold World.unconstructed
  rw [h1]
  symm
  refine filter_length_flip _ _ g _ hg ?_ (by simp) (by simp [hnone])
  intro i _ hne
  simp [hne]

theorem getSubgraph_terminates {build : World → Nat → Nat → Result (Bool × World)}
    {m : Module} {K : Nat} (hT : BuildTerminates m K build) {w : World} {callFunc : Nat}
    (hcf : w.CfRange) (hU : w.unconstructed m ≤ K)
    (hg : (m.function callFunc).blocks.length ≠ 0) :
    getSubgraph build w callFunc ≠ .error .outOfFuel := by
  intro hc
  unfold getSubgraph at hc
  split at hc
  · cases hc
  · rename_i hnone
    dsimp only at hc
    have hlt1 : w.numGraphs < ({ w.newGraph with
        constructedFunctions :=
          fun x => if x = callFunc then some w.numGraphs else w.constructedFunctions x }
        : World).numGraphs := by
      show w.numGraphs < w.numGraphs + 1
      omega
    have hcf1 : ({ w.newGraph with
        constructedFunctions :=
          fun x => if x = callFunc then some w.numGraphs else w.constructedFunctions x }
        : World).CfRange := by
      intro x s hx
      show s < w.numGraphs + 1
      simp only at hx
      split at hx
      · cases hx; omega
      · have := hcf x s hx; omega
    have hU1 := unconstructed_insert m w
      ({ w.newGraph with
        constructedFunctions :=
          fun x => if x = callFunc then some w.numGraphs else w.constructedFunctions x }
        : World) (function_lt_of_blocks hg) hnone rfl
    have := hT _ _ callFunc hlt1 hcf1 (by simp [World.newGraph]) (by omega)
    split at hc
    · rename_i e he
      cases hc
      exact this he
    · cases hc
    · cases hc

theorem handleCallSite_terminates {build : World → Nat → Nat → Result (Bool × World)}
    {m : Module} {K : Nat} (hT : BuildTerminates m K build) {w : World} {this node : Nat}
    {inst : Instruction} (hcf : w.CfRange) (hU : w.unconstructed m ≤ K) :
    handleCallSite build m w this node inst ≠ .error .outOfFuel := by
  intro hc
  unfold handleCallSite at hc
  split at hc
  · rename_i cv calledFunction args
    split at hc
    · rename_i e he
      cases hc
      unfold is_func_defined at he
      split at he
      · cases he
      · cases he
    · rename_i hdef
      unfold buildSubgraph at hc
      dsimp only at hc
      split at hc
      · cases hc
      · rename_i callFunc
        have hg : (m.function callFunc).blocks.length ≠ 0 := by
          simpa [is_func_defined] using hdef
        split at hc
        · rename_i e he
          cases hc
          exact getSubgraph_terminates hT hcf hU hg he
        · split at hc
          · cases hc
          · split at hc
            · rename_i e he
              cases hc
              unfold addActualParameters at he
              split at he
              · cases he
              · split at he
                · cases he
                · cases he
            · cases hc
    · cases hc
  · cases hc

theorem buildInstructions_terminates {build : World → Nat → Nat → Result (Bool × World)}
    {m : Module} {K : Nat} (hk : KeepsOthers build) (hB : BuildSpec m build)
    (hT : BuildTerminates m K build) (this f BB : Nat) :
    ∀ (rest : List Instruction) (idx : Nat) (w : World) (predNode : Nat),
      this < w.numGraphs → w.CfRange → CallSiteInv m f (w.graph this) →
      LinkInv m w.constructedFunctions f (w.graph this) →
      (∀ j, rest[j]? = (m.block f BB)[idx + j]?) → w.unconstructed m ≤ K →
      buildInstructions build m this f BB rest idx w predNode ≠ .error .outOfFuel := by
  intro rest
  induction rest with
  | nil =>
    intro idx w predNode _ _ _ _ _ _ h
    simp only [buildInstructions] at h
    cases h
  | cons inst rest ih =>
    intro idx w predNode hthis hcf hI hL hrest hU h
    simp only [buildInstructions] at h
    have hthis1 : this < (w.modify this (fun G =>
        (((G.newNode (Value.instruction f BB idx)).addNode (w.graph this).numNodes).setSuccessor
          predNode (w.graph this).numNodes))).numGraphs := hthis
    split at h
    · rename_i e he
      cases h
      exact handleCallSite_terminates hT (w := w.modify this _) hcf hU he
    · rename_i w2 hc
      have na := nodeAdded_linkNode (w.graph this) (Value.instruction f BB idx) predNode
      have hg1 : (w.modify this (fun G =>
          (((G.newNode (Value.instruction f BB idx)).addNode (w.graph this).numNodes).setSuccessor
            predNode (w.graph this).numNodes))).graph this =
          (((w.graph this).newNode (Value.instruction f BB idx)).addNode
            (w.graph this).numNodes).setSuccessor predNode (w.graph this).numNodes :=
        World.modify_graph_self _ _ _
      have hinst : (m.block f BB)[idx]? = some inst := by
        have := hrest 0
        simpa using this.symm
      rw [← hg1] at na
      obtain ⟨hG2, hL2⟩ := LinkInv.link_step hk hB hc hinst hthis1 hcf na hI hL
      have hI2 : CallSiteInv m f (w2.graph this) :=
        hI.call_step hk hthis1 hinst na.numNodes_eq na.nodes_eq na.firstNode_old
          na.callSites_old na.subgraphs_eq na.parameters_eq na.subgraphs_new na.parameters_new hc
      refine ih (idx + 1) w2 _ (lt_of_lt_of_le hthis1 hG2.others.1) (hG2.cfRange hcf) hI2 hL2
        ?_ (le_trans (unconstructed_mono hG2.cf_mono) hU) h
      intro j
      have := hrest (j + 1)
      rw [List.getElem?_cons_succ] at this
      rw [this]
      congr 1
      omega

theorem findPredBB_terminates (m : Module) (G : LLVMDependenceGraph) (f : Nat)
    (pred : Option Nat) : findPredBB m G f pred ≠ .error .outOfFuel := by
  intro h
  unfold findPredBB at h
  split at h
  · cases h
  · split at h
    · cases h
    · split at h
      · cases h
      · cases h

theorem finishBlock_terminates (G : LLVMDependenceGraph) (f BB : Nat)
    (insts : List Instruction) (node nodesBB : Nat) :
    finishBlock G f BB insts node nodesBB ≠ .error .outOfFuel := by
  intro h
  unfold finishBlock at h
  split at h
  · cases h
  · dsimp only at h
    split at h
    · rename_i e he
      cases h
      split at he
      · unfold addExit at he
        dsimp only at he
        split at he
        · cases he
        · cases he
      · cases he
    · split at h
      · cases h
      · cases h
      · cases h

theorem buildBlock_terminates {build : World → Nat → Nat → Result (Bool × World)}
    {m : Module} {K : Nat} (hk : KeepsOthers build) (hB : BuildSpec m build)
    (hT : BuildTerminates m K build) {w : World} {this f BB : Nat} {pred : Option Nat}
    (hthis : this < w.numGraphs) (hcf : w.CfRange) (hI : CallSiteInv m f (w.graph this))
    (hL : LinkInv m w.constructedFunctions f (w.graph this)) (hU : w.unconstructed m ≤ K) :
    buildBlock build m w this f BB pred ≠ .error .outOfFuel := by
  intro h
  unfold buildBlock at h
  split at h
  · cases h
  · rename_i first rest hblock
    split at h
    · rename_i e he
      cases h
      exact findPredBB_terminates m _ f pred he
    · rename_i predBB _
      dsimp only at h
      have hthis1 : this < (w.modify this (fun G => startBlock G f BB predBB)).numGraphs :=
        hthis
      split at h
      · rename_i e he
        cases h
        exact handleCallSite_terminates hT (w := w.modify this _) hcf hU he
      · rename_i w2 hc
        have na := nodeAdded_startBlock (w.graph this) f BB predBB
        have hg1 : (w.modify this (fun G => startBlock G f BB predBB)).graph this =
            startBlock (w.graph this) f BB predBB := World.modify_graph_self _ _ _
        have hfirst0 : (m.block f BB)[0]? = some first := by rw [hblock]; simp
        rw [← hg1] at na
        obtain ⟨hG2, hL2⟩ := LinkInv.link_step hk hB hc hfirst0 hthis1 hcf na hI hL
        have hI2 : CallSiteInv m f (w2.graph this) :=
          hI.call_step hk hthis1 hfirst0 na.numNodes_eq na.nodes_eq na.firstNode_old
            na.callSites_old na.subgraphs_eq na.parameters_eq na.subgraphs_new na.parameters_new
            hc
        split at h
        · rename_i e he
          cases h
          refine buildInstructions_terminates hk hB hT this f BB _ _ _ _
            (lt_of_lt_of_le hthis1 hG2.others.1) (hG2.cfRange hcf) hI2 hL2 ?_
            (le_trans (unconstructed_mono hG2.cf_mono) hU) he
          intro j
          rw [hblock, Nat.add_comm, List.getElem?_cons_succ]
        · split at h
          · rename_i e he
            cases h
            exact finishBlock_terminates _ _ _ _ _ _ he
          · cases h

theorem mem_allSuccessors {m : Module} {f BB : Nat} (hne : m.block f BB ≠ []) :
    ∀ s, s ∈ successors (m.block f BB) → s ∈ m.allSuccessors f := by
  intro s hs
  unfold Module.allSuccessors
  refine List.mem_flatMap.2 ⟨m.block f BB, ?_, hs⟩
  unfold Module.block at hne ⊢
  by_cases hlt : BB < (m.function f).blocks.length
  · rw [List.getD_eq_getElem _ _ hlt]
    exact List.getElem_mem _
  · rw [List.getD_eq_default _ _ (by omega)] at hne
    exact absurd rfl hne

theorem filter_length_lt (p q : Nat → Bool) (l : List Nat) (a : Nat) (ha : a ∈ l)
    (h : ∀ i, p i = true → q i = true) (hp : p a = false) (hq : q a = true) :
    (l.filter p).length < (l.filter q).length := by
  induction l with
  | nil => cases ha
  | cons b t ih =>
    simp only [List.filter_cons]
    by_cases hba : b = a
    · subst hba
      rw [hp, hq]
      have := filter_length_mono p q t (fun i _ hi => h i hi)
      simp only [Bool.false_eq_true, if_false, if_true, List.length_cons]
      omega
    · have hat : a ∈ t := by
        rcases List.mem_cons.1 ha with h0 | h0
        · exact absurd h0.symm hba
        · exact h0
      have iht := ih hat
      cases hpb : p b with
      | false =>
        cases hqb : q b with
        | false => simpa using iht
        | true =>
          simp only [Bool.false_eq_true, if_false, if_true, List.length_cons]
          omega
      | true =>
        rw [h b hpb]
        simpa using iht

/-- The successor loop of `build(func)` does not run out of fuel and does not
raise the bound on the iterations still to come. -/
theorem processSuccessors_measure (m : Module) (this f BB : Nat) :
    ∀ (succs : List Nat) (WQ : List (Nat × Option Nat)) (processedBB : List Nat)
      (G : LLVMDependenceGraph), (∀ s, s ∈ succs → s ∈ m.allSuccessors f) →
      processSuccessors m this f BB succs WQ processedBB G ≠ .error .outOfFuel ∧
      ∀ WQ' processedBB' G',
        processSuccessors m this f BB succs WQ processedBB G = .ok (WQ', processedBB', G') →
        workMeasure m f WQ' processedBB' ≤ workMeasure m f WQ processedBB := by
  intro succs
  induction succs with
  | nil =>
    intro WQ processedBB G _
    simp only [processSuccessors]
    refine ⟨fun h => (by cases h), ?_⟩
    intro WQ' P' G' h
    cases h
    exact le_refl _
  | cons S rest ih =>
    intro WQ processedBB G hsub
    have hsub' : ∀ s, s ∈ rest → s ∈ m.allSuccessors f :=
      fun s hs => hsub s (List.mem_cons_of_mem _ hs)
    simp only [processSuccessors]
    by_cases hS : S ∈ processedBB
    · rw [if_pos hS]
      cases h1 : G.getNode (Value.instruction f S 0) with
      | none => exact ⟨fun h => (by cases h), fun _ _ _ h => (by cases h)⟩
      | some ni =>
        dsimp only
        cases h2 : (terminatorKey m f BB).bind G.getNode with
        | none => exact ⟨fun h => (by cases h), fun _ _ _ h => (by cases h)⟩
        | some pi =>
          dsimp only
          cases h3 : G.basicBlock pi with
          | none => exact ⟨fun h => (by cases h), fun _ _ _ h => (by cases h)⟩
          | some ourBB =>
            dsimp only
            cases h4 : G.basicBlock ni with
            | none => exact ⟨fun h => (by cases h), fun _ _ _ h => (by cases h)⟩
            | some succBB =>
              dsimp only
              exact ih WQ processedBB _ hsub'
    · rw [if_neg hS]
      obtain ⟨i1, i2⟩ := ih ((S, some BB) :: WQ) (S :: processedBB) G hsub'
      refine ⟨i1, ?_⟩
      intro WQ' P' G' h
      refine le_trans (i2 WQ' P' G' h) ?_
      unfold workMeasure
      have hmem : S ∈ m.allSuccessors f := hsub S (List.mem_cons_self _ _)
      have hlt : ((m.allSuccessors f).filter (fun s => decide (s ∉ S :: processedBB))).length <
          ((m.allSuccessors f).filter (fun s => decide (s ∉ processedBB))).length := by
        refine filter_length_lt _ _ _ S hmem ?_ ?_ ?_
        · intro i hi
          simp only [List.mem_cons, not_or, decide_eq_true_eq] at hi ⊢
          exact hi.2
        · simp
        · simpa using hS
      simp only [List.length_cons]
      omega

theorem buildBlock_nonempty {build : World → Nat → Nat → Result (Bool × World)} {m : Module}
    {w w' : World} {this f BB : Nat} {pred : Option Nat} {r : Bool}
    (h : buildBlock build m w this f BB pred = .ok (r, w')) : m.block f BB ≠ [] := by
  intro hnil
  unfold buildBlock at h
  rw [hnil] at h
  cases h

theorem buildLoop_terminates {build : World → Nat → Nat → Result (Bool × World)} {m : Module}
    {K : Nat} (hk : KeepsOthers build) (hB : BuildSpec m build) (hT : BuildTerminates m K build)
    (this f : Nat) :
    ∀ (fuel : Nat) (WQ : List (Nat × Option Nat)) (processedBB : List Nat) (w : World),
      this < w.numGraphs → w.CfRange → CallSiteInv m f (w.graph this) →
      LinkInv m w.constructedFunctions f (w.graph this) → w.unconstructed m ≤ K →
      workMeasure m f WQ processedBB ≤ fuel →
      buildLoop build m this f fuel WQ processedBB w ≠ .error .outOfFuel := by
  intro fuel
  induction fuel with
  | zero =>
    intro WQ processedBB w _ _ _ _ _ hμ h
    have hWQ : WQ = [] := by
      unfold workMeasure at hμ
      have : WQ.length = 0 := by omega
      exact List.length_eq_zero.1 this
    subst hWQ
    simp [buildLoop] at h
  | succ k ih =>
    intro WQ processedBB w hthis hcf hI hL hU hμ h
    simp only [buildLoop] at h
    split at h
    · cases h
    · rename_i BB pred WQ1
      split at h
      · rename_i e he
        cases h
        exact buildBlock_terminates hk hB hT hthis hcf hI hL hU he
      · rename_i r w1 hb
        obtain ⟨hG1, hL1⟩ := buildBlock_grows hk hB hthis hcf hI hL hb
        obtain ⟨_, hI1⟩ := buildBlock_kept hk hthis hI hb
        have hthis1 : this < w1.numGraphs := lt_of_lt_of_le hthis hG1.others.1
        obtain ⟨q1, q2⟩ := processSuccessors_measure m this f BB (successors (m.block f BB)) WQ1
          processedBB (w1.graph this) (mem_allSuccessors (buildBlock_nonempty hb))
        split at h
        · rename_i e he
          cases h
          exact q1 he
        · rename_i WQ2 processedBB2 G hp
          obtain ⟨p1, p2, p3, _, p5, _, p7, p8, _, _, p11⟩ :=
            processSuccessors_fields m this f _ _ _ _ _ _ _ _ hp
          have hG2 := Grows.grows_modify m w1 this (fun _ => G) hthis1
            (LinkSame.link_of_fields p11 p1 p2)
          have hIG : CallSiteInv m f G :=
            hI1.transfer (le_of_eq p1.symm) (fun k n hkn => Or.inl (by rw [p7] at hkn; exact hkn))
              (fun b n hb => Or.inl (by rw [p8] at hb; exact hb))
              (fun b x hx => by rw [p5] at hx; exact hx) (fun _ _ => by rw [p2])
              (fun _ _ => by rw [p3])
          have hLG : LinkInv m w1.constructedFunctions f G :=
            hL1.link_transfer hI1 (fun k n hkn => Or.inl (by rw [p7] at hkn; exact hkn))
              (fun _ _ => by rw [p2])
          have hG12 := hG1.grows_trans hG2
          have hμ2 := q2 WQ2 processedBB2 G hp
          refine ih WQ2 processedBB2 (w1.modify this (fun _ => G)) (by simpa using hthis1)
            (hG12.cfRange hcf) (by rw [World.modify_graph_self]; exact hIG)
            (by rw [World.modify_graph_self]; exact hLG)
            (le_trans (unconstructed_mono hG12.cf_mono) hU) ?_ h
          unfold workMeasure at hμ hμ2 ⊢
          simp only [List.length_cons] at hμ
          omega

theorem finishFunction_terminates (m : Module) (G : LLVMDependenceGraph) (entry : Nat) :
    finishFunction m G entry ≠ .error .outOfFuel := by
  intro h
  unfold finishFunction at h
  split at h
  · cases h
  · split at h
    · cases h
    · split at h
      · cases h
      · split at h
        · cases h
        · split at h
          · cases h
          · unfold addFormalParameters at h
            split at h
            · cases h
            · split at h
              · split at h
                · cases h
                · cases h
              · cases h

theorem insertConstructed_mono (w : World) (f this : Nat) :
    ∀ x s, w.constructedFunctions x = some s →
      (w.insertConstructed f this).constructedFunctions x = some s := by
  intro x s hx
  simp only [World.insertConstructed]
  split
  · rename_i hxf
    subst hxf
    show (match w.constructedFunctions x with
      | some g => some g
      | none => some this) = some s
    rw [hx]
  · exact hx

theorem insertConstructed_cfRange (w : World) (f this : Nat) (hcf : w.CfRange)
    (hthis : this < w.numGraphs) : (w.insertConstructed f this).CfRange := by
  intro x s hx
  show s < w.numGraphs
  simp only [World.insertConstructed] at hx
  split at hx
  · split at hx
    · rename_i g hg
      cases hx
      exact hcf f _ hg
    · cases hx
      exact hthis
  · exact hcf x s hx

theorem buildFunction_terminates {build : World → Nat → Nat → Result (Bool × World)}
    {m : Module} {K : Nat} (hk : KeepsOthers build) (hB : BuildSpec m build)
    (hT : BuildTerminates m K build) (fuel : Nat) {w : World} {this f : Nat}
    (hthis : this < w.numGraphs) (hcf : w.CfRange)
    (hnew : w.graph this = LLVMDependenceGraph.new) (hU : w.unconstructed m ≤ K)
    (hfuel : (m.allSuccessors f).length + 1 ≤ fuel) :
    buildFunction build m fuel w this f ≠ .error .outOfFuel := by
  intro h
  unfold buildFunction at h
  split at h
  · cases h
  · dsimp only at h
    have hg2 : ((w.modify this (fun G => startFunction G f)).insertConstructed f
        this).graph this = startFunction LLVMDependenceGraph.new f := by
      show (w.modify this (fun G => startFunction G f)).graph this = _
      rw [World.modify_graph_self, hnew]
    have hthis2 : this < ((w.modify this (fun G => startFunction G f)).insertConstructed
        f this).numGraphs := hthis
    split at h
    · rename_i e he
      cases h
      refine buildLoop_terminates hk hB hT this f fuel _ _ _ hthis2
        (insertConstructed_cfRange _ f this hcf hthis)
        (by rw [hg2]; exact callSiteInv_startFunction m f)
        (by rw [hg2]; exact linkInv_startFunction m _ f)
        (le_trans (unconstructed_mono (insertConstructed_mono _ f this)) hU) ?_ he
      unfold workMeasure
      have := List.length_filter_le (fun s => decide (s ∉ ([] : List Nat))) (m.allSuccessors f)
      simp only [List.length_cons, List.length_nil]
      omega
    · split at h
      · rename_i e he
        cases h
        exact finishFunction_terminates m _ _ he
      · cases h

/-- With fuel for the loops of every function and for one nested call per
function without subgraph, `build(func)` on a new graph does not run out of
fuel. -/
theorem build_terminates (m : Module) :
    ∀ (k : Nat) (w : World) (this f : Nat), this < w.numGraphs → w.CfRange →
      w.graph this = LLVMDependenceGraph.new → m.loopBound + w.unconstructed m ≤ k →
      build m k w this f ≠ .error .outOfFuel := by
  intro k
  induction k with
  | zero =>
    intro w this f _ _ _ hb
    unfold Module.loopBound at hb
    omega
  | succ k ih =>
    intro w this f hthis hcf hnew hb
    have hT : BuildTerminates m (k + 1 - m.loopBound) (build m k) := by
      intro w1 this1 f1 h1 h2 h3 h4
      exact ih w1 this1 f1 h1 h2 h3 (by omega)
    have hl := allSuccessors_le_loopBound m f
    exact buildFunction_terminates (build_keepsOthers m k) (build_spec m k) hT (k + 1) hthis hcf
      hnew (by omega) (by omega)

/-- C14.  Let the build of a module from entry function `f`, started on a new
graph, return true.  Then every function with a body that is reachable from `f`
through direct calls has a subgraph in `constructedFunctions`; the subgraph of a
function is an allocated graph whose entry node is keyed by the function, and it
is the only such graph; the registered node of every call instruction whose
directly called function has a body, in whatever graph, is linked to exactly
one subgraph, the one of the called function, also when that function is the
caller itself or one of its callers.  And the build ends: with fuel from
`fuelBound` on, no run started on a new graph runs out of fuel. -/
theorem build_one_subgraph_per_function (m : Module) (fuel f : Nat) (w' : World)
    (h : build m fuel World.initial 0 f = .ok (true, w')) :
    (∀ g, CallReach m f g → ∃ s, w'.constructedFunctions g = some s) ∧
    (∀ g s, w'.constructedFunctions g = some s → s < w'.numGraphs ∧ w'.GraphOf s g) ∧
    (∀ g s, s < w'.numGraphs → w'.GraphOf s g → w'.constructedFunctions g = some s) ∧
    (∀ x s, w'.constructedFunctions x = some s →
      ∀ BB i calledValue g args n,
        (m.block x BB)[i]? = some (Instruction.call calledValue (some g) args) →
        (m.function g).blocks.length ≠ 0 →
        (w'.graph s).getNode (Value.instruction x BB i) = some n →
        ∃ sub, w'.constructedFunctions g = some sub ∧ (w'.graph s).subgraphs n = [sub]) ∧
    (∀ fuel', m.fuelBound ≤ fuel' →
      build m fuel' World.initial 0 f ≠ .error .outOfFuel) := by
  obtain ⟨_, h1, h2, _⟩ := build_world h
  have hf : w'.constructedFunctions f = some 0 := by
    have hcf0 : World.initial.CfRange := by
      intro x s hx
      cases hx
    exact ((build_spec m fuel World.initial 0 f true w' (by decide) hcf0 rfl h).2.2.2.2.2 rfl
      (Or.inl rfl)).constructed
  refine ⟨?_, ?_, ?_, ?_, ?_⟩
  · intro g hg
    induction hg with
    | entry => exact ⟨0, hf⟩
    | @call x g' BB i cv args _ hr hi hdef ih =>
      obtain ⟨s, hs⟩ := ih
      have hfin := (h1 x s hs).2
      have hlt : i < (m.block x BB).length := by
        by_contra hge
        rw [List.getElem?_eq_none (by omega)] at hi
        cases hi
      obtain ⟨n, hn⟩ := hfin.built BB hr i hlt
      obtain ⟨sub, c1, _⟩ := hfin.links BB i cv g' args n hi hdef hn
      exact ⟨sub, c1⟩
  · intro g s hgs
    exact ⟨(h1 g s hgs).1, (h1 g s hgs).2.graphOf⟩
  · intro g s hs hG
    obtain ⟨x, hx⟩ := h2 s hs
    obtain ⟨e, he1, he2⟩ := hG
    obtain ⟨e', he1', he2'⟩ := hx.graphOf
    rw [he1] at he1'
    injection he1' with hee
    subst hee
    rw [he2] at he2'
    injection he2' with hgx
    rw [hgx]
    exact hx.constructed
  · intro x s hx BB i cv g args n hi hg hn
    exact (h1 x s hx).2.links BB i cv g args n hi hg hn
  · intro fuel' hfuel
    refine build_terminates m fuel' World.initial 0 f (by decide) ?_ rfl ?_
    · intro x s hx
      cases hx
    · have := unconstructed_le m World.initial
      unfold Module.fuelBound at hfuel
      omega

/-- The statement of `build_one_subgraph_per_function` on
`mutualRecursionModule`: two graphs, graph 1 for `g`; the call of `f` in `g`
is linked to graph 0, which is still under construction when the call is
handled, and the call of `g` in `g` to graph 1 itself. -/
theorem build_one_subgraph_per_function_witness :
    ∃ w', build mutualRecursionModule 5 World.initial 0 0 = .ok (true, w') ∧
      w'.numGraphs = 2 ∧
      (∃ s, w'.constructedFunctions 1 = some s) ∧
      (1 < w'.numGraphs ∧ w'.GraphOf 1 1) ∧
      (∃ sub, w'.constructedFunctions 0 = some sub ∧ (w'.graph 1).subgraphs 1 = [sub]) ∧
      (∃ sub, w'.constructedFunctions 1 = some sub ∧ (w'.graph 1).subgraphs 2 = [sub]) ∧
      (w'.graph 1).subgraphs 1 = [0] ∧ (w'.graph 1).subgraphs 2 = [1] ∧
      mutualRecursionModule.fuelBound ≤ 5 ∧
      build mutualRecursionModule 5 World.initial 0 0 ≠ .error .outOfFuel := by
  refine ⟨_, rfl, rfl, ?_⟩
  have H := build_one_subgraph_per_function mutualRecursionModule 5 0 _ rfl
  refine ⟨?_, H.2.1 1 1 rfl, H.2.2.2.1 1 1 rfl 0 0 _ 0 _ 1 rfl (by decide) rfl,
    H.2.2.2.1 1 1 rfl 0 1 _ 1 _ 2 rfl (by decide) rfl, rfl, rfl, by decide,
    H.2.2.2.2 5 (by decide)⟩
  exact H.1 1 (@CallReach.call mutualRecursionModule 0 0 1 0 0 _ _ CallReach.entry
    analysis.Reachable.refl rfl (by decide))

/-! ## Names in the dump of the pointer state subgraph -/

namespace pssdump

theorem printNameLoop_eq (s : List Char) :
    ∀ i, printNameLoop s i =
      escapeQuotes (s.take (CROP_AT - i)) ++ (if CROP_AT - i < s.length then CROP_MARK else []) := by
  induction s with
  | nil => intro i; simp [printNameLoop, escapeQuotes]
  | cons c rest ih =>
    intro i
    unfold printNameLoop
    by_cases hi : i ≥ CROP_AT
    · have h0 : CROP_AT - i = 0 := by omega
      simp [hi, h0, escapeQuotes]
    · have h1 : CROP_AT - i = (CROP_AT - (i + 1)) + 1 := by omega
      rw [if_neg hi, ih (i + 1), h1, List.take_succ_cons]
      have h2 : (CROP_AT - (i + 1) + 1 < (c :: rest).length) ↔ (CROP_AT - (i + 1) < rest.length) := by
        simp
      by_cases hc : c = DQUOTE
      · simp only [hc, if_true, escapeQuotes, List.map_cons, List.flatten_cons, h2]
        simp
      · simp only [hc, if_false, escapeQuotes, List.map_cons, List.flatten_cons, h2]
        simp

/-- In an escaped name every double quote has a backslash right before it. -/
theorem escapeQuotes_quoted (s : List Char) :
    ∀ i, (escapeQuotes s)[i]? = some DQUOTE →
      0 < i ∧ (escapeQuotes s)[i - 1]? = some BACKSLASH := by
  induction s with
  | nil => intro i h; simp [escapeQuotes] at h
  | cons c rest ih =>
    intro i h
    have hb : BACKSLASH ≠ DQUOTE := by decide
    by_cases hc : c = DQUOTE
    · have e : escapeQuotes (c :: rest) = BACKSLASH :: DQUOTE :: escapeQuotes rest := by
        simp [escapeQuotes, hc]
      rw [e] at h ⊢
      match i, h with
      | 0, h => simp at h; exact absurd h hb
      | 1, _ => simp
      | k + 2, h =>
        simp only [List.getElem?_cons_succ] at h
        obtain ⟨h1, h2⟩ := ih k h
        refine ⟨by omega, ?_⟩
        obtain ⟨j, rfl⟩ : ∃ j, k = j + 1 := ⟨k - 1, by omega⟩
        simpa using h2
    · have e : escapeQuotes (c :: rest) = c :: escapeQuotes rest := by
        simp [escapeQuotes, hc]
      rw [e] at h ⊢
      match i, h with
      | 0, h => simp at h; exact absurd h hc
      | k + 1, h =>
        simp only [List.getElem?_cons_succ] at h
        obtain ⟨h1, h2⟩ := ih k h
        refine ⟨by omega, ?_⟩
        obtain ⟨j, rfl⟩ : ∃ j, k = j + 1 := ⟨k - 1, by omega⟩
        simpa using h2

/-- C22.  On a node whose name is `s` (the name of the node or, without one,
the text of its value), `printName` writes the first `min |s| 70` characters of
`s`, a backslash inserted before each double quote and every other character
copied, followed by the crop mark exactly when `|s| > 70`; at most 70
characters of the name are emitted, and every double quote of the output has a
backslash right before it. -/
theorem printName_crops_and_escapes (formatPointer : Nat → List Char)
    (print : Value → List Char) (node : PSSNodeView) (dot : Bool) (s : List Char)
    (hname : nameOf print node = some s) :
    printName formatPointer print node dot =
        escapeQuotes (s.take (min s.length 70)) ++ (if 70 < s.length then CROP_MARK else []) ∧
      (s.take (min s.length 70)).length ≤ 70 ∧
      ∀ i, (printName formatPointer print node dot)[i]? = some DQUOTE →
        0 < i ∧ (printName formatPointer print node dot)[i - 1]? = some BACKSLASH := by
  have hout : printName formatPointer print node dot =
      escapeQuotes (s.take (min s.length 70)) ++ (if 70 < s.length then CROP_MARK else []) := by
    unfold printName
    rw [hname]
    show printNameLoop s 0 = _
    rw [printNameLoop_eq]
    have : List.take (min s.length 70) s = List.take (CROP_AT - 0) s := by
      show _ = List.take 70 s
      by_cases h : s.length ≤ 70
      · rw [Nat.min_eq_left h, List.take_of_length_le h, List.take_of_length_le (le_refl _)]
      · rw [Nat.min_eq_right (by omega)]
    rw [this]
    rfl
  refine ⟨hout, by simp, ?_⟩
  intro i h
  rw [hout] at h ⊢
  by_cases hi : i < (escapeQuotes (s.take (min s.length 70))).length
  · rw [List.getElem?_append_left hi] at h
    obtain ⟨h1, h2⟩ := escapeQuotes_quoted _ i h
    refine ⟨h1, ?_⟩
    rw [List.getElem?_append_left (by omega)]
    exact h2
  · exfalso
    rw [List.getElem?_append_right (by omega)] at h
    split at h
    · have hm := List.getElem?_mem h
      revert hm
      decide
    · simp at h

/-- The statement of `printName_crops_and_escapes` on a node named `longName`:
the 69 letters `a`, a backslash and the double quote are written, then the crop
mark; the letter `b` is not. -/
theorem printName_crops_and_escapes_witness :
    nameOf (fun _ => []) ⟨0, some longName, none⟩ = some longName ∧
    printName (fun _ => []) (fun _ => []) ⟨0, some longName, none⟩ false =
      List.replicate 69 'a' ++ [BACKSLASH, DQUOTE] ++ CROP_MARK ∧
    printName (fun _ => []) (fun _ => []) ⟨0, some longName, none⟩ false =
        escapeQuotes (longName.take (min longName.length 70)) ++
          (if 70 < longName.length then CROP_MARK else []) ∧
      (longName.take (min longName.length 70)).length ≤ 70 ∧
      ∀ i, (printName (fun _ => []) (fun _ => []) ⟨0, some longName, none⟩ false)[i]?
          = some DQUOTE →
        0 < i ∧ (printName (fun _ => []) (fun _ => []) ⟨0, some longName, none⟩
          false)[i - 1]? = some BACKSLASH :=
  ⟨rfl, by decide,
    printName_crops_and_escapes (fun _ => []) (fun _ => []) ⟨0, some longName, none⟩
      false longName rfl⟩

end pssdump

/-! ## The node check of the dumper -/

namespace dgdump

theorem checkBlock_flag (N : LLVMNodes) (node : Nat) (val : Value) :
    (checkBlock N node val).1 = false ↔
      (N.getBasicBlock node ≠ none ∨ isFunction val = true) := by
  unfold checkBlock
  cases N.getBasicBlock node <;> cases isFunction val <;> simp

theorem checkSuccessor_flag (N : LLVMNodes) (node : Nat) (r : Bool × List String) :
    (checkSuccessor N node r).1 = false ↔
      (r.1 = false ∧ ∀ s, N.getSuccessor node = some s →
        N.getPredcessor s = some node ∧ N.getBasicBlock s = N.getBasicBlock node) := by
  unfold checkSuccessor
  cases hs : N.getSuccessor node with
  | none => simp
  | some s =>
    by_cases h1 : N.getPredcessor s = some node <;>
      by_cases h2 : N.getBasicBlock s = N.getBasicBlock node <;> simp [h1, h2]

theorem checkPredcessor_flag (N : LLVMNodes) (node : Nat) (r : Bool × List String) :
    (checkPredcessor N node r).1 = false ↔
      (r.1 = false ∧ ∀ p, N.getPredcessor node = some p →
        N.getSuccessor p = some node ∧ N.getBasicBlock p = N.getBasicBlock node) := by
  unfold checkPredcessor
  cases hs : N.getPredcessor node with
  | none => simp
  | some s =>
    by_cases h1 : N.getSuccessor s = some node <;>
      by_cases h2 : N.getBasicBlock s = N.getBasicBlock node <;> simp [h1, h2]

theorem checkValues_flag (m : Module) (getName : Nat → String) (print : Value → String)
    (N : LLVMNodes) (node : Nat) (val : Value) (r : Bool × List String) :
    (checkValues m getName print N node val r).1 = false ↔
      (r.1 = false ∧
        (N.hasUnknownValue node = true ∨ N.getMemoryObj node ≠ none ∨
          isAlloca m val = false)) := by
  unfold checkValues
  cases hu : N.hasUnknownValue node <;> cases hm : N.getMemoryObj node <;>
    cases ha : isAlloca m val <;> simp

/-- C30.  `checkNode` returns false for a node exactly when its key is not
null, it has a basic block or its key is a function, its successor (if any)
has the node as predecessor and lies in the same block, its predecessor (if
any) has the node as successor and lies in the same block, and it has an
unknown value, or a memory object, or is not an `alloca`.  In particular it
returns false for a node of a block whose links are consistent, whose
neighbours are in the same block and which is not an `alloca` lacking a memory
object. -/
theorem checkNode_false_iff (m : Module) (getName : Nat → String) (print : Value → String)
    (N : LLVMNodes) (node : Nat) :
    ((checkNode m getName print N node).1 = false ↔
      ∃ val, N.getKey node = some val ∧
        (N.getBasicBlock node ≠ none ∨ isFunction val = true) ∧
        (∀ s, N.getSuccessor node = some s →
          N.getPredcessor s = some node ∧ N.getBasicBlock s = N.getBasicBlock node) ∧
        (∀ p, N.getPredcessor node = some p →
          N.getSuccessor p = some node ∧ N.getBasicBlock p = N.getBasicBlock node) ∧
        (N.hasUnknownValue node = true ∨ N.getMemoryObj node ≠ none ∨ isAlloca m val = false)) ∧
    (∀ val B, N.getKey node = some val → N.getBasicBlock node = some B →
      (∀ s, N.getSuccessor node = some s →
        N.getPredcessor s = some node ∧ N.getBasicBlock s = some B) →
      (∀ p, N.getPredcessor node = some p →
        N.getSuccessor p = some node ∧ N.getBasicBlock p = some B) →
      ¬ (isAlloca m val = true ∧ N.getMemoryObj node = none) →
      (checkNode m getName print N node).1 = false) := by
  have main : (checkNode m getName print N node).1 = false ↔
      ∃ val, N.getKey node = some val ∧
        (N.getBasicBlock node ≠ none ∨ isFunction val = true) ∧
        (∀ s, N.getSuccessor node = some s →
          N.getPredcessor s = some node ∧ N.getBasicBlock s = N.getBasicBlock node) ∧
        (∀ p, N.getPredcessor node = some p →
          N.getSuccessor p = some node ∧ N.getBasicBlock p = N.getBasicBlock node) ∧
        (N.hasUnknownValue node = true ∨ N.getMemoryObj node ≠ none ∨
          isAlloca m val = false) := by
    unfold checkNode
    cases hk : N.getKey node with
    | none => simp
    | some val =>
      simp only [checkValues_flag, checkPredcessor_flag, checkSuccessor_flag, checkBlock_flag]
      constructor
      · rintro ⟨⟨⟨h1, h2⟩, h3⟩, h4⟩
        exact ⟨val, rfl, h1, h2, h3, h4⟩
      · rintro ⟨v, hv, h1, h2, h3, h4⟩
        cases hv
        exact ⟨⟨⟨h1, h2⟩, h3⟩, h4⟩
  refine ⟨main, ?_⟩
  intro val B hk hb hs hp ha
  rw [main]
  refine ⟨val, hk, Or.inl (by simp [hb]), ?_, ?_, ?_⟩
  · intro s h; rw [hb]; exact hs s h
  · intro p h; rw [hb]; exact hp p h
  · cases hm : N.getMemoryObj node with
    | some _ => exact Or.inr (Or.inl (by simp))
    | none =>
      refine Or.inr (Or.inr ?_)
      cases hal : isAlloca m val with
      | false => rfl
      | true => exact absurd ⟨hal, hm⟩ ha

/-- The statement of `checkNode_false_iff` on the first node of the chain
`alloca; ret`: the check passes, and the node has every listed property. -/
theorem checkNode_false_iff_witness :
    (checkNode chainModule (fun _ => "f") (fun _ => "v") chainNodes 0).1 = false ∧
    ∃ val, chainNodes.getKey 0 = some val ∧
      (chainNodes.getBasicBlock 0 ≠ none ∨ isFunction val = true) ∧
      (∀ s, chainNodes.getSuccessor 0 = some s →
        chainNodes.getPredcessor s = some 0 ∧
          chainNodes.getBasicBlock s = chainNodes.getBasicBlock 0) ∧
      (∀ p, chainNodes.getPredcessor 0 = some p →
        chainNodes.getSuccessor p = some 0 ∧
          chainNodes.getBasicBlock p = chainNodes.getBasicBlock 0) ∧
      (chainNodes.hasUnknownValue 0 = true ∨ chainNodes.getMemoryObj 0 ≠ none ∨
        isAlloca chainModule val = false) :=
  have h : (checkNode chainModule (fun _ => "f") (fun _ => "v") chainNodes 0).1 = false :=
    (checkNode_false_iff chainModule (fun _ => "f") (fun _ => "v") chainNodes 0).2
      (Value.instruction 0 0 0) 0 rfl rfl
      (by intro s hs; simp [chainNodes] at hs; subst hs; simp [chainNodes])
      (by intro p hp; simp [chainNodes] at hp)
      (by simp [chainNodes])
  ⟨h, ((checkNode_false_iff chainModule (fun _ => "f") (fun _ => "v") chainNodes 0).1).1 h⟩

end dgdump

/-! ## One memory object per allocation site -/

namespace analysis

namespace pss

namespace PointsToFlowInsensitive

theorem allocationSite_of_refersTo (S : PSSHeap) (n a : Nat)
    (ha : isAllocationSite (S.getType a) = true) (h : RefersTo S n a) :
    allocationSite S n = .ok a := by
  unfold allocationSite
  rcases h with h | ⟨h1, h2⟩ | ⟨h1, off, h2⟩
  · subst h
    have h1 : ¬ (S.getType n = .CAST ∨ S.getType n = .GEP) := by
      rintro (h | h) <;> rw [h] at ha <;> exact absurd ha (by decide)
    have h2 : ¬ S.getType n = .CONSTANT := by
      intro h; rw [h] at ha; exact absurd ha (by decide)
    rw [if_neg h1, if_neg h2]
  · rw [if_pos h1, h2]
  · have h3 : ¬ (S.getType n = .CAST ∨ S.getType n = .GEP) := by
      rintro (h | h) <;> rw [h] at h1 <;> exact absurd h1 (by decide)
    rw [if_neg h3, if_pos h1, h2]

/-- C21.  For an allocation site `a` (tag `ALLOC`, `DYN_ALLOC` or
`UNKNOWN_MEM`) and every `n` that is `a`, a cast or GEP of `a`, or a constant
whose single pointer targets `a`, `getMemoryObjects` returns and appends exactly
one memory object to `objects`.  The object is the one in the data slot of `a`,
or a new one with back-reference `a` that the call stores there when the slot
is empty; it depends on neither `whereNode` nor `n`.  Nothing else changes, and
every later call for `a`, from any `whereNode` and any such `n`, appends the
same object and leaves the heap as it is. -/
theorem getMemoryObjects_one_object_per_site (S : PSSHeap) (a : Nat)
    (ha : isAllocationSite (S.getType a) = true) (whereNode n : Nat) (objects : List Nat)
    (hn : RefersTo S n a) :
    ∃ S1 mo, getMemoryObjects S whereNode n objects = .ok (S1, objects ++ [mo]) ∧
      mo = (S.data a).getD S.numObjects ∧
      S1.data a = some mo ∧
      (S.data a ≠ none → S1 = S) ∧
      (S.data a = none → S1.numObjects = S.numObjects + 1 ∧ S1.objNode mo = a ∧
        S1.objPointsTo mo = [] ∧
        (∀ o, o ≠ mo → S1.objNode o = S.objNode o ∧ S1.objPointsTo o = S.objPointsTo o)) ∧
      (∀ b, b ≠ a → S1.data b = S.data b) ∧
      S1.getType = S.getType ∧ S1.operands = S.operands ∧ S1.pointsTo = S.pointsTo ∧
      ∀ whereNode1 n1 objects1, RefersTo S n1 a →
        getMemoryObjects S1 whereNode1 n1 objects1 = .ok (S1, objects1 ++ [mo]) := by
  have again : ∀ (T : PSSHeap) (mo : Nat), T.getType = S.getType → T.operands = S.operands →
      T.pointsTo = S.pointsTo → T.data a = some mo →
      ∀ whereNode1 n1 objects1, RefersTo S n1 a →
        getMemoryObjects T whereNode1 n1 objects1 = .ok (T, objects1 ++ [mo]) := by
    intro T mo h1 h2 h3 h4 w1 n1 o1 hr
    have hr1 : RefersTo T n1 a := by
      unfold RefersTo at hr ⊢
      rw [h1, h2, h3]; exact hr
    have ha1 : isAllocationSite (T.getType a) = true := by rw [h1]; exact ha
    unfold getMemoryObjects
    rw [allocationSite_of_refersTo T n1 a ha1 hr1]
    simp only [ha1, if_true, h4]
  have key : getMemoryObjects S whereNode n objects =
      (match S.data a with
        | some mo => .ok (S, objects ++ [mo])
        | none => .ok ((S.newMemoryObject a).setData a S.numObjects,
            objects ++ [S.numObjects])) := by
    unfold getMemoryObjects
    rw [allocationSite_of_refersTo S n a ha hn]
    simp only [ha, if_true]
  rw [key]
  cases hd : S.data a with
  | some mo =>
    exact ⟨S, mo, rfl, rfl, hd, fun _ => rfl, fun h => (by cases h), fun _ _ => rfl,
      rfl, rfl, rfl, again S mo rfl rfl rfl hd⟩
  | none =>
    refine ⟨_, S.numObjects, rfl, rfl, ?_, fun h => absurd rfl h, fun _ => ⟨rfl, ?_, ?_, ?_⟩,
      ?_, rfl, rfl, rfl, ?_⟩
    · simp [PSSHeap.setData, PSSHeap.newMemoryObject]
    · simp [PSSHeap.setData, PSSHeap.newMemoryObject]
    · simp [PSSHeap.setData, PSSHeap.newMemoryObject]
    · intro o ho
      simp [PSSHeap.setData, PSSHeap.newMemoryObject, Function.update_noteq ho]
    · intro b hb
      simp [PSSHeap.setData, PSSHeap.newMemoryObject, Function.update_noteq hb]
    · exact again _ S.numObjects rfl rfl rfl (by simp [PSSHeap.setData, PSSHeap.newMemoryObject])

/-- The statement of `getMemoryObjects_one_object_per_site` on the sample heap,
asked through the cast (node 1) from node 7: object 0 is made for the
allocation (node 0), and asking again through the constant (node 2) from node 9
gives object 0 again. -/
theorem getMemoryObjects_one_object_per_site_witness :
    isAllocationSite (sampleHeap.getType 0) = true ∧ RefersTo sampleHeap 1 0 ∧
    RefersTo sampleHeap 2 0 ∧
    ∃ S1, getMemoryObjects sampleHeap 7 1 [] = .ok (S1, [0]) ∧
      S1.data 0 = some 0 ∧ S1.numObjects = 1 ∧
      getMemoryObjects S1 9 2 [5] = .ok (S1, [5, 0]) := by
  have ha : isAllocationSite (sampleHeap.getType 0) = true := by decide
  have h1 : RefersTo sampleHeap 1 0 := Or.inr (Or.inl ⟨Or.inl (by decide), by decide⟩)
  have h2 : RefersTo sampleHeap 2 0 := Or.inr (Or.inr ⟨by decide, 4, by decide⟩)
  obtain ⟨S1, mo, e1, e2, e3, _, e5, _, _, _, _, e9⟩ :=
    getMemoryObjects_one_object_per_site sampleHeap 0 ha 7 1 [] h1
  have hmo : mo = 0 := e2
  subst hmo
  exact ⟨ha, h1, h2, S1, e1, e3, (e5 rfl).1, e9 9 2 [5] h2⟩

end PointsToFlowInsensitive

end pss

end analysis

/-! ## The hooks of the flow-insensitive solver -/

namespace analysis

namespace pss

namespace PointsToFlowInsensitive

end PointsToFlowInsensitive

end pss

end analysis

/-! ## The node-level transfer -/

namespace analysis

namespace DataFlowAnalysis

variable {σ : Type}

theorem chainFrom_unique (getSuccessor : Nat → Option Nat) :
    ∀ (k k1 : Nat) (x : Option Nat) (l l1 : List Nat),
      chainFrom getSuccessor k x = some l → chainFrom getSuccessor k1 x = some l1 → l = l1 := by
  intro k
  induction k with
  | zero =>
    intro k1 x l l1 h h1
    cases x with
    | none =>
      cases k1 <;> simp [chainFrom] at h h1 <;> rw [h, h1]
    | some n => simp [chainFrom] at h
  | succ k ih =>
    intro k1 x l l1 h h1
    cases x with
    | none =>
      cases k1 <;> simp [chainFrom] at h h1 <;> rw [h, h1]
    | some n =>
      cases k1 with
      | zero => simp [chainFrom] at h1
      | succ k2 =>
        simp only [chainFrom, Option.map_eq_some'] at h h1
        obtain ⟨t, ht, rfl⟩ := h
        obtain ⟨t1, ht1, rfl⟩ := h1
        rw [ih k2 _ t t1 ht ht1]

theorem chainFrom_suffix (getSuccessor : Nat → Option Nat) :
    ∀ (k : Nat) (x : Option Nat) (l : List Nat), chainFrom getSuccessor k x = some l →
      ∀ m ∈ l, ∃ k1 l1, chainFrom getSuccessor k1 (some m) = some l1 ∧ l1.length ≤ l.length := by
  intro k
  induction k with
  | zero =>
    intro x l h m hm
    cases x with
    | none => simp [chainFrom] at h; subst h; simp at hm
    | some n => simp [chainFrom] at h
  | succ k ih =>
    intro x l h m hm
    cases x with
    | none => simp [chainFrom] at h; subst h; simp at hm
    | some n =>
      have h0 := h
      simp only [chainFrom, Option.map_eq_some'] at h
      obtain ⟨t, ht, rfl⟩ := h
      rcases List.mem_cons.1 hm with hm1 | hm1
      · subst hm1
        exact ⟨k + 1, _, h0, le_refl _⟩
      · obtain ⟨k1, l1, e1, e2⟩ := ih _ t ht m hm1
        exact ⟨k1, l1, e1, by simp; omega⟩

/-- A chain that ends meets no node twice. -/
theorem chainFrom_nodup (getSuccessor : Nat → Option Nat) :
    ∀ (k : Nat) (x : Option Nat) (l : List Nat), chainFrom getSuccessor k x = some l →
      l.Nodup := by
  intro k
  induction k with
  | zero =>
    intro x l h
    cases x with
    | none => simp [chainFrom] at h; subst h; simp
    | some n => simp [chainFrom] at h
  | succ k ih =>
    intro x l h
    cases x with
    | none => simp [chainFrom] at h; subst h; simp
    | some n =>
      have h0 := h
      simp only [chainFrom, Option.map_eq_some'] at h
      obtain ⟨t, ht, rfl⟩ := h
      refine List.nodup_cons.2 ⟨?_, ih _ t ht⟩
      intro hn
      obtain ⟨k1, l1, e1, e2⟩ := chainFrom_suffix getSuccessor k _ t ht n hn
      have := chainFrom_unique getSuccessor _ _ _ _ _ h0 e1
      rw [← this] at e2
      simp at e2

theorem runOnBlockLoop_spec (getSuccessor : Nat → Option Nat) (runOnNode : Nat → σ → Bool × σ) :
    ∀ (k : Nat) (x : Option Nat) (ns : List Nat), chainFrom getSuccessor k x = some ns →
      ∀ (fuel : Nat), ns.length ≤ fuel → ∀ (changed : Bool) (s : σ) (log : List (Nat × Bool)),
        runOnBlockLoop getSuccessor runOnNode fuel x changed s log =
          some (changed || (applyInOrder runOnNode ns s).2.any (fun e => e.2),
            (applyInOrder runOnNode ns s).1, log ++ (applyInOrder runOnNode ns s).2) := by
  intro k
  induction k with
  | zero =>
    intro x ns h fuel hf changed s log
    cases x with
    | none =>
      simp [chainFrom] at h; subst h
      cases fuel <;> simp [runOnBlockLoop, applyInOrder]
    | some n => simp [chainFrom] at h
  | succ k ih =>
    intro x ns h fuel hf changed s log
    cases x with
    | none =>
      simp [chainFrom] at h; subst h
      cases fuel <;> simp [runOnBlockLoop, applyInOrder]
    | some n =>
      simp only [chainFrom, Option.map_eq_some'] at h
      obtain ⟨t, ht, rfl⟩ := h
      cases fuel with
      | zero => simp at hf
      | succ f =>
        have hf1 : t.length ≤ f := by simpa using hf
        simp only [runOnBlockLoop]
        rw [ih _ t ht f hf1]
        simp [applyInOrder, Bool.or_assoc]

/-- C26.  When the chain of block `B` (from its first node along the successor
links to the null link) is `ns`, `runOnBlock` returns, with any fuel of at
least the length of the chain: it has called `runOnNode` on the nodes of `ns`
in that order, once each (no node occurs twice in `ns`), each call on the state
left by the call before whatever the earlier results were, and it returns true
exactly when one of the calls returned true. -/
theorem runOnBlock_applies_to_chain (getFirstNode : Nat → Option Nat)
    (getSuccessor : Nat → Option Nat) (runOnNode : Nat → σ → Bool × σ) (k : Nat) (B : Nat)
    (ns : List Nat) (hchain : chainFrom getSuccessor k (getFirstNode B) = some ns)
    (fuel : Nat) (hfuel : ns.length ≤ fuel) (s : σ) :
    ∃ (changed : Bool) (s1 : σ) (log : List (Nat × Bool)),
      runOnBlock getFirstNode getSuccessor runOnNode fuel B s = some (changed, s1, log) ∧
      (s1, log) = applyInOrder runOnNode ns s ∧
      log.map Prod.fst = ns ∧ ns.Nodup ∧
      (∀ n ∈ ns, (log.map Prod.fst).count n = 1) ∧
      (changed = true ↔ ∃ e ∈ log, e.2 = true) := by
  have hnd := chainFrom_nodup getSuccessor k _ ns hchain
  have hmap : ∀ (l : List Nat) (t : σ), ((applyInOrder runOnNode l t).2).map Prod.fst = l := by
    intro l
    induction l with
    | nil => intro t; rfl
    | cons a as ih => intro t; simp [applyInOrder, ih]
  refine ⟨(applyInOrder runOnNode ns s).2.any (fun e => e.2), (applyInOrder runOnNode ns s).1,
    (applyInOrder runOnNode ns s).2, ?_, rfl, hmap ns s, hnd, ?_, ?_⟩
  · unfold runOnBlock
    rw [runOnBlockLoop_spec getSuccessor runOnNode k _ ns hchain fuel hfuel]
    simp
  · intro n hn
    rw [hmap]
    exact List.count_eq_one_of_mem hnd hn
  · simp

/-- The statement of `runOnBlock_applies_to_chain` on the chain 3, 4, 5 of
block 0 with the countdown transfer started at 2: the calls return true, true,
false and all three are made. -/
theorem runOnBlock_applies_to_chain_witness :
    chainFrom (fun n => if n < 5 then some (n + 1) else none) 3
        ((fun _ => some 3) 0) = some [3, 4, 5] ∧
    runOnBlock (fun _ => some 3) (fun n => if n < 5 then some (n + 1) else none)
        BBlockDataFlowAnalysis.countdownTransfer 3 0 2
      = some (true, 0, [(3, true), (4, true), (5, false)]) ∧
    ∃ (changed : Bool) (s1 : Nat) (log : List (Nat × Bool)),
      runOnBlock (fun _ => some 3) (fun n => if n < 5 then some (n + 1) else none)
        BBlockDataFlowAnalysis.countdownTransfer 3 0 2 = some (changed, s1, log) ∧
      (s1, log) = applyInOrder BBlockDataFlowAnalysis.countdownTransfer [3, 4, 5] 2 ∧
      log.map Prod.fst = [3, 4, 5] ∧ [3, 4, 5].Nodup ∧
      (∀ n ∈ [3, 4, 5], (log.map Prod.fst).count n = 1) ∧
      (changed = true ↔ ∃ e ∈ log, e.2 = true) :=
  ⟨by decide, by decide,
    runOnBlock_applies_to_chain (fun _ => some 3)
      (fun n => if n < 5 then some (n + 1) else none)
      BBlockDataFlowAnalysis.countdownTransfer 3 0 [3, 4, 5] (by decide) 3 (by decide) 2⟩

end DataFlowAnalysis

namespace BBlockDataFlowAnalysis

/-! ## The order of a pass and the statistics -/

variable {σ : Type}

theorem mem_blocksSet_insert (getDFSOrder : Nat → Nat) (l : List Nat) (b x : Nat) :
    x ∈ BlocksSetT.insert getDFSOrder l b → x = b ∨ x ∈ l := by
  induction l with
  | nil => intro h; simp [BlocksSetT.insert] at h; exact Or.inl h
  | cons y ys ih =>
    intro h
    unfold BlocksSetT.insert at h
    split at h
    · simpa using h
    · split at h
      · rcases List.mem_cons.1 h with h | h
        · exact Or.inr (by simp [h])
        · rcases ih h with h | h
          · exact Or.inl h
          · exact Or.inr (List.mem_cons_of_mem _ h)
      · exact Or.inr h

theorem blocksSet_insert_pairwise (getDFSOrder : Nat → Nat) (l : List Nat) (b : Nat)
    (hl : l.Pairwise (fun a c => getDFSOrder a < getDFSOrder c)) :
    (BlocksSetT.insert getDFSOrder l b).Pairwise (fun a c => getDFSOrder a < getDFSOrder c) := by
  induction l with
  | nil => simp [BlocksSetT.insert]
  | cons y ys ih =>
    obtain ⟨h1, h2⟩ := List.pairwise_cons.1 hl
    unfold BlocksSetT.insert
    by_cases c1 : DFSOrderLess getDFSOrder b y = true
    · rw [if_pos c1]
      have c1a : getDFSOrder b < getDFSOrder y := by simpa [DFSOrderLess] using c1
      refine List.pairwise_cons.2 ⟨?_, hl⟩
      intro z hz
      rcases List.mem_cons.1 hz with hz | hz
      · rw [hz]; exact c1a
      · exact lt_trans c1a (h1 z hz)
    · rw [if_neg c1]
      by_cases c2 : DFSOrderLess getDFSOrder y b = true
      · rw [if_pos c2]
        have c2a : getDFSOrder y < getDFSOrder b := by simpa [DFSOrderLess] using c2
        refine List.pairwise_cons.2 ⟨?_, ih h2⟩
        intro z hz
        rcases mem_blocksSet_insert getDFSOrder ys b z hz with hz | hz
        · rw [hz]; exact c2a
        · exact h1 z hz
      · rw [if_neg c2]; exact hl

theorem blocksSet_insert_length (getDFSOrder : Nat → Nat) (l : List Nat) (b : Nat)
    (hnew : ∀ x ∈ l, getDFSOrder x ≠ getDFSOrder b) :
    (BlocksSetT.insert getDFSOrder l b).length = l.length + 1 := by
  induction l with
  | nil => simp [BlocksSetT.insert]
  | cons y ys ih =>
    unfold BlocksSetT.insert
    by_cases c1 : DFSOrderLess getDFSOrder b y = true
    · rw [if_pos c1]; simp
    · rw [if_neg c1]
      by_cases c2 : DFSOrderLess getDFSOrder y b = true
      · rw [if_pos c2]
        simp [ih (fun x hx => hnew x (List.mem_cons_of_mem _ hx))]
      · exfalso
        have := hnew y (List.mem_cons_self _ _)
        simp [DFSOrderLess] at c1 c2
        omega

/-- The set collected by the DFS pass: it is strictly increasing in the DFS
order, holds only blocks the DFS reached, and has one element per reached block
when the reached blocks have distinct order numbers. -/
theorem foldl_dfs_blocks (getDFSOrder : Nat → Nat) (runOnBlock : Nat → σ → Bool × σ)
    (L : List Nat) :
    ∀ (rs : RunState σ),
      (rs.blocks.Pairwise (fun a c => getDFSOrder a < getDFSOrder c) →
        (L.foldl (dfs_proc_bb getDFSOrder runOnBlock) rs).blocks.Pairwise
          (fun a c => getDFSOrder a < getDFSOrder c)) ∧
      (∀ x ∈ (L.foldl (dfs_proc_bb getDFSOrder runOnBlock) rs).blocks, x ∈ rs.blocks ∨ x ∈ L) ∧
      ((L.map getDFSOrder).Nodup →
        (∀ x ∈ rs.blocks, ∀ y ∈ L, getDFSOrder x ≠ getDFSOrder y) →
        (L.foldl (dfs_proc_bb getDFSOrder runOnBlock) rs).blocks.length
          = rs.blocks.length + L.length) := by
  induction L with
  | nil => intro rs; simp
  | cons b bs ih =>
    intro rs
    obtain ⟨i1, i2, i3⟩ := ih (dfs_proc_bb getDFSOrder runOnBlock rs b)
    have hb : (dfs_proc_bb getDFSOrder runOnBlock rs b).blocks
        = BlocksSetT.insert getDFSOrder rs.blocks b := rfl
    simp only [List.foldl_cons]
    refine ⟨fun h => i1 (by rw [hb]; exact blocksSet_insert_pairwise getDFSOrder _ b h), ?_, ?_⟩
    · intro x hx
      rcases i2 x hx with h | h
      · rw [hb] at h
        rcases mem_blocksSet_insert getDFSOrder _ b x h with h | h
        · exact Or.inr (by simp [h])
        · exact Or.inl h
      · exact Or.inr (List.mem_cons_of_mem _ h)
    · intro hnd hnew
      have hnd1 : getDFSOrder b ∉ bs.map getDFSOrder ∧ (bs.map getDFSOrder).Nodup :=
        List.nodup_cons.1 hnd
      have hlen := blocksSet_insert_length getDFSOrder rs.blocks b
        (fun x hx => hnew x hx b (List.mem_cons_self _ _))
      rw [i3 hnd1.2, hb, hlen]
      · simp; omega
      · intro x hx y hy
        rw [hb] at hx
        rcases mem_blocksSet_insert getDFSOrder _ b x hx with h | h
        · rw [h]
          intro heq
          exact hnd1.1 (by rw [heq]; exact List.mem_map_of_mem _ hy)
        · exact hnew x h y (List.mem_cons_of_mem _ hy)

/-- What a pass adds to the statistics and to the log. -/
theorem foldl_passStep_stats (runOnBlock : Nat → σ → Bool × σ) (L : List Nat) :
    ∀ (rs : RunState σ) (cur : List (Nat × Bool)) (older : List (List (Nat × Bool))),
      rs.log = cur :: older →
      ∃ ents : List (Nat × Bool),
        (L.foldl (passStep runOnBlock) rs).log = (cur ++ ents) :: older ∧
        ents.length = L.length ∧
        (L.foldl (passStep runOnBlock) rs).blocks = rs.blocks ∧
        (L.foldl (passStep runOnBlock) rs).statistics.iterationsNum
          = rs.statistics.iterationsNum ∧
        (L.foldl (passStep runOnBlock) rs).statistics.bblocksNum
          = rs.statistics.bblocksNum ∧
        (L.foldl (passStep runOnBlock) rs).statistics.processedBlocks
          = rs.statistics.processedBlocks + L.length := by
  induction L with
  | nil =>
    intro rs cur older h
    exact ⟨[], by simp [h]⟩
  | cons b bs ih =>
    intro rs cur older h
    have hlog : (passStep runOnBlock rs b).log
        = (cur ++ [(b, (runOnBlock b rs.state).1)]) :: older := by
      simp [passStep, h]
    obtain ⟨ents, h1, h2, h3, h4, h5, h6⟩ := ih (passStep runOnBlock rs b) _ _ hlog
    refine ⟨(b, (runOnBlock b rs.state).1) :: ents, ?_, ?_, ?_, ?_, ?_, ?_⟩
    · simp [List.foldl_cons, h1]
    · simp [h2]
    · simp only [List.foldl_cons, h3]; rfl
    · simp only [List.foldl_cons, h4]; rfl
    · simp only [List.foldl_cons, h5]; rfl
    · simp only [List.foldl_cons, h6]
      simp [passStep]; omega

theorem whileLoop_blocks (runOnBlock : Nat → σ → Bool × σ) :
    ∀ (fuel : Nat) (rs r : RunState σ), whileLoop runOnBlock fuel rs = some r →
      r.blocks = rs.blocks := by
  intro fuel
  induction fuel with
  | zero =>
    intro rs r h
    unfold whileLoop at h
    split at h
    · exact absurd h (by simp)
    · cases h; rfl
  | succ k ih =>
    intro rs r h
    unfold whileLoop at h
    split at h
    · rw [ih _ r h]
      obtain ⟨ents, e1, e2, e3, e4⟩ := foldl_passStep_stats runOnBlock rs.blocks.reverse
        { rs with changed := false, log := [] :: rs.log } [] rs.log rfl
      exact e3
    · cases h; rfl

/-- C25.  Whenever `run` returns, the set it iterates over is the one the DFS
pass collected, strictly increasing in DFS-order number, and every pass of the
`while` loop calls `runOnBlock` on the blocks of the set from the last to the
first, that is in strictly decreasing DFS-order number, once for each block of
the set and on no other block, whatever the calls return. -/
theorem run_passes_in_reverse_order (getDFSOrder : Nat → Nat)
    (runOnBlock : Nat → σ → Bool × σ) (dfsCalls : List Nat) (fuel : Nat) (s : σ)
    (r : RunState σ) (h : run getDFSOrder runOnBlock dfsCalls fuel s = some r) :
    r.blocks = (runDFS getDFSOrder runOnBlock dfsCalls s).blocks ∧
    r.blocks.Pairwise (fun a c => getDFSOrder a < getDFSOrder c) ∧
    ∃ (dfsPass : List (Nat × Bool)) (later : List (List (Nat × Bool))),
      r.log.reverse = dfsPass :: later ∧
      ∀ p ∈ later,
        p.map Prod.fst = r.blocks.reverse ∧
        (p.map Prod.fst).Pairwise (fun a c => getDFSOrder c < getDFSOrder a) ∧
        (∀ b ∈ r.blocks, (p.map Prod.fst).count b = 1) ∧
        (∀ b ∈ p.map Prod.fst, b ∈ r.blocks) := by
  have hb : r.blocks = (runDFS getDFSOrder runOnBlock dfsCalls s).blocks := by
    unfold run at h
    have hw := whileLoop_blocks runOnBlock fuel _ r h
    exact hw
  have hsorted : r.blocks.Pairwise (fun a c => getDFSOrder a < getDFSOrder c) := by
    rw [hb]
    exact (foldl_dfs_blocks getDFSOrder runOnBlock dfsCalls (initialData s)).1
      List.Pairwise.nil
  have hnd : r.blocks.Nodup := by
    refine hsorted.imp ?_
    intro a c hac heq
    rw [heq] at hac
    exact lt_irrefl _ hac
  obtain ⟨⟨dfsPass, later, last, earlier, h1, h2, h3, h4, h5, h6, h7⟩, _⟩ :=
    run_inv getDFSOrder runOnBlock dfsCalls fuel s r h
  refine ⟨hb, hsorted, dfsPass, later, h1, ?_⟩
  intro p hp
  have hp1 := h4 p hp
  refine ⟨hp1, ?_, ?_, ?_⟩
  · rw [hp1]
    exact List.pairwise_reverse.2 hsorted
  · intro b hbm
    rw [hp1, List.count_reverse]
    exact List.count_eq_one_of_mem hnd hbm
  · intro b hbm
    rw [hp1] at hbm
    exact List.mem_reverse.1 hbm

/-- The statement of `run_passes_in_reverse_order` on the countdown transfer
started at 4 with the DFS reaching blocks 0, 1, 2: in the first pass of the
loop the call on block 2 returns true and the calls on blocks 1 and 0 follow. -/
theorem run_passes_in_reverse_order_witness :
    ∃ r, run (fun b => b) countdownTransfer [0, 1, 2] 5 4 = some r ∧
      r.log.reverse = [[(0, true), (1, true), (2, true)],
        [(2, true), (1, false), (0, false)], [(2, false), (1, false), (0, false)]] ∧
      r.blocks = (runDFS (fun b => b) countdownTransfer [0, 1, 2] 4).blocks ∧
      r.blocks.Pairwise (fun a c => a < c) ∧
      ∃ (dfsPass : List (Nat × Bool)) (later : List (List (Nat × Bool))),
        r.log.reverse = dfsPass :: later ∧
        ∀ p ∈ later,
          p.map Prod.fst = r.blocks.reverse ∧
          (p.map Prod.fst).Pairwise (fun a c => c < a) ∧
          (∀ b ∈ r.blocks, (p.map Prod.fst).count b = 1) ∧
          (∀ b ∈ p.map Prod.fst, b ∈ r.blocks) :=
  ⟨_, rfl, rfl, run_passes_in_reverse_order (fun b => b) countdownTransfer [0, 1, 2] 5 4 _ rfl⟩

end BBlockDataFlowAnalysis

/-! ## Termination and coverage of the block walk -/

theorem le_foldr_max (l : List Nat) (x : Nat) (h : x ∈ l) : x ≤ l.foldr max 0 := by
  induction l with
  | nil => cases h
  | cons a t ih =>
    rcases List.mem_cons.1 h with h | h
    · subst h; simp
    · have := ih h
      simp only [List.foldr_cons]
      omega

theorem BlockGraph.successors_lt_bound (g : BlockGraph) (entry a b : Nat)
    (h : b ∈ g.successors a) : b < g.bound entry := by
  unfold BlockGraph.successors at h
  rw [List.getD_eq_getElem?_getD] at h
  cases hl : g.succs[a]? with
  | none => rw [hl] at h; simp at h
  | some l =>
    rw [hl] at h
    have h1 : b ∈ g.succs.flatten := List.mem_flatten_of_mem (List.getElem?_mem hl) h
    have := le_foldr_max (entry :: g.succs.flatten) b (List.mem_cons_of_mem _ h1)
    unfold BlockGraph.bound
    omega

theorem BlockGraph.entry_lt_bound (g : BlockGraph) (entry : Nat) : entry < g.bound entry := by
  have := le_foldr_max (entry :: g.succs.flatten) entry (List.mem_cons_self _ _)
  unfold BlockGraph.bound
  omega

namespace BBlockWalk

theorem pushSuccessors_perm (Q : QueueT) (hQ : Q.Keeps) (runid : Nat) (ids : Nat → Nat)
    (L : List Nat) :
    ∀ q : List Nat, (pushSuccessors Q runid ids L q).Perm
      (L.filter (fun S => decide (ids S ≠ runid)) ++ q) := by
  induction L with
  | nil => intro q; simp [pushSuccessors]
  | cons S rest ih =>
    intro q
    unfold pushSuccessors
    by_cases h : ids S ≠ runid
    · rw [if_pos h]
      refine (ih _).trans ?_
      have h1 : (List.filter (fun S => decide (ids S ≠ runid)) (S :: rest))
          = S :: List.filter (fun S => decide (ids S ≠ runid)) rest := by
        simp [List.filter_cons, h]
      rw [h1]
      refine (List.Perm.append_left _ (hQ q S)).trans ?_
      simp only [List.cons_append]
      exact List.perm_middle
    · rw [if_neg h]
      have h1 : (List.filter (fun S => decide (ids S ≠ runid)) (S :: rest))
          = List.filter (fun S => decide (ids S ≠ runid)) rest := by
        simp only [List.filter_cons]
        simp [h]
      rw [h1]
      exact ih q

theorem mem_pushSuccessors (Q : QueueT) (hQ : Q.Keeps) (runid : Nat) (ids : Nat → Nat)
    (L q : List Nat) (x : Nat) :
    x ∈ pushSuccessors Q runid ids L q ↔ (x ∈ L ∧ ids x ≠ runid) ∨ x ∈ q := by
  rw [(pushSuccessors_perm Q hQ runid ids L q).mem_iff]
  simp [List.mem_filter]

theorem walkLoop_cons (Q : QueueT) (g : BlockGraph) (runid fuel : Nat) (st : WalkState)
    (BB : Nat) (rest : List Nat) (h : st.queue = BB :: rest) :
    walkLoop Q g runid (fuel + 1) st = walkLoop Q g runid fuel (afterBlock Q g runid st BB rest) := by
  simp only [walkLoop, h, afterBlock]

theorem walkLoop_nil (Q : QueueT) (g : BlockGraph) (runid fuel : Nat) (st : WalkState)
    (h : st.queue = []) : walkLoop Q g runid fuel st = some st := by
  cases fuel <;> simp [walkLoop, h]

theorem walkLoop_fuel_succ (Q : QueueT) (g : BlockGraph) (runid : Nat) :
    ∀ (fuel : Nat) (st r : WalkState), walkLoop Q g runid fuel st = some r →
      walkLoop Q g runid (fuel + 1) st = some r := by
  intro fuel
  induction fuel with
  | zero =>
    intro st r h
    cases hq : st.queue with
    | nil => rw [walkLoop_nil Q g runid _ st hq] at h ⊢; exact h
    | cons BB rest => simp [walkLoop, hq] at h
  | succ k ih =>
    intro st r h
    cases hq : st.queue with
    | nil => rw [walkLoop_nil Q g runid _ st hq] at h ⊢; exact h
    | cons BB rest =>
      rw [walkLoop_cons Q g runid _ st BB rest hq] at h ⊢
      exact ih _ r h

theorem walkLoop_fuel_le (Q : QueueT) (g : BlockGraph) (runid : Nat) (fuel : Nat)
    (st r : WalkState) (h : walkLoop Q g runid fuel st = some r) :
    ∀ fuel1, fuel ≤ fuel1 → walkLoop Q g runid fuel1 st = some r := by
  intro fuel1 hle
  induction hle with
  | refl => exact h
  | step _ ih => exact walkLoop_fuel_succ Q g runid _ st r ih

theorem setWalkId_marked (ids : Nat → Nat) (BB runid : Nat) (h : ids BB = runid) :
    setWalkId ids BB runid = ids := by
  funext x
  unfold setWalkId
  by_cases hx : x = BB
  · rw [if_pos hx, hx, h]
  · rw [if_neg hx]

/-- One iteration lowers the pair (blocks not marked, marked entries pending) in
the lexicographic order, and keeps every pending block below the bound. -/
theorem afterBlock_measure (Q : QueueT) (hQ : Q.Keeps) (g : BlockGraph) (entry runid : Nat)
    (st : WalkState) (BB : Nat) (rest : List Nat) (h : st.queue = BB :: rest)
    (hb : ∀ b ∈ st.queue, b < g.bound entry) :
    (∀ b ∈ (afterBlock Q g runid st BB rest).queue, b < g.bound entry) ∧
    ((unmarked runid (afterBlock Q g runid st BB rest).lastwalkid (g.bound entry)
        < unmarked runid st.lastwalkid (g.bound entry)) ∨
      (unmarked runid (afterBlock Q g runid st BB rest).lastwalkid (g.bound entry)
          = unmarked runid st.lastwalkid (g.bound entry) ∧
        markedPending runid (afterBlock Q g runid st BB rest).lastwalkid
            (afterBlock Q g runid st BB rest).queue
          < markedPending runid st.lastwalkid st.queue)) := by
  have hBB : BB < g.bound entry := hb BB (by rw [h]; exact List.mem_cons_self _ _)
  refine ⟨?_, ?_⟩
  · intro b hbm
    rcases (mem_pushSuccessors Q hQ runid _ _ _ b).1 hbm with ⟨h1, _⟩ | h1
    · exact g.successors_lt_bound entry BB b h1
    · exact hb b (by rw [h]; exact List.mem_cons_of_mem _ h1)
  · by_cases hm : st.lastwalkid BB = runid
    · right
      have e := setWalkId_marked st.lastwalkid BB runid hm
      simp only [afterBlock, e]
      refine ⟨trivial, ?_⟩
      unfold markedPending
      rw [((pushSuccessors_perm Q hQ runid st.lastwalkid (g.successors BB) rest).filter _).length_eq,
        h, List.filter_append]
      have h0 : List.filter (fun b => decide (st.lastwalkid b = runid))
          (List.filter (fun S => decide (st.lastwalkid S ≠ runid)) (g.successors BB)) = [] := by
        rw [List.filter_filter]
        apply List.filter_eq_nil_iff.2
        intro a _
        simp
      rw [h0]
      simp [List.filter_cons, hm]
    · left
      unfold unmarked
      apply filter_length_lt _ _ (List.range (g.bound entry)) BB (List.mem_range.2 hBB)
      · intro i hi
        simp only [afterBlock, setWalkId, decide_eq_true_eq] at hi ⊢
        intro hc
        by_cases hiB : i = BB
        · rw [if_pos hiB] at hi; exact hi rfl
        · rw [if_neg hiB] at hi; exact hi hc
      · simp [afterBlock, setWalkId]
      · simpa using hm

theorem walkLoop_terminates (Q : QueueT) (hQ : Q.Keeps) (g : BlockGraph) (entry runid : Nat) :
    ∀ (u mc : Nat) (st : WalkState), (∀ b ∈ st.queue, b < g.bound entry) →
      unmarked runid st.lastwalkid (g.bound entry) ≤ u →
      markedPending runid st.lastwalkid st.queue ≤ mc →
      ∃ fuel r, walkLoop Q g runid fuel st = some r := by
  have step : ∀ (u : Nat),
      (∀ (st : WalkState), (∀ b ∈ st.queue, b < g.bound entry) →
        unmarked runid st.lastwalkid (g.bound entry) < u →
        ∃ fuel r, walkLoop Q g runid fuel st = some r) →
      ∀ (mc : Nat) (st : WalkState), (∀ b ∈ st.queue, b < g.bound entry) →
        unmarked runid st.lastwalkid (g.bound entry) ≤ u →
        markedPending runid st.lastwalkid st.queue ≤ mc →
        ∃ fuel r, walkLoop Q g runid fuel st = some r := by
    intro u outer mc
    induction mc with
    | zero =>
      intro st hb hu hmc
      cases hq : st.queue with
      | nil => exact ⟨0, st, walkLoop_nil Q g runid 0 st hq⟩
      | cons BB rest =>
        obtain ⟨hb1, hm⟩ := afterBlock_measure Q hQ g entry runid st BB rest hq hb
        rcases hm with hm | ⟨_, hm⟩
        · obtain ⟨fuel, r, hr⟩ := outer _ hb1 (lt_of_lt_of_le hm hu)
          exact ⟨fuel + 1, r, by rw [walkLoop_cons Q g runid fuel st BB rest hq]; exact hr⟩
        · omega
    | succ k ih =>
      intro st hb hu hmc
      cases hq : st.queue with
      | nil => exact ⟨0, st, walkLoop_nil Q g runid 0 st hq⟩
      | cons BB rest =>
        obtain ⟨hb1, hm⟩ := afterBlock_measure Q hQ g entry runid st BB rest hq hb
        rcases hm with hm | ⟨hm0, hm⟩
        · obtain ⟨fuel, r, hr⟩ := outer _ hb1 (lt_of_lt_of_le hm hu)
          exact ⟨fuel + 1, r, by rw [walkLoop_cons Q g runid fuel st BB rest hq]; exact hr⟩
        · obtain ⟨fuel, r, hr⟩ := ih _ hb1 (by rw [hm0]; exact hu) (by omega)
          exact ⟨fuel + 1, r, by rw [walkLoop_cons Q g runid fuel st BB rest hq]; exact hr⟩
  intro u
  induction u using Nat.strong_induction_on with
  | _ u ihu =>
    intro mc st hb hu hmc
    refine step u ?_ mc st hb hu hmc
    intro st1 hb1 hlt
    exact ihu _ hlt _ st1 hb1 (le_refl _) (le_refl _)

/-- C23.  For every block graph given by finite successor lists, every entry
block, every queue discipline whose `push` adds the element and keeps the
pending ones, and whatever marks earlier walks left, `walk` returns: there is
a number of iterations after which the queue is empty, and with any bound on
the iterations at least that large `walk` yields the same list of calls. -/
theorem walk_terminates (Q : QueueT) (hQ : Q.Keeps) (g : BlockGraph) (entry : Nat)
    (walk_run_counter : Nat) (lastwalkid : Nat → Nat) :
    ∃ (N : Nat) (visited : List Nat), ∀ fuel, N ≤ fuel →
      walk Q g entry walk_run_counter lastwalkid fuel = some visited := by
  have hq0 : Q.push [] entry = [entry] := List.perm_singleton.1 (hQ [] entry)
  obtain ⟨fuel, r, hr⟩ := walkLoop_terminates Q hQ g entry (nextRunId walk_run_counter) _ _
    { lastwalkid := lastwalkid, queue := Q.push [] entry, visited := [] }
    (by
      intro b hb
      rw [hq0] at hb
      simp at hb
      rw [hb]
      exact g.entry_lt_bound entry)
    (le_refl _) (le_refl _)
  refine ⟨fuel, r.visited, ?_⟩
  intro fuel1 hle
  unfold walk
  simp only
  rw [walkLoop_fuel_le Q g _ fuel _ r hr fuel1 hle]
  rfl

/-- The statement of `walk_terminates` for the first-in first-out queue on the
diamond `0 → 1, 0 → 2, 1 → 3, 2 → 3`, where the walk returns after five
iterations. -/
theorem walk_terminates_witness :
    QueueFIFO.Keeps ∧
    walk QueueFIFO ⟨[[1, 2], [3], [3], []]⟩ 0 0 (fun _ => 0) 5 = some [0, 1, 2, 3, 3] ∧
    ∃ (N : Nat) (visited : List Nat), ∀ fuel, N ≤ fuel →
      walk QueueFIFO ⟨[[1, 2], [3], [3], []]⟩ 0 0 (fun _ => 0) fuel = some visited :=
  have hQ : QueueFIFO.Keeps := by
    intro q x
    show (q ++ [x]).Perm (x :: q)
    exact List.perm_append_singleton x q
  ⟨hQ, by decide, walk_terminates QueueFIFO hQ ⟨[[1, 2], [3], [3], []]⟩ 0 0 (fun _ => 0)⟩

theorem afterBlock_inv (Q : QueueT) (hQ : Q.Keeps) (g : BlockGraph) (entry runid : Nat)
    (st : WalkState) (BB : Nat) (rest : List Nat) (h : st.queue = BB :: rest)
    (hinv : WalkInv g entry runid st) :
    WalkInv g entry runid (afterBlock Q g runid st BB rest) := by
  have hmem : ∀ x, x ∈ (afterBlock Q g runid st BB rest).queue ↔
      (x ∈ g.successors BB ∧ setWalkId st.lastwalkid BB runid x ≠ runid) ∨ x ∈ rest :=
    fun x => mem_pushSuccessors Q hQ runid _ _ _ x
  have hvis : ∀ x, x ∈ (afterBlock Q g runid st BB rest).visited ↔ x ∈ st.visited ∨ x = BB := by
    intro x; simp [afterBlock]
  have hmark : ∀ b, (afterBlock Q g runid st BB rest).lastwalkid b = runid ↔
      b ∈ (afterBlock Q g runid st BB rest).visited := by
    intro b
    rw [hvis]
    show setWalkId st.lastwalkid BB runid b = runid ↔ _
    unfold setWalkId
    by_cases hb : b = BB
    · simp [hb]
    · rw [if_neg hb, hinv.marks]
      simp [hb]
  have hBBreach : Reachable g.successors entry BB :=
    hinv.reach BB (Or.inr (by rw [h]; exact List.mem_cons_self _ _))
  refine ⟨hmark, ?_, ?_, ?_⟩
  · intro b hb
    rcases hb with hb | hb
    · rcases (hvis b).1 hb with hb | hb
      · exact hinv.reach b (Or.inl hb)
      · rw [hb]; exact hBBreach
    · rcases (hmem b).1 hb with ⟨hb, _⟩ | hb
      · exact Reachable.step hBBreach hb
      · exact hinv.reach b (Or.inr (by rw [h]; exact List.mem_cons_of_mem _ hb))
  · rcases hinv.entry_in with he | he
    · exact Or.inl ((hvis entry).2 (Or.inl he))
    · rw [h] at he
      rcases List.mem_cons.1 he with he | he
      · exact Or.inl ((hvis entry).2 (Or.inr he))
      · exact Or.inr ((hmem entry).2 (Or.inr he))
  · intro a ha b hb
    rcases (hvis a).1 ha with ha | ha
    · rcases hinv.closed a ha b hb with hc | hc
      · exact Or.inl ((hvis b).2 (Or.inl hc))
      · rw [h] at hc
        rcases List.mem_cons.1 hc with hc | hc
        · exact Or.inl ((hvis b).2 (Or.inr hc))
        · exact Or.inr ((hmem b).2 (Or.inr hc))
    · subst ha
      by_cases hm : (afterBlock Q g runid st a rest).lastwalkid b = runid
      · exact Or.inl ((hmark b).1 hm)
      · exact Or.inr ((hmem b).2 (Or.inl ⟨hb, hm⟩))

theorem walkLoop_inv (Q : QueueT) (hQ : Q.Keeps) (g : BlockGraph) (entry runid : Nat) :
    ∀ (fuel : Nat) (st r : WalkState), WalkInv g entry runid st →
      walkLoop Q g runid fuel st = some r → WalkInv g entry runid r ∧ r.queue = [] := by
  intro fuel
  induction fuel with
  | zero =>
    intro st r hinv h
    cases hq : st.queue with
    | nil =>
      rw [walkLoop_nil Q g runid _ st hq] at h
      cases h
      exact ⟨hinv, hq⟩
    | cons BB rest => simp [walkLoop, hq] at h
  | succ k ih =>
    intro st r hinv h
    cases hq : st.queue with
    | nil =>
      rw [walkLoop_nil Q g runid _ st hq] at h
      cases h
      exact ⟨hinv, hq⟩
    | cons BB rest =>
      rw [walkLoop_cons Q g runid _ st BB rest hq] at h
      exact ih _ r (afterBlock_inv Q hQ g entry runid st BB rest hq hinv) h

/-- C24.  For every block graph given by finite successor lists and every
entry block, with a queue whose `push` adds the element and keeps the pending
ones and with no block carrying the id of the run beforehand, `walk` returns
and the blocks it has called `func` on are exactly the blocks reachable from
the entry block along successor edges: each reachable block at least once, no
unreachable block at all. -/
theorem walk_visits_exactly_reachable (Q : QueueT) (hQ : Q.Keeps) (g : BlockGraph)
    (entry : Nat) (walk_run_counter : Nat) (lastwalkid : Nat → Nat)
    (hfresh : ∀ b, lastwalkid b ≠ nextRunId walk_run_counter) :
    ∃ (N : Nat) (visited : List Nat),
      (∀ fuel, N ≤ fuel → walk Q g entry walk_run_counter lastwalkid fuel = some visited) ∧
      ∀ b, 1 ≤ visited.count b ↔ Reachable g.successors entry b := by
  have hq0 : Q.push [] entry = [entry] := List.perm_singleton.1 (hQ [] entry)
  obtain ⟨fuel, r, hr⟩ := walkLoop_terminates Q hQ g entry (nextRunId walk_run_counter) _ _
    { lastwalkid := lastwalkid, queue := Q.push [] entry, visited := [] }
    (by
      intro b hb
      rw [hq0] at hb
      simp at hb
      rw [hb]
      exact g.entry_lt_bound entry)
    (le_refl _) (le_refl _)
  have hinv0 : WalkInv g entry (nextRunId walk_run_counter)
      { lastwalkid := lastwalkid, queue := Q.push [] entry, visited := [] } := by
    refine ⟨?_, ?_, ?_, ?_⟩
    · intro b
      simp only [List.not_mem_nil, iff_false]
      exact hfresh b
    · intro b hb
      rw [hq0] at hb
      simp at hb
      rw [hb]
      exact Reachable.refl
    · right; rw [hq0]; simp
    · intro a ha; simp at ha
  obtain ⟨hinv, hempty⟩ := walkLoop_inv Q hQ g entry _ fuel _ r hinv0 hr
  refine ⟨fuel, r.visited, ?_, ?_⟩
  · intro fuel1 hle
    unfold walk
    simp only
    rw [walkLoop_fuel_le Q g _ fuel _ r hr fuel1 hle]
    rfl
  · intro b
    rw [Nat.succ_le_iff, List.count_pos_iff]
    constructor
    · intro hb
      exact hinv.reach b (Or.inl hb)
    · intro hb
      induction hb with
      | refl =>
        rcases hinv.entry_in with he | he
        · exact he
        · rw [hempty] at he; cases he
      | step _ hab ih =>
        rcases hinv.closed _ ih _ hab with hc | hc
        · exact hc
        · rw [hempty] at hc; cases hc

/-- The statement of `walk_visits_exactly_reachable` for the first-in first-out
queue on the diamond `0 → 1, 0 → 2, 1 → 3, 2 → 3` with a block 4 that no edge
leads to: blocks 0 to 3 are visited, block 4 is not. -/
theorem walk_visits_exactly_reachable_witness :
    QueueFIFO.Keeps ∧ (∀ b : Nat, (fun _ => 0) b ≠ nextRunId 0) ∧
    walk QueueFIFO ⟨[[1, 2], [3], [3], [], [0]]⟩ 0 0 (fun _ => 0) 5 = some [0, 1, 2, 3, 3] ∧
    ∃ (N : Nat) (visited : List Nat),
      (∀ fuel, N ≤ fuel →
        walk QueueFIFO ⟨[[1, 2], [3], [3], [], [0]]⟩ 0 0 (fun _ => 0) fuel = some visited) ∧
      ∀ b, 1 ≤ visited.count b ↔
        Reachable (BlockGraph.successors ⟨[[1, 2], [3], [3], [], [0]]⟩) 0 b :=
  have hQ : QueueFIFO.Keeps := by
    intro q x
    show (q ++ [x]).Perm (x :: q)
    exact List.perm_append_singleton x q
  have hfresh : ∀ b : Nat, (fun _ => 0) b ≠ nextRunId 0 := by
    intro b
    show (0 : Nat) ≠ nextRunId 0
    decide
  ⟨hQ, hfresh, by decide,
    walk_visits_exactly_reachable QueueFIFO hQ ⟨[[1, 2], [3], [3], [], [0]]⟩ 0 0 (fun _ => 0)
      hfresh⟩

end BBlockWalk

end analysis

/-! ## The work queue is used as a stack -/

/-- C28, failing input.  In `forkModule` blocks 1 and 2 are at distance 1 from
the entry block and block 3 is at distance 2.  The build succeeds and creates
the blocks in the order 0, 2, 3, exit block, 1: block 3 is built before
block 1. -/
theorem build_takes_newest_block_first :
    (cfgLevel forkModule 0 1).2 = [1, 2] ∧ (cfgLevel forkModule 0 2).2 = [3] ∧
    ∃ w', build forkModule 10 World.initial 0 0 = .ok (true, w') ∧
      builtBlocks (w'.graph 0) =
        [Value.instruction 0 0 0, Value.instruction 0 2 0, Value.instruction 0 3 0,
          Value.phonyReturn 0 3, Value.instruction 0 1 0] :=
  ⟨by decide, by decide, _, rfl, rfl⟩

/-! ## Calls through a pointer stop the builder -/

/-- C31, failing input.  For a call without statically known called function
the call-site test of `build(BB, pred)` stops at the null dereference in
`is_func_defined`, whatever the graph and the arguments.  So `build(BB, pred)`
does not complete on block 0 of `indirectCallModule` (the call is the second
instruction) nor of `indirectFirstModule` (the call is the first instruction),
in the state `build(func)` calls it in, and `build(func)` stops the same way. -/
theorem build_stops_at_indirect_call :
    (∀ (m : Module), is_func_defined m none = .error .nullDereference) ∧
    (∀ (build : World → Nat → Nat → Result (Bool × World)) (m : Module) (w : World)
        (this node : Nat) (calledValue : Value) (args : List Value),
      handleCallSite build m w this node (.call calledValue none args)
        = .error .nullDereference) ∧
    buildBlock (build indirectCallModule 5) indirectCallModule
        ((World.initial.modify 0 (fun G => startFunction G 0)).insertConstructed 0 0) 0 0 0 none
      = .error .nullDereference ∧
    buildBlock (build indirectFirstModule 5) indirectFirstModule
        ((World.initial.modify 0 (fun G => startFunction G 0)).insertConstructed 0 0) 0 0 0 none
      = .error .nullDereference ∧
    (∀ fuel, build indirectCallModule (fuel + 2) World.initial 0 0 = .error .nullDereference) ∧
    (∀ fuel, build indirectFirstModule (fuel + 2) World.initial 0 0 = .error .nullDereference) :=
  ⟨fun _ => rfl, fun _ _ _ _ _ _ _ => rfl, rfl, rfl, fun _ => rfl, fun _ => rfl⟩

namespace analysis

namespace BBlockDataFlowAnalysis

/-! ## The collected set and the passes of the driver -/

variable {σ : Type}

end BBlockDataFlowAnalysis

end analysis

namespace analysis

namespace BBlockWalk

/-! ## A run id that is already in the blocks -/

/-- C24, counterexample.  With `walk_run_counter` at 4294967295 the increment
wraps and the id of the run is 0, the value the `lastwalkid` field of a block
holds before any walk.  On the graph with the single edge `0 → 1` the walk then
calls `func` on block 0 only, with any bound on the iterations, although block 1
is reachable from the entry block 0. -/
theorem walk_skips_block_carrying_run_id :
    nextRunId 4294967295 = 0 ∧
    Reachable (BlockGraph.successors ⟨[[1], []]⟩) 0 1 ∧
    (∀ fuel, walk QueueFIFO ⟨[[1], []]⟩ 0 4294967295 (fun _ => 0) (fuel + 1) = some [0]) ∧
    [0].count 1 = 0 := by
  refine ⟨by decide, Reachable.step Reachable.refl (by decide), ?_, by decide⟩
  intro fuel
  cases fuel <;> rfl

end BBlockWalk

end analysis

namespace analysis

namespace pss

namespace PointsToFlowInsensitive

/-! ## Changed nodes the walk does not reach -/

end PointsToFlowInsensitive

end pss

end analysis

/-! ## Nodes of a graph are held under their keys -/

theorem registered_of_fields {G G' : LLVMDependenceGraph} (h1 : G'.dg = G.dg)
    (h2 : G'.numNodes = G.numNodes) (h3 : G'.nodes = G.nodes) (h4 : G'.key = G.key)
    (h : G.Registered) : G'.Registered := by
  intro n hn
  rw [h1] at hn
  obtain ⟨a, b⟩ := h n hn
  rw [h2, h3, h4]
  exact ⟨a, b⟩

theorem registered_new : LLVMDependenceGraph.new.Registered := by
  intro n hn
  simp [LLVMDependenceGraph.new] at hn

theorem registered_newNode (G : LLVMDependenceGraph) (val : Value) (h : G.Registered) :
    (G.newNode val).Registered := by
  intro n hn
  have hd : (G.newNode val).dg = Function.update G.dg G.numNodes false := rfl
  rw [hd] at hn
  by_cases hne : n = G.numNodes
  · subst hne
    simp at hn
  · rw [Function.update_noteq hne] at hn
    obtain ⟨a, b⟩ := h n hn
    refine ⟨?_, ?_⟩
    · show n < G.numNodes + 1
      omega
    · show G.nodes (Function.update G.key G.numNodes val n) = some n
      rw [Function.update_noteq hne]
      exact b

theorem registered_addNode (G : LLVMDependenceGraph) (n : Nat) (h : G.Registered)
    (hn : n < G.numNodes) : (G.addNode n).Registered := by
  intro x hx
  have hdg : (G.addNode n).dg =
      if G.nodes (G.key n) = none then Function.update G.dg n true else G.dg := rfl
  show x < G.numNodes ∧ mapInsert G.nodes (G.key n) n (G.key x) = some x
  rw [hdg] at hx
  cases hk : G.nodes (G.key n) with
  | none =>
    rw [if_pos hk] at hx
    by_cases hxn : x = n
    · subst hxn
      exact ⟨hn, by simp [mapInsert, hk]⟩
    · rw [Function.update_noteq hxn] at hx
      obtain ⟨a, b⟩ := h x hx
      refine ⟨a, ?_⟩
      have hne : G.key x ≠ G.key n := by
        intro e
        rw [e, hk] at b
        cases b
      simp [mapInsert, hne, b]
  | some old =>
    rw [if_neg (by rw [hk]; simp)] at hx
    obtain ⟨a, b⟩ := h x hx
    refine ⟨a, ?_⟩
    by_cases e : G.key x = G.key n
    · rw [e] at b ⊢
      simp [mapInsert, b]
    · simp [mapInsert, e, b]

theorem registered_createBasicBlock (G : LLVMDependenceGraph) (firstNode : Nat)
    (predBB : Option Nat) (h : G.Registered) :
    (createBasicBlock G firstNode predBB).Registered := by
  cases predBB with
  | none => exact registered_of_fields rfl rfl rfl rfl h
  | some p => exact registered_of_fields rfl rfl rfl rfl h

theorem registered_startBlock (G : LLVMDependenceGraph) (f BB : Nat) (predBB : Option Nat)
    (h : G.Registered) : (startBlock G f BB predBB).Registered := by
  have h1 : ((G.newNode (Value.instruction f BB 0)).addNode G.numNodes).Registered :=
    registered_addNode _ _ (registered_newNode G _ h)
      (by show G.numNodes < G.numNodes + 1; omega)
  have h2 := registered_createBasicBlock _ G.numNodes predBB h1
  unfold startBlock
  cases predBB with
  | none => exact registered_of_fields rfl rfl rfl rfl h2
  | some p => exact registered_of_fields rfl rfl rfl rfl h2

theorem registered_startFunction (G : LLVMDependenceGraph) (f : Nat) (h : G.Registered) :
    (startFunction G f).Registered := by
  have h1 : ((G.newNode (Value.function f)).addNode G.numNodes).Registered :=
    registered_addNode _ _ (registered_newNode G _ h)
      (by show G.numNodes < G.numNodes + 1; omega)
  exact registered_of_fields rfl rfl rfl rfl h1

theorem registered_addParameterNodes (owner : Nat) (vals : List Value) :
    ∀ (G : LLVMDependenceGraph) (params : LLVMDGParameters), G.Registered →
      (addParameterNodes owner vals G params).1.Registered := by
  induction vals with
  | nil => intro G params h; exact h
  | cons v vs ih =>
    intro G params h
    simp only [addParameterNodes]
    refine ih _ _ ?_
    exact registered_of_fields rfl rfl rfl rfl
      (registered_newNode _ v (registered_newNode G v h))

theorem registered_addActualParameters {G G' : LLVMDependenceGraph} {node arg_size : Nat}
    {args : List Value} (h : addActualParameters G node arg_size args = .ok G')
    (hG : G.Registered) : G'.Registered := by
  unfold addActualParameters at h
  split at h
  · cases h; exact hG
  · split at h
    · cases h
    · cases h
      exact registered_of_fields rfl rfl rfl rfl (registered_addParameterNodes node args G [] hG)

theorem registered_addFormalParameters {m : Module} {G G' : LLVMDependenceGraph}
    (h : addFormalParameters m G = .ok G') (hG : G.Registered) : G'.Registered := by
  unfold addFormalParameters at h
  split at h
  · cases h
  · split at h
    · split at h
      · cases h; exact hG
      · cases h
        exact registered_of_fields rfl rfl rfl rfl (registered_addParameterNodes _ _ G [] hG)
    · cases h

theorem registered_addExit {G G' : LLVMDependenceGraph} {f BB node nodesBB : Nat}
    (h : addExit G f BB node nodesBB = .ok G') (hG : G.Registered) : G'.Registered := by
  unfold addExit at h
  have h2 : (match G.exitNode with
      | some _ => G
      | none =>
        { ((G.newNode (Value.phonyReturn f BB)).addNode G.numNodes).newBlock
            (some G.numNodes) (some G.numNodes) with
          exitNode := some G.numNodes,
          exitBB := some ((G.newNode (Value.phonyReturn f BB)).addNode G.numNodes).numBlocks }
      ).Registered := by
    cases G.exitNode with
    | some e => exact hG
    | none =>
      exact registered_of_fields rfl rfl rfl rfl
        (registered_addNode _ _ (registered_newNode G _ hG)
          (by show G.numNodes < G.numNodes + 1; omega))
  dsimp only at h
  split at h
  · cases h
    exact registered_of_fields rfl rfl rfl rfl h2
  · cases h

theorem registered_finishBlock {G G' : LLVMDependenceGraph} {f BB node nodesBB : Nat}
    {insts : List Instruction} {r : Bool}
    (h : finishBlock G f BB insts node nodesBB = .ok (r, G')) (hG : G.Registered) :
    G'.Registered := by
  unfold finishBlock at h
  split at h
  · cases h; exact hG
  · rename_i idx term ht
    dsimp only at h
    split at h
    · cases h
    · rename_i G4 hG4
      have h4 : G4.Registered := by
        split at hG4
        · exact registered_addExit hG4 hG
        · cases hG4; exact hG
      split at h
      · cases h
      · cases h
      · cases h
        exact registered_of_fields rfl rfl rfl rfl h4

theorem registered_finishFunction {m : Module} {G G' : LLVMDependenceGraph} {entry : Nat}
    (h : finishFunction m G entry = .ok G') (hG : G.Registered) : G'.Registered := by
  unfold finishFunction at h
  split at h
  · cases h
  · split at h
    · cases h
    · split at h
      · cases h
      · split at h
        · cases h
        · split at h
          · cases h
          · exact registered_addFormalParameters h (registered_of_fields rfl rfl rfl rfl hG)

theorem registered_processSuccessors (m : Module) (this f BB : Nat) (succs : List Nat) :
    ∀ (WQ : List (Nat × Option Nat)) (processedBB : List Nat) (G : LLVMDependenceGraph)
      (WQ1 : List (Nat × Option Nat)) (processedBB1 : List Nat) (G1 : LLVMDependenceGraph),
      processSuccessors m this f BB succs WQ processedBB G = .ok (WQ1, processedBB1, G1) →
      G.Registered → G1.Registered := by
  induction succs with
  | nil =>
    intro WQ processedBB G WQ1 processedBB1 G1 h hG
    simp only [processSuccessors] at h
    cases h
    exact hG
  | cons S rest ih =>
    intro WQ processedBB G WQ1 processedBB1 G1 h hG
    simp only [processSuccessors] at h
    split at h
    · split at h
      · cases h
      · split at h
        · cases h
        · split at h
          · cases h
          · split at h
            · cases h
            · exact ih _ _ _ _ _ _ h (registered_of_fields rfl rfl rfl rfl hG)
    · exact ih _ _ _ _ _ _ h hG

theorem allRegistered_modify (w : World) (this : Nat)
    (f : LLVMDependenceGraph → LLVMDependenceGraph) (h : w.AllRegistered)
    (hf : (f (w.graph this)).Registered) : (w.modify this f).AllRegistered := by
  intro g
  by_cases hg : g = this
  · subst hg
    rw [World.modify_graph_self]
    exact hf
  · rw [World.modify_graph_other _ _ _ _ hg]
    exact h g

theorem allRegistered_initial : World.initial.AllRegistered :=
  fun _ => registered_new

theorem allRegistered_newGraph (w : World) (h : w.AllRegistered) : w.newGraph.AllRegistered := by
  intro g
  show (if g = w.numGraphs then LLVMDependenceGraph.new else w.graph g).Registered
  split
  · exact registered_new
  · exact h g

theorem allRegistered_unref (w : World) (g : Nat) (h : w.AllRegistered) :
    (w.unref g).AllRegistered :=
  allRegistered_modify w g _ h (registered_of_fields rfl rfl rfl rfl (h g))

theorem allRegistered_addSubgraph (w : World) (this node sub : Nat) (h : w.AllRegistered) :
    (w.addSubgraph this node sub).AllRegistered := by
  unfold World.addSubgraph World.ref
  have h1 := allRegistered_modify w this
    (fun G => { G with
      subgraphs := Function.update G.subgraphs node (setInsert (G.subgraphs node) sub) })
    h (registered_of_fields rfl rfl rfl rfl (h this))
  exact allRegistered_modify _ sub _ h1 (registered_of_fields rfl rfl rfl rfl (h1 sub))

theorem getSubgraph_registered {build : World → Nat → Nat → Result (Bool × World)}
    (hB : KeepsRegistered build) {w w3 : World} {callFunc sub : Nat}
    (h : getSubgraph build w callFunc = .ok (w3, sub)) (hw : w.AllRegistered) :
    w3.AllRegistered := by
  unfold getSubgraph at h
  split at h
  · cases h; exact hw
  · dsimp only at h
    split at h
    · cases h
    · cases h
    · rename_i w2 hb
      cases h
      have h1 : ({ w.newGraph with
          constructedFunctions :=
            fun x => if x = callFunc then some w.numGraphs else w.constructedFunctions x }
          : World).AllRegistered := allRegistered_newGraph w hw
      exact allRegistered_unref _ _ (hB _ _ _ _ _ hb h1)

theorem buildSubgraph_registered {build : World → Nat → Nat → Result (Bool × World)}
    (hB : KeepsRegistered build) {m : Module} {w w1 : World} {this node : Nat}
    {inst : Instruction} (h : buildSubgraph build m w this node inst = .ok w1)
    (hw : w.AllRegistered) : w1.AllRegistered := by
  unfold buildSubgraph at h
  split at h
  · split at h
    · cases h
    · split at h
      · cases h
      · rename_i w3 subgraph hsub
        have h3 := getSubgraph_registered hB hsub hw
        split at h
        · cases h
        · rename_i BB hBB
          dsimp only at h
          split at h
          · cases h
          · rename_i G hG
            cases h
            have h4 := allRegistered_modify w3 this (fun G => G.addCallsite BB node) h3
              (registered_of_fields rfl rfl rfl rfl (h3 this))
            have h5 := allRegistered_addSubgraph _ this node subgraph h4
            exact allRegistered_modify _ this _ h5
              (registered_addActualParameters hG (h5 this))
  · cases h

theorem handleCallSite_registered {build : World → Nat → Nat → Result (Bool × World)}
    (hB : KeepsRegistered build) {m : Module} {w w1 : World} {this node : Nat}
    {inst : Instruction} (h : handleCallSite build m w this node inst = .ok w1)
    (hw : w.AllRegistered) : w1.AllRegistered := by
  unfold handleCallSite at h
  split at h
  · split at h
    · cases h
    · exact buildSubgraph_registered hB h hw
    · cases h; exact hw
  · cases h; exact hw

theorem buildInstructions_registered {build : World → Nat → Nat → Result (Bool × World)}
    (hB : KeepsRegistered build) (m : Module) (this f BB : Nat) (insts : List Instruction) :
    ∀ (idx : Nat) (w : World) (predNode : Nat) (w1 : World) (last : Nat),
      buildInstructions build m this f BB insts idx w predNode = .ok (w1, last) →
      w.AllRegistered → w1.AllRegistered := by
  induction insts with
  | nil =>
    intro idx w predNode w1 last h hw
    simp only [buildInstructions] at h
    cases h
    exact hw
  | cons inst rest ih =>
    intro idx w predNode w1 last h hw
    simp only [buildInstructions] at h
    split at h
    · cases h
    · rename_i w2 hc
      refine ih _ _ _ _ _ h (handleCallSite_registered hB hc ?_)
      refine allRegistered_modify w this _ hw ?_
      exact registered_of_fields rfl rfl rfl rfl
        (registered_addNode _ _ (registered_newNode _ _ (hw this))
          (by show (w.graph this).numNodes < (w.graph this).numNodes + 1; omega))

theorem buildBlock_registered {build : World → Nat → Nat → Result (Bool × World)}
    (hB : KeepsRegistered build) {m : Module} {w w1 : World} {this f BB : Nat}
    {pred : Option Nat} {r : Bool} (h : buildBlock build m w this f BB pred = .ok (r, w1))
    (hw : w.AllRegistered) : w1.AllRegistered := by
  unfold buildBlock at h
  split at h
  · cases h
  · rename_i first rest hblock
    split at h
    · cases h
    · rename_i predBB hp
      dsimp only at h
      split at h
      · cases h
      · rename_i w2 hc
        split at h
        · cases h
        · rename_i w3 last hi
          split at h
          · cases h
          · rename_i r1 G hfin
            cases h
            have h1 := allRegistered_modify w this (fun G => startBlock G f BB predBB) hw
              (registered_startBlock _ f BB predBB (hw this))
            have h2 := handleCallSite_registered hB hc h1
            have h3 := buildInstructions_registered hB m this f BB rest _ _ _ _ _ hi h2
            exact allRegistered_modify _ this _ h3 (registered_finishBlock hfin (h3 this))

theorem buildLoop_registered {build : World → Nat → Nat → Result (Bool × World)}
    (hB : KeepsRegistered build) (m : Module) (this f : Nat) :
    ∀ (fuel : Nat) (WQ : List (Nat × Option Nat)) (processedBB : List Nat) (w w1 : World),
      buildLoop build m this f fuel WQ processedBB w = .ok w1 →
      w.AllRegistered → w1.AllRegistered := by
  intro fuel
  induction fuel with
  | zero =>
    intro WQ processedBB w w1 h hw
    simp only [buildLoop] at h
    split at h
    · cases h; exact hw
    · cases h
  | succ k ih =>
    intro WQ processedBB w w1 h hw
    simp only [buildLoop] at h
    split at h
    · cases h; exact hw
    · rename_i BB pred WQ1
      split at h
      · cases h
      · rename_i r w2 hb
        split at h
        · cases h
        · rename_i WQ2 processedBB2 G hps
          have h2 := buildBlock_registered hB hb hw
          refine ih _ _ _ _ h (allRegistered_modify _ this _ h2 ?_)
          exact registered_processSuccessors m this f BB _ _ _ _ _ _ _ hps (h2 this)

theorem buildFunction_registered {build : World → Nat → Nat → Result (Bool × World)}
    (hB : KeepsRegistered build) (m : Module) (fuel : Nat) :
    KeepsRegistered (buildFunction build m fuel) := by
  intro w this f r w1 h hw
  unfold buildFunction at h
  split at h
  · cases h; exact hw
  · dsimp only at h
    split at h
    · cases h
    · rename_i w3 hl
      split at h
      · cases h
      · rename_i G hfin
        cases h
        have h0 := allRegistered_modify w this (fun G => startFunction G f) hw
          (registered_startFunction _ f (hw this))
        have h1 : ((w.modify this (fun G => startFunction G f)).insertConstructed f
            this).AllRegistered := fun g => h0 g
        have h3 := buildLoop_registered hB m this f fuel _ _ _ _ hl h1
        exact allRegistered_modify _ this _ h3 (registered_finishFunction hfin (h3 this))

/-- The builder keeps every node that belongs to a graph held under its key. -/
theorem build_registered (m : Module) : ∀ fuel, KeepsRegistered (build m fuel) := by
  intro fuel
  induction fuel with
  | zero =>
    intro w this f r w1 h
    simp [build] at h
  | succ k ih =>
    exact buildFunction_registered ih m (k + 1)

theorem dgGetNode_of_dg (G : LLVMDependenceGraph) (node : Nat) (val : Option Value)
    (hdg : G.dg node = true) : dgGetNode G node val = .ok (val.bind G.getNode) := by
  simp [dgGetNode, hdg]

theorem argOperands_of_dg (G : LLVMDependenceGraph) (node : Nat) (hdg : G.dg node = true)
    (args : List Value) : argOperands G node args = .ok (args.map G.getNode) := by
  induction args with
  | nil => rfl
  | cons a rest ih =>
    simp [argOperands, dgGetNode_of_dg G node _ hdg, ih]

/-- C17, counterexample.  In the graph built for function 0 of `callModule`
(`x = alloca; call g(x); ret`) nodes 3 and 4 are the `in` and `out` node made
for the argument of the call: their key is the `alloca` instruction, they were
never added to a graph, and `findOperands` stops at the null `dg` instead of
yielding one operand. -/
theorem findOperands_stops_on_parameter_node :
    ∃ w', build callModule 5 World.initial 0 0 = .ok (true, w') ∧
      (w'.graph 0).parameters 2 = some [(Value.instruction 0 0 0, 3, 4)] ∧
      callModule.instructionOf ((w'.graph 0).key 3) = some .alloca ∧
      callModule.instructionOf ((w'.graph 0).key 4) = some .alloca ∧
      (w'.graph 0).dg 3 = false ∧ (w'.graph 0).dg 4 = false ∧
      findOperands callModule (w'.graph 0) 3 = .error .nullDereference ∧
      findOperands callModule (w'.graph 0) 4 = .error .nullDereference :=
  ⟨_, rfl, rfl, rfl, rfl, rfl, rfl, rfl, rfl⟩

/-- C17.  For a node that belongs to a graph, `findOperands` fills the operand
array by the kind of the instruction behind the node's key: an alloca gets one
operand, the node held under the node's own key, which is the node itself in
every graph that keeps its nodes under their keys (as the graphs of the builder
do); a store gets the nodes of its pointer and value operand, the value slot
possibly empty, and fails without a node for the pointer; a load, a GEP and a
cast get the node of the pointer operand (for the cast: of the stripped
pointer); a return gets the node of the returned value, an empty slot when it
returns nothing; a call with `n` arguments gets `n + 1` operands, the called
value in slot 0 and argument `i` in slot `i + 1`; every other key gets no
operands. -/
theorem findOperands_by_kind (m : Module) (G : LLVMDependenceGraph) (node : Nat)
    (hdg : G.dg node = true) :
    (m.instructionOf (G.key node) = some .alloca →
      findOperands m G node = .ok [G.getNode (G.key node)] ∧
      (G.Registered → findOperands m G node = .ok [some node])) ∧
    (∀ pointer value, m.instructionOf (G.key node) = some (.store pointer value) →
      (∀ op0, G.getNode pointer = some op0 →
        findOperands m G node = .ok [some op0, G.getNode value]) ∧
      (G.getNode pointer = none →
        findOperands m G node = .error .storePointerOperandWithoutNode)) ∧
    (∀ pointer, m.instructionOf (G.key node) = some (.load pointer) →
      findOperands m G node = .ok [G.getNode pointer]) ∧
    (∀ pointer, m.instructionOf (G.key node) = some (.getElementPtr pointer) →
      findOperands m G node = .ok [G.getNode pointer]) ∧
    (∀ stripped, m.instructionOf (G.key node) = some (.cast stripped) →
      findOperands m G node = .ok [G.getNode stripped]) ∧
    (∀ value, m.instructionOf (G.key node) = some (.ret (some value)) →
      findOperands m G node = .ok [G.getNode value]) ∧
    (m.instructionOf (G.key node) = some (.ret none) → findOperands m G node = .ok [none]) ∧
    (∀ calledValue calledFunction args,
      m.instructionOf (G.key node) = some (.call calledValue calledFunction args) →
      ∃ ops, findOperands m G node = .ok ops ∧ ops.length = args.length + 1 ∧
        ops[0]? = some (G.getNode calledValue) ∧
        ∀ i v, args[i]? = some v → ops[i + 1]? = some (G.getNode v)) ∧
    ((m.instructionOf (G.key node) = none ∨ m.instructionOf (G.key node) = some .other ∨
        ∃ succs, m.instructionOf (G.key node) = some (.br succs)) →
      findOperands m G node = .ok []) := by
  have hd := fun val => dgGetNode_of_dg G node val hdg
  refine ⟨?_, ?_, ?_, ?_, ?_, ?_, ?_, ?_, ?_⟩
  · intro h
    have h1 : findOperands m G node = .ok [G.getNode (G.key node)] := by
      simp [findOperands, h, hd]
    refine ⟨h1, fun hr => ?_⟩
    rw [h1]
    have := (hr node hdg).2
    show Except.ok [G.nodes (G.key node)] = _
    rw [this]
  · intro pointer value h
    constructor
    · intro op0 h0
      simp [findOperands, h, hd, h0]
    · intro h0
      simp [findOperands, h, hd, h0]
  · intro pointer h
    simp [findOperands, h, hd]
  · intro pointer h
    simp [findOperands, h, hd]
  · intro stripped h
    simp [findOperands, h, hd]
  · intro value h
    simp [findOperands, h, hd]
  · intro h
    simp [findOperands, h, hd]
  · intro calledValue calledFunction args h
    refine ⟨G.getNode calledValue :: args.map G.getNode,
      by simp [findOperands, h, hd, argOperands_of_dg G node hdg], by simp, by simp, ?_⟩
    intro i v hv
    simp [hv]
  · rintro (h | h | ⟨succs, h⟩) <;> simp [findOperands, h]

/-- The statement of `findOperands_by_kind` on the nodes of `operandsGraph`, one
node per kind; the graph is built by `build`, so it keeps its nodes under their
keys and the operand of the alloca is the alloca node itself. -/
theorem findOperands_by_kind_witness :
    outcome (build operandsModule 3 World.initial 0 0) = .ok true ∧
    operandsGraph.Registered ∧
    (∀ n ∈ [0, 1, 2, 3, 4, 5, 6, 7, 8, 9], operandsGraph.dg n = true) ∧
    findOperands operandsModule operandsGraph 1 = .ok [some 1] ∧
    findOperands operandsModule operandsGraph 2 = .ok [some 1, none] ∧
    findOperands operandsModule operandsGraph 3 = .ok [some 1] ∧
    findOperands operandsModule operandsGraph 4 = .ok [some 1] ∧
    findOperands operandsModule operandsGraph 5 = .ok [some 1] ∧
    (∃ ops, findOperands operandsModule operandsGraph 6 = .ok ops ∧ ops.length = 2 + 1 ∧
      ops[0]? = some none ∧ ops[1]? = some (some 1) ∧ ops[2]? = some (some 1)) ∧
    findOperands operandsModule operandsGraph 7 = .ok [] ∧
    findOperands operandsModule operandsGraph 8 = .ok [some 3] ∧
    findOperands operandsModule operandsGraph 9 = .ok [none] ∧
    findOperands operandsModule operandsGraph 0 = .ok [] := by
  have hreg : operandsGraph.Registered := by
    have hb : ∃ w, build operandsModule 3 World.initial 0 0 = .ok (true, w) ∧
        operandsGraph = w.graph 0 := ⟨_, rfl, rfl⟩
    obtain ⟨w, hw, hg⟩ := hb
    rw [hg]
    exact build_registered operandsModule 3 _ _ _ _ _ hw allRegistered_initial 0
  refine ⟨rfl, hreg, by decide, ?_, ?_, ?_, ?_, ?_, ?_, ?_, ?_, ?_, ?_⟩
  · exact ((findOperands_by_kind operandsModule operandsGraph 1 rfl).1 rfl).2 hreg
  · exact ((findOperands_by_kind operandsModule operandsGraph 2 rfl).2.1 _ _ rfl).1 1 rfl
  · exact (findOperands_by_kind operandsModule operandsGraph 3 rfl).2.2.1 _ rfl
  · exact (findOperands_by_kind operandsModule operandsGraph 4 rfl).2.2.2.1 _ rfl
  · exact (findOperands_by_kind operandsModule operandsGraph 5 rfl).2.2.2.2.1 _ rfl
  · obtain ⟨ops, h1, h2, h3, h4⟩ :=
      (findOperands_by_kind operandsModule operandsGraph 6 rfl).2.2.2.2.2.2.2.1 _ _ _ rfl
    exact ⟨ops, h1, h2, h3, h4 0 _ rfl, h4 1 _ rfl⟩
  · exact (findOperands_by_kind operandsModule operandsGraph 7 rfl).2.2.2.2.2.2.2.2
      (Or.inr (Or.inl rfl))
  · exact (findOperands_by_kind operandsModule operandsGraph 8 rfl).2.2.2.2.2.1 _ rfl
  · exact (findOperands_by_kind operandsModule operandsGraph 9 rfl).2.2.2.2.2.2.1 rfl
  · exact (findOperands_by_kind operandsModule operandsGraph 0 rfl).2.2.2.2.2.2.2.2 (Or.inl rfl)

end dg
